import Mathlib

/-!
BioSeqZip: record model, buffer engine and collapse pipeline

Shallow embedding of `include/bioseqzip/core/sequence_record.h`,
`include/bioseqzip/core/details_record.h`, `include/bioseqzip/buffer.h` and the
single-sample part of `include/bioseqzip/collapser.h`.

Conventions of the embedding.

* A sequence (`tag_`) is the list of the ordinal values of its symbols; SeqAn
  compares strings lexicographically, which is the order of `List Nat`.
* The counter type is `uint32_t` (`apps/collapse/collapse.cpp`), so every counter
  addition is taken modulo `2 ^ 32`.
* A quality string is the list of its bytes. `char` is signed, a product
  `qual_[i] * overall_` is computed in 32-bit unsigned arithmetic.
* Reading or writing past the end of a string or vector and dividing by zero are
  undefined in C++; the embedded functions return `none` there.
* A reader is the list of the records it has not delivered yet; `atEnd` holds
  when that list is empty.
-/

namespace BioSeqZip

/-! ## Record model (`sequence_record.h`) -/

/-- Number of values of the counter type `TCounter = uint32_t`. -/
def counterMod : Nat := 2 ^ 32

/-- Record of `SequenceRecord<TTag, TQual, TCounter, TBpOffset>`: the fields
`tag_`, `qual_`, `overall_` and `bpOffset_`. -/
structure SequenceRecord where
  tag : List Nat
  qual : List Nat
  overall : Nat
  bpOffset : Nat
  deriving DecidableEq, Repr

/-- Value of a quality byte after integral promotion and conversion to 32-bit
unsigned: bytes from 128 up are negative as `char`. -/
def charToU32 (q : Nat) : Nat :=
  if q < 128 then q else q + (2 ^ 32 - 256)

/-- The product `qual_[i] * overall_`, computed in `unsigned int`. -/
def weightU32 (q c : Nat) : Nat :=
  (charToU32 q * c) % 2 ^ 32

/-- Conversion `static_cast<TQAlpha>` of a non-negative 64-bit value: its low byte. -/
def toQAlpha (x : Nat) : Nat :=
  x % 256

/-- Quality loop of the pairwise merge: position by position over `record1.qual_`,
`record1.qual_[i] = (weightQ1 + weightQ2) / totOverall`. Reading `record2.qual_`
past its end and dividing by zero give `none`. -/
def mergeQual (c1 c2 tot : Nat) : List Nat → List Nat → Option (List Nat)
  | [], _ => some []
  | _ :: _, [] => none
  | q1 :: qs1, q2 :: qs2 =>
    if tot = 0 then none
    else
      (mergeQual c1 c2 tot qs1 qs2).map
        (fun rest => toQAlpha ((weightU32 q1 c1 + weightU32 q2 c2) / tot) :: rest)

/-- Pairwise `SequenceRecord::merge (record1, record2)`: returns the two records
after the call. -/
def SequenceRecord.merge (record1 record2 : SequenceRecord) :
    Option (SequenceRecord × SequenceRecord) :=
  let totOverall := (record1.overall + record2.overall) % counterMod
  match mergeQual record1.overall record2.overall totOverall record1.qual record2.qual with
  | none => none
  | some q =>
    some ({ record1 with qual := q, overall := totOverall }, { record2 with overall := 0 })

/-- Inner loop of the range merge for one record: `tmpQuality[i] += qual_[i] * overall_`
for every position of that record's quality. Writing past the end of `tmpQuality`
gives `none`. -/
def accumulate (c : Nat) : List Nat → List Nat → Option (List Nat)
  | tmp, [] => some tmp
  | [], _ :: _ => none
  | t :: tmp, q :: qs => (accumulate c tmp qs).map (fun r => (t + weightU32 q c) :: r)

/-- Outer loop of the range merge: accumulates the weighted qualities and
`tmpOverall += overall_` (a `TCounter`) over the records of the range. -/
def mergeRangeAcc : List Nat → Nat → List SequenceRecord → Option (List Nat × Nat)
  | tmp, ov, [] => some (tmp, ov)
  | tmp, ov, r :: rs =>
    match accumulate r.overall tmp r.qual with
    | none => none
    | some tmp' => mergeRangeAcc tmp' ((ov + r.overall) % counterMod) rs

/-- Range overload `SequenceRecord::merge (itStart, itEnd)` on the records of
`[itStart, itEnd)`: returns the range after the call. The empty range dereferences
`itEnd`. -/
def SequenceRecord.mergeRange : List SequenceRecord → Option (List SequenceRecord)
  | [] => none
  | r :: rs =>
    match mergeRangeAcc (List.replicate r.qual.length 0) 0 (r :: rs) with
    | none => none
    | some (tmp, tot) =>
      if tot = 0 ∧ tmp ≠ [] then none
      else
        some ({ r with qual := tmp.map (fun t => toQAlpha (t / tot)), overall := tot } ::
          rs.map (fun x => { x with overall := 0 }))

/-! ## Buffer engine: collapse (`buffer.h`) -/

/-- The vector `buffer_` of a `Buffer<TRecord>`. -/
abbrev Buffer := List SequenceRecord

/-- The equality comparator the collapser passes to `collapse`:
`left.getSequence() == right.getSequence()`. -/
def eqSequence (left right : SequenceRecord) : Bool :=
  decide (left.tag = right.tag)

/-- The `for` loop of `collapseBufferRange_`. `done` holds the records before
`itBase`, `base` is `*itBase`, `followers` the records of `(itBase, it)` and `rest`
the records of `[it, itEnd)`. Returns the range after the call, the offset of the
final `itBase` from `itBegin` and the counter `collapsed`. -/
def collapseLoop (eqComparator : SequenceRecord → SequenceRecord → Bool) :
    List SequenceRecord → SequenceRecord → List SequenceRecord → Bool → Nat →
    List SequenceRecord → Option (List SequenceRecord × Nat × Nat)
  | done, base, followers, inProgress, collapsed, [] =>
    if inProgress then
      (SequenceRecord.mergeRange (base :: followers)).map
        (fun run => (done ++ run, done.length, collapsed))
    else some (done ++ base :: followers, done.length, collapsed)
  | done, base, followers, inProgress, collapsed, x :: rest =>
    if eqComparator base x then
      collapseLoop eqComparator done base (followers ++ [x]) true collapsed rest
    else if inProgress then
      match SequenceRecord.mergeRange (base :: followers) with
      | none => none
      | some run => collapseLoop eqComparator (done ++ run) x [] false (collapsed + 1) rest
    else
      collapseLoop eqComparator (done ++ base :: followers) x [] false (collapsed + 1) rest

/-- Private `Buffer::collapseBufferRange_ (itBegin, itEnd, eqComparator)` on the
records of `[itBegin, itEnd)`. On the empty range the loop is not entered and the
initial `collapsed = 1` is returned. -/
def collapseBufferRange_ (eqComparator : SequenceRecord → SequenceRecord → Bool) :
    List SequenceRecord → Option (List SequenceRecord × Nat × Nat)
  | [] => some ([], 0, 1)
  | r :: rest => collapseLoop eqComparator [] r [] false 1 rest

/-- Private `Buffer::computeMaxThreads_`. -/
def computeMaxThreads_ (size nThreads recordsPerThread : Nat) : Nat :=
  min nThreads (max 1 (size / recordsPerThread))

/-- Private `Buffer::setBufferBounds_`: the offsets `bounds[0..nThreads]`. -/
def setBufferBounds_ (size nThreads : Nat) : List Nat :=
  (List.range nThreads).map (fun i => i * (size / nThreads)) ++ [size]

/-- One iteration of the parallel loop of `collapseRangeMT_`: collapses the region
`[lo, hi)` of the buffer in place and returns the buffer, the position of the last
leader of the region and the region's count. -/
def collapseRegion (eqComparator : SequenceRecord → SequenceRecord → Bool)
    (buf : Buffer) (lo hi : Nat) : Option (Buffer × Nat × Nat) :=
  (collapseBufferRange_ eqComparator ((buf.drop lo).take (hi - lo))).map
    (fun res => (buf.take lo ++ res.1 ++ buf.drop hi, lo + res.2.1, res.2.2))

/-- The parallel loop of `collapseRangeMT_` over the regions `i, i+1, ...` given by
consecutive bounds; the regions are disjoint, so they are processed in turn.
Returns the buffer and `STCollapseMeta`. -/
def collapseRegions (eqComparator : SequenceRecord → SequenceRecord → Bool) :
    Buffer → List Nat → Option (Buffer × List (Nat × Nat))
  | buf, lo :: hi :: bounds =>
    match collapseRegion eqComparator buf lo hi with
    | none => none
    | some (buf1, leader, c) =>
      (collapseRegions eqComparator buf1 (hi :: bounds)).map
        (fun res => (res.1, (leader, c) :: res.2))
  | buf, _ => some (buf, [])

/-- Pairwise `SequenceRecord::merge (buffer[i], buffer[j])` applied in place: the
call writes `qual_` and `overall_` of the first record and `overall_` of the second. -/
def mergeAt (buf : Buffer) (i j : Nat) : Option Buffer :=
  match buf[i]?, buf[j]? with
  | some r1, some r2 =>
    match SequenceRecord.merge r1 r2 with
    | none => none
    | some (a, _) => some ((buf.set i a).modify (fun r => { r with overall := 0 }) j)
  | _, _ => none

/-- The stitching loop of `collapseRangeMT_`: for each region but the last, compares
its last leader with the first record of the next region and merges them when equal. -/
def stitch (eqComparator : SequenceRecord → SequenceRecord → Bool) :
    Buffer → Nat → List (Nat × Nat) → List Nat → Option (Buffer × Nat)
  | buf, collapsed, m :: meta, b :: bounds =>
    match buf[m.1]?, buf[b]? with
    | some l, some f =>
      if eqComparator l f then
        match mergeAt buf m.1 b with
        | none => none
        | some buf1 => stitch eqComparator buf1 (collapsed - 1) meta bounds
      else stitch eqComparator buf collapsed meta bounds
    | _, _ => none
  | buf, collapsed, _, _ => some (buf, collapsed)

/-- Private `Buffer::collapseRangeMT_ (nThreads, eqComparator)`. -/
def collapseRangeMT_ (eqComparator : SequenceRecord → SequenceRecord → Bool)
    (nThreads : Nat) (buf : Buffer) : Option (Buffer × Nat) :=
  let bounds := setBufferBounds_ buf.length nThreads
  match collapseRegions eqComparator buf bounds with
  | none => none
  | some (buf1, STCollapseMeta) =>
    let collapsed := (STCollapseMeta.map (fun m => m.2)).sum
    stitch eqComparator buf1 collapsed (STCollapseMeta.take (nThreads - 1))
      ((bounds.drop 1).take (nThreads - 1))

/-- Public `Buffer::collapse (nThreads, eqComparator)`: the buffer after the call
and the returned count. -/
def Buffer.collapse (eqComparator : SequenceRecord → SequenceRecord → Bool)
    (nThreads : Nat) (buf : Buffer) : Option (Buffer × Nat) :=
  let nThreads := computeMaxThreads_ buf.length nThreads (2 ^ 10)
  if nThreads > 1 then collapseRangeMT_ eqComparator nThreads buf
  else
    (collapseBufferRange_ eqComparator buf).map (fun pair => (pair.1, pair.2.2))

/-! ## Details records (`details_record.h`) -/

/-- Record of `DetailsRecord<TCounter>`: the fields `occurrences_` and `overall_`. -/
structure DetailsRecord where
  occurrences : List Nat
  overall : Nat
  deriving DecidableEq, Repr

/-- Loop of `DetailsRecord::merge (record1, record2)` over the positions of
`record1.occurrences_`: `record1.occurrences_[i] += record2.occurrences_[i]` and
`record2.occurrences_[i] = 0`. Returns both strings; reading `record2` past its end
gives `none`. -/
def mergeOccurrences : List Nat → List Nat → Option (List Nat × List Nat)
  | [], o2 => some ([], o2)
  | _ :: _, [] => none
  | a :: o1, b :: o2 =>
    (mergeOccurrences o1 o2).map (fun r => (((a + b) % counterMod) :: r.1, 0 :: r.2))

/-- Pairwise `DetailsRecord::merge (record1, record2)`: the two records after the call. -/
def DetailsRecord.merge (record1 record2 : DetailsRecord) :
    Option (DetailsRecord × DetailsRecord) :=
  match mergeOccurrences record1.occurrences record2.occurrences with
  | none => none
  | some (o1, o2) =>
    some ({ occurrences := o1, overall := (record1.overall + record2.overall) % counterMod },
      { occurrences := o2, overall := 0 })

/-- The call `seqan::resize (occurrences_, nSamples, 0, Exact ())`: elements already
present are kept, new ones are zero. -/
def resizeFill (occurrences : List Nat) (nSamples : Nat) : List Nat :=
  occurrences.take nSamples ++ List.replicate (nSamples - occurrences.length) 0

/-- Method `DetailsRecord::initialize (overall, sampleId, nSamples)`. Writing
`occurrences_[sampleId]` past the end gives `none`. -/
def DetailsRecord.initialize (record : DetailsRecord) (overall sampleId nSamples : Nat) :
    Option DetailsRecord :=
  if sampleId < nSamples then
    some { occurrences := (resizeFill record.occurrences nSamples).set sampleId overall,
           overall := overall }
  else none

/-! ## Buffer engine: multi-way merge (`buffer.h`) -/

/-- A reader over sequence records: the records it has not delivered yet. -/
abbrev SequenceReader := List SequenceRecord

/-- A reader over details records: the records it has not delivered yet. -/
abbrev DetailsReader := List DetailsRecord

/-- `Buffer::load (reader, nRecords)`: the loaded buffer, the reader after the call
and the number of records read. -/
def Buffer.load {ρ : Type} (reader : List ρ) (nRecords : Nat) : List ρ × List ρ × Nat :=
  (reader.take nRecords, reader.drop nRecords, (reader.take nRecords).length)

/-- Method `DetailsRecord::read (source)` on the line a writer made of `row`, called on
the buffer entry `record`: `overall_` is assigned, and the counters of the line
overwrite the first entries of `occurrences_` or are appended behind its end. -/
def DetailsRecord.readRow (record row : DetailsRecord) : DetailsRecord :=
  { overall := row.overall,
    occurrences := row.occurrences ++ record.occurrences.drop row.occurrences.length }

/-- Loop of `DetailsReader::read (itStart, itEnd)` on a stream whose `eofbit` is not
set: `slots` are the buffer entries from `itBase` to `itEnd`, `source` the lines the
stream still holds. The result lists the entries counted, the lines left and the
`eofbit`. The entry is counted when its count is positive after `read (*itBase)`. A read
on a stream without a line left sets the `eofbit` and leaves the entry as it was, so
an entry that still holds a record of an earlier load is counted. -/
def DetailsReader.read :
    List DetailsRecord → List DetailsRecord → List DetailsRecord × List DetailsRecord × Bool
  | [], source => ([], source, false)
  | slot :: _, [] => (if 0 < slot.overall then [slot] else [], [], true)
  | slot :: slots, row :: source =>
    if 0 < (slot.readRow row).overall then
      ((slot.readRow row) :: (DetailsReader.read slots source).1, (DetailsReader.read slots source).2)
    else DetailsReader.read ((slot.readRow row) :: slots) source

/-- `Buffer::load (reader, nRecords)` on a details reader: `buffer` is the content of
`buffer_` before the call, which `resize (nRecords)` cuts or fills up with
default-constructed records, `eof` the `eofbit` of the stream. Returns the buffer after
`resize (readRecords)`, the lines left, the `eofbit` and the number of records read.
The merge copies the entries of the buffer (`operator[]` is `const`), so the entries
keep the records of the load before. -/
def Buffer.loadDetails (buffer : List DetailsRecord) (reader : List DetailsRecord) (eof : Bool)
    (nRecords : Nat) : List DetailsRecord × List DetailsRecord × Bool × Nat :=
  if eof then ([], reader, true, 0)
  else
    let slots := buffer.take nRecords ++
      List.replicate (nRecords - buffer.length) { occurrences := [], overall := 0 }
    ((DetailsReader.read slots reader).1, (DetailsReader.read slots reader).2.1,
      (DetailsReader.read slots reader).2.2, (DetailsReader.read slots reader).1.length)

/-- The access `buffers[i][indices[i]]` of `findMinRecord_`. -/
def recordAt (buffers : List Buffer) (indices : List Nat) (i : Nat) : Option SequenceRecord :=
  match buffers[i]?, indices[i]? with
  | some b, some k => b[k]?
  | _, _ => none

/-- The `for` loop of `findMinRecord_` over the sub-buffers `i, i+1, ...`. -/
def findMinLoop (buffers : List Buffer) (indices limits : List Nat) : Nat → List Nat → Option Nat
  | minIndex, [] => some minIndex
  | minIndex, i :: is =>
    match limits[i]? with
    | none => none
    | some lim =>
      if lim ≠ 0 then
        match recordAt buffers indices i, recordAt buffers indices minIndex with
        | some recordLeft, some recordRight =>
          if recordLeft.tag < recordRight.tag then findMinLoop buffers indices limits i is
          else findMinLoop buffers indices limits minIndex is
        | _, _ => none
      else findMinLoop buffers indices limits minIndex is

/-- Private `Buffer::findMinRecord_ (buffers, indices, limits)`. The initial `while`
loop runs off the end of `limits` when every limit is zero. -/
def findMinRecord_ (buffers : List Buffer) (indices limits : List Nat) : Option Nat :=
  match limits.findIdx? (fun lim => lim != 0) with
  | none => none
  | some minIndex =>
    findMinLoop buffers indices limits minIndex
      (List.range' (minIndex + 1) (buffers.length - (minIndex + 1)))

/-- The parts in which the three overloads of `Buffer::merge` differ. `β` holds the
reader (or pair of readers) of one input with its sub-buffer (or pair of
sub-buffers); `α` is one entry of `outBuffer` (paired with the entry of `tabBuffer`
in the overloads that carry details). -/
structure MergeOps (β α : Type) where
  /-- The calls `inBuffers[i].load (readers[i], maxLoadable)` (and the same on the
  details side): the input after the call and the value stored in `inLimits[i]`. -/
  load : β → Nat → β × Nat
  /-- The test `reader.atEnd ()` of `reloadEmptyBuffer_`. -/
  atEnd : β → Bool
  /-- The sub-buffer `inBuffers[i]` handed to `findMinRecord_`. -/
  buffer : β → Buffer
  /-- The assignments to `minRecord` (and `minTabRecord`) from the selected sub-buffer at
  position `inIndexes[minIndex]`, given the previous value of these locals. -/
  fetch : α → β → Nat → Option α
  /-- The sequence `getSequence ()` of an entry. -/
  tag : α → List Nat
  /-- The calls `TRecord::merge` (and `TTabRecord::merge`). -/
  merge : α → α → Option (α × α)
  /-- The locals after `std::move` into the output buffers. -/
  moved : α → α
  /-- A default-constructed entry. -/
  empty : α
  /-- Number of records the input still holds; bounds the number of iterations. -/
  pending : β → Nat

/-- The entries `readers[i]`, `inBuffers[i]` (in `data`), `inIndexes[i]` and
`inLimits[i]` of one input. -/
structure MergeInput (β : Type) where
  data : β
  inIndex : Nat
  inLimit : Nat

/-- The local variables of `Buffer::merge`. `written` lists the ranges passed to
`write`, in order. -/
structure MergeState (β α : Type) where
  inputs : List (MergeInput β)
  outBuffer : List α
  outIndex : Nat
  validReaders : Nat
  writtenSequences : Nat
  written : List (List α)
  minItem : α

/-- Private `Buffer::reloadEmptyBuffer_` (both overloads). -/
def reloadEmptyBuffer_ {β α : Type} (ops : MergeOps β α) (data : β) (maxLoadable : Nat) : β × Nat :=
  if ops.atEnd data then (data, 0) else ops.load data maxLoadable

/-- The block "check if reload buffer and update remained buffers": advances
`inIndexes[minIndex]`, reloads the drained sub-buffer and decrements `validReaders`
when nothing is left. -/
def advanceInput {β α : Type} (ops : MergeOps β α) (maxLoadable : Nat) (input : MergeInput β)
    (validReaders : Nat) : MergeInput β × Nat :=
  if input.inIndex + 1 = input.inLimit then
    let r := reloadEmptyBuffer_ ops input.data maxLoadable
    ({ data := r.1, inIndex := 0, inLimit := r.2 },
      if r.2 = 0 then validReaders - 1 else validReaders)
  else ({ input with inIndex := input.inIndex + 1 }, validReaders)

/-- The call of `findMinRecord_` on the current sub-buffers. -/
def findMin {β α : Type} (ops : MergeOps β α) (inputs : List (MergeInput β)) : Option Nat :=
  findMinRecord_ (inputs.map (fun s => ops.buffer s.data)) (inputs.map (fun s => s.inIndex))
    (inputs.map (fun s => s.inLimit))

/-- Initialisation and pre-selection of the first minimum record. -/
def mergeStart {β α : Type} (ops : MergeOps β α) (readers : List β) (maxLoadable : Nat) :
    Option (MergeState β α) :=
  let inputs : List (MergeInput β) :=
    readers.map (fun r => { data := (ops.load r maxLoadable).1, inIndex := 0,
                            inLimit := (ops.load r maxLoadable).2 })
  let outBuffer := List.replicate maxLoadable ops.empty
  match findMin ops inputs with
  | none => none
  | some minIndex =>
    match inputs[minIndex]? with
    | none => none
    | some input =>
      match ops.fetch ops.empty input.data 0 with
      | none => none
      | some item =>
        if 0 < maxLoadable then
          let adv := advanceInput ops maxLoadable input readers.length
          some { inputs := inputs.set minIndex adv.1, outBuffer := outBuffer.set 0 item,
                 outIndex := 0, validReaders := adv.2, writtenSequences := 0, written := [],
                 minItem := ops.empty }
        else none

/-- One iteration of the merge loop. -/
def mergeStep {β α : Type} (ops : MergeOps β α) (maxLoadable : Nat) (st : MergeState β α) :
    Option (MergeState β α) :=
  match findMin ops st.inputs with
  | none => none
  | some minIndex =>
    match st.inputs[minIndex]? with
    | none => none
    | some input =>
      match ops.fetch st.minItem input.data input.inIndex, st.outBuffer[st.outIndex]? with
      | some item, some cur =>
        let adv := advanceInput ops maxLoadable input st.validReaders
        if ops.tag cur = ops.tag item then
          match ops.merge cur item with
          | none => none
          | some (merged, rest) =>
            some { st with inputs := st.inputs.set minIndex adv.1,
                           outBuffer := st.outBuffer.set st.outIndex merged,
                           validReaders := adv.2, minItem := rest }
        else if st.outIndex + 1 = maxLoadable then
          if 0 < st.outBuffer.length then
            some { inputs := st.inputs.set minIndex adv.1,
                   outBuffer := st.outBuffer.set 0 item, outIndex := 0,
                   validReaders := adv.2,
                   writtenSequences := st.writtenSequences + maxLoadable,
                   written := st.written ++ [st.outBuffer], minItem := ops.moved item }
          else none
        else if st.outIndex + 1 < st.outBuffer.length then
          some { st with inputs := st.inputs.set minIndex adv.1,
                         outBuffer := st.outBuffer.set (st.outIndex + 1) item,
                         outIndex := st.outIndex + 1, validReaders := adv.2,
                         minItem := ops.moved item }
        else none
      | _, _ => none

/-- The loop `while (validReaders > 0)`, at most `fuel` iterations. -/
def mergeLoop {β α : Type} (ops : MergeOps β α) (maxLoadable : Nat) :
    Nat → MergeState β α → Option (MergeState β α)
  | 0, st => if st.validReaders > 0 then none else some st
  | fuel + 1, st =>
    if st.validReaders > 0 then
      match mergeStep ops maxLoadable st with
      | none => none
      | some st1 => mergeLoop ops maxLoadable fuel st1
    else some st

/-- Common body of the three overloads of `Buffer::merge`: returns `writtenSequences`
and the ranges passed to the writer(s), in order. Each iteration consumes one input
record, which bounds the number of iterations. -/
def mergeCore {β α : Type} (ops : MergeOps β α) (readers : List β) (maxLoadable : Nat) :
    Option (Nat × List (List α)) :=
  match mergeStart ops readers maxLoadable with
  | none => none
  | some st0 =>
    match mergeLoop ops maxLoadable ((readers.map ops.pending).sum) st0 with
    | none => none
    | some st =>
      some (st.writtenSequences + (st.outIndex + 1),
        st.written ++ [st.outBuffer.take (st.outIndex + 1)])

/-- One input of the overloads that read sequence records only: `readers[i]` and
`inBuffers[i]`. -/
structure SeqInput where
  reader : SequenceReader
  inBuffer : Buffer

/-- One input of the overload that seeds the details: `readers[i]`, `inBuffers[i]` and
`samplesIds[i]` (`none` when `samplesIds` has no entry `i`, so that reading it runs
past the end of the vector). -/
structure SeedInput where
  reader : SequenceReader
  inBuffer : Buffer
  sampleId : Option Nat

/-- One input of the overload that reads sequence and details records: `readers[i]`,
`tabReaders[i]` (the lines left and the `eofbit` of its stream), `inBuffers[i]` and
`inTabBuffers[i]`. -/
structure PairInput where
  reader : SequenceReader
  tabReader : DetailsReader
  tabEof : Bool
  inBuffer : Buffer
  inTabBuffer : List DetailsRecord

/-- A default-constructed `SequenceRecord`; also the state `std::move` leaves behind. -/
def SequenceRecord.empty : SequenceRecord :=
  { tag := [], qual := [], overall := 0, bpOffset := 0 }

/-- A default-constructed `DetailsRecord`; also the state `std::move` leaves behind. -/
def DetailsRecord.empty : DetailsRecord :=
  { occurrences := [], overall := 0 }

/-- The overload `merge (readers, writer, maxLoadable)`. -/
def oneStreamOps : MergeOps SeqInput SequenceRecord where
  load := fun d m =>
    ({ reader := (Buffer.load d.reader m).2.1, inBuffer := (Buffer.load d.reader m).1 },
      (Buffer.load d.reader m).2.2)
  atEnd := fun d => d.reader.isEmpty
  buffer := fun d => d.inBuffer
  fetch := fun _ d i => d.inBuffer[i]?
  tag := fun r => r.tag
  merge := SequenceRecord.merge
  moved := fun _ => SequenceRecord.empty
  empty := SequenceRecord.empty
  pending := fun d => d.reader.length

/-- The overload `merge (readers, outWriter, tabWriter, samplesIds, maxLoadable,
nSamples)`: the details record of the selected sequence record is built by
`initialize (minRecord.getCount (), samplesIds[minIndex], nSamples)`. -/
def seedingOps (nSamples : Nat) : MergeOps SeedInput (SequenceRecord × DetailsRecord) where
  load := fun d m =>
    ({ reader := (Buffer.load d.reader m).2.1, inBuffer := (Buffer.load d.reader m).1,
       sampleId := d.sampleId },
      (Buffer.load d.reader m).2.2)
  atEnd := fun d => d.reader.isEmpty
  buffer := fun d => d.inBuffer
  fetch := fun locals d i =>
    match d.inBuffer[i]?, d.sampleId with
    | some minRecord, some sampleId =>
      Option.map (fun minTabRecord => (minRecord, minTabRecord))
        ( DetailsRecord.initialize locals.2 minRecord.overall sampleId nSamples)
    | _, _ => none
  tag := fun e => e.1.tag
  merge := fun e1 e2 =>
    match SequenceRecord.merge e1.1 e2.1, DetailsRecord.merge e1.2 e2.2 with
    | some (a, b), some (c, d) => some ((a, c), (b, d))
    | _, _ => none
  moved := fun _ => (SequenceRecord.empty, DetailsRecord.empty)
  empty := (SequenceRecord.empty, DetailsRecord.empty)
  pending := fun d => d.reader.length

/-- The overload `merge (readers, tabReaders, outWriter, tabWriter, maxLoadable)`:
`inLimits[i]` is the number of details records loaded, which `DetailsReader::read`
counts by the count of the buffer entries. -/
def propagatingOps : MergeOps PairInput (SequenceRecord × DetailsRecord) where
  load := fun d m =>
    ({ reader := (Buffer.load d.reader m).2.1,
       tabReader := (Buffer.loadDetails d.inTabBuffer d.tabReader d.tabEof m).2.1,
       tabEof := (Buffer.loadDetails d.inTabBuffer d.tabReader d.tabEof m).2.2.1,
       inBuffer := (Buffer.load d.reader m).1,
       inTabBuffer := (Buffer.loadDetails d.inTabBuffer d.tabReader d.tabEof m).1 },
      (Buffer.loadDetails d.inTabBuffer d.tabReader d.tabEof m).2.2.2)
  atEnd := fun d => d.reader.isEmpty
  buffer := fun d => d.inBuffer
  fetch := fun _ d i =>
    match d.inBuffer[i]?, d.inTabBuffer[i]? with
    | some minRecord, some minTabRecord => some (minRecord, minTabRecord)
    | _, _ => none
  tag := fun e => e.1.tag
  merge := fun e1 e2 =>
    match SequenceRecord.merge e1.1 e2.1, DetailsRecord.merge e1.2 e2.2 with
    | some (a, b), some (c, d) => some ((a, c), (b, d))
    | _, _ => none
  moved := fun _ => (SequenceRecord.empty, DetailsRecord.empty)
  empty := (SequenceRecord.empty, DetailsRecord.empty)
  pending := fun d => d.reader.length + d.tabReader.length

/-- One-stream `Buffer::merge (readers, writer, maxLoadable)`: the returned
`writtenSequences` and the ranges passed to `writer.write`, in order. -/
def Buffer.merge (readers : List SequenceReader) (maxLoadable : Nat) :
    Option (Nat × List (List SequenceRecord)) :=
  mergeCore oneStreamOps (readers.map (fun r => { reader := r, inBuffer := [] })) maxLoadable

/-- The inputs of the seeding overload: `readers[i]` with `samplesIds[i]`. -/
def seedInputs : List SequenceReader → List Nat → List SeedInput
  | [], _ => []
  | r :: rs, ids => { reader := r, inBuffer := [], sampleId := ids.head? } :: seedInputs rs ids.tail

/-- Seeding-details `Buffer::merge (readers, outWriter, tabWriter, samplesIds,
maxLoadable, nSamples)`: the returned `writtenSequences` and the ranges passed to the
writers, in order; the first components go to `outWriter`, the second to `tabWriter`. -/
def Buffer.mergeSeeding (readers : List SequenceReader) (samplesIds : List Nat)
    (maxLoadable nSamples : Nat) :
    Option (Nat × List (List (SequenceRecord × DetailsRecord))) :=
  mergeCore (seedingOps nSamples) (seedInputs readers samplesIds) maxLoadable

/-- Propagating-details `Buffer::merge (readers, tabReaders, outWriter, tabWriter,
maxLoadable)`. A details reader is given by the rows of its file behind the header
line, which `configure` has read. Indexing `tabReaders` past its end gives `none`. -/
def Buffer.mergePropagating (readers : List SequenceReader) (tabReaders : List DetailsReader)
    (maxLoadable : Nat) : Option (Nat × List (List (SequenceRecord × DetailsRecord))) :=
  if readers.length ≤ tabReaders.length then
    mergeCore propagatingOps
      (List.zipWith (fun r t => { reader := r, tabReader := t, tabEof := false, inBuffer := [],
                                  inTabBuffer := [] })
        readers tabReaders) maxLoadable
  else none

/-! ## Buffer engine: sort (`buffer.h`) -/

/-- The call `std::sort (first, last, comparator)`. The C++ standard leaves the order
of equivalent records open; the embedding keeps them in their original order. -/
def stdSort {α : Type} (comparator : α → α → Bool) (l : List α) : List α :=
  l.insertionSort (fun a b => comparator b a = false)

/-- The call `std::inplace_merge` on two adjacent sorted ranges, given as lists; the
first argument bounds the number of steps by the total length. -/
def inplaceMerge {α : Type} (comparator : α → α → Bool) : Nat → List α → List α → List α
  | 0, xs, ys => xs ++ ys
  | _ + 1, [], ys => ys
  | _ + 1, xs, [] => xs
  | n + 1, x :: xs, y :: ys =>
    if comparator y x then y :: inplaceMerge comparator n (x :: xs) ys
    else x :: inplaceMerge comparator n xs (y :: ys)

/-- Applies an operation to the range `[lo, hi)` of a vector in place. -/
def onRange {α : Type} (f : List α → List α) (buf : List α) (lo hi : Nat) : List α :=
  buf.take lo ++ f ((buf.drop lo).take (hi - lo)) ++ buf.drop hi

/-- First parallel loop of `sortBufferMT_`: sorts the regions between consecutive bounds. -/
def sortRegions {α : Type} (comparator : α → α → Bool) : List α → List Nat → List α
  | buf, lo :: hi :: bounds =>
    sortRegions comparator (onRange (stdSort comparator) buf lo hi) (hi :: bounds)
  | buf, _ => buf

/-- One round of `sortBufferMT_`: the loop `for (i = 0; i < nThreads - span; i += 2 * span)`
calling `std::inplace_merge (bounds[i], bounds[i + span], bounds[min (i + 2 * span, nThreads)])`;
the first argument bounds the number of iterations. -/
def mergeRound {α : Type} (comparator : α → α → Bool) (bounds : List Nat) (nThreads span : Nat) :
    Nat → Nat → List α → List α
  | 0, _, buf => buf
  | fuel + 1, i, buf =>
    if i < nThreads - span then
      let lo := bounds.getD i 0
      let mid := bounds.getD (i + span) 0
      let hi := bounds.getD (min (i + 2 * span) nThreads) 0
      mergeRound comparator bounds nThreads span fuel (i + 2 * span)
        (buf.take lo ++
          inplaceMerge comparator (hi - lo) ((buf.drop lo).take (mid - lo))
            ((buf.drop mid).take (hi - mid)) ++
          buf.drop hi)
    else buf

/-- The loop `while (span < nThreads)` of `sortBufferMT_`; the first argument bounds
the number of rounds. -/
def mergeRounds {α : Type} (comparator : α → α → Bool) (bounds : List Nat) (nThreads : Nat) :
    Nat → Nat → List α → List α
  | 0, _, buf => buf
  | fuel + 1, span, buf =>
    if span < nThreads then
      mergeRounds comparator bounds nThreads fuel (span * 2)
        (mergeRound comparator bounds nThreads span nThreads 0 buf)
    else buf

/-- Private `Buffer::sortBufferMT_ (nThreads, comparator)`. -/
def sortBufferMT_ {α : Type} (comparator : α → α → Bool) (nThreads : Nat) (buf : List α) : List α :=
  let bounds := setBufferBounds_ buf.length nThreads
  mergeRounds comparator bounds nThreads nThreads 1 (sortRegions comparator buf bounds)

/-- Public `Buffer::sort (nThreads, comparator)`. -/
def Buffer.sort {α : Type} (comparator : α → α → Bool) (nThreads : Nat) (buf : List α) : List α :=
  let nThreads := computeMaxThreads_ buf.length nThreads (2 ^ 10)
  if nThreads > 1 then sortBufferMT_ comparator nThreads buf else stdSort comparator buf

/-- The order comparator the collapser passes to `sort`:
`left.getSequence () < right.getSequence ()`. -/
def ltSequence (left right : SequenceRecord) : Bool :=
  decide (left.tag < right.tag)

/-! ## Trimming (`sequence_record.h`) -/

/-- Number of values of the offset type `TBpOffset = uint8_t` of the collapse tool. -/
def offsetMod : Nat := 2 ^ 8

/-- The call `seqan::infix (s, posBegin, posEnd)`; positions outside the string or in
the wrong order give `none`. -/
def infixOf (s : List Nat) (posBegin posEnd : Nat) : Option (List Nat) :=
  if posBegin ≤ posEnd ∧ posEnd ≤ s.length then some ((s.take posEnd).drop posBegin) else none

/-- Method `SequenceRecord::trim (trimLeft, trimRight)`. The end positions
`length - trimRight` are computed in 64-bit unsigned arithmetic, and the offset is
compared against the length of the sequence already trimmed. -/
def SequenceRecord.trim (r : SequenceRecord) (trimLeft trimRight : Nat) : Option SequenceRecord :=
  match infixOf r.tag trimLeft ((r.tag.length + 2 ^ 64 - trimRight) % 2 ^ 64),
        infixOf r.qual trimLeft ((r.qual.length + 2 ^ 64 - trimRight) % 2 ^ 64) with
  | some tag, some qual =>
    let bpOffset :=
      if r.bpOffset < trimLeft then 0
      else if r.bpOffset ≤ (tag.length + 2 ^ 64 - trimRight) % 2 ^ 64 then
        (r.bpOffset - trimLeft) % offsetMod
      else tag.length % offsetMod
    some { r with tag := tag, qual := qual, bpOffset := bpOffset }
  | _, _ => none

/-! ## Sequence writer (`sequence_writer.h`), single-end layout -/

/-- State of a `SequenceWriter`: the content of every file of `outputPaths_` (the
records written with their identifiers), whether the sink is open, and the counters. -/
structure SequenceWriter where
  outputPaths : List (List (Nat × SequenceRecord))
  isOpen : Bool
  currentSequenceId : Nat
  maxOutputRecords : Nat
  currentOutputRecords : Nat
  deriving Repr

/-- Method `SequenceWriter::configure`, after `reset ()`. -/
def SequenceWriter.configure (maxOutputRecords : Nat) : SequenceWriter :=
  { outputPaths := [], isOpen := false, currentSequenceId := 0,
    maxOutputRecords := maxOutputRecords, currentOutputRecords := 0 }

/-- Method `SequenceWriter::configureTemporary`. -/
def SequenceWriter.configureTemporary : SequenceWriter :=
  SequenceWriter.configure (2 ^ 64 - 1)

/-- Method `SequenceWriter::switchSink`. -/
def SequenceWriter.switchSink (w : SequenceWriter) : SequenceWriter :=
  { w with currentOutputRecords := 0, outputPaths := w.outputPaths ++ [[]], isOpen := true }

/-- Appends one written record to the file of the open sink, the last of `outputPaths_`. -/
def appendToLast {α : Type} (x : α) : List (List α) → List (List α)
  | [] => [[x]]
  | [f] => [f ++ [x]]
  | f :: g :: fs => f :: appendToLast x (g :: fs)

/-- Private `SequenceWriter::writeSingleEnd_`: the writer after the call and the
number of records printed. -/
def SequenceWriter.writeSingleEnd_ (validator : SequenceRecord → Bool) :
    SequenceWriter → List SequenceRecord → SequenceWriter × Nat
  | w, [] => (w, 0)
  | w, r :: rs =>
    if validator r then
      let w1 := if w.currentOutputRecords = w.maxOutputRecords then w.switchSink else w
      let w2 : SequenceWriter :=
        { w1 with outputPaths := appendToLast (w1.currentSequenceId, r) w1.outputPaths,
                  currentOutputRecords := w1.currentOutputRecords + 1,
                  currentSequenceId := w1.currentSequenceId + 1 }
      let res := SequenceWriter.writeSingleEnd_ validator w2 rs
      (res.1, res.2 + 1)
    else SequenceWriter.writeSingleEnd_ validator w rs

/-- Method `SequenceWriter::writeIf (itStart, itEnd, validator)`. With the sink closed
the call reads `itStart->getQualities ()`, which needs a non-empty range. -/
def SequenceWriter.writeIf (validator : SequenceRecord → Bool) (w : SequenceWriter)
    (records : List SequenceRecord) : Option (SequenceWriter × Nat) :=
  if w.isOpen then some (SequenceWriter.writeSingleEnd_ validator w records)
  else
    match records with
    | [] => none
    | _ :: _ => some (SequenceWriter.writeSingleEnd_ validator w.switchSink records)

/-- Method `SequenceWriter::write (itStart, itEnd)`. -/
def SequenceWriter.write (w : SequenceWriter) (records : List SequenceRecord) :
    Option (SequenceWriter × Nat) :=
  SequenceWriter.writeIf (fun _ => true) w records

/-- Method `SequenceWriter::flush`: reopens `outputPaths_.back ()`. -/
def SequenceWriter.flush (w : SequenceWriter) : Option SequenceWriter :=
  match w.outputPaths with
  | [] => none
  | _ :: _ => some { w with isOpen := true }

/-- The successive calls `writer.write` made by one `Buffer::merge`. -/
def SequenceWriter.writeAll : SequenceWriter → List (List SequenceRecord) → Option SequenceWriter
  | w, [] => some w
  | w, c :: cs =>
    match w.write c with
    | none => none
    | some (w1, _) => SequenceWriter.writeAll w1 cs

/-- The records of all files of a writer, in the order in which they were written. -/
def SequenceWriter.records (w : SequenceWriter) : List SequenceRecord :=
  w.outputPaths.flatten.map (fun p => p.2)

/-- The records a single-end tag reader delivers from a file a writer produced: the
tag format stores the sequence, the quality and the count, and the reader sets
`bpOffset_ = 0`. -/
def recordsOfFile (content : List (Nat × SequenceRecord)) : SequenceReader :=
  content.map (fun p => { p.2 with bpOffset := 0 })

/-- A single-end tag reader configured on a file a writer produced. The line of a
record with an empty sequence starts with the tab; `readRecord` of the tag format
skips that tab as white space, takes the next column for the sequence and raises
`ParseError` at the line break, which ends the `noexcept` reader. A merge that returns
has read every record of its readers, so a file with such a record has no reader:
`none`. -/
def readerOfFile (content : List (Nat × SequenceRecord)) : Option SequenceReader :=
  if content.all (fun p => !p.2.tag.isEmpty) then some (recordsOfFile content) else none

/-! ## Single-sample pipeline (`collapser.h`) -/

/-- The fields of `StatsCollapse` the pipeline fills. -/
structure StatsCollapse where
  rawSequences : Nat
  collapsedSequences : Nat
  deriving Repr, DecidableEq

/-- The settings of a `Collapser` the single-sample pipeline reads. -/
structure Collapser where
  trimLeft : Nat
  trimRight : Nat
  nThreads : Nat

/-- The block "load buffer, trim, sort and collapse" of `makeTemporaryBatches_`:
the collapsed buffer, the reader after the call, `loaded` and `collapsed`. -/
def loadSortCollapse (c : Collapser) (reader : SequenceReader) (maxLoadable : Nat) :
    Option (Buffer × SequenceReader × Nat × Nat) :=
  let l := Buffer.load reader maxLoadable
  let trimmed : Option Buffer :=
    if c.trimLeft > 0 ∨ c.trimRight > 0 then l.1.mapM (fun r => r.trim c.trimLeft c.trimRight)
    else some l.1
  match trimmed with
  | none => none
  | some buf =>
    match Buffer.collapse eqSequence c.nThreads (Buffer.sort ltSequence c.nThreads buf) with
    | none => none
    | some (buf1, collapsed) => some (buf1, l.2.1, l.2.2, collapsed)

/-- The validator `record.getCount () > 0` passed to `storeIf`. -/
def isAlive (record : SequenceRecord) : Bool :=
  decide (record.overall > 0)

/-- The `do ... while (!reader.atEnd ())` loop of `makeTemporaryBatches_`, at most
`fuel` iterations. -/
def batchLoop (c : Collapser) (maxLoadable : Nat) :
    Nat → SequenceReader → SequenceWriter → Nat → Option (SequenceWriter × Nat)
  | 0, _, _, _ => none
  | fuel + 1, reader, tmpWriter, rawSequences =>
    match loadSortCollapse c reader maxLoadable with
    | none => none
    | some (buf, reader1, loaded, _) =>
      let stored : Option SequenceWriter :=
        if loaded > 0 then (tmpWriter.switchSink.writeIf isAlive buf).map (fun p => p.1)
        else some tmpWriter
      match stored with
      | none => none
      | some w =>
        if reader1.isEmpty then some (w, rawSequences + loaded)
        else batchLoop c maxLoadable fuel reader1 w (rawSequences + loaded)

/-- Private `Collapser::makeTemporaryBatches_`: the temporary writer, the output
writer and the statistics after the call. -/
def makeTemporaryBatches_ (c : Collapser) (reader : SequenceReader)
    (tmpWriter outWriter : SequenceWriter) (maxLoadable : Nat) (stats : StatsCollapse) :
    Option (SequenceWriter × SequenceWriter × StatsCollapse) :=
  match loadSortCollapse c reader maxLoadable with
  | none => none
  | some (buf, reader1, loaded, collapsed) =>
    if reader1.isEmpty then
      match outWriter.writeIf isAlive buf with
      | none => none
      | some (w, _) =>
        match w.flush with
        | none => none
        | some w1 => some (tmpWriter, w1, { rawSequences := loaded, collapsedSequences := collapsed })
    else
      match tmpWriter.writeIf isAlive buf with
      | none => none
      | some (w, _) =>
        match batchLoop c maxLoadable (reader1.length + 1) reader1 w loaded with
        | none => none
        | some (w1, raw) =>
          match w1.flush with
          | none => none
          | some w2 => some (w2, outWriter, { stats with rawSequences := raw })

/-- Private `Collapser::configureBatchReaders_` for the single-end layout: `n` readers
on the files `paths[startIdx], ..., paths[startIdx + n - 1]`. -/
def configureBatchReaders_ (paths : List (List (Nat × SequenceRecord))) (startIdx n : Nat) :
    Option (List SequenceReader) :=
  (List.range n).mapM (fun i => (paths[startIdx + i]?).bind readerOfFile)

/-- The `while` loop of `mergeSSTmpBatches_`, at most `fuel` iterations: the temporary
writer and `startIdx` after the loop. -/
def mergeRoundsSS (nWayMerge maxLoadable : Nat) :
    Nat → SequenceWriter → Nat → Option (SequenceWriter × Nat)
  | 0, _, _ => none
  | fuel + 1, tmpWriter, startIdx =>
    if startIdx + nWayMerge < tmpWriter.outputPaths.length then
      match configureBatchReaders_ tmpWriter.outputPaths startIdx nWayMerge with
      | none => none
      | some readers =>
        match Buffer.merge readers (maxLoadable / nWayMerge) with
        | none => none
        | some (_, ranges) =>
          match tmpWriter.switchSink.writeAll ranges with
          | none => none
          | some w => mergeRoundsSS nWayMerge maxLoadable fuel w (startIdx + nWayMerge)
    else some (tmpWriter, startIdx)

/-- Private `Collapser::mergeSSTmpBatches_<N_WAY_MERGE>`. -/
def mergeSSTmpBatches_ (nWayMerge : Nat) (tmpWriter outWriter : SequenceWriter)
    (maxLoadable : Nat) (stats : StatsCollapse) :
    Option (SequenceWriter × SequenceWriter × StatsCollapse) :=
  match mergeRoundsSS nWayMerge maxLoadable (tmpWriter.outputPaths.length + 1) tmpWriter 0 with
  | none => none
  | some (w, startIdx) =>
    match w.flush with
    | none => none
    | some w1 =>
      let n := w1.outputPaths.length - startIdx
      match configureBatchReaders_ w1.outputPaths startIdx n with
      | none => none
      | some readers =>
        if readers.length = 0 then none
        else
          match Buffer.merge readers (maxLoadable / readers.length) with
          | none => none
          | some (writtenSequences, ranges) =>
            match outWriter.writeAll ranges with
            | none => none
            | some ow => some (w1, ow, { stats with collapsedSequences := writtenSequences })

/-- Private `Collapser::collapseSS_`. The value `loadable`, which the source derives
from `maxRam_` and the probed bytes per sequence in floating point, is a parameter.
Returns the temporary writer, the output writer and the statistics. -/
def collapseSS_ (c : Collapser) (reader : SequenceReader) (tmpWriter outWriter : SequenceWriter)
    (loadable : Nat) (stats : StatsCollapse) :
    Option (SequenceWriter × SequenceWriter × StatsCollapse) :=
  match makeTemporaryBatches_ c reader tmpWriter outWriter loadable stats with
  | none => none
  | some (tw, ow, st) =>
    if tw.outputPaths.length > 1 then mergeSSTmpBatches_ 16 tw ow loadable st
    else some (tw, ow, st)

/-! ## Reading paired-end records (`sequence_record.h`) -/

/-- One record of a `SeqFileIn` stream, as `sa::readRecord` delivers it: the sequence
and the quality string (the header is dropped by the caller). -/
structure FastxRecord where
  seq : List Nat
  qual : List Nat
  deriving DecidableEq, Repr

/-- Method `SequenceRecord::read<TForceNoQual> (sourceMate1, sourceMate2)` on the next
records of the two streams: `bpOffset_ = length (tag_)` is taken before the second
mate is appended and stored in `TBpOffset = uint8_t`. -/
def SequenceRecord.readPaired (forceNoQual : Bool) (mate1 mate2 : FastxRecord) :
    SequenceRecord :=
  { tag := mate1.seq ++ mate2.seq,
    qual := if forceNoQual then [] else mate1.qual ++ mate2.qual,
    overall := 1,
    bpOffset := mate1.seq.length % offsetMod }

/-! ## Record headers and the expander (`sequence_record.h`, `expander.h`) -/

/-- The call `std::to_string (n)` on an unsigned value: its decimal digits. -/
def toStringNat (n : Nat) : List Char :=
  Nat.toDigits 10 n

/-- Private `SequenceRecord::_makeFastxHeader (id)`. -/
def SequenceRecord.makeFastxHeader (r : SequenceRecord) (id : Nat) : List Char :=
  String.toList "BIOSEQZIP|ID:" ++ toStringNat id ++ String.toList "|CN:" ++ toStringNat r.overall

/-- The call `std::string::find_last_of (c)`: the index of the last occurrence of `c`,
`none` for `npos`. -/
def findLastOf (c : Char) : List Char → Option Nat
  | [] => none
  | x :: xs =>
    match findLastOf c xs with
    | some i => some (i + 1)
    | none => if x = c then some 0 else none

/-- The test `std::isspace (c)` in the "C" locale. -/
def isSpaceC (c : Char) : Bool :=
  c.toNat = 32 || (9 ≤ c.toNat && c.toNat ≤ 13)

/-- The call `std::stol (s)`: leading white space is skipped, an optional sign and the
longest run of decimal digits are read. No digit, or a value outside the range of
`long`, raises an exception, which ends a `noexcept` caller: `none`. -/
def stol (s : List Char) : Option Int :=
  let s1 := s.dropWhile isSpaceC
  let neg : Bool := s1.head? = some '-'
  let s2 := if s1.head? = some '-' ∨ s1.head? = some '+' then s1.tail else s1
  let ds := s2.takeWhile Char.isDigit
  let v : Nat := ds.foldl (fun acc c => acc * 10 + (c.toNat - 48)) 0
  if ds = [] then none
  else if neg then (if v ≤ 2 ^ 63 then some (-(v : Int)) else none)
  else (if v < 2 ^ 63 then some (v : Int) else none)

/-- Private `Expander::getTagCount_ (tagName)`: the text after the last `:` of the
name, read by `std::stol` and converted to `uint64_t`. `find_last_of` returning `npos`
makes `startIndex` wrap to 0; the name holds no NUL character, so `stopIndex` is `npos`
and `substr` returns the rest of the name. -/
def getTagCount_ (tagName : List Char) : Option Nat :=
  let startIndex : Nat :=
    match findLastOf ':' tagName with
    | some i => i + 1
    | none => 0
  let strCount := tagName.drop startIndex
  (stol strCount).map (fun v => (v % (2 ^ 64 : Int)).toNat)

/-- An alignment record as the expander uses it: the name `qName` and the rest of the
record, of which the embedding keeps the sequence. -/
structure BamRecord where
  qName : List Char
  seq : List Nat
  deriving DecidableEq, Repr

/-- The write loop of `expandSingleSampleCore_` over one batch: every record is
written `getTagCount_ (qName)` times. -/
def expandBatch : List BamRecord → Option (List BamRecord)
  | [] => some []
  | b :: bs =>
    match getTagCount_ b.qName, expandBatch bs with
    | some n, some rest => some (List.replicate n b ++ rest)
    | _, _ => none

/-- The `do ... while (!atEnd (bamInputFile))` loop of `expandSingleSampleCore_`, at
most `fuel` iterations: the records written to the expanded file. -/
def expandLoop (maxLoadable : Nat) : Nat → List BamRecord → Option (List BamRecord)
  | 0, _ => none
  | fuel + 1, input =>
    match expandBatch (input.take maxLoadable) with
    | none => none
    | some out =>
      if (input.drop maxLoadable).isEmpty then some out
      else (expandLoop maxLoadable fuel (input.drop maxLoadable)).map (fun rest => out ++ rest)

/-- Private `Expander::expandSingleSampleCore_ (bamInputFile, bamExpandedFile,
maxLoadable)`: the records written to the expanded file. Each iteration with
`maxLoadable >= 1` consumes a record, which bounds the number of iterations; with
`maxLoadable = 0` and a non-empty input the loop does not end. -/
def expandSingleSampleCore_ (input : List BamRecord) (maxLoadable : Nat) :
    Option (List BamRecord) :=
  expandLoop maxLoadable (input.length + 1) input

/-- The alignment records of the collapsed records of a file: each record written with
identifier `id` carries the header `_makeFastxHeader (id)` as its name. -/
def bamOfFile (content : List (Nat × SequenceRecord)) : List BamRecord :=
  content.map (fun p => { qName := p.2.makeFastxHeader p.1, seq := p.2.tag })

/-! ## Shard names (`sequence_writer.h`) -/

/-- Private `SequenceWriter::generateNewPath_ (id, pathSuffix)`. The path
`destinationDirPath_ / destinationFileBase_` is the parameter `base` and the result of
`getExtension_ ()` the parameter `fileExt`; `+=` on a path appends the text. -/
def generateNewPath_ (base fileExt : List Char) (id : Nat) (pathSuffix : List Char) : List Char :=
  let newPath := base
  let newPath := if id > 0 then newPath ++ ['_'] ++ toStringNat id else newPath
  newPath ++ pathSuffix ++ fileExt

/-- The effect of `SequenceWriter::switchSink` on `outputPaths_`: a pair of paths is
added, with `newPathId = outputPaths_.size ()`; for the single-end layout the second
path is empty. -/
def switchSinkPaths (pairedEnd : Bool) (base fileExt : List Char)
    (outputPaths : List (List Char × List Char)) : List (List Char × List Char) :=
  let newPathId := outputPaths.length
  if pairedEnd then
    outputPaths ++ [(generateNewPath_ base fileExt newPathId ['_', '1'],
      generateNewPath_ base fileExt newPathId ['_', '2'])]
  else outputPaths ++ [(generateNewPath_ base fileExt newPathId [], [])]

/-! ## Details writer (`details_writer.h`) -/

/-- State of a `DetailsWriter`: the rows of every file of `outputPaths_` (the header
line `writeHeader_` puts at the start of a file is not a row), whether the sink is
open, and the counters. -/
structure DetailsWriter where
  outputPaths : List (List DetailsRecord)
  isOpen : Bool
  maxOutRecords : Nat
  curOutRecords : Nat
  deriving Repr

/-- Method `DetailsWriter::configure`, after `reset ()`. -/
def DetailsWriter.configure (maxOutputRecords : Nat) : DetailsWriter :=
  { outputPaths := [], isOpen := false, maxOutRecords := maxOutputRecords, curOutRecords := 0 }

/-- Method `DetailsWriter::switchSink`, with a non-empty `header_`. -/
def DetailsWriter.switchSink (w : DetailsWriter) : DetailsWriter :=
  { w with curOutRecords := 0, outputPaths := w.outputPaths ++ [[]], isOpen := true }

/-- Private `DetailsWriter::write_`: the writer after the call and the number of rows
printed. -/
def DetailsWriter.write_ : DetailsWriter → List DetailsRecord → DetailsWriter × Nat
  | w, [] => (w, 0)
  | w, r :: rs =>
    let w1 := if w.curOutRecords = w.maxOutRecords then w.switchSink else w
    let w2 : DetailsWriter :=
      { w1 with outputPaths := appendToLast r w1.outputPaths,
                curOutRecords := w1.curOutRecords + 1 }
    let res := DetailsWriter.write_ w2 rs
    (res.1, res.2 + 1)

/-- Method `DetailsWriter::write (itStart, itEnd)`. -/
def DetailsWriter.write (w : DetailsWriter) (records : List DetailsRecord) :
    DetailsWriter × Nat :=
  if w.isOpen then DetailsWriter.write_ w records
  else DetailsWriter.write_ w.switchSink records

/-- The calls `outWriter.write` and `tabWriter.write` of one details merge on the
ranges it passes to the two writers, in order. -/
def writePairs : SequenceWriter → DetailsWriter → List (List (SequenceRecord × DetailsRecord)) →
    Option (SequenceWriter × DetailsWriter)
  | sw, dw, [] => some (sw, dw)
  | sw, dw, c :: cs =>
    match sw.write (c.map (fun p => p.1)) with
    | none => none
    | some (sw1, _) => writePairs sw1 (dw.write (c.map (fun p => p.2))).1 cs

/-! ## Writing paired-end records (`sequence_record.h`) -/

/-- A record `sa::writeRecord` sends to a `SeqFileOut` sink: the header, the sequence
and the quality string, which is empty for the overload without qualities. -/
structure FastxOut where
  header : List Char
  seq : List Nat
  qual : List Nat
  deriving DecidableEq, Repr

/-- The call `sa::prefix (s, pos)`; a position behind the end of `s` is outside the
contract of the call. -/
def prefixOf (s : List Nat) (pos : Nat) : Option (List Nat) :=
  if pos ≤ s.length then some (s.take pos) else none

/-- The call `sa::suffix (s, pos)`; a position behind the end of `s` is outside the
contract of the call. -/
def suffixOf (s : List Nat) (pos : Nat) : Option (List Nat) :=
  if pos ≤ s.length then some (s.drop pos) else none

/-- Method `SequenceRecord::write (sinkMate1, sinkMate2, id)` on `SeqFileOut` sinks:
the records sent to the two sinks. -/
def SequenceRecord.writePaired (r : SequenceRecord) (id : Nat) : Option (FastxOut × FastxOut) :=
  let fastxHeader := r.makeFastxHeader id
  if r.qual.length = 0 then
    match prefixOf r.tag r.bpOffset, suffixOf r.tag r.bpOffset with
    | some t1, some t2 =>
      some ({ header := fastxHeader, seq := t1, qual := [] },
        { header := fastxHeader, seq := t2, qual := [] })
    | _, _ => none
  else
    match prefixOf r.tag r.bpOffset, prefixOf r.qual r.bpOffset,
      suffixOf r.tag r.bpOffset, suffixOf r.qual r.bpOffset with
    | some t1, some q1, some t2, some q2 =>
      some ({ header := fastxHeader, seq := t1, qual := q1 },
        { header := fastxHeader, seq := t2, qual := q2 })
    | _, _, _, _ => none

/-! ## Tag format (`tag_read_write.h`) -/

/-- The functor `IsNewline` of SeqAn: line feed or carriage return. -/
def isNewlineSA (c : Char) : Bool :=
  c = '\n' || c = '\r'

/-- The functor `IsWhitespace` of SeqAn: space, tab or newline. -/
def isWhitespaceSA (c : Char) : Bool :=
  c = ' ' || c = '\t' || isNewlineSA c

/-- The call `skipLine (iter)` of SeqAn: skips to the end of the line and over its line
break (`\n`, `\r` or `\r\n`). -/
def skipLineSA (iter : List Char) : List Char :=
  match iter.dropWhile (fun c => !isNewlineSA c) with
  | [] => []
  | c :: rest =>
    if c = '\r' then
      match rest with
      | [] => []
      | d :: rest1 => if d = '\n' then rest1 else d :: rest1
    else rest

/-- The loop `while (!atEnd (iter) && value (iter) == '#') skipLine (iter)` of
`readRecord`, at most `fuel` iterations. -/
def skipComments : Nat → List Char → List Char
  | 0, iter => iter
  | fuel + 1, iter =>
    match iter with
    | [] => []
    | c :: rest => if c = '#' then skipComments fuel (skipLineSA (c :: rest)) else c :: rest

/-- The call `readUntil (target, iter, OrFunctor<stop, AssertFunctor<NotFunctor<bad>,
ParseError>>)` of SeqAn: the characters read and the rest of the input, which starts
with the character that stopped the call; a character of `bad` met before raises
`ParseError`, which ends a `noexcept` caller: `none`. -/
def readUntilSA (stop bad : Char → Bool) : List Char → Option (List Char × List Char)
  | [] => some ([], [])
  | c :: cs =>
    if stop c then some ([], c :: cs)
    else if bad c then none
    else (readUntilSA stop bad cs).map (fun p => (c :: p.1, p.2))

/-- The call `lexicalCast<TCounter> (buffer)` of SeqAn for the 32-bit counter: a
non-empty run of decimal digits whose value fits the counter; anything else raises
`BadLexicalCast`: `none`. -/
def lexicalCastCounter (buffer : List Char) : Option Nat :=
  let v : Nat := buffer.foldl (fun acc c => acc * 10 + (c.toNat - 48)) 0
  if buffer ≠ [] ∧ buffer.all Char.isDigit = true ∧ v < counterMod then some v else none

/-- Function `readRecord (tag_seq, counter, iter, TAG)`: the sequence, the counter and
the rest of the input. `ofChar` is the conversion of a character to a value of the
alphabet of `tag_seq`. `skipOne` at the end of the input raises `UnexpectedEnd`. -/
def readRecordTAG (ofChar : Char → Nat) (iter : List Char) : Option (List Nat × Nat × List Char) :=
  let iter := iter.dropWhile isWhitespaceSA
  let iter := skipComments iter.length iter
  let iter := iter.dropWhile isWhitespaceSA
  match readUntilSA (fun c => c = '\t') isNewlineSA iter with
  | none => none
  | some (tagChars, iter) =>
    match iter with
    | [] => none
    | _ :: iter =>
      match readUntilSA isNewlineSA (fun c => c = '\t') iter with
      | none => none
      | some (buffer, iter) =>
        match lexicalCastCounter buffer with
        | none => none
        | some counter =>
          match iter with
          | [] => none
          | _ :: iter => some (tagChars.map ofChar, counter, iter.dropWhile isWhitespaceSA)

/-- Function `writeRecord (iter, tag_seq, counter, TAG)`: the text written. `toChar` is
the conversion of a value of the alphabet of `tag_seq` to a character. -/
def writeRecordTAG (toChar : Nat → Char) (tagSeq : List Nat) (counter : Nat) : List Char :=
  tagSeq.map toChar ++ ['\t'] ++ toStringNat counter ++ ['\n']

/-- The text of a file to which the records are written in tag format, in order. -/
def writeTagFile (toChar : Nat → Char) : List (List Nat × Nat) → List Char
  | [] => []
  | r :: rs => writeRecordTAG toChar r.1 r.2 ++ writeTagFile toChar rs

/-- The loop of `Buffer::load (reader)` over a tag file: `readRecord` is called until
the input is at its end, at most `fuel` times. -/
def loadTagFile (ofChar : Char → Nat) : Nat → List Char → Option (List (List Nat × Nat))
  | 0, _ => none
  | fuel + 1, iter =>
    if iter.isEmpty then some []
    else
      match readRecordTAG ofChar iter with
      | none => none
      | some (tagSeq, counter, rest) =>
        (loadTagFile ofChar fuel rest).map (fun l => (tagSeq, counter) :: l)

/-! ## Details records as text (`details_record.h`) -/

/-- The call `std::getline (stream, str, delim)`: the characters before the first
`delim` and the stream behind it; on a stream at its end nothing is extracted and the
call fails: `none`. -/
def getlineC (delim : Char) (stream : List Char) : Option (List Char × List Char) :=
  match stream with
  | [] => none
  | _ :: _ =>
    some (stream.takeWhile (fun c => c ≠ delim), (stream.dropWhile (fun c => c ≠ delim)).tail)

/-- The call `atoll (s)`: leading white space is skipped, an optional sign and the
longest run of decimal digits are read; without a digit the result is 0. A value
outside the range of `long long` is outside the contract of the call: `none`. -/
def atollC (s : List Char) : Option Int :=
  let s1 := s.dropWhile isSpaceC
  let neg : Bool := s1.head? = some '-'
  let s2 := if s1.head? = some '-' ∨ s1.head? = some '+' then s1.tail else s1
  let ds := s2.takeWhile Char.isDigit
  let v : Nat := ds.foldl (fun acc c => acc * 10 + (c.toNat - 48)) 0
  if neg then (if v ≤ 2 ^ 63 then some (-(v : Int)) else none)
  else (if v < 2 ^ 63 then some (v : Int) else none)

/-- Method `DetailsRecord::write (sink)`: the text sent to the sink. Without a counter
the loop bound `length (occurrences_) - 1` wraps and the loop reads past the end of
`occurrences_`: `none`. -/
def DetailsRecord.write (record : DetailsRecord) : Option (List Char) :=
  match record.occurrences.getLast? with
  | none => none
  | some last =>
    some (toStringNat record.overall ++ ['\t'] ++
      (record.occurrences.dropLast.map (fun c => toStringNat c ++ ['\t'])).flatten ++
      toStringNat last ++ ['\n'])

/-- The loop `while (std::getline (stringStream, token, '\t'))` of
`DetailsRecord::read`, at most `fuel` iterations: `counter` is the number of tokens
read so far. The value `atoll` returns is converted to the 32-bit counter type. -/
def readTokens : Nat → List Char → Nat → DetailsRecord → Option DetailsRecord
  | 0, _, _, _ => none
  | fuel + 1, stringStream, counter, record =>
    match getlineC '\t' stringStream with
    | none => some record
    | some (token, stringStream1) =>
      match atollC token with
      | none => none
      | some v =>
        let value : Nat := (v % (counterMod : Int)).toNat
        let record1 : DetailsRecord :=
          if counter = 0 then { record with overall := value }
          else if record.occurrences.length ≥ counter then
            { record with occurrences := record.occurrences.set (counter - 1) value }
          else { record with occurrences := record.occurrences ++ [value] }
        readTokens fuel stringStream1 (counter + 1) record1

/-- Method `DetailsRecord::read (source)`: the record after the call and the rest of
the source. When `std::getline` fails on the source, `line` stays empty. -/
def DetailsRecord.read (record : DetailsRecord) (source : List Char) :
    Option (DetailsRecord × List Char) :=
  let p : List Char × List Char :=
    match getlineC '\n' source with
    | none => ([], [])
    | some p => p
  (readTokens (p.1.length + 1) p.1 0 record).map (fun r => (r, p.2))

/-! ## Settings of the collapse tool (`apps/collapse/settings.h`) -/

/-- The call `std::strtoul (s, nullptr, 10)`: leading white space is skipped, an
optional sign and the longest run of decimal digits are read; without a digit the
result is 0, a value that does not fit 64 bits gives `ULONG_MAX`, and a minus sign
negates the value in the unsigned type. -/
def strtoulC (s : List Char) : Nat :=
  let s1 := s.dropWhile isSpaceC
  let neg : Bool := s1.head? = some '-'
  let s2 := if s1.head? = some '-' ∨ s1.head? = some '+' then s1.tail else s1
  let ds := s2.takeWhile Char.isDigit
  let v : Nat := ds.foldl (fun acc c => acc * 10 + (c.toNat - 48)) 0
  if v ≥ 2 ^ 64 then 2 ^ 64 - 1
  else if neg then (2 ^ 64 - v) % 2 ^ 64
  else v

/-- Method `Settings::parseMaxRamString (maxRamStr)`. The exceptions
`std::invalid_argument` and the call `back ()` on an empty string give `none`; the
products are taken in the 64-bit unsigned type. -/
def parseMaxRamString (maxRamStr : List Char) : Option Nat :=
  let MBMultiplier : Nat := 1024 * 1024
  let GBMultiplier : Nat := MBMultiplier * 1024
  let value := maxRamStr.take (maxRamStr.length - 1)
  match maxRamStr.getLast? with
  | none => none
  | some back =>
    if value.any Char.isAlpha then none
    else if back ≥ '0' ∧ back ≤ '9' then some (strtoulC maxRamStr)
    else if back = 'M' then some ((strtoulC value * MBMultiplier) % 2 ^ 64)
    else if back = 'G' then some ((strtoulC value * GBMultiplier) % 2 ^ 64)
    else none

/-! ## Input layout and exit code of the collapse tool (`apps/collapse/settings.h`, `apps/collapse/collapse.cpp`) -/

/-- Constant `Settings::IN_LAYOUT_SS_SINGLE_END`. -/
def IN_LAYOUT_SS_SINGLE_END : Nat := 0

/-- Constant `Settings::IN_LAYOUT_SS_PAIRED_END`. -/
def IN_LAYOUT_SS_PAIRED_END : Nat := 1

/-- Constant `Settings::IN_LAYOUT_SS_INTERLEAVED`. -/
def IN_LAYOUT_SS_INTERLEAVED : Nat := 2

/-- Constant `Settings::IN_LAYOUT_SS_BREAKPOINT`. -/
def IN_LAYOUT_SS_BREAKPOINT : Nat := 3

/-- Constant `Settings::IN_LAYOUT_MS_SINGLE_END`. -/
def IN_LAYOUT_MS_SINGLE_END : Nat := 4

/-- Constant `Settings::IN_LAYOUT_MS_PAIRED_END`. -/
def IN_LAYOUT_MS_PAIRED_END : Nat := 5

/-- Constant `Settings::IN_LAYOUT_MS_INTERLEAVED`. -/
def IN_LAYOUT_MS_INTERLEAVED : Nat := 6

/-- Constant `Settings::IN_LAYOUT_MS_BREAKPOINT`. -/
def IN_LAYOUT_MS_BREAKPOINT : Nat := 7

/-- Constant `Settings::IN_LAYOUT_MS_MATCH_FILE`. -/
def IN_LAYOUT_MS_MATCH_FILE : Nat := 8

/-- The seven values `isSet (parser_, ...)` that `setInputLayout` reads. -/
structure LayoutFlags where
  inputSet : Bool
  inputDirSet : Bool
  pairedSet : Bool
  pairedDirSet : Bool
  interleavedSet : Bool
  breakpointSet : Bool
  matchFileSet : Bool
  deriving DecidableEq, Repr

/-- Method `Settings::setInputLayout`: the value stored in `layout`, `none` when
`std::invalid_argument` is thrown. -/
def setInputLayout (f : LayoutFlags) : Option Nat :=
  if f.inputSet && !f.inputDirSet && !f.pairedSet && !f.pairedDirSet && !f.interleavedSet &&
      !f.breakpointSet && !f.matchFileSet then
    some IN_LAYOUT_SS_SINGLE_END
  else if f.inputSet && !f.inputDirSet && f.pairedSet && !f.pairedDirSet && !f.interleavedSet &&
      !f.breakpointSet && !f.matchFileSet then
    some IN_LAYOUT_SS_PAIRED_END
  else if f.inputSet && !f.inputDirSet && !f.pairedSet && !f.pairedDirSet && f.interleavedSet &&
      !f.breakpointSet && !f.matchFileSet then
    some IN_LAYOUT_SS_INTERLEAVED
  else if f.inputSet && !f.inputDirSet && !f.pairedSet && !f.pairedDirSet && !f.interleavedSet &&
      f.breakpointSet && !f.matchFileSet then
    some IN_LAYOUT_SS_BREAKPOINT
  else if !f.inputSet && f.inputDirSet && !f.pairedSet && !f.pairedDirSet && !f.interleavedSet &&
      !f.breakpointSet && !f.matchFileSet then
    some IN_LAYOUT_MS_SINGLE_END
  else if !f.inputSet && f.inputDirSet && !f.pairedSet && f.pairedDirSet && !f.interleavedSet &&
      !f.breakpointSet && !f.matchFileSet then
    some IN_LAYOUT_MS_PAIRED_END
  else if !f.inputSet && f.inputDirSet && !f.pairedSet && !f.pairedDirSet && f.interleavedSet &&
      !f.breakpointSet && !f.matchFileSet then
    some IN_LAYOUT_MS_INTERLEAVED
  else if !f.inputSet && f.inputDirSet && !f.pairedSet && !f.pairedDirSet && !f.interleavedSet &&
      f.breakpointSet && !f.matchFileSet then
    some IN_LAYOUT_MS_BREAKPOINT
  else if !f.inputSet && !f.inputDirSet && !f.pairedSet && !f.pairedDirSet &&
      !f.interleavedSet && !f.breakpointSet && f.matchFileSet then
    some IN_LAYOUT_MS_MATCH_FILE
  else none

/-- The seven option flags of the layout selection, as the specification names them. -/
inductive Flag where
  | input
  | inputDir
  | paired
  | pairedDir
  | interleaved
  | breakpoint
  | matchFile
  deriving DecidableEq, Repr

/-- The set of flags that are set, listed in the order of `Flag`. -/
def flagSet (f : LayoutFlags) : List Flag :=
  (if f.inputSet then [Flag.input] else []) ++
  (if f.inputDirSet then [Flag.inputDir] else []) ++
  (if f.pairedSet then [Flag.paired] else []) ++
  (if f.pairedDirSet then [Flag.pairedDir] else []) ++
  (if f.interleavedSet then [Flag.interleaved] else []) ++
  (if f.breakpointSet then [Flag.breakpoint] else []) ++
  (if f.matchFileSet then [Flag.matchFile] else [])

/-- The table of the specification: the nine sets of flags and the layout each of them
selects. -/
def layoutTable : List (List Flag × Nat) :=
  [([Flag.input], IN_LAYOUT_SS_SINGLE_END),
   ([Flag.input, Flag.paired], IN_LAYOUT_SS_PAIRED_END),
   ([Flag.input, Flag.interleaved], IN_LAYOUT_SS_INTERLEAVED),
   ([Flag.input, Flag.breakpoint], IN_LAYOUT_SS_BREAKPOINT),
   ([Flag.inputDir], IN_LAYOUT_MS_SINGLE_END),
   ([Flag.inputDir, Flag.pairedDir], IN_LAYOUT_MS_PAIRED_END),
   ([Flag.inputDir, Flag.interleaved], IN_LAYOUT_MS_INTERLEAVED),
   ([Flag.inputDir, Flag.breakpoint], IN_LAYOUT_MS_BREAKPOINT),
   ([Flag.matchFile], IN_LAYOUT_MS_MATCH_FILE)]

/-- The layout the specification assigns to a set of flags: the entry of `layoutTable`
for exactly this set, `none` (an error) for every other set. -/
def layoutBySpec (f : LayoutFlags) : Option Nat :=
  (layoutTable.find? (fun e => decide (e.1 = flagSet f))).map (fun e => e.2)

/-- Constant `Settings::OUT_FORMAT_FASTA`. -/
def OUT_FORMAT_FASTA : Nat := 0

/-- Constant `Settings::OUT_FORMAT_FASTQ`. -/
def OUT_FORMAT_FASTQ : Nat := 1

/-- Constant `Settings::OUT_FORMAT_TAG`. -/
def OUT_FORMAT_TAG : Nat := 2

/-- Constant `Settings::OUT_FORMAT_TAGQ`. -/
def OUT_FORMAT_TAGQ : Nat := 3

/-- Method `Settings::setOutputFormat` on the value of the option `format`: the value
stored in `outputFormat`, `none` when `std::invalid_argument` is thrown. -/
def setOutputFormat (outFormatStr : List Char) : Option Nat :=
  if outFormatStr = "fasta".toList then some OUT_FORMAT_FASTA
  else if outFormatStr = "fastq".toList then some OUT_FORMAT_FASTQ
  else if outFormatStr = "tag".toList then some OUT_FORMAT_TAG
  else if outFormatStr = "tagq".toList then some OUT_FORMAT_TAGQ
  else none

/-- The values of `seqan::ArgumentParser::ParseResult`. -/
inductive ParseResult where
  | PARSE_OK
  | PARSE_ERROR
  | PARSE_HELP
  | PARSE_VERSION
  | PARSE_WRITE_CTD
  | PARSE_EXPORT_HELP
  deriving DecidableEq, Repr

/-- What `Settings::parseCommandLine` reads of its environment: the result of
`seqan::parse (parser_, argc, argv)`, the options that are set, the outcome of the
file system tests on the paths given, and the values of the options `format` and
`max-ram`. -/
structure CommandLine where
  parseResult : ParseResult
  flags : LayoutFlags
  inputIsRegularFile : Bool
  inputDirIsDirectory : Bool
  pairedIsRegularFile : Bool
  pairedDirIsDirectory : Bool
  matchFileIsRegularFile : Bool
  format : List Char
  tmpDirIsDirectory : Bool
  outDirIsDirectory : Bool
  maxRam : List Char
  deriving DecidableEq, Repr

/-- Method `Settings::parseCommandLine`: the returned parse result, `none` when one of
the validations throws `std::invalid_argument`. The validations run only when the
parser reports `PARSE_OK`; values read without a check are left out. -/
def parseCommandLine (cl : CommandLine) : Option ParseResult :=
  if cl.parseResult = ParseResult.PARSE_OK then
    if cl.flags.inputSet && !cl.inputIsRegularFile then none
    else if cl.flags.inputDirSet && !cl.inputDirIsDirectory then none
    else if cl.flags.pairedSet && !cl.pairedIsRegularFile then none
    else if cl.flags.pairedDirSet && !cl.pairedDirIsDirectory then none
    else if cl.flags.matchFileSet && !cl.matchFileIsRegularFile then none
    else
      match setInputLayout cl.flags with
      | none => none
      | some _ =>
        match setOutputFormat cl.format with
        | none => none
        | some _ =>
          if !cl.tmpDirIsDirectory then none
          else if !cl.outDirIsDirectory then none
          else
            match parseMaxRamString cl.maxRam with
            | none => none
            | some _ => some cl.parseResult
  else some cl.parseResult

/-- How the process of the collapse tool ends: `main` returns a code, or an exception
leaves a `noexcept` function and `std::terminate` ends the process. -/
inductive ExitStatus where
  | returned (code : Int)
  | terminated
  deriving DecidableEq, Repr

/-- Function `main` of `apps/collapse/collapse.cpp`. The call of `collapsePipeline`,
which is declared `noexcept` and stands outside the `try` block, either completes or
raises an exception inside (`pipelineCompletes = false`). -/
def main (cl : CommandLine) (pipelineCompletes : Bool) : ExitStatus :=
  match parseCommandLine cl with
  | none => ExitStatus.returned (-1)
  | some parseResult =>
    if parseResult ≠ ParseResult.PARSE_OK then ExitStatus.returned 0
    else if pipelineCompletes then ExitStatus.returned 0
    else ExitStatus.terminated

/-! ## Memory probe (`collapser.h`) -/

/-- Private `Collapser::getBytesSequenceRatio_ (reader)`. The value of
`buffer.memoryConsumption ()`, which depends on the capacities of the containers, is
given by the parameter `memoryConsumption`; the division is the unsigned 64-bit
division, which has no defined result for `loadedRecords = 0`. -/
def getBytesSequenceRatio_ (memoryConsumption : Buffer → Nat) (reader : SequenceReader) :
    Option Nat :=
  let testBatchSize : Nat := 100
  let loadedRecords := (Buffer.load reader testBatchSize).2.2
  let memoryUtil := memoryConsumption (Buffer.load reader testBatchSize).1 % 2 ^ 64
  if loadedRecords = 0 then none else some (memoryUtil / loadedRecords)

/-! ## Calls on a sequence writer (`sequence_writer.h`) -/

/-- A call of one of the public methods `write`, `writeIf`, `switchSink` and `flush`
of a `SequenceWriter`. -/
inductive WriterCall where
  | write (records : List SequenceRecord)
  | writeIf (validator : SequenceRecord → Bool) (records : List SequenceRecord)
  | switchSink
  | flush

/-- The writer after one call, `none` when the call has no defined result. -/
def SequenceWriter.call (w : SequenceWriter) : WriterCall → Option SequenceWriter
  | WriterCall.write records => (w.write records).map (fun p => p.1)
  | WriterCall.writeIf validator records => (w.writeIf validator records).map (fun p => p.1)
  | WriterCall.switchSink => some w.switchSink
  | WriterCall.flush => w.flush

/-- The writer after a sequence of calls. -/
def SequenceWriter.calls : SequenceWriter → List WriterCall → Option SequenceWriter
  | w, [] => some w
  | w, c :: cs =>
    match w.call c with
    | none => none
    | some w1 => SequenceWriter.calls w1 cs

/-- The records one call accepts for writing: all records of `write`, the records
the validator accepts of `writeIf`. -/
def WriterCall.accepted : WriterCall → List SequenceRecord
  | WriterCall.write records => records
  | WriterCall.writeIf validator records => records.filter validator
  | WriterCall.switchSink => []
  | WriterCall.flush => []

/-- The records a sequence of calls accepts for writing, in order. -/
def acceptedByCalls (calls : List WriterCall) : List SequenceRecord :=
  (calls.map WriterCall.accepted).flatten

/-! ## Sequence writer (`sequence_writer.h`), paired-end layout -/

/-- State of a `SequenceWriter` with the paired-end layout on `SeqFileOut` sinks: for
every pair of `outputPaths_` the records sent to the file of the first mates and to the
file of the second mates, each with the identifier passed to `write`; whether the sinks
are open; the counters. -/
structure PairedWriter where
  outputPaths : List (List (Nat × FastxOut) × List (Nat × FastxOut))
  isOpen : Bool
  currentSequenceId : Nat
  maxOutputRecords : Nat
  currentOutputRecords : Nat

/-- Method `SequenceWriter::configure` with the paired-end layout, after `reset ()`. -/
def PairedWriter.configure (maxOutputRecords : Nat) : PairedWriter :=
  { outputPaths := [], isOpen := false, currentSequenceId := 0,
    maxOutputRecords := maxOutputRecords, currentOutputRecords := 0 }

/-- Method `SequenceWriter::switchSink` with the paired-end layout: both sinks are
closed, a pair of paths is added and both files are opened. -/
def PairedWriter.switchSink (w : PairedWriter) : PairedWriter :=
  { w with currentOutputRecords := 0, outputPaths := w.outputPaths ++ [([], [])], isOpen := true }

/-- Appends one written record to each file of the open pair, the last of
`outputPaths_`. -/
def appendToLastPair {α : Type} (x y : α) : List (List α × List α) → List (List α × List α)
  | [] => [([x], [y])]
  | [f] => [(f.1 ++ [x], f.2 ++ [y])]
  | f :: g :: fs => f :: appendToLastPair x y (g :: fs)

/-- The writer after the two mates of a record have gone to the two sinks with the
identifier `currentSequenceId_` and the two counters have been incremented. -/
def PairedWriter.put (w : PairedWriter) (mates : FastxOut × FastxOut) : PairedWriter :=
  { w with
    outputPaths :=
      appendToLastPair (w.currentSequenceId, mates.1) (w.currentSequenceId, mates.2) w.outputPaths,
    currentOutputRecords := w.currentOutputRecords + 1,
    currentSequenceId := w.currentSequenceId + 1 }

/-- Private `SequenceWriter::writePairedEnd_`: the writer after the call and the
number of records printed. The call `it->write (sinkMate1_, sinkMate2_,
currentSequenceId_)` sends the two mates to the two sinks; it has no defined result
when `bpOffset_` lies behind the end of the sequence or of the qualities. -/
def PairedWriter.writePairedEnd_ (validator : SequenceRecord → Bool) :
    PairedWriter → List SequenceRecord → Option (PairedWriter × Nat)
  | w, [] => some (w, 0)
  | w, r :: rs =>
    if validator r then
      let w1 := if w.currentOutputRecords = w.maxOutputRecords then w.switchSink else w
      match r.writePaired w1.currentSequenceId with
      | none => none
      | some mates =>
        match PairedWriter.writePairedEnd_ validator (w1.put mates) rs with
        | none => none
        | some res => some (res.1, res.2 + 1)
    else PairedWriter.writePairedEnd_ validator w rs

/-- Method `SequenceWriter::writeIf (itStart, itEnd, validator)` with the paired-end
layout. With the sinks closed the call reads `itStart->getQualities ()`, which needs a
non-empty range. -/
def PairedWriter.writeIf (validator : SequenceRecord → Bool) (w : PairedWriter)
    (records : List SequenceRecord) : Option (PairedWriter × Nat) :=
  if w.isOpen then PairedWriter.writePairedEnd_ validator w records
  else
    match records with
    | [] => none
    | _ :: _ => PairedWriter.writePairedEnd_ validator w.switchSink records

/-- Method `SequenceWriter::write (itStart, itEnd)` with the paired-end layout. -/
def PairedWriter.write (w : PairedWriter) (records : List SequenceRecord) :
    Option (PairedWriter × Nat) :=
  PairedWriter.writeIf (fun _ => true) w records

/-- Method `SequenceWriter::flush` with the paired-end layout: reopens both files of
`outputPaths_.back ()`. -/
def PairedWriter.flush (w : PairedWriter) : Option PairedWriter :=
  match w.outputPaths with
  | [] => none
  | _ :: _ => some { w with isOpen := true }

/-- The paired-end writer after one call, `none` when the call has no defined
result. -/
def PairedWriter.call (w : PairedWriter) : WriterCall → Option PairedWriter
  | WriterCall.write records => (w.write records).map (fun p => p.1)
  | WriterCall.writeIf validator records => (w.writeIf validator records).map (fun p => p.1)
  | WriterCall.switchSink => some w.switchSink
  | WriterCall.flush => w.flush

/-- The paired-end writer after a sequence of calls. -/
def PairedWriter.calls : PairedWriter → List WriterCall → Option PairedWriter
  | w, [] => some w
  | w, c :: cs =>
    match w.call c with
    | none => none
    | some w1 => PairedWriter.calls w1 cs

/-- The records sent to the files of the first mates, file after file. -/
def PairedWriter.mates1 (w : PairedWriter) : List (Nat × FastxOut) :=
  (w.outputPaths.map (fun f => f.1)).flatten

/-- The records sent to the files of the second mates, file after file. -/
def PairedWriter.mates2 (w : PairedWriter) : List (Nat × FastxOut) :=
  (w.outputPaths.map (fun f => f.2)).flatten

/-- A record whose `bpOffset_` lies within its sequence and, when it has qualities,
within its qualities: the record `SequenceRecord::write (sinkMate1, sinkMate2, id)`
can split. -/
def SequenceRecord.splittable (r : SequenceRecord) : Prop :=
  r.bpOffset ≤ r.tag.length ∧ (r.qual.length = 0 ∨ r.bpOffset ≤ r.qual.length)

/-! ## Multi-sample pipeline, first tier (`collapser.h`) -/

/-- Method `DetailsWriter::configureTemporary`. -/
def DetailsWriter.configureTemporary : DetailsWriter :=
  DetailsWriter.configure (2 ^ 64 - 1)

/-- Private `Collapser::configureBatchReaders_ (seqReaders, samples, startIdx)` on the
collapsed samples: `n` readers on `samples[startIdx], ..., samples[startIdx + n - 1]`. A
sample is given by the records of its file. -/
def configureSampleReaders_ (samples : List SequenceReader) (startIdx n : Nat) :
    Option (List SequenceReader) :=
  (List.range n).mapM (fun i => samples[startIdx + i]?)

/-- The first `while` loop of the branch `nSamples > N_WAY_MERGE` of
`Collapser::collapseMS_`, at most `fuel` iterations: the temporary sequence writer and
the temporary details writer after the loop. The value `loadable = maxRam_ /
bytesDataRatio`, the same in every iteration, is a parameter. -/
def firstTierMS (nWayMerge loadable : Nat) (samples : List SequenceReader) :
    Nat → Nat → SequenceWriter → DetailsWriter → Option (SequenceWriter × DetailsWriter)
  | 0, _, _, _ => none
  | fuel + 1, startIdx1, tmpOutWriter, tmpTabWriter =>
    let nSamples := samples.length
    if startIdx1 < nSamples then
      let samplesIds := List.range' startIdx1 (min nWayMerge (nSamples - startIdx1))
      match configureSampleReaders_ samples startIdx1 (min nWayMerge (nSamples - startIdx1)) with
      | none => none
      | some seqReaders =>
        match Buffer.mergeSeeding seqReaders samplesIds loadable nSamples with
        | none => none
        | some (_, ranges) =>
          match writePairs tmpOutWriter tmpTabWriter ranges with
          | none => none
          | some (sw, dw) =>
            firstTierMS nWayMerge loadable samples fuel (startIdx1 + nWayMerge)
              sw.switchSink dw.switchSink
    else some (tmpOutWriter, tmpTabWriter)

/-- Sum of the counts of the records of a list that carry the sequence `s`. -/
def tagCount (s : List Nat) (l : List SequenceRecord) : Nat :=
  ((l.filter (fun r => decide (r.tag = s))).map (fun r => r.overall)).sum

/-- Sum of the counts of the records of a list. -/
def totalCount (l : List SequenceRecord) : Nat :=
  (l.map (fun r => r.overall)).sum

/-- A record with its count set to 0, as the range merge leaves the followers. -/
def SequenceRecord.zeroed (r : SequenceRecord) : SequenceRecord :=
  { r with overall := 0 }

/-- Position `i` starts a run: it is the first position or the record before it
carries another sequence. -/
def isLeader (buf : List SequenceRecord) (i : Nat) : Prop :=
  i = 0 ∨ (buf[i - 1]?).map (fun r => r.tag) ≠ (buf[i]?).map (fun r => r.tag)

/-- Position `i` ends a run: it is the last position or the record after it carries
another sequence. -/
def isRunEnd (buf : List SequenceRecord) (i : Nat) : Prop :=
  (buf[i + 1]?).map (fun r => r.tag) ≠ (buf[i]?).map (fun r => r.tag)

/-- Records with equal sequences carry quality strings of equal length. -/
def QualAligned (l : List SequenceRecord) : Prop :=
  ∀ a ∈ l, ∀ b ∈ l, a.tag = b.tag → a.qual.length = b.qual.length

/-- The buffer is sorted by sequence. -/
def SortedBySequence (l : List SequenceRecord) : Prop :=
  l.Pairwise (fun a b => a.tag ≤ b.tag)

/-- What a collapse of `buf` leaves at position `i`: sequence, offset and quality
length of the record are kept; a leader carries the total count of its sequence and
is untouched when its run has length 1; any other record has count 0. -/
def CollapsedAt (buf : List SequenceRecord) (i : Nat) (o : SequenceRecord) : Prop :=
  ∃ w, buf[i]? = some w ∧ o.tag = w.tag ∧ o.bpOffset = w.bpOffset ∧
    o.qual.length = w.qual.length ∧
    (isLeader buf i → o.overall = tagCount w.tag buf) ∧
    (¬ isLeader buf i → o.overall = 0) ∧
    (isLeader buf i → isRunEnd buf i → o = w)

/-- The records `os` are what a collapse of `buf` leaves at the positions `p, p+1, ...`. -/
def CollapsedFrom (buf : List SequenceRecord) : Nat → List SequenceRecord → Prop
  | _, [] => True
  | p, o :: os => CollapsedAt buf p o ∧ CollapsedFrom buf (p + 1) os

/-- Hypotheses on a buffer under which a collapse is defined and exact: every count
is at least 1, the counts of every sequence sum to less than `2 ^ 32`, and equal
sequences carry quality strings of equal length. -/
structure Collapsible (W : List SequenceRecord) : Prop where
  pos : ∀ r ∈ W, 1 ≤ r.overall
  bound : ∀ s, tagCount s W < 2 ^ 32
  aligned : QualAligned W

/-- Two records agree on everything a merge keeps: sequence, quality length, offset. -/
def Sim (w o : SequenceRecord) : Prop :=
  o.tag = w.tag ∧ o.qual.length = w.qual.length ∧ o.bpOffset = w.bpOffset

/-- The regions of a buffer collapsed one by one. -/
def collapseChunks (eq : SequenceRecord → SequenceRecord → Bool) :
    List (List SequenceRecord) → Option (List (List SequenceRecord × Nat × Nat))
  | [] => some []
  | c :: cs =>
    match collapseBufferRange_ eq c with
    | none => none
    | some o => (collapseChunks eq cs).map (fun os => o :: os)

/-- The bounds of consecutive regions that start at offset `lo`. -/
def boundsOf (lo : Nat) : List (List SequenceRecord) → List Nat
  | [] => [lo]
  | c :: cs => lo :: boundsOf (lo + c.length) cs

/-- The entries of `STCollapseMeta` for consecutive collapsed regions that start at
offset `lo`. -/
def metaOf (lo : Nat) : List (List SequenceRecord × Nat × Nat) → List (Nat × Nat)
  | [] => []
  | o :: os => (lo + o.2.1, o.2.2) :: metaOf (lo + o.1.length) os

/-- The regions `setBufferBounds_` cuts: `n` regions of `k` records and the rest. -/
def chunksOf (k : Nat) : Nat → List SequenceRecord → List (List SequenceRecord)
  | 0, l => [l]
  | n + 1, l => l.take k :: chunksOf k n (l.drop k)

/-- The first record of a collapsed region has a positive count. -/
def HeadAlive (o : List SequenceRecord) : Prop :=
  ∀ x, o.head? = some x → 1 ≤ x.overall

/-- Sum of the values `val` of the entries of a list that carry the sequence `s`. -/
def ksum {α M : Type} [AddCommMonoid M] (tag : α → List Nat) (val : α → M) (s : List Nat)
    (l : List α) : M :=
  ((l.filter (fun x => decide (tag x = s))).map val).sum

/-- Invariant of a multi-way merge over the entries not yet consumed (`S`, one list per
input), the entries already completed (`acc`) and the entry under construction
(`cur`): the inputs are increasing and the output is strictly increasing by sequence, nothing still to come
is smaller than `cur`, and the values per sequence add up to the fixed totals `T`. -/
structure AInv {α M : Type} [AddCommMonoid M] (tag : α → List Nat) (val : α → M)
    (ok : α → Prop) (T : List Nat → M) (K : List Nat → Prop) (S : List (List α))
    (acc : List α) (cur : α) : Prop where
  sortedS : ∀ l ∈ S, (l.map tag).Pairwise (fun a b => a ≤ b)
  sortedE : ((acc ++ [cur]).map tag).Pairwise (fun a b => a < b)
  curLe : ∀ l ∈ S, ∀ y ∈ l, tag cur ≤ tag y
  sum : ∀ s, ksum tag val s (acc ++ [cur]) + ksum tag val s S.flatten = T s
  okE : ∀ e ∈ acc ++ [cur], ok e
  okS : ∀ l ∈ S, ∀ y ∈ l, ok y
  keys : ∀ s, (s ∈ (acc ++ [cur]).map tag ∨ s ∈ S.flatten.map tag) ↔ K s

/-- What the generic merge needs from the parts in which the overloads differ: `rd`
lists the entries an input still has to read, `bf` the entries of its sub-buffer;
`load` moves entries from the first to the second, `fetch` returns the entry at a
position of the sub-buffer, and `merge` adds up the values `val` of two entries with
the same sequence as long as the sum is `bounded`. -/
structure MergeLaws {β α M : Type} [AddCommMonoid M] (ops : MergeOps β α) (wf : β → Prop)
    (rd bf : β → List α) (scratchOK ok : α → Prop) (val : α → M) (bounded : M → Prop)
    (m : Nat) : Prop where
  load_wf : ∀ d, wf d → rd d ≠ [] → wf (ops.load d m).1
  load_bf : ∀ d, wf d → rd d ≠ [] → bf (ops.load d m).1 = (rd d).take m
  load_rd : ∀ d, wf d → rd d ≠ [] → rd (ops.load d m).1 = (rd d).drop m
  load_n : ∀ d, wf d → rd d ≠ [] → (ops.load d m).2 = ((rd d).take m).length
  atEnd_iff : ∀ d, wf d → (ops.atEnd d = true ↔ rd d = [])
  fetch_eq : ∀ (sc : α) (d : β) (i : Nat) (x : α), wf d → scratchOK sc → (bf d)[i]? = some x →
    ops.fetch sc d i = some x
  buffer_tag : ∀ (d : β) (i : Nat) (x : α), wf d → (bf d)[i]? = some x →
    ∃ r : SequenceRecord, (ops.buffer d)[i]? = some r ∧ r.tag = ops.tag x
  merge_ok : ∀ a b, ok a → ok b → ops.tag a = ops.tag b → bounded (val a + val b) →
    ∃ c b', ops.merge a b = some (c, b') ∧ ok c ∧ ops.tag c = ops.tag a ∧
      val c = val a + val b ∧ scratchOK b'
  scratch_empty : scratchOK ops.empty
  scratch_moved : ∀ x, scratchOK (ops.moved x)
  bounded_left : ∀ a b, bounded (a + b) → bounded a
  pending_ge : ∀ d, wf d → (rd d).length ≤ ops.pending d

/-- The entries one input still contributes: the unread part of its sub-buffer, then
what its reader still holds. -/
def stream {β α : Type} (rd bf : β → List α) (s : MergeInput β) : List α :=
  ((bf s.data).take s.inLimit).drop s.inIndex ++ rd s.data

/-- Consistency of the index, the limit and the sub-buffer of one input. -/
structure SlotOK {β α : Type} (wf : β → Prop) (rd bf : β → List α) (s : MergeInput β) :
    Prop where
  wf : wf s.data
  limit_le : s.inLimit ≤ (bf s.data).length
  zero : s.inLimit = 0 → rd s.data = []
  index_lt : s.inLimit ≠ 0 → s.inIndex < s.inLimit

/-- Sequence of the entry an input contributes next (`[]` when it has none). -/
def headTag {β α : Type} (tag : α → List Nat) (rd bf : β → List α)
    (inputs : List (MergeInput β)) (i : Nat) : List Nat :=
  match inputs[i]? with
  | some s =>
    match (stream rd bf s).head? with
    | some x => tag x
    | none => []
  | none => []

/-- Number of entries the inputs of a merge still contribute. -/
def remaining {β α : Type} (rd bf : β → List α) (st : MergeState β α) : Nat :=
  (st.inputs.map (stream rd bf)).flatten.length

/-- Invariant of the merge loop: the slots are consistent, the entries written so far
followed by the filled part of the output buffer are the completed entries, the
entry at `outIndex` is the one under construction, and `validReaders` counts the
inputs that still contribute. -/
structure MInv {β α M : Type} [AddCommMonoid M] (ops : MergeOps β α) (wf : β → Prop)
    (rd bf : β → List α) (scratchOK ok : α → Prop) (val : α → M) (T : List Nat → M)
    (K : List Nat → Prop) (m : Nat) (st : MergeState β α) (cur : α) : Prop where
  slots : ∀ s ∈ st.inputs, SlotOK wf rd bf s
  ainv : AInv ops.tag val ok T K (st.inputs.map (stream rd bf))
    (st.written.flatten ++ st.outBuffer.take st.outIndex) cur
  outLen : st.outBuffer.length = m
  outIdx : st.outIndex < m
  outCur : st.outBuffer[st.outIndex]? = some cur
  wsEq : st.writtenSequences = st.written.flatten.length
  valid : st.validReaders = st.inputs.countP (fun s => decide (s.inLimit ≠ 0))
  scratch : scratchOK st.minItem

/-- The inputs of a merge after the initial loads. -/
def startInputs {β α : Type} (ops : MergeOps β α) (readers : List β) (maxLoadable : Nat) :
    List (MergeInput β) :=
  readers.map (fun r => { data := (ops.load r maxLoadable).1, inIndex := 0,
                          inLimit := (ops.load r maxLoadable).2 })

/-- Quality length of the first record of `l` with sequence `s` (0 when there is none). -/
def qualLen (l : List SequenceRecord) (s : List Nat) : Nat :=
  ((l.find? (fun r => decide (r.tag = s))).map (fun r => r.qual.length)).getD 0

/-- Value of an entry of the overloads with details: the count of the sequence record
and the counters of the details record, by position. -/
def pairVal (e : SequenceRecord × DetailsRecord) : Nat × (Nat → Nat) :=
  (e.1.overall, fun i => e.2.occurrences.getD i 0)

/-- A sequence record with a positive count and its details record in agreement: the
details record has `nSamples` counters, its overall count is the count of the sequence
record and the sum of its counters. -/
def PairOK (qlen : List Nat → Nat) (nSamples : Nat) (e : SequenceRecord × DetailsRecord) :
    Prop :=
  1 ≤ e.1.overall ∧ e.1.qual.length = qlen e.1.tag ∧ e.2.occurrences.length = nSamples ∧
    e.2.overall = e.1.overall ∧ e.2.occurrences.sum = e.1.overall

/-- The entry the seeding overload builds for a record read for sample `sampleId`: the
record and a details record with `nSamples` counters, all 0 but the one of the sample,
which holds the count of the record. -/
def seedEntry (nSamples sampleId : Nat) (r : SequenceRecord) : SequenceRecord × DetailsRecord :=
  (r, { occurrences := (List.replicate nSamples 0).set sampleId r.overall, overall := r.overall })

/-- The entries for a list of records of one input of the seeding overload. -/
def seedEntries (nSamples : Nat) (sampleId : Option Nat) (l : List SequenceRecord) :
    List (SequenceRecord × DetailsRecord) :=
  match sampleId with
  | some id => l.map (seedEntry nSamples id)
  | none => []

/-- All entries the inputs of the seeding overload contribute. -/
def seedAll (nSamples : Nat) (readers : List SequenceReader) (ids : List Nat) :
    List (SequenceRecord × DetailsRecord) :=
  ((seedInputs readers ids).map (fun d => seedEntries nSamples d.sampleId d.reader)).flatten

/-- Consistency of one input of the propagating merge with `maxLoadable = m`: the
streams have equal length, the rows not read yet have a positive count and
`nCounters` counters, the buffer entries have at most `nCounters` counters, and either
no row is left, or the `eofbit` is not set and the rows left fit one load of a fresh
buffer or are a multiple of `m`. -/
def PairWF (m nCounters : Nat) (d : PairInput) : Prop :=
  d.reader.length = d.tabReader.length ∧ d.inBuffer.length = d.inTabBuffer.length ∧
  (∀ t ∈ d.tabReader, 1 ≤ t.overall ∧ t.occurrences.length = nCounters) ∧
  (∀ t ∈ d.inTabBuffer, t.occurrences.length ≤ nCounters) ∧
  (d.tabReader = [] ∨ (d.tabEof = false ∧
    ((d.inTabBuffer = [] ∧ d.tabReader.length ≤ m) ∨ m ∣ d.tabReader.length)))

/-- Sum of the counters at position `i` of the details records that the inputs pair
with a record of sequence `s`. -/
def detailsSum (s : List Nat) (i : Nat) (pairs : List (SequenceRecord × DetailsRecord)) : Nat :=
  ((pairs.filter (fun p => decide (p.1.tag = s))).map (fun p => p.2.occurrences.getD i 0)).sum

/-- The input pairs of the propagating merge: the i-th sequence record of each reader
with the i-th details record of its details reader. -/
def pairsAll (readers : List SequenceReader) (tabReaders : List DetailsReader) :
    List (SequenceRecord × DetailsRecord) :=
  (List.zipWith List.zip readers tabReaders).flatten

/-- Folding the pairwise `SequenceRecord::merge` from left to right: the records `rs`
are merged one after the other into `r`. -/
def foldMerge (r : SequenceRecord) : List SequenceRecord → Option SequenceRecord
  | [] => some r
  | x :: xs =>
    match r.merge x with
    | none => none
    | some (r1, _) => foldMerge r1 xs

/-- Exact weighted sum of the quality bytes at position `i` over a list of records. -/
def weightedSum (i : Nat) (l : List SequenceRecord) : Nat :=
  (l.map (fun r => r.qual.getD i 0 * r.overall)).sum

/-- The record `r` stands for the records `P` folded so far: it carries their total
count, and at every position its quality byte, weighted by the total count, is below
the exact weighted sum by at most `(len P - 1) * (count - 1)`. -/
def FoldInv (m : Nat) (r : SequenceRecord) (P : List SequenceRecord) : Prop :=
  r.overall = totalCount P ∧ r.qual.length = m ∧ (∀ i, r.qual.getD i 0 < 128) ∧
  ∀ i, i < m → r.qual.getD i 0 * totalCount P ≤ weightedSum i P ∧
    weightedSum i P ≤ r.qual.getD i 0 * totalCount P + (P.length - 1) * (totalCount P - 1)

/-- The comparator is a strict weak ordering, as `std::sort` and `std::inplace_merge`
require: irreflexive, transitive, and with a transitive incomparability. -/
structure StrictWeakOrder {α : Type} (lt : α → α → Bool) : Prop where
  irrefl : ∀ a, lt a a = false
  trans : ∀ a b c, lt a b = true → lt b c = true → lt a c = true
  incomp : ∀ a b c, lt a b = false → lt b a = false → lt b c = false → lt c b = false →
    lt a c = false ∧ lt c a = false

/-- No record of the list is ordered before a record that precedes it. -/
def SortedBy {α : Type} (lt : α → α → Bool) (l : List α) : Prop :=
  l.Pairwise (fun a b => lt b a = false)

/-- The records of the range `[lo, hi)` of a vector. -/
def segment {α : Type} (buf : List α) (lo hi : Nat) : List α :=
  (buf.drop lo).take (hi - lo)

/-- Records as the stages of the pipeline keep them: counts at least 1 and qualities
of the length `qlen` gives to the sequence. -/
def RecordsOK (qlen : List Nat → Nat) (l : List SequenceRecord) : Prop :=
  ∀ r ∈ l, 1 ≤ r.overall ∧ r.qual.length = qlen r.tag

/-- A list of collapsed records as a stage of the pipeline leaves it: not empty,
increasing by sequence, counts at least 1 and qualities of the length `qlen` gives to
the sequence. -/
def BatchOK (qlen : List Nat → Nat) (l : List SequenceRecord) : Prop :=
  l ≠ [] ∧ (l.map (fun r => r.tag)).Pairwise (fun a b => a ≤ b) ∧ RecordsOK qlen l

/-- The records are strictly increasing by sequence. -/
def StrictBySeq (l : List SequenceRecord) : Prop :=
  (l.map (fun r => r.tag)).Pairwise (fun a b => a < b)

/-- The records of a file a writer produced, without their identifiers. -/
def fileRecords (f : List (Nat × SequenceRecord)) : List SequenceRecord :=
  f.map (fun p => p.2)

/-- The records of a list of files. -/
def filesRecords (files : List (List (Nat × SequenceRecord))) : List SequenceRecord :=
  fileRecords files.flatten

/-- The files of a temporary writer from `startIdx` on are batches that together hold
the counts per sequence of `input`. -/
structure TmpInv (qlen : List Nat → Nat) (input : List SequenceRecord) (w : SequenceWriter)
    (startIdx : Nat) : Prop where
  lt : startIdx < w.outputPaths.length
  batch : ∀ f ∈ w.outputPaths.drop startIdx, BatchOK qlen (fileRecords f)
  count : ∀ s, tagCount s (filesRecords (w.outputPaths.drop startIdx)) = tagCount s input
  room : input.length ≤ w.maxOutputRecords

/-- What `std::stol` needs of a character to read it as the decimal digit `k`. -/
def IsDigitOf (c : Char) (k : Nat) : Prop :=
  c.isDigit = true ∧ c.toNat - 48 = k ∧ isSpaceC c = false ∧ c ≠ '-' ∧ c ≠ '+' ∧ c ≠ ':'

/-- The step of the digit fold of `stol`. -/
def stolStep (acc : Nat) (c : Char) : Nat :=
  acc * 10 + (c.toNat - 48)

/-- The round trip of a collapse and an expansion: `collapseSS_` runs on fresh writers,
every file of the output writer is taken as the alignment records of its collapsed
records (`bamOfFile`) and expanded by `expandSingleSampleCore_`; the result is the list
of all expanded records. -/
def expandCollapsed (c : Collapser) (input : SequenceReader)
    (loadable maxOutputRecords expandLoadable : Nat) : Option (List BamRecord) :=
  match collapseSS_ c input SequenceWriter.configureTemporary
      (SequenceWriter.configure maxOutputRecords) loadable
      { rawSequences := 0, collapsedSequences := 0 } with
  | none => none
  | some (_, ow, _) =>
    (ow.outputPaths.mapM (fun f => expandSingleSampleCore_ (bamOfFile f) expandLoadable)).map
      List.flatten

/-- The records an expansion writes for the collapsed records of a file: every record
as many times as its count. -/
def expansionOf (f : List (Nat × SequenceRecord)) : List BamRecord :=
  (f.map (fun p => List.replicate p.2.overall
    ({ qName := p.2.makeFastxHeader p.1, seq := p.2.tag } : BamRecord))).flatten

/-- The records are strictly increasing by sequence. -/
def StrictBySequence (l : List SequenceRecord) : Prop :=
  (l.map (fun r => r.tag)).Pairwise (fun a b => a < b)

/-- A sequence of calls `write` and `writeIf` on a writer, each given by its validator
(constantly true for `write`) and its range. -/
def SequenceWriter.writeCalls :
    SequenceWriter → List ((SequenceRecord → Bool) × List SequenceRecord) → Option SequenceWriter
  | w, [] => some w
  | w, c :: cs =>
    match w.writeIf c.1 c.2 with
    | none => none
    | some (w1, _) => SequenceWriter.writeCalls w1 cs

/-- The records a sequence of calls accepts, in write order. -/
def acceptedRecords (calls : List ((SequenceRecord → Bool) × List SequenceRecord)) :
    List SequenceRecord :=
  (calls.map (fun c => c.2.filter c.1)).flatten

/-- State of an open writer with `K` records per file: every file but the last holds
`K` records, the last holds `currentOutputRecords_` records, at most `K`, and it is
empty only when it is the first file. -/
def ShardInv (K : Nat) (w : SequenceWriter) : Prop :=
  w.isOpen = true ∧ w.maxOutputRecords = K ∧
  ∃ full last, w.outputPaths = full ++ [last] ∧ (∀ f ∈ full, f.length = K) ∧
    last.length = w.currentOutputRecords ∧ last.length ≤ K ∧ (last = [] → full = [])

/-- The paths a writer holds after it opened `n` files. -/
def openedPaths (pairedEnd : Bool) (base fileExt : List Char) : Nat → List (List Char × List Char)
  | 0 => []
  | n + 1 => switchSinkPaths pairedEnd base fileExt (openedPaths pairedEnd base fileExt n)

/-- The two writers mirror each other: same sink state and counters, and their files
are the two sides of one list of shards of written pairs, which holds the pairs `acc`
in write order. -/
def Mirror (sw : SequenceWriter) (dw : DetailsWriter)
    (acc : List (SequenceRecord × DetailsRecord)) : Prop :=
  sw.isOpen = dw.isOpen ∧ sw.maxOutputRecords = dw.maxOutRecords ∧
  sw.currentOutputRecords = dw.curOutRecords ∧
  ∃ shards : List (List ((Nat × SequenceRecord) × DetailsRecord)),
    sw.outputPaths = shards.map (fun f => f.map (fun x => x.1)) ∧
    dw.outputPaths = shards.map (fun f => f.map (fun x => x.2)) ∧
    shards.flatten.map (fun x => (x.1.2, x.2)) = acc

/-- The symbols of a sequence are written as characters that are not white space and
that convert back to the symbol, and the first character is not `#`. -/
def TagWritable (toChar : Nat → Char) (ofChar : Char → Nat) (tagSeq : List Nat) : Prop :=
  tagSeq ≠ [] ∧ (∀ v ∈ tagSeq, ofChar (toChar v) = v ∧ isWhitespaceSA (toChar v) = false) ∧
  ∀ v ∈ tagSeq.head?, toChar v ≠ '#'

/-- The hypotheses on the collapsed samples under which every merge of the first tier
returns: every sample is non-empty and strictly increasing by sequence with counts of
at least 1, the counts of every sequence add up to less than `2 ^ 32` over all
samples, records of one sequence have qualities of one length, and all records
together fit one temporary file. -/
structure SamplesOK (samples : List SequenceReader) : Prop where
  each : ∀ r ∈ samples, r ≠ [] ∧ (r.map (fun x => x.tag)).Pairwise (fun a b => a < b) ∧
    ∀ x ∈ r, 1 ≤ x.overall
  sum : ∀ s, tagCount s samples.flatten < 2 ^ 32
  aligned : QualAligned samples.flatten
  room : samples.flatten.length ≤ 2 ^ 64 - 1

/-- The identifiers written so far are `0, 1, ...` in write order, the records written
are `acc`, and the next identifier is the number of records written. -/
def IdInv (w : SequenceWriter) (acc : List SequenceRecord) : Prop :=
  w.outputPaths.flatten.map (fun p => p.2) = acc ∧
  w.outputPaths.flatten.map (fun p => p.1) = List.range acc.length ∧
  w.currentSequenceId = acc.length

/-- A call that is defined on a writer whose sink is closed: `switchSink`, or a `write`
or `writeIf` on a range that is not empty. -/
def WriterCall.opensSink : WriterCall → Bool
  | WriterCall.write records => !records.isEmpty
  | WriterCall.writeIf _ records => !records.isEmpty
  | WriterCall.switchSink => true
  | WriterCall.flush => false

/-- Paired-end layout: the mates sent to the two sinks so far are the mates of the
records `acc`, in write order, and the `i`-th of them went out with the identifier `i`
on both sinks; the next identifier is the number of records written. -/
def PairedIdInv (w : PairedWriter) (acc : List SequenceRecord) : Prop :=
  w.mates1.length = acc.length ∧ w.mates2.length = acc.length ∧
  w.currentSequenceId = acc.length ∧
  ∀ (i : Nat) (r : SequenceRecord), acc[i]? = some r →
    ∃ m1 m2, r.writePaired i = some (m1, m2) ∧ w.mates1[i]? = some (i, m1) ∧
      w.mates2[i]? = some (i, m2)

/-- What the stitching loop of `collapseRangeMT_` uses of a collapsed region `o` of
the records `c`: the region keeps its length; the record at the last leader carries
the sequence of the last record of `c` and the count of that sequence in `c`, which
is positive; the first record carries the sequence of the first record of `c` and
the count of that sequence in `c`, which is positive. -/
def RegionOK (c : List SequenceRecord) (o : List SequenceRecord × Nat × Nat) : Prop :=
  o.1.length = c.length ∧ o.2.2 = o.1.countP isAlive ∧
  (∃ l, o.1[o.2.1]? = some l ∧ 1 ≤ l.overall ∧ l.overall = tagCount l.tag c ∧
    ∀ x, c.getLast? = some x → x.tag = l.tag) ∧
  (∃ f x, o.1.head? = some f ∧ c.head? = some x ∧ f.tag = x.tag ∧ 1 ≤ f.overall ∧
    f.overall = tagCount f.tag c)

/-- What the stitching loop of `collapseRangeMT_` needs of the buffer, the last
leaders `m` and the region starts `h` still to be handled, for its counter to stay the
number of records with a positive count: each last leader lies at or after the start
of its region and before the start of the next; when the record at a last leader and
the first record of the next region carry one sequence, both have a positive count,
the two counts fit the counter, and the first record of the region after that carries
another sequence. -/
def StitchInv (B : Buffer) : Nat → List (Nat × Nat) → List Nat → Prop
  | lo, m :: ms, h :: bs =>
    lo ≤ m.1 ∧ m.1 < h ∧
    (∀ l f, B[m.1]? = some l → B[h]? = some f → l.tag = f.tag →
      1 ≤ l.overall ∧ 1 ≤ f.overall ∧ l.overall + f.overall < 2 ^ 32 ∧
      ∀ h2 f2, bs.head? = some h2 → h < h2 → B[h2]? = some f2 → f2.tag ≠ f.tag) ∧
    StitchInv B h ms bs
  | _, _, _ => True

/-- No run of equal sequences reaches from the last record of a region through the
whole next region to the first record of the region after it. -/
def NoTriple : List (List SequenceRecord) → Prop
  | c0 :: c1 :: c2 :: rest =>
    (∀ x y, c0.getLast? = some x → c2.head? = some y → x.tag ≠ y.tag) ∧
      NoTriple (c1 :: c2 :: rest)
  | _ => True

/-! ## Theorems -/

theorem charToU32_of_lt {q : Nat} (h : q < 128) : charToU32 q = q := by
  simp [charToU32, h]

theorem weightU32_eq {q c : Nat} (hq : q < 128) (h : q * c < 2 ^ 32) : weightU32 q c = q * c := by
  unfold weightU32
  rw [charToU32_of_lt hq]
  exact Nat.mod_eq_of_lt h

/-- The weighted mean of two bytes below 128 is below 128. -/
theorem weighted_mean_lt {x y c1 c2 : Nat} (hx : x < 128) (hy : y < 128) (h : 0 < c1 + c2) :
    (x * c1 + y * c2) / (c1 + c2) < 128 := by
  rw [Nat.div_lt_iff_lt_mul h]
  have h1 : x * c1 ≤ 127 * c1 := Nat.mul_le_mul_right _ (by omega)
  have h2 : y * c2 ≤ 127 * c2 := Nat.mul_le_mul_right _ (by omega)
  nlinarith

theorem mergeQual_eq (c1 c2 tot : Nat) (htot : tot ≠ 0) :
    ∀ (qa qb : List Nat), qa.length = qb.length →
      mergeQual c1 c2 tot qa qb =
        some (List.zipWith (fun x y => toQAlpha ((weightU32 x c1 + weightU32 y c2) / tot)) qa qb)
  | [], _, _ => by simp [mergeQual]
  | _ :: _, [], h => by simp at h
  | x :: qa, y :: qb, h => by
    have ih := mergeQual_eq c1 c2 tot htot qa qb (by simpa using h)
    simp [mergeQual, htot, ih]

theorem zipWith_congr_mem {f g : Nat → Nat → Nat} :
    ∀ (l1 l2 : List Nat), (∀ x ∈ l1, ∀ y ∈ l2, f x y = g x y) →
      List.zipWith f l1 l2 = List.zipWith g l1 l2
  | [], _, _ => by simp
  | _ :: _, [], _ => by simp
  | x :: l1, y :: l2, h => by
    simp only [List.zipWith_cons_cons]
    rw [h x (by simp) y (by simp), zipWith_congr_mem l1 l2
      (fun a ha b hb => h a (List.mem_cons_of_mem _ ha) b (List.mem_cons_of_mem _ hb))]

/-- C1 (amended). Pairwise `SequenceRecord::merge (a, b)`: for records whose quality
strings have equal length and bytes below 128, whose counts sum to a positive value
below `2 ^ 32` and whose products `quality[i] * count` stay below `2 ^ 32`, the call
returns, the quality of `a` at every position is
`(a.quality[i] * a.count + b.quality[i] * b.count) / (a.count + b.count)` over the
values before the call, the count of `a` is the sum of the two counts and the count
of `b` is 0. -/
theorem merge_pair_spec (a b : SequenceRecord)
    (hlen : a.qual.length = b.qual.length)
    (hpos : 0 < a.overall + b.overall) (hsum : a.overall + b.overall < 2 ^ 32)
    (ha : ∀ q ∈ a.qual, q < 128 ∧ q * a.overall < 2 ^ 32)
    (hb : ∀ q ∈ b.qual, q < 128 ∧ q * b.overall < 2 ^ 32) :
    ∃ a' b', a.merge b = some (a', b') ∧
      a'.qual = List.zipWith
        (fun qa qb => (qa * a.overall + qb * b.overall) / (a.overall + b.overall))
        a.qual b.qual ∧
      a'.overall = a.overall + b.overall ∧ b'.overall = 0 := by
  have hmod : (a.overall + b.overall) % counterMod = a.overall + b.overall :=
    Nat.mod_eq_of_lt (by simpa [counterMod] using hsum)
  have hq := mergeQual_eq a.overall b.overall (a.overall + b.overall) (by omega) a.qual b.qual hlen
  refine ⟨⟨a.tag, List.zipWith (fun x y => toQAlpha ((weightU32 x a.overall +
      weightU32 y b.overall) / (a.overall + b.overall))) a.qual b.qual,
      a.overall + b.overall, a.bpOffset⟩, ⟨b.tag, b.qual, 0, b.bpOffset⟩, ?_, ?_, ?_, ?_⟩
  · simp only [SequenceRecord.merge, hmod, hq]
  · show List.zipWith _ _ _ = List.zipWith _ _ _
    apply zipWith_congr_mem
    intro x hx y hy
    rw [weightU32_eq (ha x hx).1 (ha x hx).2, weightU32_eq (hb y hy).1 (hb y hy).2]
    have := @weighted_mean_lt x y a.overall b.overall (ha x hx).1 (hb y hy).1 hpos
    exact Nat.mod_eq_of_lt (by omega)
  · rfl
  · rfl

theorem merge_pair_spec_witness :
    ∃ a' b', SequenceRecord.merge ⟨[0, 1], [33, 34], 1, 0⟩ ⟨[0, 1], [35, 36], 1, 0⟩ = some (a', b') ∧
      a'.qual = [34, 35] ∧ a'.overall = 2 ∧ b'.overall = 0 := by
  obtain ⟨a', b', h, hq, ho, hb⟩ := merge_pair_spec ⟨[0, 1], [33, 34], 1, 0⟩ ⟨[0, 1], [35, 36], 1, 0⟩
    (by decide) (by decide) (by decide) (by decide) (by decide)
  exact ⟨a', b', h, hq.trans (by decide), ho.trans (by decide), hb⟩

/-- C1 (counterexample). Two records with the same sequence, no qualities and count
`2 ^ 31` each satisfy the hypotheses of the claim, but the merged count is not
`2 ^ 31 + 2 ^ 31`: the 32-bit counter wraps to 0. -/
theorem merge_pair_count_wraps :
    ¬ ∃ a' b', SequenceRecord.merge ⟨[0], [], 2 ^ 31, 0⟩ ⟨[0], [], 2 ^ 31, 0⟩ = some (a', b') ∧
        a'.overall = 2 ^ 31 + 2 ^ 31 ∧ b'.overall = 0 := by
  rintro ⟨a', b', h, h1, -⟩
  have h0 : SequenceRecord.merge ⟨[0], [], 2 ^ 31, 0⟩ ⟨[0], [], 2 ^ 31, 0⟩ =
      some (⟨[0], [], 0, 0⟩, ⟨[0], [], 0, 0⟩) := by decide
  rw [h0] at h
  cases h
  exact absurd h1 (by decide)

/-- C2 (failing input). On the range of two records with quality byte 100 and counts
`2 ^ 26` and 1 the range merge stores the quality 36, not the weighted mean 100: the
product `100 * 2 ^ 26` is computed in 32 bits and wraps before it reaches the 64-bit
accumulator. -/
theorem mergeRange_product_wraps :
    SequenceRecord.mergeRange [⟨[0], [100], 2 ^ 26, 0⟩, ⟨[0], [100], 1, 0⟩] =
        some [⟨[0], [36], 2 ^ 26 + 1, 0⟩, ⟨[0], [100], 0, 0⟩] ∧
      (100 * 2 ^ 26 + 100 * 1) / (2 ^ 26 + 1) = 100 := by
  decide

theorem accumulate_length (c : Nat) :
    ∀ (tmp q tmp' : List Nat), accumulate c tmp q = some tmp' → tmp'.length = tmp.length
  | tmp, [], tmp', h => by
    cases tmp <;> simp [accumulate] at h <;> subst h <;> rfl
  | [], _ :: _, _, h => by simp [accumulate] at h
  | t :: tmp, q :: qs, tmp', h => by
    simp only [accumulate, Option.map_eq_some'] at h
    obtain ⟨r, hr, rfl⟩ := h
    simp [accumulate_length c tmp qs r hr]

theorem accumulate_isSome (c : Nat) :
    ∀ (tmp q : List Nat), q.length ≤ tmp.length → ∃ tmp', accumulate c tmp q = some tmp'
  | tmp, [], _ => by cases tmp <;> simp [accumulate]
  | [], _ :: _, h => by simp at h
  | t :: tmp, q :: qs, h => by
    obtain ⟨r, hr⟩ := accumulate_isSome c tmp qs (by simpa using h)
    exact ⟨(t + weightU32 q c) :: r, by simp [accumulate, hr]⟩

theorem mergeRangeAcc_spec :
    ∀ (rs : List SequenceRecord) (tmp : List Nat) (ov : Nat) (tmp' : List Nat) (tot : Nat),
      mergeRangeAcc tmp ov rs = some (tmp', tot) →
        tmp'.length = tmp.length ∧ tot % counterMod = (ov + totalCount rs) % counterMod ∧
          (ov < counterMod → tot < counterMod)
  | [], tmp, ov, tmp', tot, h => by
    simp only [mergeRangeAcc, Option.some.injEq, Prod.mk.injEq] at h
    obtain ⟨rfl, rfl⟩ := h
    simp [totalCount]
  | r :: rs, tmp, ov, tmp', tot, h => by
    simp only [mergeRangeAcc] at h
    cases ha : accumulate r.overall tmp r.qual with
    | none => simp [ha] at h
    | some t1 =>
      simp only [ha] at h
      obtain ⟨h1, h2, h3⟩ := mergeRangeAcc_spec rs t1 _ tmp' tot h
      refine ⟨by rw [h1, accumulate_length _ _ _ _ ha], ?_, fun _ => h3 (Nat.mod_lt _ (by decide))⟩
      rw [h2]
      simp only [totalCount, List.map_cons, List.sum_cons]
      rw [Nat.add_mod, Nat.mod_mod, ← Nat.add_mod]
      congr 1
      omega

theorem mergeRangeAcc_isSome :
    ∀ (rs : List SequenceRecord) (tmp : List Nat) (ov : Nat),
      (∀ r ∈ rs, r.qual.length ≤ tmp.length) → ∃ res, mergeRangeAcc tmp ov rs = some res
  | [], tmp, ov, _ => ⟨_, rfl⟩
  | r :: rs, tmp, ov, h => by
    obtain ⟨t1, ht1⟩ := accumulate_isSome r.overall tmp r.qual (h r (by simp))
    have hl := accumulate_length _ _ _ _ ht1
    obtain ⟨res, hres⟩ := mergeRangeAcc_isSome rs t1 ((ov + r.overall) % counterMod)
      (fun x hx => by rw [hl]; exact h x (List.mem_cons_of_mem _ hx))
    exact ⟨res, by simp [mergeRangeAcc, ht1, hres]⟩

/-- Shape of the result of the range merge, whenever it returns. -/
theorem mergeRange_shape (r : SequenceRecord) (rs l' : List SequenceRecord)
    (h : SequenceRecord.mergeRange (r :: rs) = some l') :
    ∃ q, q.length = r.qual.length ∧
      l' = ⟨r.tag, q, totalCount (r :: rs) % counterMod, r.bpOffset⟩ ::
        rs.map SequenceRecord.zeroed := by
  simp only [SequenceRecord.mergeRange] at h
  cases hacc : mergeRangeAcc (List.replicate r.qual.length 0) 0 (r :: rs) with
  | none => simp [hacc] at h
  | some res =>
    obtain ⟨tmp, tot⟩ := res
    simp only [hacc] at h
    obtain ⟨h1, h2, h3⟩ := mergeRangeAcc_spec _ _ _ _ _ hacc
    have htot : tot = totalCount (r :: rs) % counterMod := by
      have := h3 (by decide)
      rw [← Nat.mod_eq_of_lt this, h2, Nat.zero_add]
    split at h
    · simp at h
    · simp only [Option.some.injEq] at h
      refine ⟨tmp.map (fun t => toQAlpha (t / tot)), by simpa using h1, ?_⟩
      rw [← h, htot]
      rfl

/-- The range merge returns when no follower has a longer quality string than the
first record and the wrapped total is not zero (or there are no qualities). -/
theorem mergeRange_isSome (r : SequenceRecord) (rs : List SequenceRecord)
    (hq : ∀ x ∈ rs, x.qual.length ≤ r.qual.length)
    (htot : totalCount (r :: rs) % counterMod ≠ 0 ∨ r.qual = []) :
    ∃ l', SequenceRecord.mergeRange (r :: rs) = some l' := by
  obtain ⟨⟨tmp, tot⟩, hacc⟩ := mergeRangeAcc_isSome (r :: rs) (List.replicate r.qual.length 0) 0
    (by
      intro x hx
      rcases List.mem_cons.1 hx with rfl | hx
      · simp
      · simpa using hq x hx)
  obtain ⟨h1, h2, h3⟩ := mergeRangeAcc_spec _ _ _ _ _ hacc
  have htot' : tot = totalCount (r :: rs) % counterMod := by
    have := h3 (by decide)
    rw [← Nat.mod_eq_of_lt this, h2, Nat.zero_add]
  simp only [SequenceRecord.mergeRange, hacc]
  split
  · rename_i hc
    exfalso
    rcases htot with h | h
    · exact h (htot' ▸ hc.1)
    · apply hc.2
      have : tmp.length = 0 := by rw [h1]; simp [h]
      exact List.length_eq_zero.1 this
  · exact ⟨_, rfl⟩

theorem collapsedFrom_append (buf : List SequenceRecord) :
    ∀ (xs ys : List SequenceRecord) (p : Nat),
      CollapsedFrom buf p (xs ++ ys) ↔ CollapsedFrom buf p xs ∧ CollapsedFrom buf (p + xs.length) ys
  | [], ys, p => by simp [CollapsedFrom]
  | x :: xs, ys, p => by
    have e : p + 1 + xs.length = p + (xs.length + 1) := by omega
    show CollapsedAt buf p x ∧ CollapsedFrom buf (p + 1) (xs ++ ys) ↔ _
    rw [collapsedFrom_append buf xs ys (p + 1), e]
    simp only [CollapsedFrom, List.length_cons, and_assoc]

theorem collapsedFrom_get (buf : List SequenceRecord) :
    ∀ (os : List SequenceRecord) (p j : Nat) (o : SequenceRecord),
      CollapsedFrom buf p os → os[j]? = some o → CollapsedAt buf (p + j) o
  | [], _, _, _, _, h => by simp at h
  | x :: os, p, 0, o, hc, h => by
    simp only [List.getElem?_cons_zero, Option.some.injEq] at h
    subst h
    exact hc.1
  | x :: os, p, j + 1, o, hc, h => by
    simp only [List.getElem?_cons_succ] at h
    have := collapsedFrom_get buf os (p + 1) j o hc.2 h
    have e : p + 1 + j = p + (j + 1) := by omega
    rwa [e] at this

theorem tagCount_append (s : List Nat) (l1 l2 : List SequenceRecord) :
    tagCount s (l1 ++ l2) = tagCount s l1 + tagCount s l2 := by
  simp [tagCount]

theorem tagCount_cons (s : List Nat) (r : SequenceRecord) (l : List SequenceRecord) :
    tagCount s (r :: l) = (if r.tag = s then r.overall else 0) + tagCount s l := by
  by_cases h : r.tag = s <;> simp [tagCount, List.filter_cons, h]

theorem tagCount_eq_zero (s : List Nat) (l : List SequenceRecord) (h : ∀ r ∈ l, r.tag ≠ s) :
    tagCount s l = 0 := by
  induction l with
  | nil => rfl
  | cons r l ih =>
    rw [tagCount_cons, if_neg (h r (by simp)), ih (fun x hx => h x (List.mem_cons_of_mem _ hx))]

theorem tagCount_eq_total (s : List Nat) (l : List SequenceRecord) (h : ∀ r ∈ l, r.tag = s) :
    tagCount s l = totalCount l := by
  induction l with
  | nil => rfl
  | cons r l ih =>
    rw [tagCount_cons, if_pos (h r (by simp)), ih (fun x hx => h x (List.mem_cons_of_mem _ hx))]
    simp [totalCount]

theorem tagCount_le_total (s : List Nat) (l : List SequenceRecord) : tagCount s l ≤ totalCount l := by
  induction l with
  | nil => simp [tagCount, totalCount]
  | cons r l ih =>
    rw [tagCount_cons]
    simp only [totalCount, List.map_cons, List.sum_cons] at ih ⊢
    split <;> omega

theorem totalCount_append (l1 l2 : List SequenceRecord) :
    totalCount (l1 ++ l2) = totalCount l1 + totalCount l2 := by
  simp [totalCount]

theorem totalCount_zeroed (l : List SequenceRecord) :
    totalCount (l.map SequenceRecord.zeroed) = 0 := by
  induction l with
  | nil => rfl
  | cons r l ih =>
    simp only [totalCount, List.map_cons, List.sum_cons] at ih ⊢
    rw [ih]
    rfl

theorem countP_isAlive_zeroed (l : List SequenceRecord) :
    (l.map SequenceRecord.zeroed).countP isAlive = 0 := by
  induction l with
  | nil => rfl
  | cons r l ih => simp [List.countP_cons, ih, isAlive, SequenceRecord.zeroed]

theorem getElem?_mid (D : List SequenceRecord) (x : SequenceRecord) (R : List SequenceRecord) :
    (D ++ x :: R)[D.length]? = some x := by
  rw [List.getElem?_append_right (le_refl _)]
  simp

theorem getElem?_last_of_append (D : List SequenceRecord) (hD : D ≠ []) (R : List SequenceRecord) :
    ∃ d ∈ D, (D ++ R)[D.length - 1]? = some d := by
  have hl : D.length - 1 < D.length := by
    have := List.length_pos.2 hD
    omega
  refine ⟨D[D.length - 1], List.getElem_mem _, ?_⟩
  rw [List.getElem?_append_left hl, List.getElem?_eq_getElem hl]

/-- The followers of a run, zeroed, are what a collapse leaves after the leader. -/
theorem followers_collapsedFrom (W : List SequenceRecord) (t : List Nat) :
    ∀ (fol pre R : List SequenceRecord), W = pre ++ fol ++ R → pre ≠ [] →
      (∀ d ∈ pre.getLast?, d.tag = t) → (∀ x ∈ fol, x.tag = t) →
      CollapsedFrom W pre.length (fol.map SequenceRecord.zeroed)
  | [], _, _, _, _, _, _ => trivial
  | x :: fol, pre, R, hW, hpre, hlast, hfol => by
    have hx : W[pre.length]? = some x := by
      rw [hW, List.append_assoc]
      exact getElem?_mid pre x (fol ++ R)
    have hprev : ∃ d, W[pre.length - 1]? = some d ∧ d.tag = t := by
      have hl : pre.length - 1 < pre.length := by
        have := List.length_pos.2 hpre
        omega
      refine ⟨pre[pre.length - 1], ?_, ?_⟩
      · rw [hW, List.append_assoc, List.getElem?_append_left hl, List.getElem?_eq_getElem hl]
      · apply hlast
        rw [List.getLast?_eq_getElem?, List.getElem?_eq_getElem hl]
        rfl
    obtain ⟨d, hd, hdt⟩ := hprev
    have hnl : ¬ isLeader W pre.length := by
      intro h
      rcases h with h | h
      · exact hpre (List.length_eq_zero.1 h)
      · apply h
        rw [hd, hx]
        simp [hdt, hfol x (by simp)]
    refine ⟨⟨x, hx, rfl, rfl, rfl, fun h => absurd h hnl, fun _ => rfl, fun h => absurd h hnl⟩, ?_⟩
    have := followers_collapsedFrom W t fol (pre ++ [x]) R (by simp [hW]) (by simp)
      (by simp [hfol x (by simp)]) (fun y hy => hfol y (List.mem_cons_of_mem _ hy))
    simpa using this

/-- A closed run, with the total of its counts on the leader and the followers
zeroed, is what a collapse leaves at the positions of the run. -/
theorem run_collapsedFrom (W D fol R : List SequenceRecord) (base leader : SequenceRecord)
    (hW : W = D ++ base :: fol ++ R)
    (hD : ∀ d ∈ D, d.tag ≠ base.tag) (hfol : ∀ x ∈ fol, x.tag = base.tag)
    (hR : ∀ y ∈ R, y.tag ≠ base.tag)
    (htag : leader.tag = base.tag) (hbp : leader.bpOffset = base.bpOffset)
    (hq : leader.qual.length = base.qual.length)
    (hov : leader.overall = totalCount (base :: fol))
    (hsingle : fol = [] → leader = base) :
    CollapsedFrom W D.length (leader :: fol.map SequenceRecord.zeroed) := by
  have hbase : W[D.length]? = some base := by
    rw [hW, List.append_assoc]
    exact getElem?_mid D base (fol ++ R)
  have hlead : isLeader W D.length := by
    by_cases hDe : D = []
    · left
      simp [hDe]
    · right
      obtain ⟨d, hdm, hd⟩ := getElem?_last_of_append D hDe (base :: fol ++ R)
      rw [hW, List.append_assoc, hd, ← List.append_assoc, ← hW, hbase]
      simpa using hD d hdm
  refine ⟨⟨base, hbase, htag, hbp, hq, fun _ => ?_, fun h => absurd hlead h, fun _ he => ?_⟩, ?_⟩
  · rw [hov, hW, tagCount_append, tagCount_append, tagCount_eq_zero _ D hD, tagCount_eq_zero _ R hR,
      tagCount_eq_total _ (base :: fol)]
    · omega
    · intro r hr
      rcases List.mem_cons.1 hr with rfl | hr
      · rfl
      · exact hfol r hr
  · cases fol with
    | nil => exact hsingle rfl
    | cons x fol =>
      exfalso
      apply he
      have : W[D.length + 1]? = some x := by
        rw [hW, List.append_assoc, List.getElem?_append_right (by omega)]
        simp
      rw [this, hbase]
      simp [hfol x (by simp)]
  · have := followers_collapsedFrom W base.tag fol (D ++ [base]) R (by simp [hW]) (by simp)
      (by simp) hfol
    simpa using this

theorem closeRun_spec (W D fol R : List SequenceRecord) (base : SequenceRecord)
    (hc : Collapsible W) (hW : W = D ++ base :: fol ++ R)
    (hD : ∀ d ∈ D, d.tag ≠ base.tag) (hfol : ∀ x ∈ fol, x.tag = base.tag)
    (hR : ∀ y ∈ R, y.tag ≠ base.tag) :
    (fol ≠ [] → ∃ run, SequenceRecord.mergeRange (base :: fol) = some run ∧
      CollapsedFrom W D.length run ∧ run.length = fol.length + 1 ∧ run.countP isAlive = 1) ∧
    (fol = [] → CollapsedFrom W D.length [base] ∧ [base].countP isAlive = 1) := by
  have hbW : base ∈ W := by rw [hW]; simp
  have hfW : ∀ x ∈ fol, x ∈ W := fun x hx => by rw [hW]; simp [hx]
  have hrun : ∀ r ∈ base :: fol, r.tag = base.tag := by
    intro r hr
    rcases List.mem_cons.1 hr with rfl | hr
    · rfl
    · exact hfol r hr
  have htc : tagCount base.tag W = totalCount (base :: fol) := by
    rw [hW, tagCount_append, tagCount_append, tagCount_eq_zero _ D hD, tagCount_eq_zero _ R hR,
      tagCount_eq_total _ (base :: fol) hrun]
    omega
  have hlt : totalCount (base :: fol) < counterMod := by
    rw [← htc]
    exact hc.bound _
  have hge : 1 ≤ totalCount (base :: fol) := by
    have := hc.pos base hbW
    simp only [totalCount, List.map_cons, List.sum_cons]
    omega
  constructor
  · intro hne
    obtain ⟨run, hrunEq⟩ := mergeRange_isSome base fol
      (fun x hx => le_of_eq (hc.aligned x (hfW x hx) base hbW (hfol x hx)))
      (Or.inl (by rw [Nat.mod_eq_of_lt hlt]; omega))
    obtain ⟨q, hq, hshape⟩ := mergeRange_shape base fol run hrunEq
    rw [Nat.mod_eq_of_lt hlt] at hshape
    refine ⟨run, hrunEq, ?_, ?_, ?_⟩
    · rw [hshape]
      refine run_collapsedFrom W D fol R base _ hW hD hfol hR rfl rfl hq rfl ?_
      exact fun hf => absurd hf hne
    · rw [hshape]
      simp
    · rw [hshape, List.countP_cons, countP_isAlive_zeroed]
      simp only [isAlive]
      simp
      omega
  · intro hf
    subst hf
    refine ⟨run_collapsedFrom W D [] R base base hW hD hfol hR rfl rfl rfl (by simp [totalCount])
      (fun _ => rfl), ?_⟩
    have := hc.pos base hbW
    simp [List.countP_cons, isAlive]
    omega

theorem sorted_mid (D : List SequenceRecord) (base : SequenceRecord)
    (fol : List SequenceRecord) (x : SequenceRecord) (rest : List SequenceRecord)
    (hs : SortedBySequence (D ++ base :: fol ++ x :: rest)) :
    base.tag ≤ x.tag ∧ ∀ y ∈ rest, x.tag ≤ y.tag := by
  unfold SortedBySequence at hs
  rw [List.append_assoc] at hs
  have h1 := (List.pairwise_append.1 hs).2.1
  have h2 := List.pairwise_cons.1 h1
  have h3 := (List.pairwise_append.1 h2.2).2.1
  exact ⟨h2.1 x (by simp), (List.pairwise_cons.1 h3).1⟩

/-- The loop of `collapseBufferRange_` on a sorted buffer `W` that meets `Collapsible`:
it returns, and leaves at every position what `CollapsedAt` describes; the returned
count is the number of records left with a positive count. -/
theorem collapseLoop_spec (W : List SequenceRecord) (hs : SortedBySequence W)
    (hc : Collapsible W) :
    ∀ (rest D done fol : List SequenceRecord) (base : SequenceRecord) (ip : Bool) (c : Nat),
      W = D ++ base :: fol ++ rest → done.length = D.length → CollapsedFrom W 0 done →
      (ip = true ↔ fol ≠ []) → (∀ x ∈ fol, x.tag = base.tag) → (∀ d ∈ D, d.tag < base.tag) →
      c = done.countP isAlive + 1 →
      ∃ out b n, collapseLoop eqSequence done base fol ip c rest = some (out, b, n) ∧
        out.length = W.length ∧ CollapsedFrom W 0 out ∧ n = out.countP isAlive ∧ b < out.length
  | [], D, done, fol, base, ip, c, hW, hlen, hdone, hip, hfol, hD, hcnt => by
    obtain ⟨h1, h2⟩ := closeRun_spec W D fol [] base hc hW (fun d hd => ne_of_lt (hD d hd)) hfol
      (by simp)
    have hWl : W.length = D.length + (fol.length + 1) := by simp [hW]
    by_cases hf : fol = []
    · have hipf : ip = false := by
        cases ip
        · rfl
        · exact absurd hf (hip.1 rfl)
      obtain ⟨h3, h4⟩ := h2 hf
      subst hf
      refine ⟨done ++ [base], done.length, c, by simp [collapseLoop, hipf], by simp [hWl, hlen],
        ?_, ?_, by simp⟩
      · rw [collapsedFrom_append]
        exact ⟨hdone, by simpa [hlen] using h3⟩
      · rw [List.countP_append, h4, hcnt]
    · have hipt : ip = true := hip.2 hf
      obtain ⟨run, hr1, hr2, hr3, hr4⟩ := h1 hf
      refine ⟨done ++ run, done.length, c, by simp [collapseLoop, hipt, hr1],
        by simp [hWl, hlen, hr3], ?_, ?_, by simp [hr3]⟩
      · rw [collapsedFrom_append]
        exact ⟨hdone, by simpa [hlen] using hr2⟩
      · rw [List.countP_append, hr4, hcnt]
  | x :: rest, D, done, fol, base, ip, c, hW, hlen, hdone, hip, hfol, hD, hcnt => by
    by_cases hx : x.tag = base.tag
    · have heq : eqSequence base x = true := by simp [eqSequence, hx]
      obtain ⟨out, b, n, h⟩ := collapseLoop_spec W hs hc rest D done (fol ++ [x]) base true c
        (by simp [hW]) hlen hdone (by simp)
        (by
          intro y hy
          rcases List.mem_append.1 hy with hy | hy
          · exact hfol y hy
          · simp only [List.mem_singleton] at hy
            rw [hy, hx]) hD hcnt
      exact ⟨out, b, n, by simp only [collapseLoop, heq, if_true]; exact h.1, h.2⟩
    · have heq : eqSequence base x = false := by
        simp only [eqSequence, decide_eq_false_iff_not]
        exact fun h => hx h.symm
      obtain ⟨hbx, hxr⟩ := sorted_mid D base fol x rest (hW ▸ hs)
      have hlt : base.tag < x.tag := lt_of_le_of_ne hbx (fun h => hx h.symm)
      obtain ⟨h1, h2⟩ := closeRun_spec W D fol (x :: rest) base hc hW
        (fun d hd => ne_of_lt (hD d hd)) hfol
        (by
          intro y hy
          rcases List.mem_cons.1 hy with rfl | hy
          · exact hx
          · exact ne_of_gt (lt_of_lt_of_le hlt (hxr y hy)))
      have hD' : ∀ d ∈ D ++ base :: fol, d.tag < x.tag := by
        intro d hd
        rcases List.mem_append.1 hd with hd | hd
        · exact lt_trans (hD d hd) hlt
        · rcases List.mem_cons.1 hd with rfl | hd
          · exact hlt
          · rw [hfol d hd]
            exact hlt
      by_cases hf : fol = []
      · have hipf : ip = false := by
          cases ip
          · rfl
          · exact absurd hf (hip.1 rfl)
        obtain ⟨h3, h4⟩ := h2 hf
        subst hf
        obtain ⟨out, b, n, h⟩ := collapseLoop_spec W hs hc rest (D ++ [base]) (done ++ [base]) [] x
          false (c + 1) (by simp [hW]) (by simp [hlen])
          (by
            rw [collapsedFrom_append]
            exact ⟨hdone, by simpa [hlen] using h3⟩)
          (by simp) (by simp) hD' (by rw [List.countP_append, h4, hcnt])
        exact ⟨out, b, n, by simpa [collapseLoop, heq, hipf] using h.1, h.2⟩
      · have hipt : ip = true := hip.2 hf
        obtain ⟨run, hr1, hr2, hr3, hr4⟩ := h1 hf
        obtain ⟨out, b, n, h⟩ := collapseLoop_spec W hs hc rest (D ++ base :: fol) (done ++ run) [] x
          false (c + 1) (by simp [hW]) (by simp [hlen, hr3])
          (by
            rw [collapsedFrom_append]
            exact ⟨hdone, by simpa [hlen] using hr2⟩)
          (by simp) (by simp) hD' (by rw [List.countP_append, hr4, hcnt])
        exact ⟨out, b, n, by simpa [collapseLoop, heq, hipt, hr1] using h.1, h.2⟩

theorem collapseBufferRange_spec (buf : List SequenceRecord) (hne : buf ≠ [])
    (hs : SortedBySequence buf) (hc : Collapsible buf) :
    ∃ out b n, collapseBufferRange_ eqSequence buf = some (out, b, n) ∧
      out.length = buf.length ∧ CollapsedFrom buf 0 out ∧ n = out.countP isAlive ∧
      b < out.length := by
  cases buf with
  | nil => exact absurd rfl hne
  | cons r rest =>
    exact collapseLoop_spec (r :: rest) hs hc rest [] [] [] r false 1 rfl rfl trivial (by simp)
      (by simp) (by simp) (by simp)

theorem computeMaxThreads_single (len nThreads : Nat) (h : nThreads ≤ 1 ∨ len < 2048) :
    ¬ computeMaxThreads_ len nThreads (2 ^ 10) > 1 := by
  unfold computeMaxThreads_
  rcases h with h | h
  · omega
  · have : len / 2 ^ 10 ≤ 1 := by
      have : len / 1024 < 2 := (Nat.div_lt_iff_lt_mul (by decide)).2 (by omega)
      norm_num
      omega
    omega

/-- C3 (amended). `Buffer::collapse` with one thread on a non-empty buffer sorted by
sequence, with all counts at least 1, the counts of every sequence summing to less than
`2 ^ 32` and equal sequences carrying qualities of equal length: the call returns, the
buffer keeps its length and every record its sequence; the first record of each run of
equal sequences (its leader) carries the sum of the counts of that sequence, every
other record of the run has count 0, and a record that forms a run by itself is
unchanged. -/
theorem collapse_single_thread_runs (buf : Buffer) (hne : buf ≠ [])
    (hs : SortedBySequence buf) (hpos : ∀ r ∈ buf, 1 ≤ r.overall)
    (hbound : ∀ s, tagCount s buf < 2 ^ 32) (hal : QualAligned buf) :
    ∃ out n, Buffer.collapse eqSequence 1 buf = some (out, n) ∧ out.length = buf.length ∧
      ∀ i w o, buf[i]? = some w → out[i]? = some o →
        o.tag = w.tag ∧ (isLeader buf i → o.overall = tagCount w.tag buf) ∧
        (¬ isLeader buf i → o.overall = 0) ∧ (isLeader buf i → isRunEnd buf i → o = w) := by
  obtain ⟨out, b, n, h1, h2, h3, -, -⟩ := collapseBufferRange_spec buf hne hs ⟨hpos, hbound, hal⟩
  refine ⟨out, n, ?_, h2, ?_⟩
  · simp only [Buffer.collapse, if_neg (computeMaxThreads_single buf.length 1 (Or.inl (le_refl _))),
      h1, Option.map_some']
  · intro i w o hw ho
    obtain ⟨w', hw', e1, -, -, e2, e3, e4⟩ := collapsedFrom_get buf out 0 i o h3 ho
    rw [Nat.zero_add] at hw' e2 e3 e4
    rw [hw] at hw'
    cases hw'
    exact ⟨e1, e2, e3, e4⟩

theorem tagCount_lt_of_total (buf : List SequenceRecord) (h : totalCount buf < 2 ^ 32) (s : List Nat) :
    tagCount s buf < 2 ^ 32 :=
  lt_of_le_of_lt (tagCount_le_total s buf) h

theorem collapse_single_thread_runs_witness :
    ([⟨[0], [33], 1, 0⟩, ⟨[0], [35], 2, 0⟩, ⟨[1], [40], 1, 0⟩] : Buffer) ≠ [] ∧
    SortedBySequence [⟨[0], [33], 1, 0⟩, ⟨[0], [35], 2, 0⟩, ⟨[1], [40], 1, 0⟩] ∧
    ∃ out n, Buffer.collapse eqSequence 1 [⟨[0], [33], 1, 0⟩, ⟨[0], [35], 2, 0⟩, ⟨[1], [40], 1, 0⟩] =
        some (out, n) ∧ out.length = 3 := by
  refine ⟨by decide, by unfold SortedBySequence; decide, ?_⟩
  obtain ⟨out, n, h1, h2, -⟩ := collapse_single_thread_runs
    [⟨[0], [33], 1, 0⟩, ⟨[0], [35], 2, 0⟩, ⟨[1], [40], 1, 0⟩] (by decide)
    (by unfold SortedBySequence; decide) (by decide)
    (tagCount_lt_of_total _ (by decide)) (by unfold QualAligned; decide)
  exact ⟨out, n, h1, h2⟩

/-- C3 (counterexample). A sorted buffer of two records with the same sequence and
count `2 ^ 31` each: after the collapse the leader does not carry the sum
`2 ^ 31 + 2 ^ 31` of the run, its 32-bit count has wrapped to 0. -/
theorem collapse_leader_count_wraps :
    SortedBySequence [⟨[0], [], 2 ^ 31, 0⟩, ⟨[0], [], 2 ^ 31, 0⟩] ∧
    (∀ r ∈ ([⟨[0], [], 2 ^ 31, 0⟩, ⟨[0], [], 2 ^ 31, 0⟩] : Buffer), 1 ≤ r.overall) ∧
    ¬ ∃ out n o, Buffer.collapse eqSequence 1 [⟨[0], [], 2 ^ 31, 0⟩, ⟨[0], [], 2 ^ 31, 0⟩] =
        some (out, n) ∧ out[0]? = some o ∧ o.overall = 2 ^ 31 + 2 ^ 31 := by
  refine ⟨by unfold SortedBySequence; decide, by decide, ?_⟩
  rintro ⟨out, n, o, h, ho, hov⟩
  have h0 : Buffer.collapse eqSequence 1 [⟨[0], [], 2 ^ 31, 0⟩, ⟨[0], [], 2 ^ 31, 0⟩] =
      some ([⟨[0], [], 0, 0⟩, ⟨[0], [], 0, 0⟩], 1) := by decide
  rw [h0] at h
  cases h
  cases ho
  exact absurd hov (by decide)

theorem sim_refl (w : SequenceRecord) : Sim w w := ⟨rfl, rfl, rfl⟩

theorem forall₂_sim_refl : ∀ (l : List SequenceRecord), List.Forall₂ Sim l l
  | [] => List.Forall₂.nil
  | x :: l => List.Forall₂.cons (sim_refl x) (forall₂_sim_refl l)

theorem forall₂_sim_zeroed : ∀ (l : List SequenceRecord),
    List.Forall₂ Sim l (l.map SequenceRecord.zeroed)
  | [] => List.Forall₂.nil
  | _ :: l => List.Forall₂.cons ⟨rfl, rfl, rfl⟩ (forall₂_sim_zeroed l)

theorem forall₂_append {α β : Type} {R : α → β → Prop} {a1 a2 : List α} {b1 b2 : List β}
    (h1 : List.Forall₂ R a1 b1) (h2 : List.Forall₂ R a2 b2) :
    List.Forall₂ R (a1 ++ a2) (b1 ++ b2) := by
  induction h1 with
  | nil => simpa using h2
  | cons h _ ih => exact List.Forall₂.cons h ih

/-- Result of the range merge, whenever it returns: the records keep sequence, quality
length and offset, and the counts add up to the wrapped total of the run. -/
theorem mergeRange_sim (r : SequenceRecord) (rs run : List SequenceRecord)
    (h : SequenceRecord.mergeRange (r :: rs) = some run) :
    List.Forall₂ Sim (r :: rs) run ∧ totalCount run = totalCount (r :: rs) % counterMod := by
  obtain ⟨q, hq, hshape⟩ := mergeRange_shape r rs run h
  subst hshape
  refine ⟨List.Forall₂.cons ⟨rfl, hq, rfl⟩ (forall₂_sim_zeroed rs), ?_⟩
  have := totalCount_zeroed rs
  simp only [totalCount, List.map_cons, List.sum_cons] at this ⊢
  omega

theorem totalCount_cons (r : SequenceRecord) (l : List SequenceRecord) :
    totalCount (r :: l) = r.overall + totalCount l := by
  simp [totalCount]

/-- Shape of the result of the loop of `collapseBufferRange_`, whenever it returns and
whatever the comparator: the records before `itBase` are kept, the others keep
sequence, quality length and offset, the final `itBase` lies in the range, and the
counts are conserved when their sum fits the counter. -/
theorem collapseLoop_shape (eq : SequenceRecord → SequenceRecord → Bool) :
    ∀ (rest done fol : List SequenceRecord) (base : SequenceRecord) (ip : Bool) (c : Nat)
      (out : List SequenceRecord) (b n : Nat),
      collapseLoop eq done base fol ip c rest = some (out, b, n) →
      ∃ out', out = done ++ out' ∧ List.Forall₂ Sim (base :: fol ++ rest) out' ∧
        done.length ≤ b ∧ b < out.length ∧
        (totalCount (base :: fol ++ rest) < counterMod →
          totalCount out' = totalCount (base :: fol ++ rest))
  | [], done, fol, base, ip, c, out, b, n, h => by
    simp only [collapseLoop] at h
    cases ip with
    | false =>
      simp only [Bool.false_eq_true, if_false, Option.some.injEq, Prod.mk.injEq] at h
      obtain ⟨rfl, rfl, rfl⟩ := h
      exact ⟨base :: fol, rfl, by simpa using forall₂_sim_refl (base :: fol), le_refl _,
        by simp, fun _ => by simp⟩
    | true =>
      simp only [if_true, Option.map_eq_some', Prod.mk.injEq] at h
      obtain ⟨run, hrun, rfl, rfl, rfl⟩ := h
      obtain ⟨hs, ht⟩ := mergeRange_sim base fol run hrun
      refine ⟨run, rfl, by simpa using hs, le_refl _, ?_, fun hb => ?_⟩
      · have := hs.length_eq
        simp only [List.length_cons] at this
        simp
        omega
      · rw [ht]
        simp only [List.append_nil] at hb ⊢
        exact Nat.mod_eq_of_lt hb
  | x :: rest, done, fol, base, ip, c, out, b, n, h => by
    simp only [collapseLoop] at h
    by_cases he : eq base x = true
    · simp only [he, if_true] at h
      obtain ⟨out', h1, h2, h3, h4, h5⟩ := collapseLoop_shape eq rest done (fol ++ [x]) base true c
        out b n h
      refine ⟨out', h1, by simpa using h2, h3, h4, fun hb => ?_⟩
      have := h5 (by simpa using hb)
      simpa using this
    · simp only [he, if_false] at h
      have key : ∀ (run : List SequenceRecord), List.Forall₂ Sim (base :: fol) run →
          (totalCount (base :: fol) < counterMod → totalCount run = totalCount (base :: fol)) →
          collapseLoop eq (done ++ run) x [] false (c + 1) rest = some (out, b, n) →
          ∃ out', out = done ++ out' ∧ List.Forall₂ Sim (base :: fol ++ x :: rest) out' ∧
            done.length ≤ b ∧ b < out.length ∧
            (totalCount (base :: fol ++ x :: rest) < counterMod →
              totalCount out' = totalCount (base :: fol ++ x :: rest)) := by
        intro run hsim htot hrec
        obtain ⟨out', h1, h2, h3, h4, h5⟩ := collapseLoop_shape eq rest (done ++ run) [] x false
          (c + 1) out b n hrec
        refine ⟨run ++ out', by rw [h1, List.append_assoc], ?_, ?_, h4, fun hb => ?_⟩
        · have := forall₂_append hsim h2
          simpa using this
        · simp only [List.length_append] at h3
          omega
        · have e : base :: fol ++ x :: rest = (base :: fol) ++ (x :: [] ++ rest) := by simp
          rw [e, totalCount_append] at hb ⊢
          rw [totalCount_append, htot (by omega), h5 (by omega)]
      cases ip with
      | false =>
        simp only [Bool.false_eq_true, if_false] at h
        exact key (base :: fol) (forall₂_sim_refl _) (fun _ => rfl) h
      | true =>
        simp only [if_true] at h
        cases hm : SequenceRecord.mergeRange (base :: fol) with
        | none => simp [hm] at h
        | some run =>
          simp only [hm] at h
          obtain ⟨hs, ht⟩ := mergeRange_sim base fol run hm
          exact key run hs (fun hb => by rw [ht]; exact Nat.mod_eq_of_lt hb) h

/-- Shape of the result of `collapseBufferRange_`, whenever it returns. -/
theorem collapseBufferRange_shape (eq : SequenceRecord → SequenceRecord → Bool)
    (l out : List SequenceRecord) (b n : Nat)
    (h : collapseBufferRange_ eq l = some (out, b, n)) :
    List.Forall₂ Sim l out ∧ (l ≠ [] → b < out.length) ∧
      (totalCount l < counterMod → totalCount out = totalCount l) := by
  cases l with
  | nil =>
    simp only [collapseBufferRange_, Option.some.injEq, Prod.mk.injEq] at h
    obtain ⟨rfl, rfl, rfl⟩ := h
    exact ⟨List.Forall₂.nil, fun h => absurd rfl h, fun _ => rfl⟩
  | cons r rest =>
    obtain ⟨out', h1, h2, -, h4, h5⟩ := collapseLoop_shape eq rest [] [] r false 1 out b n h
    simp only [List.nil_append] at h1
    subst h1
    exact ⟨by simpa using h2, fun _ => h4, fun hb => by simpa using h5 (by simpa using hb)⟩

theorem boundsOf_eq_cons (lo : Nat) (cs : List (List SequenceRecord)) :
    boundsOf lo cs = lo :: (boundsOf lo cs).tail := by
  cases cs <;> rfl

theorem collapseRegions_chunks (eq : SequenceRecord → SequenceRecord → Bool) :
    ∀ (chunks : List (List SequenceRecord)) (P : List SequenceRecord),
      collapseRegions eq (P ++ chunks.flatten) (boundsOf P.length chunks) =
        (collapseChunks eq chunks).map
          (fun outs => (P ++ (outs.map (fun o => o.1)).flatten, metaOf P.length outs))
  | [], P => by simp [boundsOf, collapseRegions, collapseChunks, metaOf]
  | c :: cs, P => by
    have hb : boundsOf P.length (c :: cs) =
        P.length :: (P.length + c.length) :: (boundsOf (P.length + c.length) cs).tail := by
      rw [boundsOf, boundsOf_eq_cons (P.length + c.length) cs]
      rfl
    rw [hb]
    have hslice : ((P ++ (c :: cs).flatten).drop P.length).take (P.length + c.length - P.length) = c := by
      simp
    simp only [collapseRegions, collapseRegion, hslice, collapseChunks]
    cases hc : collapseBufferRange_ eq c with
    | none => simp
    | some o =>
      obtain ⟨out, b, n⟩ := o
      have hlen : out.length = c.length :=
        ((collapseBufferRange_shape eq c out b n hc).1.length_eq).symm
      have ih := collapseRegions_chunks eq cs (P ++ out)
      have e1 : (P ++ out).length = P.length + c.length := by simp [hlen]
      rw [e1, boundsOf_eq_cons] at ih
      have e2 : (P ++ (c :: cs).flatten).take P.length ++ out ++
          (P ++ (c :: cs).flatten).drop (P.length + c.length) = P ++ out ++ cs.flatten := by
        simp [List.take_append_eq_append_take, List.drop_append_eq_append_drop]
      simp only [Option.map_some', e2, ih]
      cases collapseChunks eq cs with
      | none => simp
      | some os => simp [metaOf, hlen, List.append_assoc]

theorem getElem?_set_other (l : List SequenceRecord) (i j : Nat) (a : SequenceRecord) (h : i ≠ j) :
    (l.set i a)[j]? = l[j]? := by
  simp [List.getElem?_set, h]

theorem totalCount_set : ∀ (l : List SequenceRecord) (i : Nat) (a w : SequenceRecord),
    l[i]? = some w → totalCount (l.set i a) + w.overall = totalCount l + a.overall
  | [], _, _, _, h => by simp at h
  | x :: l, 0, a, w, h => by
    simp only [List.getElem?_cons_zero, Option.some.injEq] at h
    subst h
    simp only [List.set_cons_zero, totalCount_cons]
    omega
  | x :: l, i + 1, a, w, h => by
    simp only [List.getElem?_cons_succ] at h
    have := totalCount_set l i a w h
    simp only [List.set_cons_succ, totalCount_cons]
    omega

theorem totalCount_modify_zero : ∀ (l : List SequenceRecord) (j : Nat) (w : SequenceRecord),
    l[j]? = some w →
      totalCount (l.modify (fun r => { r with overall := 0 }) j) + w.overall = totalCount l
  | [], _, _, h => by simp at h
  | x :: l, 0, w, h => by
    simp only [List.getElem?_cons_zero, Option.some.injEq] at h
    subst h
    simp only [List.modify, List.modifyHead, List.modifyTailIdx, totalCount_cons]
    omega
  | x :: l, j + 1, w, h => by
    simp only [List.getElem?_cons_succ] at h
    have := totalCount_modify_zero l j w h
    simp only [List.modify_succ_cons, totalCount_cons]
    omega

theorem le_totalCount (l : List SequenceRecord) (i : Nat) (w : SequenceRecord) (h : l[i]? = some w) :
    w.overall ≤ totalCount l := by
  have := totalCount_modify_zero l i w h
  omega

theorem two_le_totalCount (l : List SequenceRecord) (i j : Nat) (x y : SequenceRecord)
    (hi : l[i]? = some x) (hj : l[j]? = some y) (hne : i ≠ j) :
    x.overall + y.overall ≤ totalCount l := by
  have h1 := totalCount_set l i { x with overall := 0 } x hi
  have h2 := le_totalCount (l.set i { x with overall := 0 }) j y
    (by rw [getElem?_set_other _ _ _ _ hne]; exact hj)
  simp only at h1
  omega

theorem forall₂_sim_set : ∀ (W l : List SequenceRecord) (i : Nat) (a w : SequenceRecord),
    List.Forall₂ Sim W l → l[i]? = some w → Sim w a → List.Forall₂ Sim W (l.set i a)
  | _, _, _, _, _, List.Forall₂.nil, h, _ => by simp at h
  | _, _, 0, a, w, List.Forall₂.cons hx hl, h, hs => by
    simp only [List.getElem?_cons_zero, Option.some.injEq] at h
    subst h
    exact List.Forall₂.cons ⟨hs.1.trans hx.1, hs.2.1.trans hx.2.1, hs.2.2.trans hx.2.2⟩ hl
  | _, _, i + 1, a, w, List.Forall₂.cons hx hl, h, hs => by
    simp only [List.getElem?_cons_succ] at h
    exact List.Forall₂.cons hx (forall₂_sim_set _ _ i a w hl h hs)

theorem forall₂_sim_modify_zero : ∀ (W l : List SequenceRecord) (j : Nat),
    List.Forall₂ Sim W l → List.Forall₂ Sim W (l.modify (fun r => { r with overall := 0 }) j)
  | _, _, _, List.Forall₂.nil => by simp
  | _, _, 0, List.Forall₂.cons hx hl => by
    simp only [List.modify, List.modifyHead]
    exact List.Forall₂.cons ⟨hx.1, hx.2.1, hx.2.2⟩ hl
  | _, _, j + 1, List.Forall₂.cons hx hl => by
    simp only [List.modify_succ_cons]
    exact List.Forall₂.cons hx (forall₂_sim_modify_zero _ _ j hl)

theorem mergeQual_length (c1 c2 tot : Nat) :
    ∀ (qa qb q : List Nat), mergeQual c1 c2 tot qa qb = some q → q.length = qa.length
  | [], _, q, h => by
    simp only [mergeQual, Option.some.injEq] at h
    subst h
    rfl
  | _ :: _, [], _, h => by simp [mergeQual] at h
  | x :: qa, y :: qb, q, h => by
    simp only [mergeQual] at h
    split at h
    · simp at h
    · simp only [Option.map_eq_some'] at h
      obtain ⟨r, hr, rfl⟩ := h
      simp [mergeQual_length c1 c2 tot qa qb r hr]

theorem mergeQual_isSome (c1 c2 tot : Nat) :
    ∀ (qa qb : List Nat), qa.length ≤ qb.length → (tot ≠ 0 ∨ qa = []) →
      ∃ q, mergeQual c1 c2 tot qa qb = some q
  | [], _, _, _ => ⟨[], by simp [mergeQual]⟩
  | _ :: _, [], h, _ => by simp at h
  | x :: qa, y :: qb, h, ht => by
    have ht' : tot ≠ 0 := by
      rcases ht with ht | ht
      · exact ht
      · simp at ht
    obtain ⟨q, hq⟩ := mergeQual_isSome c1 c2 tot qa qb (by simpa using h) (Or.inl ht')
    exact ⟨toQAlpha ((weightU32 x c1 + weightU32 y c2) / tot) :: q, by simp [mergeQual, ht', hq]⟩

/-- Result of the pairwise merge, whenever it returns. -/
theorem merge_pair_shape (r1 r2 a b : SequenceRecord) (h : r1.merge r2 = some (a, b)) :
    Sim r1 a ∧ a.overall = (r1.overall + r2.overall) % counterMod ∧
      b = { r2 with overall := 0 } := by
  simp only [SequenceRecord.merge] at h
  cases hq : mergeQual r1.overall r2.overall ((r1.overall + r2.overall) % counterMod) r1.qual r2.qual with
  | none => simp [hq] at h
  | some q =>
    simp only [hq, Option.some.injEq, Prod.mk.injEq] at h
    obtain ⟨rfl, rfl⟩ := h
    exact ⟨⟨rfl, mergeQual_length _ _ _ _ _ _ hq, rfl⟩, rfl, rfl⟩

/-- The pairwise merge returns when the first quality string is not longer than the
second and the wrapped sum of the counts is not zero (or there are no qualities). -/
theorem merge_pair_isSome (r1 r2 : SequenceRecord) (hq : r1.qual.length ≤ r2.qual.length)
    (ht : (r1.overall + r2.overall) % counterMod ≠ 0 ∨ r1.qual = []) :
    ∃ a b, r1.merge r2 = some (a, b) := by
  obtain ⟨q, hq'⟩ := mergeQual_isSome r1.overall r2.overall
    ((r1.overall + r2.overall) % counterMod) r1.qual r2.qual hq ht
  exact ⟨⟨r1.tag, q, (r1.overall + r2.overall) % counterMod, r1.bpOffset⟩,
    ⟨r2.tag, r2.qual, 0, r2.bpOffset⟩, by simp only [SequenceRecord.merge, hq']⟩

/-- Result of the in-place pairwise merge, whenever it returns. -/
theorem mergeAt_shape (buf buf' : Buffer) (i j : Nat) (h : mergeAt buf i j = some buf') :
    ∃ l f a, buf[i]? = some l ∧ buf[j]? = some f ∧ Sim l a ∧
      a.overall = (l.overall + f.overall) % counterMod ∧
      buf' = (buf.set i a).modify (fun r => { r with overall := 0 }) j := by
  unfold mergeAt at h
  cases hi : buf[i]? with
  | none => simp [hi] at h
  | some l =>
    cases hj : buf[j]? with
    | none => simp [hi, hj] at h
    | some f =>
      simp only [hi, hj] at h
      cases hm : l.merge f with
      | none => simp [hm] at h
      | some p =>
        obtain ⟨a, b⟩ := p
        simp only [hm, Option.some.injEq] at h
        obtain ⟨h1, h2, -⟩ := merge_pair_shape l f a b hm
        exact ⟨l, f, a, rfl, rfl, h1, h2, h.symm⟩

theorem mergeAt_conserves (buf buf' : Buffer) (i j : Nat) (h : mergeAt buf i j = some buf')
    (hne : i ≠ j) (hb : totalCount buf < counterMod) :
    totalCount buf' = totalCount buf := by
  obtain ⟨l, f, a, hi, hj, -, ha, rfl⟩ := mergeAt_shape buf buf' i j h
  have h1 := totalCount_set buf i a l hi
  have h2 := totalCount_modify_zero (buf.set i a) j f (by rw [getElem?_set_other _ _ _ _ hne]; exact hj)
  have h3 := two_le_totalCount buf i j l f hi hj hne
  rw [Nat.mod_eq_of_lt (by omega)] at ha
  omega

/-- The stitching loop conserves the sum of the counts, whenever it returns, when
each last leader lies before the start of the next region. -/
theorem stitch_conserves (eq : SequenceRecord → SequenceRecord → Bool) :
    ∀ (meta : List (Nat × Nat)) (bs : List Nat) (buf : Buffer) (c : Nat) (buf' : Buffer) (c' : Nat),
      stitch eq buf c meta bs = some (buf', c') →
      List.Forall₂ (fun m b => m.1 < b) meta bs → totalCount buf < counterMod →
      totalCount buf' = totalCount buf
  | [], bs, buf, c, buf', c', h, _, _ => by
    simp only [stitch, Option.some.injEq, Prod.mk.injEq] at h
    rw [h.1]
  | m :: meta, [], buf, c, buf', c', h, hf, _ => by cases hf
  | m :: meta, b :: bs, buf, c, buf', c', h, hf, hb => by
    cases hf with
    | cons hmb hrest =>
      simp only [stitch] at h
      cases hl : buf[m.1]? with
      | none => simp [hl] at h
      | some l =>
        cases hfr : buf[b]? with
        | none => simp [hl, hfr] at h
        | some f =>
          simp only [hl, hfr] at h
          split at h
          · cases hm : mergeAt buf m.1 b with
            | none => simp [hm] at h
            | some buf1 =>
              simp only [hm] at h
              have e := mergeAt_conserves buf buf1 m.1 b hm (by omega) hb
              rw [stitch_conserves eq meta bs buf1 _ buf' c' h hrest (by omega), e]
          · exact stitch_conserves eq meta bs buf c buf' c' h hrest hb

theorem flatten_chunksOf (k : Nat) : ∀ (n : Nat) (l : List SequenceRecord),
    (chunksOf k n l).flatten = l
  | 0, l => by simp [chunksOf]
  | n + 1, l => by simp [chunksOf, flatten_chunksOf k n]

theorem boundsOf_chunksOf (k : Nat) : ∀ (n lo : Nat) (l : List SequenceRecord),
    n * k ≤ l.length →
      boundsOf lo (chunksOf k n l) =
        (List.range (n + 1)).map (fun i => lo + i * k) ++ [lo + l.length]
  | 0, lo, l, _ => by simp [chunksOf, boundsOf, List.range_succ]
  | n + 1, lo, l, h => by
    have hk : k ≤ l.length := by
      have : k ≤ (n + 1) * k := Nat.le_mul_of_pos_left k (by omega)
      omega
    have h' : n * k ≤ (l.drop k).length := by
      rw [List.length_drop]
      have : (n + 1) * k = n * k + k := by ring
      omega
    rw [chunksOf, boundsOf, boundsOf_chunksOf k n _ _ h', List.length_take, Nat.min_eq_left hk,
      List.length_drop, List.range_succ_eq_map (n + 1)]
    simp only [List.map_cons, List.map_map, List.cons_append, Nat.zero_mul, Nat.add_zero,
      List.cons.injEq, true_and]
    have e1 : lo + k + (l.length - k) = lo + l.length := by omega
    rw [e1]
    congr 1
    apply List.map_congr_left
    intro i _
    simp only [Function.comp, Nat.succ_eq_add_one]
    ring

theorem setBufferBounds_eq (buf : List SequenceRecord) (n : Nat) :
    setBufferBounds_ buf.length (n + 1) =
      boundsOf 0 (chunksOf (buf.length / (n + 1)) n buf) := by
  have h : n * (buf.length / (n + 1)) ≤ buf.length := by
    have h1 : (n + 1) * (buf.length / (n + 1)) ≤ buf.length := Nat.mul_div_le _ _
    have h2 : n * (buf.length / (n + 1)) ≤ (n + 1) * (buf.length / (n + 1)) :=
      Nat.mul_le_mul_right _ (by omega)
    omega
  rw [boundsOf_chunksOf _ n 0 buf h]
  simp [setBufferBounds_]

theorem chunksOf_ne_nil (k : Nat) (hk : 1 ≤ k) : ∀ (n : Nat) (l : List SequenceRecord),
    (n + 1) * k ≤ l.length → ∀ c ∈ chunksOf k n l, c ≠ []
  | 0, l, h, c, hc => by
    simp only [chunksOf, List.mem_singleton] at hc
    subst hc
    intro he
    simp [he] at h
    omega
  | n + 1, l, h, c, hc => by
    have e : (n + 1 + 1) * k = (n + 1) * k + k := by ring
    simp only [chunksOf, List.mem_cons] at hc
    rcases hc with rfl | hc
    · intro he
      have := congrArg List.length he
      simp only [List.length_take, List.length_nil] at this
      omega
    · exact chunksOf_ne_nil k hk n (l.drop k) (by rw [List.length_drop]; omega) c hc

theorem chunksOf_sublist (k : Nat) : ∀ (n : Nat) (l : List SequenceRecord),
    ∀ c ∈ chunksOf k n l, c.Sublist l
  | 0, l, c, hc => by
    simp only [chunksOf, List.mem_singleton] at hc
    subst hc
    exact List.Sublist.refl _
  | n + 1, l, c, hc => by
    simp only [chunksOf, List.mem_cons] at hc
    rcases hc with rfl | hc
    · exact List.take_sublist _ _
    · exact (chunksOf_sublist k n (l.drop k) c hc).trans (List.drop_sublist _ _)

theorem totalCount_flatten_le (chunks : List (List SequenceRecord)) :
    ∀ c ∈ chunks, totalCount c ≤ totalCount chunks.flatten := by
  induction chunks with
  | nil => simp
  | cons d ds ih =>
    intro c hc
    rw [List.flatten_cons, totalCount_append]
    rcases List.mem_cons.1 hc with rfl | hc
    · omega
    · have := ih c hc
      omega

theorem collapseChunks_conserves (eq : SequenceRecord → SequenceRecord → Bool) :
    ∀ (chunks : List (List SequenceRecord)) (outs : List (List SequenceRecord × Nat × Nat)),
      collapseChunks eq chunks = some outs → totalCount chunks.flatten < counterMod →
      totalCount (outs.map (fun o => o.1)).flatten = totalCount chunks.flatten
  | [], outs, h, _ => by
    simp only [collapseChunks, Option.some.injEq] at h
    subst h
    rfl
  | c :: cs, outs, h, hb => by
    simp only [collapseChunks] at h
    cases hc : collapseBufferRange_ eq c with
    | none => simp [hc] at h
    | some o =>
      simp only [hc, Option.map_eq_some'] at h
      obtain ⟨os, hos, rfl⟩ := h
      obtain ⟨out, b, n⟩ := o
      rw [List.flatten_cons, totalCount_append] at hb
      have h1 := (collapseBufferRange_shape eq c out b n hc).2.2 (by omega)
      have h2 := collapseChunks_conserves eq cs os hos (by omega)
      simp only [List.map_cons, List.flatten_cons, totalCount_append, h1, h2]

theorem meta_lt_bounds (eq : SequenceRecord → SequenceRecord → Bool) :
    ∀ (chunks : List (List SequenceRecord)) (outs : List (List SequenceRecord × Nat × Nat))
      (lo : Nat), collapseChunks eq chunks = some outs → (∀ c ∈ chunks, c ≠ []) →
      List.Forall₂ (fun m b => m.1 < b) (metaOf lo outs) (boundsOf lo chunks).tail
  | [], outs, lo, h, _ => by
    simp only [collapseChunks, Option.some.injEq] at h
    subst h
    exact List.Forall₂.nil
  | c :: cs, outs, lo, h, hne => by
    simp only [collapseChunks] at h
    cases hc : collapseBufferRange_ eq c with
    | none => simp [hc] at h
    | some o =>
      simp only [hc, Option.map_eq_some'] at h
      obtain ⟨os, hos, rfl⟩ := h
      obtain ⟨out, b, n⟩ := o
      obtain ⟨h1, h2, -⟩ := collapseBufferRange_shape eq c out b n hc
      have hlen : out.length = c.length := h1.length_eq.symm
      have ih := meta_lt_bounds eq cs os (lo + c.length) hos
        (fun d hd => hne d (List.mem_cons_of_mem _ hd))
      simp only [metaOf, boundsOf, List.tail_cons]
      rw [boundsOf_eq_cons, hlen]
      refine List.Forall₂.cons ?_ ih
      have := h2 (hne c (by simp))
      simp only
      omega

/-- `collapseRangeMT_` conserves the sum of the counts, whenever it returns, when the
regions are not empty and the sum fits the counter. -/
theorem collapseRangeMT_conserves (eq : SequenceRecord → SequenceRecord → Bool)
    (buf out : Buffer) (t n : Nat) (ht : 1 ≤ t) (hk : t ≤ buf.length)
    (h : collapseRangeMT_ eq t buf = some (out, n)) (hb : totalCount buf < counterMod) :
    totalCount out = totalCount buf := by
  obtain ⟨t', rfl⟩ : ∃ t', t = t' + 1 := ⟨t - 1, by omega⟩
  have hk1 : 1 ≤ buf.length / (t' + 1) := (Nat.le_div_iff_mul_le (by omega)).2 (by omega)
  unfold collapseRangeMT_ at h
  simp only at h
  have hreg := collapseRegions_chunks eq (chunksOf (buf.length / (t' + 1)) t' buf) []
  simp only [List.nil_append, List.length_nil, flatten_chunksOf] at hreg
  rw [setBufferBounds_eq, hreg] at h
  cases hc : collapseChunks eq (chunksOf (buf.length / (t' + 1)) t' buf) with
  | none => simp [hc] at h
  | some outs =>
    simp only [hc, Option.map_some'] at h
    have hcons := collapseChunks_conserves eq _ outs hc (by rw [flatten_chunksOf]; exact hb)
    rw [flatten_chunksOf] at hcons
    have hne := chunksOf_ne_nil _ hk1 t' buf (Nat.mul_div_le _ _)
    have hf := meta_lt_bounds eq _ outs 0 hc hne
    have hst := stitch_conserves eq _ _ _ _ out n h
      (by
        rw [List.drop_one]
        exact List.forall₂_take _ hf)
      (by rw [hcons]; exact hb)
    rw [hst, hcons]

theorem tagCount_sublist (s : List Nat) {c l : List SequenceRecord} (h : c.Sublist l) :
    tagCount s c ≤ tagCount s l := by
  induction h with
  | slnil => exact le_refl _
  | cons a _ ih =>
    rw [tagCount_cons]
    omega
  | cons₂ a _ ih =>
    rw [tagCount_cons, tagCount_cons]
    omega

theorem collapsible_sublist {c l : List SequenceRecord} (h : c.Sublist l) (hl : Collapsible l) :
    Collapsible c :=
  ⟨fun r hr => hl.pos r (h.subset hr),
   fun s => lt_of_le_of_lt (tagCount_sublist s h) (hl.bound s),
   fun a ha b hb => hl.aligned a (h.subset ha) b (h.subset hb)⟩

theorem sortedBySequence_sublist {c l : List SequenceRecord} (h : c.Sublist l)
    (hl : SortedBySequence l) : SortedBySequence c :=
  List.Pairwise.sublist h hl

theorem mem_of_getElem?_eq {l : List SequenceRecord} {i : Nat} {w : SequenceRecord}
    (h : l[i]? = some w) : w ∈ l := by
  obtain ⟨hi, rfl⟩ := List.getElem?_eq_some.1 h
  exact List.getElem_mem _

theorem le_tagCount_of_mem (l : List SequenceRecord) (w : SequenceRecord) (h : w ∈ l) :
    w.overall ≤ tagCount w.tag l := by
  induction l with
  | nil => simp at h
  | cons x l ih =>
    rw [tagCount_cons]
    rcases List.mem_cons.1 h with rfl | h
    · simp
    · have := ih h
      omega

theorem collapseChunks_total :
    ∀ (chunks : List (List SequenceRecord)),
      (∀ c ∈ chunks, c ≠ [] ∧ SortedBySequence c ∧ Collapsible c) →
      ∃ outs, collapseChunks eqSequence chunks = some outs ∧
        List.Forall₂ (fun c o => List.Forall₂ Sim c o.1 ∧ HeadAlive o.1) chunks outs
  | [], _ => ⟨[], rfl, List.Forall₂.nil⟩
  | c :: cs, h => by
    obtain ⟨hne, hs, hc⟩ := h c (by simp)
    obtain ⟨out, b, n, h1, -, h3, -, -⟩ := collapseBufferRange_spec c hne hs hc
    obtain ⟨outs, h4, h5⟩ := collapseChunks_total cs (fun d hd => h d (List.mem_cons_of_mem _ hd))
    refine ⟨(out, b, n) :: outs, by simp [collapseChunks, h1, h4], List.Forall₂.cons ⟨?_, ?_⟩ h5⟩
    · exact (collapseBufferRange_shape eqSequence c out b n h1).1
    · intro x hx
      cases out with
      | nil => simp at hx
      | cons y ys =>
        simp only [List.head?_cons, Option.some.injEq] at hx
        subst hx
        obtain ⟨w, hw, -, -, -, e, -, -⟩ := h3.1
        rw [e (Or.inl rfl)]
        have hm : w ∈ c := mem_of_getElem?_eq hw
        have := le_tagCount_of_mem c w hm
        have := hc.pos w hm
        omega

theorem forall₂_sim_flatten :
    ∀ (chunks : List (List SequenceRecord)) (outs : List (List SequenceRecord × Nat × Nat)),
      List.Forall₂ (fun c o => List.Forall₂ Sim c o.1 ∧ HeadAlive o.1) chunks outs →
      List.Forall₂ Sim chunks.flatten (outs.map (fun o => o.1)).flatten
  | _, _, List.Forall₂.nil => List.Forall₂.nil
  | _, _, List.Forall₂.cons h hs => by
    simp only [List.flatten_cons, List.map_cons]
    exact forall₂_append h.1 (forall₂_sim_flatten _ _ hs)

theorem le_of_mem_boundsOf : ∀ (cs : List (List SequenceRecord)) (lo b : Nat),
    b ∈ boundsOf lo cs → lo ≤ b
  | [], lo, b, h => by
    simp only [boundsOf, List.mem_singleton] at h
    omega
  | c :: cs, lo, b, h => by
    simp only [boundsOf, List.mem_cons] at h
    rcases h with rfl | h
    · exact le_refl _
    · have := le_of_mem_boundsOf cs (lo + c.length) b h
      omega

theorem boundsOf_sorted : ∀ (cs : List (List SequenceRecord)) (lo : Nat),
    (∀ c ∈ cs, c ≠ []) → (boundsOf lo cs).Pairwise (fun a b => a < b)
  | [], lo, _ => by simp [boundsOf]
  | c :: cs, lo, h => by
    simp only [boundsOf, List.pairwise_cons]
    refine ⟨fun b hb => ?_, boundsOf_sorted cs _ (fun d hd => h d (List.mem_cons_of_mem _ hd))⟩
    have := le_of_mem_boundsOf cs _ b hb
    have : 0 < c.length := List.length_pos.2 (h c (by simp))
    omega

theorem heads_at_bounds :
    ∀ (chunks : List (List SequenceRecord)) (outs : List (List SequenceRecord × Nat × Nat))
      (P : List SequenceRecord),
      List.Forall₂ (fun c o => List.Forall₂ Sim c o.1 ∧ HeadAlive o.1) chunks outs →
      (∀ c ∈ chunks, c ≠ []) →
      ∀ b ∈ (boundsOf P.length chunks).dropLast,
        ∃ x, (P ++ (outs.map (fun o => o.1)).flatten)[b]? = some x ∧ 1 ≤ x.overall
  | _, _, P, List.Forall₂.nil, _ => by simp [boundsOf]
  | c :: cs, o :: os, P, List.Forall₂.cons h hs, hne => by
    intro b hb
    have hlen : o.1.length = c.length := h.1.length_eq.symm
    rw [boundsOf, boundsOf_eq_cons (P.length + c.length) cs, List.dropLast_cons₂,
      ← boundsOf_eq_cons] at hb
    rcases List.mem_cons.1 hb with rfl | hb
    · have hc : c ≠ [] := hne c (by simp)
      cases ho : o.1 with
      | nil =>
        rw [ho] at hlen
        exact absurd (List.length_eq_zero.1 hlen.symm) hc
      | cons y ys =>
        refine ⟨y, ?_, h.2 y (by rw [ho]; rfl)⟩
        simp only [List.map_cons, List.flatten_cons, ho]
        rw [List.getElem?_append_right (le_refl _)]
        simp
    · have := heads_at_bounds cs os (P ++ o.1) hs (fun d hd => hne d (List.mem_cons_of_mem _ hd)) b
        (by simpa [hlen] using hb)
      simpa [List.append_assoc] using this

theorem forall₂_get {α β : Type} {R : α → β → Prop} :
    ∀ {l1 : List α} {l2 : List β}, List.Forall₂ R l1 l2 → ∀ (i : Nat) (o : β),
      l2[i]? = some o → ∃ w, l1[i]? = some w ∧ R w o
  | _, _, List.Forall₂.nil, _, _, h => by simp at h
  | _, _, List.Forall₂.cons hx _, 0, o, h => by
    simp only [List.getElem?_cons_zero, Option.some.injEq] at h
    subst h
    exact ⟨_, by simp, hx⟩
  | _, _, List.Forall₂.cons _ hl, i + 1, o, h => by
    simp only [List.getElem?_cons_succ] at h
    simpa using forall₂_get hl i o h

/-- The stitching loop returns on a buffer whose records keep the sequences and
quality lengths of a buffer `W` with aligned qualities and a total count that fits
the counter, when the first record of every region still to be stitched has a
positive count. -/
theorem stitch_total (W : List SequenceRecord) (hal : QualAligned W)
    (hW : totalCount W < counterMod) :
    ∀ (meta : List (Nat × Nat)) (bs : List Nat) (buf : Buffer) (c : Nat),
      List.Forall₂ (fun m b => m.1 < b) meta bs → bs.Pairwise (fun a b => a < b) →
      List.Forall₂ Sim W buf → totalCount buf = totalCount W →
      (∀ b ∈ bs, ∃ x, buf[b]? = some x ∧ 1 ≤ x.overall) →
      ∃ buf' c', stitch eqSequence buf c meta bs = some (buf', c')
  | _, _, buf, c, List.Forall₂.nil, _, _, _, _ => ⟨buf, c, by simp [stitch]⟩
  | m :: meta, b :: bs, buf, c, List.Forall₂.cons hmb hrest, hsorted, hsim, htot, hheads => by
    obtain ⟨f, hf, hfpos⟩ := hheads b (by simp)
    have hblt : b < buf.length := by
      by_contra hcon
      rw [List.getElem?_eq_none (by omega)] at hf
      cases hf
    have hmlt : m.1 < buf.length := by omega
    have hl : buf[m.1]? = some buf[m.1] := List.getElem?_eq_getElem hmlt
    have hs' := List.pairwise_cons.1 hsorted
    simp only [stitch, hl, hf]
    by_cases he : eqSequence buf[m.1] f = true
    · simp only [he, if_true]
      have htag : buf[m.1].tag = f.tag := by simpa [eqSequence] using he
      obtain ⟨w1, hw1, hs1⟩ := forall₂_get hsim m.1 _ hl
      obtain ⟨w2, hw2, hs2⟩ := forall₂_get hsim b _ hf
      have hqlen : buf[m.1].qual.length = f.qual.length := by
        rw [hs1.2.1, hs2.2.1]
        exact hal w1 (mem_of_getElem?_eq hw1) w2 (mem_of_getElem?_eq hw2)
          (by rw [← hs1.1, ← hs2.1, htag])
      have hsum := two_le_totalCount buf m.1 b _ f hl hf (by omega)
      obtain ⟨a, b', hm⟩ := merge_pair_isSome buf[m.1] f (le_of_eq hqlen)
        (Or.inl (by rw [Nat.mod_eq_of_lt (by omega)]; omega))
      have hma : mergeAt buf m.1 b =
          some ((buf.set m.1 a).modify (fun r => { r with overall := 0 }) b) := by
        simp only [mergeAt, hl, hf, hm]
      simp only [hma]
      obtain ⟨hsa, -, -⟩ := merge_pair_shape _ _ _ _ hm
      refine stitch_total W hal hW meta bs _ (c - 1) hrest hs'.2
        (forall₂_sim_modify_zero _ _ _ (forall₂_sim_set _ _ _ _ _ hsim hl hsa)) ?_ ?_
      · rw [mergeAt_conserves buf _ m.1 b hma (by omega) (by omega), htot]
      · intro b2 hb2
        obtain ⟨x, hx, hxpos⟩ := hheads b2 (List.mem_cons_of_mem _ hb2)
        have hlt := hs'.1 b2 hb2
        refine ⟨x, ?_, hxpos⟩
        rw [List.getElem?_modify, getElem?_set_other _ _ _ _ (by omega), hx]
        simp
        omega
    · simp only [he]
      exact stitch_total W hal hW meta bs buf c hrest hs'.2 hsim htot
        (fun b2 hb2 => hheads b2 (List.mem_cons_of_mem _ hb2))

theorem length_boundsOf : ∀ (cs : List (List SequenceRecord)) (lo : Nat),
    (boundsOf lo cs).length = cs.length + 1
  | [], _ => rfl
  | c :: cs, lo => by simp [boundsOf, length_boundsOf cs]

theorem length_chunksOf (k : Nat) : ∀ (n : Nat) (l : List SequenceRecord),
    (chunksOf k n l).length = n + 1
  | 0, _ => rfl
  | n + 1, l => by simp [chunksOf, length_chunksOf k n]

theorem mem_dropLast_of_mem_take_drop (l : List Nat) (t b : Nat) (hl : l.length = t + 2)
    (h : b ∈ (l.drop 1).take t) : b ∈ l.dropLast := by
  rw [List.dropLast_eq_take, hl]
  have e : (l.drop 1).take t = (l.take (t + 1)).drop 1 := by
    rw [List.drop_take]
    simp
  rw [e] at h
  exact List.mem_of_mem_drop h

theorem computeMaxThreads_bounds (len nThreads : Nat)
    (h : computeMaxThreads_ len nThreads (2 ^ 10) > 1) :
    1 ≤ computeMaxThreads_ len nThreads (2 ^ 10) ∧
      computeMaxThreads_ len nThreads (2 ^ 10) ≤ len := by
  unfold computeMaxThreads_ at h ⊢
  have h1 : len / 2 ^ 10 ≤ len := Nat.div_le_self _ _
  omega

/-- `collapseRangeMT_` returns on a sorted buffer that meets `Collapsible`, whose total
count fits the counter and whose regions are not empty. -/
theorem collapseRangeMT_total (buf : Buffer) (t : Nat) (ht : 1 ≤ t) (hk : t ≤ buf.length)
    (hs : SortedBySequence buf) (hc : Collapsible buf) (hb : totalCount buf < counterMod) :
    ∃ out n, collapseRangeMT_ eqSequence t buf = some (out, n) := by
  obtain ⟨t', rfl⟩ : ∃ t', t = t' + 1 := ⟨t - 1, by omega⟩
  have hk1 : 1 ≤ buf.length / (t' + 1) := (Nat.le_div_iff_mul_le (by omega)).2 (by omega)
  have hne := chunksOf_ne_nil _ hk1 t' buf (Nat.mul_div_le _ _)
  have hsub := chunksOf_sublist (buf.length / (t' + 1)) t' buf
  obtain ⟨outs, ho1, ho2⟩ := collapseChunks_total (chunksOf (buf.length / (t' + 1)) t' buf)
    (fun c hcm => ⟨hne c hcm, sortedBySequence_sublist (hsub c hcm) hs, collapsible_sublist (hsub c hcm) hc⟩)
  have hreg := collapseRegions_chunks eqSequence (chunksOf (buf.length / (t' + 1)) t' buf) []
  simp only [List.nil_append, List.length_nil, flatten_chunksOf] at hreg
  have hcons := collapseChunks_conserves eqSequence _ outs ho1 (by rw [flatten_chunksOf]; exact hb)
  have hsim := forall₂_sim_flatten _ _ ho2
  rw [flatten_chunksOf] at hcons hsim
  have hf := meta_lt_bounds eqSequence _ outs 0 ho1 hne
  have hheads := heads_at_bounds _ outs [] ho2 hne
  simp only [List.nil_append, List.length_nil] at hheads
  have hlen : (boundsOf 0 (chunksOf (buf.length / (t' + 1)) t' buf)).length = t' + 2 := by
    rw [length_boundsOf, length_chunksOf]
  have hsorted := boundsOf_sorted (chunksOf (buf.length / (t' + 1)) t' buf) 0 hne
  unfold collapseRangeMT_
  simp only
  rw [setBufferBounds_eq, hreg, ho1]
  simp only [Option.map_some', Nat.add_sub_cancel]
  exact stitch_total buf hc.aligned hb _ _ _ _
    (by
      rw [List.drop_one]
      exact List.forall₂_take _ hf)
    (List.Pairwise.sublist ((List.take_sublist _ _).trans (List.drop_sublist _ _)) hsorted)
    hsim hcons
    (fun b hbm => hheads b (mem_dropLast_of_mem_take_drop _ t' b hlen hbm))

/-- On a buffer sorted by sequence whose counts sum to less than `2 ^ 32`, for every
number of threads: whenever `Buffer::collapse` returns, the sum of the counts of all
records after the call equals the sum before; and the call does return when every
count is at least 1 and equal sequences carry qualities of equal length. -/
theorem collapse_conservation (buf : Buffer) (nThreads : Nat)
    (hs : SortedBySequence buf) (hsum : totalCount buf < 2 ^ 32) :
    (∀ out n, Buffer.collapse eqSequence nThreads buf = some (out, n) →
      totalCount out = totalCount buf) ∧
    ((∀ r ∈ buf, 1 ≤ r.overall) → QualAligned buf →
      ∃ out n, Buffer.collapse eqSequence nThreads buf = some (out, n)) := by
  constructor
  · intro out n h
    unfold Buffer.collapse at h
    simp only at h
    by_cases ht : computeMaxThreads_ buf.length nThreads (2 ^ 10) > 1
    · rw [if_pos ht] at h
      obtain ⟨h1, h2⟩ := computeMaxThreads_bounds _ _ ht
      exact collapseRangeMT_conserves eqSequence buf out _ n h1 h2 h hsum
    · rw [if_neg ht] at h
      simp only [Option.map_eq_some', Prod.mk.injEq] at h
      obtain ⟨⟨o, b, m⟩, h1, rfl, -⟩ := h
      exact (collapseBufferRange_shape eqSequence buf o b m h1).2.2 hsum
  · intro hpos hal
    have hc : Collapsible buf := ⟨hpos, tagCount_lt_of_total buf hsum, hal⟩
    unfold Buffer.collapse
    simp only
    by_cases ht : computeMaxThreads_ buf.length nThreads (2 ^ 10) > 1
    · rw [if_pos ht]
      obtain ⟨h1, h2⟩ := computeMaxThreads_bounds _ _ ht
      exact collapseRangeMT_total buf _ h1 h2 hs hc hsum
    · rw [if_neg ht]
      by_cases hne : buf = []
      · subst hne
        exact ⟨[], 1, rfl⟩
      · obtain ⟨out, b, n, h, -⟩ := collapseBufferRange_spec buf hne hs hc
        exact ⟨out, n, by rw [h]; rfl⟩

/-- C6 (amended). Conservation of count in `Buffer::collapse`: on a buffer sorted by
sequence whose counts are at least 1 and sum to less than `2 ^ 32`, with equal
sequences carrying qualities of equal length, for every number of threads, the call
returns and the sum of the counts of all records after the call equals the sum
before. -/
theorem collapse_conserves_count (buf : Buffer) (nThreads : Nat)
    (hs : SortedBySequence buf) (hsum : totalCount buf < 2 ^ 32)
    (hpos : ∀ r ∈ buf, 1 ≤ r.overall) (hal : QualAligned buf) :
    ∃ out n, Buffer.collapse eqSequence nThreads buf = some (out, n) ∧
      totalCount out = totalCount buf := by
  obtain ⟨h1, h2⟩ := collapse_conservation buf nThreads hs hsum
  obtain ⟨out, n, h⟩ := h2 hpos hal
  exact ⟨out, n, h, h1 out n h⟩

theorem collapse_conserves_count_witness :
    ∃ out n, Buffer.collapse eqSequence 2
        [⟨[0], [33], 1, 0⟩, ⟨[0], [35], 2, 0⟩, ⟨[1], [40], 1, 0⟩] = some (out, n) ∧
      totalCount out = totalCount [⟨[0], [33], 1, 0⟩, ⟨[0], [35], 2, 0⟩, ⟨[1], [40], 1, 0⟩] :=
  collapse_conserves_count [⟨[0], [33], 1, 0⟩, ⟨[0], [35], 2, 0⟩, ⟨[1], [40], 1, 0⟩] 2
    (by unfold SortedBySequence; decide) (by decide) (by decide) (by unfold QualAligned; decide)

/-- C6 (counterexample). A buffer of two records with one sequence, a quality byte and
count 0 is sorted and its counts sum to 0, but the collapse divides the accumulated
quality by the total count 0 of the run: the call has no defined result. -/
theorem collapse_zero_count_run :
    SortedBySequence [⟨[0], [33], 0, 0⟩, ⟨[0], [33], 0, 0⟩] ∧
    totalCount [⟨[0], [33], 0, 0⟩, ⟨[0], [33], 0, 0⟩] < 2 ^ 32 ∧
    Buffer.collapse eqSequence 1 [⟨[0], [33], 0, 0⟩, ⟨[0], [33], 0, 0⟩] = none := by
  refine ⟨by unfold SortedBySequence; decide, by decide, by decide⟩

theorem ksum_cons {α M : Type} [AddCommMonoid M] (tag : α → List Nat) (val : α → M)
    (s : List Nat) (x : α) (l : List α) :
    ksum tag val s (x :: l) = (if tag x = s then val x else 0) + ksum tag val s l := by
  by_cases h : tag x = s <;> simp [ksum, List.filter_cons, h]

theorem ksum_append {α M : Type} [AddCommMonoid M] (tag : α → List Nat) (val : α → M)
    (s : List Nat) (l1 l2 : List α) :
    ksum tag val s (l1 ++ l2) = ksum tag val s l1 + ksum tag val s l2 := by
  simp [ksum]

theorem ksum_perm {α M : Type} [AddCommMonoid M] (tag : α → List Nat) (val : α → M)
    (s : List Nat) {l1 l2 : List α} (h : l1.Perm l2) :
    ksum tag val s l1 = ksum tag val s l2 :=
  ((h.filter _).map val).sum_eq

theorem flatten_set_perm {α : Type} : ∀ (S : List (List α)) (j : Nat) (x : α) (t : List α),
    S[j]? = some (x :: t) → (S.flatten).Perm (x :: (S.set j t).flatten)
  | [], _, _, _, h => by simp at h
  | l :: S, 0, x, t, h => by
    simp only [List.getElem?_cons_zero, Option.some.injEq] at h
    subst h
    simp
  | l :: S, j + 1, x, t, h => by
    simp only [List.getElem?_cons_succ] at h
    have ih := flatten_set_perm S j x t h
    simp only [List.set_cons_succ, List.flatten_cons]
    exact (List.Perm.append_left l ih).trans List.perm_middle

theorem mem_set_cases {α : Type} (S : List (List α)) (j : Nat) (t l : List α)
    (h : l ∈ S.set j t) : l = t ∨ l ∈ S := by
  rcases List.mem_or_eq_of_mem_set h with h | h
  · exact Or.inr h
  · exact Or.inl h

/-- The selected head `x` is not above anything left in the inputs once it is removed. -/
theorem min_le_rest {α : Type} (tag : α → List Nat) (S : List (List α)) (j : Nat) (x : α)
    (t : List α) (hS : ∀ l ∈ S, (l.map tag).Pairwise (fun a b => a ≤ b))
    (hj : S[j]? = some (x :: t))
    (hmin : ∀ l ∈ S, ∀ y ∈ l.head?, tag x ≤ tag y) :
    (∀ y ∈ t, tag x ≤ tag y) ∧ ∀ l ∈ S.set j t, ∀ y ∈ l, tag x ≤ tag y := by
  have hxt : x :: t ∈ S := List.getElem?_mem hj
  have h1 : ∀ y ∈ t, tag x ≤ tag y := by
    have := hS _ hxt
    simp only [List.map_cons, List.pairwise_cons, List.mem_map, forall_exists_index, and_imp,
      forall_apply_eq_imp_iff₂] at this
    exact this.1
  refine ⟨h1, fun l hl y hy => ?_⟩
  rcases mem_set_cases S j t l hl with rfl | hl
  · exact h1 y hy
  · cases l with
    | nil => simp at hy
    | cons y0 l0 =>
      have h0 : tag x ≤ tag y0 := hmin _ hl y0 (by simp)
      rcases List.mem_cons.1 hy with rfl | hy
      · exact h0
      · have := hS _ hl
        simp only [List.map_cons, List.pairwise_cons, List.mem_map, forall_exists_index, and_imp,
          forall_apply_eq_imp_iff₂] at this
        exact le_trans h0 (this.1 y hy)

theorem sortedS_set {α : Type} (tag : α → List Nat) (S : List (List α)) (j : Nat) (x : α)
    (t : List α) (hS : ∀ l ∈ S, (l.map tag).Pairwise (fun a b => a ≤ b))
    (hj : S[j]? = some (x :: t)) :
    ∀ l ∈ S.set j t, (l.map tag).Pairwise (fun a b => a ≤ b) := by
  intro l hl
  rcases mem_set_cases S j t l hl with rfl | hl
  · have := hS _ (List.getElem?_mem hj)
    simp only [List.map_cons, List.pairwise_cons] at this
    exact this.2
  · exact hS l hl

theorem okS_set {α : Type} (ok : α → Prop) (S : List (List α)) (j : Nat) (x : α)
    (t : List α) (hS : ∀ l ∈ S, ∀ y ∈ l, ok y) (hj : S[j]? = some (x :: t)) :
    ok x ∧ ∀ l ∈ S.set j t, ∀ y ∈ l, ok y := by
  have hxt : x :: t ∈ S := List.getElem?_mem hj
  refine ⟨hS _ hxt x (by simp), fun l hl y hy => ?_⟩
  rcases mem_set_cases S j t l hl with rfl | hl
  · exact hS _ hxt y (List.mem_cons_of_mem _ hy)
  · exact hS l hl y hy

/-- First entry: the selected head becomes the entry under construction. -/
theorem ainv_init {α M : Type} [AddCommMonoid M] (tag : α → List Nat) (val : α → M)
    (ok : α → Prop) (S : List (List α)) (j : Nat) (x : α) (t : List α)
    (hS : ∀ l ∈ S, (l.map tag).Pairwise (fun a b => a ≤ b))
    (hok : ∀ l ∈ S, ∀ y ∈ l, ok y)
    (hj : S[j]? = some (x :: t)) (hmin : ∀ l ∈ S, ∀ y ∈ l.head?, tag x ≤ tag y) :
    AInv tag val ok (fun s => ksum tag val s S.flatten) (fun s => s ∈ S.flatten.map tag)
      (S.set j t) [] x := by
  have hp := flatten_set_perm S j x t hj
  obtain ⟨hokx, hokS⟩ := okS_set ok S j x t hok hj
  refine ⟨sortedS_set tag S j x t hS hj, by simp, (min_le_rest tag S j x t hS hj hmin).2,
    fun s => ?_, by simpa using hokx, hokS, fun s => ?_⟩
  · rw [ksum_perm tag val s hp, ksum_cons, List.nil_append, ksum_cons]
    simp only [ksum, List.filter_nil, List.map_nil, List.sum_nil, add_zero]
  · rw [(hp.map tag).mem_iff]
    simp

/-- Step with a new sequence: `cur` is completed and the selected head takes its place. -/
theorem ainv_push {α M : Type} [AddCommMonoid M] (tag : α → List Nat) (val : α → M)
    (ok : α → Prop) (T : List Nat → M) (K : List Nat → Prop) (S : List (List α))
    (acc : List α) (cur : α) (j : Nat) (x : α) (t : List α)
    (h : AInv tag val ok T K S acc cur)
    (hj : S[j]? = some (x :: t)) (hmin : ∀ l ∈ S, ∀ y ∈ l.head?, tag x ≤ tag y)
    (hne : tag cur ≠ tag x) :
    AInv tag val ok T K (S.set j t) (acc ++ [cur]) x := by
  have hp := flatten_set_perm S j x t hj
  have hxt : x :: t ∈ S := List.getElem?_mem hj
  obtain ⟨hokx, hokS⟩ := okS_set ok S j x t h.okS hj
  have hlt : tag cur < tag x := lt_of_le_of_ne (h.curLe _ hxt x (by simp)) hne
  refine ⟨sortedS_set tag S j x t h.sortedS hj, ?_, (min_le_rest tag S j x t h.sortedS hj hmin).2,
    fun s => ?_, ?_, hokS, fun s => ?_⟩
  · rw [List.map_append, List.pairwise_append]
    refine ⟨h.sortedE, by simp, ?_⟩
    intro a ha b hb
    simp only [List.map_cons, List.map_nil, List.mem_singleton] at hb
    subst hb
    have hs := h.sortedE
    rw [List.map_append, List.pairwise_append] at hs
    rw [List.map_append] at ha
    rcases List.mem_append.1 ha with ha | ha
    · exact lt_trans (hs.2.2 a ha (tag cur) (by simp)) hlt
    · simp only [List.map_cons, List.map_nil, List.mem_singleton] at ha
      rw [ha]
      exact hlt
  · rw [← h.sum s, ksum_perm tag val s hp, ksum_cons, ksum_append tag val s (acc ++ [cur]) [x],
      ksum_cons]
    simp only [ksum, List.filter_nil, List.map_nil, List.sum_nil, add_zero]
    rw [add_assoc]
  · intro e he
    rcases List.mem_append.1 he with he | he
    · exact h.okE e he
    · simp only [List.mem_singleton] at he
      rw [he]
      exact hokx
  · rw [← h.keys s, (hp.map tag).mem_iff]
    simp only [List.map_append, List.map_cons, List.map_nil, List.mem_append, List.mem_singleton,
      List.mem_cons]
    tauto

/-- Step with the sequence of `cur`: the selected head is merged into `cur`. -/
theorem ainv_merge {α M : Type} [AddCommMonoid M] (tag : α → List Nat) (val : α → M)
    (ok : α → Prop) (T : List Nat → M) (K : List Nat → Prop) (S : List (List α))
    (acc : List α) (cur : α) (j : Nat) (x : α) (t : List α) (c : α)
    (h : AInv tag val ok T K S acc cur)
    (hj : S[j]? = some (x :: t)) (hmin : ∀ l ∈ S, ∀ y ∈ l.head?, tag x ≤ tag y)
    (heq : tag cur = tag x) (hc : tag c = tag cur) (hv : val c = val cur + val x) (hokc : ok c) :
    AInv tag val ok T K (S.set j t) acc c := by
  have hp := flatten_set_perm S j x t hj
  obtain ⟨-, hokS⟩ := okS_set ok S j x t h.okS hj
  have hmr := (min_le_rest tag S j x t h.sortedS hj hmin).2
  refine ⟨sortedS_set tag S j x t h.sortedS hj, ?_, fun l hl y hy => ?_, fun s => ?_, ?_, hokS,
    fun s => ?_⟩
  · have := h.sortedE
    simpa [hc] using this
  · rw [hc, heq]
    exact hmr l hl y hy
  · rw [← h.sum s, ksum_perm tag val s hp, ksum_cons, ksum_append, ksum_append, ksum_cons, ksum_cons,
      hc, hv, ← heq]
    simp only [ksum, List.filter_nil, List.map_nil, List.sum_nil, add_zero]
    by_cases hs : tag cur = s
    · simp only [hs, if_true]
      rw [add_assoc, add_assoc, add_assoc]
    · simp only [hs, if_false, zero_add]
  · intro e he
    rcases List.mem_append.1 he with he | he
    · exact h.okE e (List.mem_append_left _ he)
    · simp only [List.mem_singleton] at he
      rw [he]
      exact hokc
  · rw [← h.keys s, (hp.map tag).mem_iff]
    simp only [List.map_append, List.map_cons, List.map_nil, List.mem_append, List.mem_singleton,
      List.mem_cons, hc, heq]
    tauto

/-- The value about to be merged is part of a total, hence bounded like the total. -/
theorem ainv_bounded {α M : Type} [AddCommMonoid M] (tag : α → List Nat) (val : α → M)
    (ok : α → Prop) (T : List Nat → M) (K : List Nat → Prop) (bounded : M → Prop)
    (hbl : ∀ a b : M, bounded (a + b) → bounded a) (hT : ∀ s, bounded (T s))
    (S : List (List α)) (acc : List α) (cur : α) (j : Nat) (x : α) (t : List α)
    (h : AInv tag val ok T K S acc cur) (hj : S[j]? = some (x :: t)) (heq : tag cur = tag x) :
    bounded (val cur + val x) := by
  have hp := flatten_set_perm S j x t hj
  have hs := h.sum (tag x)
  rw [ksum_perm tag val _ hp, ksum_cons, ksum_append, ksum_cons] at hs
  simp only [heq, if_true, ksum, List.filter_nil, List.map_nil, List.sum_nil, add_zero] at hs
  apply hbl _ (((acc.filter (fun y => decide (tag y = tag x))).map val).sum +
    (((S.set j t).flatten.filter (fun y => decide (tag y = tag x))).map val).sum)
  have e : val cur + val x + (((acc.filter (fun y => decide (tag y = tag x))).map val).sum +
      (((S.set j t).flatten.filter (fun y => decide (tag y = tag x))).map val).sum) = T (tag x) := by
    rw [← hs]
    abel
  rw [e]
  exact hT _

/-- The `for` loop of `findMinRecord_` keeps the index of a smallest current record
among the sub-buffers that still hold records. -/
theorem findMinLoop_spec (buffers : List Buffer) (indices limits : List Nat)
    (tagAt : Nat → List Nat)
    (hrec : ∀ i lim, limits[i]? = some lim → lim ≠ 0 →
      ∃ r, recordAt buffers indices i = some r ∧ r.tag = tagAt i) :
    ∀ (is : List Nat) (m : Nat), (∀ i ∈ is, ∃ lim, limits[i]? = some lim) →
      (∃ lim, limits[m]? = some lim ∧ lim ≠ 0) →
      ∃ j, findMinLoop buffers indices limits m is = some j ∧
        (∃ lim, limits[j]? = some lim ∧ lim ≠ 0) ∧ tagAt j ≤ tagAt m ∧
        ∀ i ∈ is, ∀ lim, limits[i]? = some lim → lim ≠ 0 → tagAt j ≤ tagAt i
  | [], m, _, hm => ⟨m, rfl, hm, le_refl _, by simp⟩
  | i :: is, m, his, hm => by
    obtain ⟨lim, hlim⟩ := his i (by simp)
    have his' : ∀ k ∈ is, ∃ lim, limits[k]? = some lim :=
      fun k hk => his k (List.mem_cons_of_mem _ hk)
    by_cases h0 : lim = 0
    · obtain ⟨j, h1, h2, h3, h4⟩ := findMinLoop_spec buffers indices limits tagAt hrec is m his' hm
      refine ⟨j, by simp [findMinLoop, hlim, h0, h1], h2, h3, ?_⟩
      intro k hk lim' hl hn
      rcases List.mem_cons.1 hk with rfl | hk
      · rw [hlim] at hl
        cases hl
        exact absurd h0 hn
      · exact h4 k hk lim' hl hn
    · obtain ⟨rl, hrl, htl⟩ := hrec i lim hlim h0
      obtain ⟨limm, hlm, hnm⟩ := hm
      obtain ⟨rr, hrr, htr⟩ := hrec m limm hlm hnm
      by_cases hlt : rl.tag < rr.tag
      · obtain ⟨j, h1, h2, h3, h4⟩ := findMinLoop_spec buffers indices limits tagAt hrec is i his'
          ⟨lim, hlim, h0⟩
        have hlt' : tagAt i < tagAt m := by rw [← htl, ← htr]; exact hlt
        refine ⟨j, by simp [findMinLoop, hlim, h0, hrl, hrr, hlt, h1], h2,
          le_trans h3 (le_of_lt hlt'), ?_⟩
        intro k hk lim' hl hn
        rcases List.mem_cons.1 hk with rfl | hk
        · exact h3
        · exact h4 k hk lim' hl hn
      · obtain ⟨j, h1, h2, h3, h4⟩ := findMinLoop_spec buffers indices limits tagAt hrec is m his'
          ⟨limm, hlm, hnm⟩
        have hle : tagAt m ≤ tagAt i := by rw [← htl, ← htr]; exact not_lt.1 hlt
        refine ⟨j, by simp [findMinLoop, hlim, h0, hrl, hrr, hlt, h1], h2, h3, ?_⟩
        intro k hk lim' hl hn
        rcases List.mem_cons.1 hk with rfl | hk
        · exact le_trans h3 hle
        · exact h4 k hk lim' hl hn

/-- `findMinRecord_` returns the index of a sub-buffer that still holds records and
whose current record is not above the current record of any other such sub-buffer. -/
theorem findMinRecord_spec (buffers : List Buffer) (indices limits : List Nat)
    (tagAt : Nat → List Nat) (hlen : buffers.length = limits.length)
    (hrec : ∀ i lim, limits[i]? = some lim → lim ≠ 0 →
      ∃ r, recordAt buffers indices i = some r ∧ r.tag = tagAt i)
    (hex : ∃ lim ∈ limits, lim ≠ 0) :
    ∃ j, findMinRecord_ buffers indices limits = some j ∧
      (∃ lim, limits[j]? = some lim ∧ lim ≠ 0) ∧
      ∀ i lim, limits[i]? = some lim → lim ≠ 0 → tagAt j ≤ tagAt i := by
  obtain ⟨lim0, hmem, hne⟩ := hex
  have hsome : ∃ m, limits.findIdx? (fun lim => lim != 0) = some m := by
    have := @List.findIdx?_eq_some_of_exists _ limits (fun lim => lim != 0)
      ⟨lim0, hmem, by simpa using hne⟩
    exact ⟨_, this⟩
  obtain ⟨m, hm⟩ := hsome
  obtain ⟨hml, hmp, hmq⟩ := List.findIdx?_eq_some_iff_getElem.1 hm
  have hmv : ∃ lim, limits[m]? = some lim ∧ lim ≠ 0 :=
    ⟨limits[m], List.getElem?_eq_getElem hml, by simpa using hmp⟩
  obtain ⟨j, h1, h2, h3, h4⟩ := findMinLoop_spec buffers indices limits tagAt hrec
    (List.range' (m + 1) (buffers.length - (m + 1))) m
    (by
      intro i hi
      rw [List.mem_range'_1] at hi
      have hi' : i < limits.length := by omega
      exact ⟨limits[i], List.getElem?_eq_getElem hi'⟩)
    hmv
  refine ⟨j, by simp only [findMinRecord_, hm, h1], h2, ?_⟩
  intro i lim hl hn
  have hil : i < limits.length := by
    by_contra hcon
    rw [List.getElem?_eq_none (by omega)] at hl
    cases hl
  rcases Nat.lt_trichotomy i m with hlt | heq | hgt
  · exfalso
    have := hmq i hlt
    rw [List.getElem?_eq_getElem hil] at hl
    cases hl
    simp at this
    exact hn this
  · rw [heq]
    exact h3
  · exact h4 i (by rw [List.mem_range'_1]; omega) lim hl hn

theorem stream_nil_iff {β α : Type} (wf : β → Prop) (rd bf : β → List α) (s : MergeInput β)
    (h : SlotOK wf rd bf s) : stream rd bf s = [] ↔ s.inLimit = 0 := by
  constructor
  · intro hs
    by_contra hne
    have h1 := h.index_lt hne
    have h2 := h.limit_le
    have := congrArg List.length hs
    simp only [stream, List.length_append, List.length_drop, List.length_take, List.length_nil] at this
    omega
  · intro h0
    simp [stream, h0, h.zero h0]

theorem slot_head {β α : Type} (wf : β → Prop) (rd bf : β → List α) (s : MergeInput β)
    (h : SlotOK wf rd bf s) (hne : s.inLimit ≠ 0) :
    ∃ x, (bf s.data)[s.inIndex]? = some x ∧
      stream rd bf s = x :: (((bf s.data).take s.inLimit).drop (s.inIndex + 1) ++ rd s.data) := by
  have h1 := h.index_lt hne
  have h2 := h.limit_le
  have hlt : s.inIndex < ((bf s.data).take s.inLimit).length := by
    rw [List.length_take]
    omega
  have hlt2 : s.inIndex < (bf s.data).length := by omega
  refine ⟨(bf s.data)[s.inIndex], List.getElem?_eq_getElem hlt2, ?_⟩
  have e : ((bf s.data).take s.inLimit)[s.inIndex] = (bf s.data)[s.inIndex] := by
    simp [List.getElem_take]
  simp only [stream]
  rw [List.drop_eq_getElem_cons hlt, e]
  rfl

/-- Advancing the selected input removes the first of the entries it still
contributes; the count of active inputs drops by one when none is left. -/
theorem advance_spec {β α M : Type} [AddCommMonoid M] (ops : MergeOps β α) (wf : β → Prop)
    (rd bf : β → List α) (scratchOK ok : α → Prop) (val : α → M) (bounded : M → Prop)
    (m : Nat) (laws : MergeLaws ops wf rd bf scratchOK ok val bounded m) (hm : 1 ≤ m)
    (s : MergeInput β) (v : Nat) (x : α) (t : List α)
    (h : SlotOK wf rd bf s) (hne : s.inLimit ≠ 0) (hst : stream rd bf s = x :: t) :
    SlotOK wf rd bf (advanceInput ops m s v).1 ∧
      stream rd bf (advanceInput ops m s v).1 = t ∧
      (advanceInput ops m s v).2 = if (advanceInput ops m s v).1.inLimit = 0 then v - 1 else v := by
  obtain ⟨x', hx', hs'⟩ := slot_head wf rd bf s h hne
  rw [hst] at hs'
  have ht : t = ((bf s.data).take s.inLimit).drop (s.inIndex + 1) ++ rd s.data :=
    (List.cons.inj hs').2
  have h1 := h.index_lt hne
  have h2 := h.limit_le
  unfold advanceInput
  by_cases he : s.inIndex + 1 = s.inLimit
  · have ht' : t = rd s.data := by
      rw [ht, List.drop_eq_nil_of_le]
      · rfl
      · rw [List.length_take]
        omega
    rw [if_pos he]
    unfold reloadEmptyBuffer_
    by_cases hend : ops.atEnd s.data = true
    · have hrd := (laws.atEnd_iff s.data h.wf).1 hend
      simp only [hend, if_true]
      refine ⟨⟨h.wf, Nat.zero_le _, fun _ => hrd, fun hc => absurd rfl hc⟩, ?_, ?_⟩
      · simp [stream, hrd, ht']
      · simp
    · have hrd : rd s.data ≠ [] := fun hc => hend ((laws.atEnd_iff s.data h.wf).2 hc)
      simp only [hend]
      have hn := laws.load_n s.data h.wf hrd
      have hbf := laws.load_bf s.data h.wf hrd
      have hrd' := laws.load_rd s.data h.wf hrd
      have hpos : 0 < ((rd s.data).take m).length := by
        rw [List.length_take]
        have := List.length_pos.2 hrd
        omega
      refine ⟨⟨laws.load_wf s.data h.wf hrd, ?_, ?_, ?_⟩, ?_, ?_⟩
      · simp only [Bool.false_eq_true, if_false]
        rw [hn, hbf]
      · simp only [Bool.false_eq_true, if_false]
        intro hc
        omega
      · simp only [Bool.false_eq_true, if_false]
        intro _
        omega
      · simp only [stream, Bool.false_eq_true, if_false, List.drop_zero]
        rw [hn, hbf, hrd', ht', List.take_length, List.take_append_drop]
      · simp only [Bool.false_eq_true, if_false]
  · rw [if_neg he]
    refine ⟨⟨h.wf, h2, h.zero, fun _ => ?_⟩, ?_, ?_⟩
    · show s.inIndex + 1 < s.inLimit
      omega
    · simp only [stream]
      rw [ht]
    · simp only
      rw [if_neg hne]

theorem countP_set_pos {α : Type} (p : α → Bool) : ∀ (l : List α) (j : Nat) (a b : α),
    l[j]? = some a → p a = true →
    (l.set j b).countP p + 1 = l.countP p + (if p b = true then 1 else 0)
  | [], _, _, _, h, _ => by simp at h
  | c :: l, 0, a, b, h, ha => by
    simp only [List.getElem?_cons_zero, Option.some.injEq] at h
    subst h
    simp only [List.set_cons_zero, List.countP_cons, ha, if_true]
    omega
  | c :: l, j + 1, a, b, h, ha => by
    simp only [List.getElem?_cons_succ] at h
    have ih := countP_set_pos p l j a b h ha
    simp only [List.set_cons_succ, List.countP_cons]
    omega

/-- The call of `findMinRecord_` in the merge selects an input that still contributes
entries and whose next entry has the smallest sequence. -/
theorem select_spec {β α M : Type} [AddCommMonoid M] (ops : MergeOps β α) (wf : β → Prop)
    (rd bf : β → List α) (scratchOK ok : α → Prop) (val : α → M) (bounded : M → Prop)
    {m : Nat} (laws : MergeLaws ops wf rd bf scratchOK ok val bounded m) (inputs : List (MergeInput β))
    (hslots : ∀ s ∈ inputs, SlotOK wf rd bf s) (hex : ∃ s ∈ inputs, s.inLimit ≠ 0) :
    ∃ j input x t, findMin ops inputs = some j ∧ inputs[j]? = some input ∧
      input.inLimit ≠ 0 ∧ (bf input.data)[input.inIndex]? = some x ∧
      stream rd bf input = x :: t ∧
      ∀ l ∈ inputs.map (stream rd bf), ∀ y ∈ l.head?, ops.tag x ≤ ops.tag y := by
  have hrec : ∀ i lim, (inputs.map (fun s => s.inLimit))[i]? = some lim → lim ≠ 0 →
      ∃ r, recordAt (inputs.map (fun s => ops.buffer s.data)) (inputs.map (fun s => s.inIndex)) i
        = some r ∧ r.tag = headTag ops.tag rd bf inputs i := by
    intro i lim hl hne
    rw [List.getElem?_map] at hl
    cases h : inputs[i]? with
    | none => simp [h] at hl
    | some s =>
      simp only [h, Option.map_some', Option.some.injEq] at hl
      subst hl
      obtain ⟨x, hx, hs⟩ := slot_head wf rd bf s (hslots s (List.getElem?_mem h)) hne
      obtain ⟨r, hr, hrt⟩ := laws.buffer_tag s.data s.inIndex x
        (hslots s (List.getElem?_mem h)).wf hx
      refine ⟨r, ?_, ?_⟩
      · simp [recordAt, List.getElem?_map, h, hr]
      · simp [headTag, h, hs, hrt]
  obtain ⟨s0, hs0, hne0⟩ := hex
  obtain ⟨j, hj, ⟨lim, hl, hne⟩, hmin⟩ := findMinRecord_spec
    (inputs.map (fun s => ops.buffer s.data)) (inputs.map (fun s => s.inIndex))
    (inputs.map (fun s => s.inLimit)) (headTag ops.tag rd bf inputs) (by simp) hrec
    ⟨s0.inLimit, List.mem_map.2 ⟨s0, hs0, rfl⟩, hne0⟩
  rw [List.getElem?_map] at hl
  cases h : inputs[j]? with
  | none => simp [h] at hl
  | some input =>
    simp only [h, Option.map_some', Option.some.injEq] at hl
    subst hl
    obtain ⟨x, hx, hs⟩ := slot_head wf rd bf input (hslots input (List.getElem?_mem h)) hne
    refine ⟨j, input, x, _, hj, h, hne, hx, hs, ?_⟩
    intro l hl y hy
    obtain ⟨s, hs1, rfl⟩ := List.mem_map.1 hl
    obtain ⟨i, hi⟩ := List.getElem?_of_mem hs1
    have hnil : stream rd bf s ≠ [] := by
      intro hc
      rw [hc] at hy
      simp at hy
    have hlim : s.inLimit ≠ 0 := fun hc =>
      hnil ((stream_nil_iff wf rd bf s (hslots s hs1)).2 hc)
    have := hmin i s.inLimit (by simp [List.getElem?_map, hi]) hlim
    have e1 : headTag ops.tag rd bf inputs j = ops.tag x := by
      simp [headTag, h, hs]
    have e2 : headTag ops.tag rd bf inputs i = ops.tag y := by
      have hy' : (stream rd bf s).head? = some y := by simpa using hy
      simp [headTag, hi, hy']
    rw [e1, e2] at this
    exact this

theorem take_succ_of_getElem? {α : Type} (l : List α) (n : Nat) (a : α) (h : l[n]? = some a) :
    l.take (n + 1) = l.take n ++ [a] := by
  rw [List.take_succ, h]
  rfl

theorem take_set_same {α : Type} (l : List α) (n : Nat) (a : α) :
    (l.set n a).take n = l.take n := by
  induction l generalizing n with
  | nil => simp
  | cons c l ih =>
    cases n with
    | zero => simp
    | succ n => simp [ih]

/-- Effect of advancing the selected input on the list of inputs. -/
theorem advance_inputs {β α M : Type} [AddCommMonoid M] (ops : MergeOps β α) (wf : β → Prop)
    (rd bf : β → List α) (scratchOK ok : α → Prop) (val : α → M) (bounded : M → Prop)
    (m : Nat) (laws : MergeLaws ops wf rd bf scratchOK ok val bounded m) (hm : 1 ≤ m)
    (inputs : List (MergeInput β)) (v j : Nat) (input : MergeInput β) (x : α) (t : List α)
    (hslots : ∀ s ∈ inputs, SlotOK wf rd bf s)
    (hv : v = inputs.countP (fun s => decide (s.inLimit ≠ 0)))
    (hin : inputs[j]? = some input) (hne : input.inLimit ≠ 0)
    (hst : stream rd bf input = x :: t) :
    (∀ s ∈ inputs.set j (advanceInput ops m input v).1, SlotOK wf rd bf s) ∧
    (inputs.set j (advanceInput ops m input v).1).map (stream rd bf)
      = (inputs.map (stream rd bf)).set j t ∧
    (inputs.map (stream rd bf))[j]? = some (x :: t) ∧
    (advanceInput ops m input v).2
      = (inputs.set j (advanceInput ops m input v).1).countP (fun s => decide (s.inLimit ≠ 0)) ∧
    ((inputs.set j (advanceInput ops m input v).1).map (stream rd bf)).flatten.length + 1
      = (inputs.map (stream rd bf)).flatten.length := by
  have hslot := hslots input (List.getElem?_mem hin)
  obtain ⟨hadv1, hadv2, hadv3⟩ := advance_spec ops wf rd bf scratchOK ok val bounded m laws hm
    input v x t hslot hne hst
  have hSj : (inputs.map (stream rd bf))[j]? = some (x :: t) := by
    simp [List.getElem?_map, hin, hst]
  have hmap : (inputs.set j (advanceInput ops m input v).1).map (stream rd bf)
      = (inputs.map (stream rd bf)).set j t := by
    rw [List.map_set, hadv2]
  refine ⟨?_, hmap, hSj, ?_, ?_⟩
  · intro s hs
    rcases List.mem_or_eq_of_mem_set hs with hs | hs
    · exact hslots s hs
    · rw [hs]
      exact hadv1
  · have hc := countP_set_pos (fun s : MergeInput β => decide (s.inLimit ≠ 0)) inputs j input
      (advanceInput ops m input v).1 hin (by simpa using hne)
    rw [hadv3]
    by_cases h0 : (advanceInput ops m input v).1.inLimit = 0
    · rw [if_pos h0]
      rw [if_neg (by simpa using h0)] at hc
      omega
    · rw [if_neg h0]
      rw [if_pos (by simpa using h0)] at hc
      omega
  · rw [hmap]
    have := (flatten_set_perm _ j x t hSj).length_eq
    simp only [List.length_cons] at this
    omega

/-- One iteration of the merge loop is defined, keeps the invariant and consumes one
entry of the inputs. -/
theorem mergeStep_spec {β α M : Type} [AddCommMonoid M] (ops : MergeOps β α) (wf : β → Prop)
    (rd bf : β → List α) (scratchOK ok : α → Prop) (val : α → M) (bounded : M → Prop)
    (m : Nat) (laws : MergeLaws ops wf rd bf scratchOK ok val bounded m) (T : List Nat → M)
    (K : List Nat → Prop) (hT : ∀ s, bounded (T s)) (hm : 1 ≤ m)
    (st : MergeState β α) (cur : α) (h : MInv ops wf rd bf scratchOK ok val T K m st cur)
    (hv : st.validReaders > 0) :
    ∃ st' cur', mergeStep ops m st = some st' ∧
      MInv ops wf rd bf scratchOK ok val T K m st' cur' ∧
      remaining rd bf st' + 1 = remaining rd bf st := by
  have hex : ∃ s ∈ st.inputs, s.inLimit ≠ 0 := by
    have hv' := hv
    rw [h.valid] at hv'
    obtain ⟨s, hs, hp⟩ := List.countP_pos_iff.1 hv'
    exact ⟨s, hs, by simpa using hp⟩
  obtain ⟨j, input, x, t, hfm, hin, hne, hx, hst, hmin⟩ :=
    select_spec ops wf rd bf scratchOK ok val bounded laws st.inputs h.slots hex
  have hslot := h.slots input (List.getElem?_mem hin)
  have hfetch := laws.fetch_eq st.minItem input.data input.inIndex x hslot.wf h.scratch hx
  obtain ⟨ha1, ha2, hSj, ha4, ha5⟩ := advance_inputs ops wf rd bf scratchOK ok val bounded m
    laws hm st.inputs st.validReaders j input x t h.slots h.valid hin hne hst
  have hcur := h.outCur
  have hlen := h.outLen
  have hidx := h.outIdx
  unfold mergeStep
  simp only [hfm, hin, hfetch, hcur]
  generalize advanceInput ops m input st.validReaders = adv at ha1 ha2 ha4 ha5
  by_cases htag : ops.tag cur = ops.tag x
  · have hb := ainv_bounded ops.tag val ok T K bounded laws.bounded_left hT _ _ cur j x t
      h.ainv hSj htag
    have hokcur : ok cur := h.ainv.okE cur (by simp)
    have hokx : ok x := (okS_set ok _ j x t h.ainv.okS hSj).1
    obtain ⟨c, b', hmg, hokc, htc, hvc, hsc⟩ := laws.merge_ok cur x hokcur hokx htag hb
    rw [if_pos htag]
    simp only [hmg]
    refine ⟨_, c, rfl, ⟨ha1, ?_, ?_, hidx, ?_, h.wsEq, ha4, hsc⟩, ha5⟩
    · show AInv ops.tag val ok T K _ (st.written.flatten ++
        (st.outBuffer.set st.outIndex c).take st.outIndex) c
      rw [ha2, take_set_same]
      exact ainv_merge ops.tag val ok T K _ _ cur j x t c h.ainv hSj hmin htag htc hvc hokc
    · show (st.outBuffer.set st.outIndex c).length = m
      rw [List.length_set]
      exact hlen
    · show (st.outBuffer.set st.outIndex c)[st.outIndex]? = some c
      rw [List.getElem?_set_self (by omega)]
  · rw [if_neg htag]
    have hpush := ainv_push ops.tag val ok T K _ _ cur j x t h.ainv hSj hmin htag
    by_cases hfull : st.outIndex + 1 = m
    · rw [if_pos hfull, if_pos (by omega)]
      refine ⟨_, x, rfl, ⟨ha1, ?_, ?_, ?_, ?_, ?_, ha4, laws.scratch_moved x⟩, ha5⟩
      · show AInv ops.tag val ok T K _ ((st.written ++ [st.outBuffer]).flatten ++
          (st.outBuffer.set 0 x).take 0) x
        rw [ha2]
        have e : (st.written ++ [st.outBuffer]).flatten ++ (st.outBuffer.set 0 x).take 0
            = st.written.flatten ++ st.outBuffer.take st.outIndex ++ [cur] := by
          rw [List.flatten_append, List.take_zero, List.append_nil, List.append_assoc,
            ← take_succ_of_getElem? _ _ _ hcur, List.take_of_length_le (by omega)]
          simp
        rw [e]
        exact hpush
      · show (st.outBuffer.set 0 x).length = m
        rw [List.length_set]
        exact hlen
      · show 0 < m
        omega
      · show (st.outBuffer.set 0 x)[0]? = some x
        rw [List.getElem?_set_self (by omega)]
      · show st.writtenSequences + m = (st.written ++ [st.outBuffer]).flatten.length
        rw [List.flatten_append, List.length_append, ← h.wsEq]
        simp [hlen]
    · rw [if_neg hfull, if_pos (by omega)]
      refine ⟨_, x, rfl, ⟨ha1, ?_, ?_, ?_, ?_, h.wsEq, ha4, laws.scratch_moved x⟩, ha5⟩
      · show AInv ops.tag val ok T K _ (st.written.flatten ++
          (st.outBuffer.set (st.outIndex + 1) x).take (st.outIndex + 1)) x
        rw [ha2, take_set_same, take_succ_of_getElem? _ _ _ hcur, ← List.append_assoc]
        exact hpush
      · show (st.outBuffer.set (st.outIndex + 1) x).length = m
        rw [List.length_set]
        exact hlen
      · show st.outIndex + 1 < m
        omega
      · show (st.outBuffer.set (st.outIndex + 1) x)[st.outIndex + 1]? = some x
        rw [List.getElem?_set_self (by omega)]

/-- With at least as much fuel as entries left, the merge loop ends in a state that
satisfies the invariant and in which no input contributes any more. -/
theorem mergeLoop_spec {β α M : Type} [AddCommMonoid M] (ops : MergeOps β α) (wf : β → Prop)
    (rd bf : β → List α) (scratchOK ok : α → Prop) (val : α → M) (bounded : M → Prop)
    (m : Nat) (laws : MergeLaws ops wf rd bf scratchOK ok val bounded m) (T : List Nat → M)
    (K : List Nat → Prop) (hT : ∀ s, bounded (T s)) (hm : 1 ≤ m) :
    ∀ (fuel : Nat) (st : MergeState β α) (cur : α),
      MInv ops wf rd bf scratchOK ok val T K m st cur → remaining rd bf st ≤ fuel →
      ∃ st' cur', mergeLoop ops m fuel st = some st' ∧
        MInv ops wf rd bf scratchOK ok val T K m st' cur' ∧ remaining rd bf st' = 0
  | 0, st, cur, h, hf => by
    have hrem : remaining rd bf st = 0 := Nat.le_zero.1 hf
    have hv : st.validReaders = 0 := by
      rw [h.valid, List.countP_eq_zero]
      intro s hs
      have hnil : stream rd bf s = [] := by
        have hlen : (st.inputs.map (stream rd bf)).flatten = [] := List.length_eq_zero.1 hrem
        rw [List.flatten_eq_nil_iff] at hlen
        exact hlen _ (List.mem_map.2 ⟨s, hs, rfl⟩)
      have := (stream_nil_iff wf rd bf s (h.slots s hs)).1 hnil
      simp [this]
    refine ⟨st, cur, ?_, h, hrem⟩
    unfold mergeLoop
    rw [if_neg (by omega)]
  | fuel + 1, st, cur, h, hf => by
    unfold mergeLoop
    by_cases hv : st.validReaders > 0
    · rw [if_pos hv]
      obtain ⟨st1, cur1, hs1, hi1, hr1⟩ := mergeStep_spec ops wf rd bf scratchOK ok val bounded
        m laws T K hT hm st cur h hv
      simp only [hs1]
      exact mergeLoop_spec ops wf rd bf scratchOK ok val bounded m laws T K hT hm fuel st1 cur1
        hi1 (by omega)
    · rw [if_neg hv]
      refine ⟨st, cur, rfl, h, ?_⟩
      have hv0 : st.inputs.countP (fun s => decide (s.inLimit ≠ 0)) = 0 := by
        rw [← h.valid]
        omega
      rw [List.countP_eq_zero] at hv0
      unfold remaining
      rw [List.length_eq_zero, List.flatten_eq_nil_iff]
      intro l hl
      obtain ⟨s, hs, rfl⟩ := List.mem_map.1 hl
      apply (stream_nil_iff wf rd bf s (h.slots s hs)).2
      have := hv0 s hs
      simpa using this

theorem startInputs_spec {β α M : Type} [AddCommMonoid M] (ops : MergeOps β α) (wf : β → Prop)
    (rd bf : β → List α) (scratchOK ok : α → Prop) (val : α → M) (bounded : M → Prop)
    (m : Nat) (laws : MergeLaws ops wf rd bf scratchOK ok val bounded m) (hm : 1 ≤ m)
    (readers : List β) (hr : ∀ r ∈ readers, wf r ∧ rd r ≠ []) :
    (∀ s ∈ startInputs ops readers m, SlotOK wf rd bf s ∧ s.inLimit ≠ 0) ∧
      (startInputs ops readers m).map (stream rd bf) = readers.map rd := by
  constructor
  · intro s hs
    obtain ⟨r, hrm, rfl⟩ := List.mem_map.1 hs
    obtain ⟨hw, hnil⟩ := hr r hrm
    have hn := laws.load_n r hw hnil
    have hbf := laws.load_bf r hw hnil
    have hpos : 0 < ((rd r).take m).length := by
      rw [List.length_take]
      have := List.length_pos.2 hnil
      omega
    refine ⟨⟨laws.load_wf r hw hnil, ?_, ?_, ?_⟩, ?_⟩
    · show (ops.load r m).2 ≤ (bf (ops.load r m).1).length
      rw [hn, hbf]
    · show (ops.load r m).2 = 0 → _
      intro hc
      omega
    · show (ops.load r m).2 ≠ 0 → 0 < (ops.load r m).2
      intro _
      omega
    · show (ops.load r m).2 ≠ 0
      omega
  · unfold startInputs
    rw [List.map_map]
    apply List.map_congr_left
    intro r hrm
    obtain ⟨hw, hnil⟩ := hr r hrm
    simp only [Function.comp, stream, List.drop_zero]
    rw [laws.load_n r hw hnil, laws.load_bf r hw hnil, laws.load_rd r hw hnil, List.take_length,
      List.take_append_drop]

/-- The initialisation of the merge is defined and establishes the invariant. -/
theorem mergeStart_spec {β α M : Type} [AddCommMonoid M] (ops : MergeOps β α) (wf : β → Prop)
    (rd bf : β → List α) (scratchOK ok : α → Prop) (val : α → M) (bounded : M → Prop)
    (m : Nat) (laws : MergeLaws ops wf rd bf scratchOK ok val bounded m) (hm : 1 ≤ m)
    (readers : List β) (hne : readers ≠ []) (hr : ∀ r ∈ readers, wf r ∧ rd r ≠ [])
    (hsorted : ∀ r ∈ readers, ((rd r).map ops.tag).Pairwise (fun a b => a ≤ b))
    (hok : ∀ r ∈ readers, ∀ y ∈ rd r, ok y) :
    ∃ st cur, mergeStart ops readers m = some st ∧
      MInv ops wf rd bf scratchOK ok val
        (fun s => ksum ops.tag val s (readers.map rd).flatten)
        (fun s => s ∈ (readers.map rd).flatten.map ops.tag) m st cur ∧
      remaining rd bf st + 1 = (readers.map rd).flatten.length := by
  obtain ⟨hsl, hmap⟩ := startInputs_spec ops wf rd bf scratchOK ok val bounded m laws hm readers hr
  have hslots : ∀ s ∈ startInputs ops readers m, SlotOK wf rd bf s := fun s hs => (hsl s hs).1
  have hex : ∃ s ∈ startInputs ops readers m, s.inLimit ≠ 0 := by
    cases readers with
    | nil => exact absurd rfl hne
    | cons r rs =>
      refine ⟨_, List.mem_map.2 ⟨r, List.mem_cons_self _ _, rfl⟩, ?_⟩
      exact (hsl _ (List.mem_map.2 ⟨r, List.mem_cons_self _ _, rfl⟩)).2
  obtain ⟨j, input, x, t, hfm, hin, hne', hx, hst, hmin⟩ :=
    select_spec ops wf rd bf scratchOK ok val bounded laws _ hslots hex
  have hi0 : input.inIndex = 0 := by
    obtain ⟨r, -, rfl⟩ := List.mem_map.1 (List.getElem?_mem hin)
    rfl
  rw [hi0] at hx
  have hfetch := laws.fetch_eq ops.empty input.data 0 x
    (hslots input (List.getElem?_mem hin)).wf laws.scratch_empty hx
  have hcount : readers.length
      = (startInputs ops readers m).countP (fun s => decide (s.inLimit ≠ 0)) := by
    rw [List.countP_eq_length.2]
    · simp [startInputs]
    · intro s hs
      simpa using (hsl s hs).2
  obtain ⟨ha1, ha2, hSj, ha4, ha5⟩ := advance_inputs ops wf rd bf scratchOK ok val bounded m
    laws hm _ readers.length j input x t hslots hcount hin hne' hst
  rw [hmap] at ha2 hSj hmin ha5
  have hinit := ainv_init ops.tag val ok (readers.map rd) j x t
    (by
      intro l hl
      obtain ⟨r, hrm, rfl⟩ := List.mem_map.1 hl
      exact hsorted r hrm)
    (by
      intro l hl
      obtain ⟨r, hrm, rfl⟩ := List.mem_map.1 hl
      exact hok r hrm) hSj hmin
  have hfm' : findMin ops (readers.map (fun r =>
      ({ data := (ops.load r m).1, inIndex := 0, inLimit := (ops.load r m).2 } : MergeInput β)))
      = some j := hfm
  have hin' : (readers.map (fun r =>
      ({ data := (ops.load r m).1, inIndex := 0, inLimit := (ops.load r m).2 } : MergeInput β)))[j]?
      = some input := hin
  unfold mergeStart
  simp only [hfm', hin', hfetch]
  rw [if_pos (by omega)]
  generalize advanceInput ops m input readers.length = adv at ha1 ha2 ha4 ha5
  refine ⟨_, x, rfl, ⟨ha1, ?_, ?_, ?_, ?_, rfl, ha4, laws.scratch_empty⟩, ha5⟩
  · show AInv ops.tag val ok _ _ ((startInputs ops readers m).set j adv.1 |>.map (stream rd bf))
      (([] : List (List α)).flatten ++ ((List.replicate m ops.empty).set 0 x).take 0) x
    rw [ha2]
    exact hinit
  · show ((List.replicate m ops.empty).set 0 x).length = m
    simp
  · show 0 < m
    omega
  · show ((List.replicate m ops.empty).set 0 x)[0]? = some x
    rw [List.getElem?_set_self (by simp; omega)]

theorem pending_total {β α M : Type} [AddCommMonoid M] (ops : MergeOps β α) (wf : β → Prop)
    (rd bf : β → List α) (scratchOK ok : α → Prop) (val : α → M) (bounded : M → Prop)
    {m : Nat} (laws : MergeLaws ops wf rd bf scratchOK ok val bounded m) :
    ∀ (readers : List β), (∀ r ∈ readers, wf r) →
      (readers.map rd).flatten.length ≤ (readers.map ops.pending).sum
  | [], _ => by simp
  | r :: rs, h => by
    have ih := pending_total ops wf rd bf scratchOK ok val bounded laws rs
      (fun r hr => h r (List.mem_cons_of_mem _ hr))
    have := laws.pending_ge r (h r (List.mem_cons_self _ _))
    simp only [List.map_cons, List.flatten_cons, List.length_append, List.sum_cons]
    omega

/-- The common body of the three overloads of `Buffer::merge` returns on inputs that
are increasing by sequence; the entries it passes to the writer are strictly
increasing by sequence, carry exactly the sequences
of the inputs, and the values of the entries with one sequence add up to the value of
the entry written for it; the returned number is the number of written entries. -/
theorem mergeCore_spec {β α M : Type} [AddCommMonoid M] (ops : MergeOps β α) (wf : β → Prop)
    (rd bf : β → List α) (scratchOK ok : α → Prop) (val : α → M) (bounded : M → Prop)
    (m : Nat) (laws : MergeLaws ops wf rd bf scratchOK ok val bounded m) (hm : 1 ≤ m)
    (readers : List β) (hne : readers ≠ []) (hr : ∀ r ∈ readers, wf r ∧ rd r ≠ [])
    (hsorted : ∀ r ∈ readers, ((rd r).map ops.tag).Pairwise (fun a b => a ≤ b))
    (hok : ∀ r ∈ readers, ∀ y ∈ rd r, ok y)
    (hT : ∀ s, bounded (ksum ops.tag val s (readers.map rd).flatten)) :
    ∃ n chunks, mergeCore ops readers m = some (n, chunks) ∧ n = chunks.flatten.length ∧
      (chunks.flatten.map ops.tag).Pairwise (fun a b => a < b) ∧
      (∀ s, ksum ops.tag val s chunks.flatten = ksum ops.tag val s (readers.map rd).flatten) ∧
      (∀ e ∈ chunks.flatten, ok e) ∧
      (∀ s, s ∈ chunks.flatten.map ops.tag ↔ s ∈ (readers.map rd).flatten.map ops.tag) := by
  obtain ⟨st0, cur0, hstart, hinv0, hrem0⟩ := mergeStart_spec ops wf rd bf scratchOK ok val
    bounded m laws hm readers hne hr hsorted hok
  have hpend := pending_total ops wf rd bf scratchOK ok val bounded laws readers
    (fun r hrm => (hr r hrm).1)
  obtain ⟨st, cur, hloop, hinv, hrem⟩ := mergeLoop_spec ops wf rd bf scratchOK ok val bounded
    m laws _ _ hT hm (readers.map ops.pending).sum st0 cur0 hinv0 (by omega)
  unfold mergeCore
  simp only [hstart, hloop]
  have hfl : (st.written ++ [st.outBuffer.take (st.outIndex + 1)]).flatten
      = (st.written.flatten ++ st.outBuffer.take st.outIndex) ++ [cur] := by
    rw [List.flatten_append, take_succ_of_getElem? _ _ _ hinv.outCur]
    simp
  have hS : (st.inputs.map (stream rd bf)).flatten = [] := List.length_eq_zero.1 hrem
  refine ⟨_, _, rfl, ?_, ?_, ?_, ?_, ?_⟩
  · rw [hfl, hinv.wsEq]
    simp only [List.length_append, List.length_take, List.length_singleton]
    have := hinv.outIdx
    have := hinv.outLen
    omega
  · rw [hfl]
    exact hinv.ainv.sortedE
  · intro s
    rw [hfl]
    have := hinv.ainv.sum s
    rw [hS] at this
    simpa [ksum] using this
  · rw [hfl]
    exact hinv.ainv.okE
  · intro s
    rw [hfl]
    have := hinv.ainv.keys s
    rw [hS] at this
    simpa using this

theorem qualLen_of_aligned (l : List SequenceRecord) (h : QualAligned l) :
    ∀ r ∈ l, r.qual.length = qualLen l r.tag := by
  intro r hr
  unfold qualLen
  cases hf : l.find? (fun x => decide (x.tag = r.tag)) with
  | none =>
    have := List.find?_eq_none.1 hf r hr
    simp at this
  | some x =>
    have hx := List.find?_some hf
    have hmem := List.mem_of_find?_eq_some hf
    simp only [decide_eq_true_eq] at hx
    simp only [Option.map_some', Option.getD_some]
    exact h r hr x hmem hx.symm

theorem ksum_eq_zero {α M : Type} [AddCommMonoid M] (tag : α → List Nat) (val : α → M)
    (s : List Nat) : ∀ (l : List α), (∀ y ∈ l, tag y ≠ s) → ksum tag val s l = 0
  | [], _ => by simp [ksum]
  | x :: l, h => by
    rw [ksum_cons, if_neg (h x (List.mem_cons_self _ _)),
      ksum_eq_zero tag val s l (fun y hy => h y (List.mem_cons_of_mem _ hy)), add_zero]

/-- In a list strictly increasing by sequence, the values with the sequence of an entry
add up to the value of that entry. -/
theorem ksum_unique {α M : Type} [AddCommMonoid M] (tag : α → List Nat) (val : α → M) :
    ∀ (l : List α), (l.map tag).Pairwise (fun a b => a < b) → ∀ e ∈ l,
      ksum tag val (tag e) l = val e
  | [], _, e, he => by simp at he
  | x :: l, hp, e, he => by
    simp only [List.map_cons, List.pairwise_cons, List.mem_map, forall_exists_index, and_imp,
      forall_apply_eq_imp_iff₂] at hp
    rw [ksum_cons]
    rcases List.mem_cons.1 he with rfl | he
    · rw [if_pos rfl, ksum_eq_zero tag val _ l (fun y hy => (ne_of_lt (hp.1 y hy)).symm), add_zero]
    · rw [if_neg (ne_of_lt (hp.1 e he)), zero_add]
      exact ksum_unique tag val l hp.2 e he

/-- The pairwise merge of two records with one sequence, aligned qualities and counts
that add up to a positive value below `2 ^ 32`. -/
theorem seq_merge_ok (a b : SequenceRecord) (ha : 1 ≤ a.overall)
    (hq : a.qual.length = b.qual.length) (hbd : a.overall + b.overall < 2 ^ 32) :
    ∃ c b', SequenceRecord.merge a b = some (c, b') ∧ c.tag = a.tag ∧
      c.overall = a.overall + b.overall ∧ c.qual.length = a.qual.length ∧
      b' = { b with overall := 0 } := by
  have hmod : (a.overall + b.overall) % counterMod = a.overall + b.overall :=
    Nat.mod_eq_of_lt hbd
  have htot : (a.overall + b.overall) % counterMod ≠ 0 := by
    rw [hmod]
    omega
  have hmq := mergeQual_eq a.overall b.overall _ htot a.qual b.qual hq
  unfold SequenceRecord.merge
  simp only [hmq]
  refine ⟨_, _, rfl, rfl, hmod, ?_, rfl⟩
  simp [hq]

/-- The parts of the one-stream overload satisfy the laws of the generic merge. -/
theorem oneStream_laws (qlen : List Nat → Nat) (m : Nat) :
    MergeLaws oneStreamOps (fun _ => True) (fun d => d.reader) (fun d => d.inBuffer)
      (fun _ => True) (fun r => 1 ≤ r.overall ∧ r.qual.length = qlen r.tag)
      (fun r => r.overall) (fun n => n < 2 ^ 32) m where
  load_wf := fun _ _ _ => trivial
  load_bf := fun _ _ _ => rfl
  load_rd := fun _ _ _ => rfl
  load_n := fun _ _ _ => rfl
  atEnd_iff := fun d _ => List.isEmpty_iff
  fetch_eq := fun _ _ _ _ _ _ h => h
  buffer_tag := fun _ _ x _ h => ⟨x, h, rfl⟩
  merge_ok := by
    intro a b ha hb htag hbd
    obtain ⟨c, b', h1, h2, h3, h4, -⟩ := seq_merge_ok a b ha.1
      (by
        rw [ha.2, hb.2]
        exact congrArg qlen htag) hbd
    refine ⟨c, b', h1, ⟨?_, ?_⟩, h2, h3, trivial⟩
    · rw [h3]
      omega
    · rw [h4, ha.2]
      exact congrArg qlen h2.symm
  scratch_empty := trivial
  scratch_moved := fun _ => trivial
  bounded_left := by
    intro a b h
    show a < 2 ^ 32
    have h' : a + b < 2 ^ 32 := h
    omega
  pending_ge := fun _ _ => Nat.le_refl _

/-- C7 (amended). One-stream k-way `Buffer::merge`: for a non-empty list of readers,
each yielding a non-empty stream strictly increasing by sequence with counts at least
1, every `maxLoadable >= 1`, the counts of every sequence adding up to less than
`2 ^ 32` over all inputs and records of one sequence having qualities of one length,
the call returns; the records passed to the writer, in order over all write calls,
are strictly increasing by sequence, carry exactly the sequences of the inputs, each
with the sum of its counts over all inputs, and the returned value is the number of
records written. -/
theorem merge_one_stream_spec (readers : List SequenceReader) (maxLoadable : Nat)
    (hne : readers ≠ []) (hm : 1 ≤ maxLoadable)
    (hr : ∀ r ∈ readers, r ≠ [] ∧ (r.map (fun x => x.tag)).Pairwise (fun a b => a < b) ∧
      ∀ x ∈ r, 1 ≤ x.overall)
    (hsum : ∀ s, tagCount s readers.flatten < 2 ^ 32)
    (hq : QualAligned readers.flatten) :
    ∃ n chunks, Buffer.merge readers maxLoadable = some (n, chunks) ∧
      n = chunks.flatten.length ∧
      (chunks.flatten.map (fun x => x.tag)).Pairwise (fun a b => a < b) ∧
      (∀ s, s ∈ chunks.flatten.map (fun x => x.tag) ↔
        s ∈ readers.flatten.map (fun x => x.tag)) ∧
      ∀ e ∈ chunks.flatten, e.overall = tagCount e.tag readers.flatten := by
  have hrd : (readers.map (fun r => ({ reader := r, inBuffer := [] } : SeqInput))).map
      (fun d => d.reader) = readers := by
    rw [List.map_map]
    exact List.map_id _
  have hal := qualLen_of_aligned readers.flatten hq
  obtain ⟨n, chunks, h1, h2, h3, h4, -, h6⟩ := mergeCore_spec oneStreamOps (fun _ => True)
    (fun d => d.reader) (fun d => d.inBuffer) (fun _ => True)
    (fun r => 1 ≤ r.overall ∧ r.qual.length = qualLen readers.flatten r.tag)
    (fun r => r.overall) (fun n => n < 2 ^ 32) maxLoadable (oneStream_laws _ maxLoadable) hm
    (readers.map (fun r => { reader := r, inBuffer := [] }))
    (by simpa using hne)
    (by
      intro d hd
      obtain ⟨r, hrm, rfl⟩ := List.mem_map.1 hd
      exact ⟨trivial, (hr r hrm).1⟩)
    (by
      intro d hd
      obtain ⟨r, hrm, rfl⟩ := List.mem_map.1 hd
      exact (hr r hrm).2.1.imp le_of_lt)
    (by
      intro d hd y hy
      obtain ⟨r, hrm, rfl⟩ := List.mem_map.1 hd
      exact ⟨(hr r hrm).2.2 y hy, hal y (List.mem_flatten.2 ⟨r, hrm, hy⟩)⟩)
    (by
      intro s
      rw [hrd]
      exact hsum s)
  rw [hrd] at h4 h6
  refine ⟨n, chunks, h1, h2, h3, h6, fun e he => ?_⟩
  have hu : ksum oneStreamOps.tag (fun r => r.overall) e.tag chunks.flatten = e.overall :=
    ksum_unique oneStreamOps.tag (fun r => r.overall) chunks.flatten h3 e he
  rw [← hu, h4]
  rfl

theorem merge_one_stream_spec_witness :
    ∃ n chunks, Buffer.merge [[⟨[0], [33], 2, 0⟩], [⟨[0], [35], 1, 0⟩, ⟨[1], [40], 1, 0⟩]] 1 =
        some (n, chunks) ∧
      n = chunks.flatten.length ∧
      (chunks.flatten.map (fun x => x.tag)).Pairwise (fun a b => a < b) ∧
      (∀ s, s ∈ chunks.flatten.map (fun x => x.tag) ↔
        s ∈ ([[⟨[0], [33], 2, 0⟩], [⟨[0], [35], 1, 0⟩, ⟨[1], [40], 1, 0⟩]] :
          List SequenceReader).flatten.map (fun x => x.tag)) ∧
      ∀ e ∈ chunks.flatten, e.overall = tagCount e.tag
        ([[⟨[0], [33], 2, 0⟩], [⟨[0], [35], 1, 0⟩, ⟨[1], [40], 1, 0⟩]] :
          List SequenceReader).flatten :=
  merge_one_stream_spec [[⟨[0], [33], 2, 0⟩], [⟨[0], [35], 1, 0⟩, ⟨[1], [40], 1, 0⟩]] 1
    (by decide) (by decide) (by decide) (tagCount_lt_of_total _ (by decide))
    (by unfold QualAligned; decide)

/-- C7 (counterexample). Two readers, each yielding the one record with sequence `[0]`
and count `2 ^ 31`: the record passed to the writer has count 0, not the sum
`2 ^ 31 + 2 ^ 31` of the counts of its sequence over the inputs. -/
theorem merge_one_stream_count_wraps :
    Buffer.merge [[⟨[0], [], 2 ^ 31, 0⟩], [⟨[0], [], 2 ^ 31, 0⟩]] 1 =
        some (1, [[⟨[0], [], 0, 0⟩]]) ∧
      tagCount [0] ([[⟨[0], [], 2 ^ 31, 0⟩], [⟨[0], [], 2 ^ 31, 0⟩]] :
        List SequenceReader).flatten = 2 ^ 32 := by
  decide

theorem mergeOccurrences_eq : ∀ (o1 o2 : List Nat), o1.length = o2.length →
    o1.sum + o2.sum < 2 ^ 32 →
    mergeOccurrences o1 o2
      = some (List.zipWith (fun a b => a + b) o1 o2, List.replicate o1.length 0)
  | [], [], _, _ => rfl
  | [], _ :: _, h, _ => by simp at h
  | _ :: _, [], h, _ => by simp at h
  | a :: o1, b :: o2, h, hb => by
    simp only [List.sum_cons] at hb
    have ih := mergeOccurrences_eq o1 o2 (by simpa using h) (by omega)
    have hm : (a + b) % counterMod = a + b := Nat.mod_eq_of_lt (by unfold counterMod; omega)
    simp [mergeOccurrences, ih, hm, List.replicate_succ]

theorem zipWith_add_sum : ∀ (o1 o2 : List Nat), o1.length = o2.length →
    (List.zipWith (fun a b => a + b) o1 o2).sum = o1.sum + o2.sum
  | [], [], _ => rfl
  | [], _ :: _, h => by simp at h
  | _ :: _, [], h => by simp at h
  | a :: o1, b :: o2, h => by
    have ih := zipWith_add_sum o1 o2 (by simpa using h)
    simp only [List.zipWith_cons_cons, List.sum_cons, ih]
    omega

theorem zipWith_add_getD : ∀ (o1 o2 : List Nat) (i : Nat), o1.length = o2.length →
    (List.zipWith (fun a b => a + b) o1 o2).getD i 0 = o1.getD i 0 + o2.getD i 0
  | [], [], _, _ => by simp
  | [], _ :: _, _, h => by simp at h
  | _ :: _, [], _, h => by simp at h
  | a :: o1, b :: o2, 0, _ => by simp
  | a :: o1, b :: o2, i + 1, h => by
    have ih := zipWith_add_getD o1 o2 i (by simpa using h)
    simpa using ih

/-- The pairwise merge of two details records with counters of one length that do not
overflow. -/
theorem details_merge_ok (c d : DetailsRecord)
    (hlen : c.occurrences.length = d.occurrences.length)
    (hb : c.occurrences.sum + d.occurrences.sum < 2 ^ 32)
    (hov : c.overall + d.overall < 2 ^ 32) :
    DetailsRecord.merge c d
      = some ({ occurrences := List.zipWith (fun a b => a + b) c.occurrences d.occurrences,
                overall := c.overall + d.overall },
              { occurrences := List.replicate c.occurrences.length 0, overall := 0 }) := by
  unfold DetailsRecord.merge
  rw [mergeOccurrences_eq _ _ hlen hb]
  have hm : (c.overall + d.overall) % counterMod = c.overall + d.overall :=
    Nat.mod_eq_of_lt hov
  simp only [hm]

/-- The merge step of the overloads with details on two entries with one sequence. -/
theorem pair_merge_ok (qlen : List Nat → Nat) (nSamples : Nat)
    (a b : SequenceRecord × DetailsRecord) (ha : PairOK qlen nSamples a)
    (hb : PairOK qlen nSamples b) (htag : a.1.tag = b.1.tag)
    (hbd : a.1.overall + b.1.overall < 2 ^ 32) :
    ∃ c b', (match SequenceRecord.merge a.1 b.1, DetailsRecord.merge a.2 b.2 with
        | some (x, y), some (z, w) => some ((x, z), (y, w))
        | _, _ => none) = some (c, b') ∧
      PairOK qlen nSamples c ∧ c.1.tag = a.1.tag ∧ pairVal c = pairVal a + pairVal b ∧
      (∀ x ∈ b'.2.occurrences, x = 0) := by
  obtain ⟨a1, a2, a3, a4, a5⟩ := ha
  obtain ⟨b1, b2, b3, b4, b5⟩ := hb
  obtain ⟨c, b', h1, h2, h3, h4, -⟩ := seq_merge_ok a.1 b.1 a1
    (by
      rw [a2, b2]
      exact congrArg qlen htag) hbd
  have hd := details_merge_ok a.2 b.2 (by rw [a3, b3]) (by rw [a5, b5]; exact hbd)
    (by rw [a4, b4]; exact hbd)
  rw [h1, hd]
  refine ⟨_, _, rfl, ⟨?_, ?_, ?_, ?_, ?_⟩, h2, ?_, ?_⟩
  · show 1 ≤ c.overall
    omega
  · show c.qual.length = qlen c.tag
    rw [h4, a2, h2]
  · show (List.zipWith (fun a b => a + b) a.2.occurrences b.2.occurrences).length = nSamples
    simp [a3, b3]
  · show a.2.overall + b.2.overall = c.overall
    omega
  · show (List.zipWith (fun a b => a + b) a.2.occurrences b.2.occurrences).sum = c.overall
    rw [zipWith_add_sum _ _ (by rw [a3, b3])]
    omega
  · unfold pairVal
    refine Prod.ext ?_ ?_
    · exact h3
    · funext i
      exact zipWith_add_getD _ _ i (by rw [a3, b3])
  · intro x hx
    exact List.eq_of_mem_replicate hx

theorem ksum_fst {α : Type} (tag : α → List Nat) (val : α → Nat × (Nat → Nat)) (s : List Nat) :
    ∀ (l : List α), (ksum tag val s l).1 = ksum tag (fun e => (val e).1) s l
  | [] => rfl
  | x :: l => by
    rw [ksum_cons, ksum_cons, Prod.fst_add, ksum_fst tag val s l]
    by_cases h : tag x = s
    · simp only [h, if_true]
    · simp only [h, if_false]
      rfl

theorem ksum_snd {α : Type} (tag : α → List Nat) (val : α → Nat × (Nat → Nat)) (s : List Nat)
    (i : Nat) : ∀ (l : List α), (ksum tag val s l).2 i = ksum tag (fun e => (val e).2 i) s l
  | [] => rfl
  | x :: l => by
    rw [ksum_cons, ksum_cons, Prod.snd_add, Pi.add_apply, ksum_snd tag val s i l]
    by_cases h : tag x = s
    · simp only [h, if_true]
    · simp only [h, if_false]
      rfl

theorem resizeFill_zeros (occ : List Nat) (n : Nat) (h : ∀ x ∈ occ, x = 0) :
    resizeFill occ n = List.replicate n 0 := by
  have e : occ = List.replicate occ.length 0 := List.eq_replicate_iff.2 ⟨rfl, h⟩
  unfold resizeFill
  rw [List.eq_replicate_iff]
  constructor
  · simp only [List.length_append, List.length_take, List.length_replicate]
    omega
  · intro x hx
    rcases List.mem_append.1 hx with hx | hx
    · exact h x (List.mem_of_mem_take hx)
    · exact List.eq_of_mem_replicate hx

theorem replicate_set_sum (n i c : Nat) (h : i < n) :
    ((List.replicate n 0).set i c).sum = c := by
  induction n generalizing i with
  | zero => omega
  | succ n ih =>
    cases i with
    | zero => simp [List.replicate_succ]
    | succ i =>
      simp only [List.replicate_succ, List.set_cons_succ, List.sum_cons, Nat.zero_add]
      exact ih i (by omega)

theorem seedEntries_some (nSamples id : Nat) (l : List SequenceRecord) :
    seedEntries nSamples (some id) l = l.map (seedEntry nSamples id) := rfl

/-- The parts of the seeding overload satisfy the laws of the generic merge. -/
theorem seeding_laws (qlen : List Nat → Nat) (nSamples m : Nat) :
    MergeLaws (seedingOps nSamples) (fun d => ∃ id, d.sampleId = some id ∧ id < nSamples)
      (fun d => seedEntries nSamples d.sampleId d.reader)
      (fun d => seedEntries nSamples d.sampleId d.inBuffer)
      (fun sc => ∀ x ∈ sc.2.occurrences, x = 0) (PairOK qlen nSamples) pairVal
      (fun v => v.1 < 2 ^ 32) m where
  load_wf := fun _ h _ => h
  load_bf := by
    rintro d ⟨id, hid, -⟩ -
    show seedEntries nSamples d.sampleId (d.reader.take m)
      = (seedEntries nSamples d.sampleId d.reader).take m
    rw [hid, seedEntries_some, seedEntries_some, List.map_take]
  load_rd := by
    rintro d ⟨id, hid, -⟩ -
    show seedEntries nSamples d.sampleId (d.reader.drop m)
      = (seedEntries nSamples d.sampleId d.reader).drop m
    rw [hid, seedEntries_some, seedEntries_some, List.map_drop]
  load_n := by
    rintro d ⟨id, hid, -⟩ -
    show (d.reader.take m).length = ((seedEntries nSamples d.sampleId d.reader).take m).length
    rw [hid, seedEntries_some, List.length_take, List.length_take, List.length_map]
  atEnd_iff := by
    rintro d ⟨id, hid, -⟩
    show d.reader.isEmpty = true ↔ seedEntries nSamples d.sampleId d.reader = []
    rw [hid, seedEntries_some, List.map_eq_nil_iff, List.isEmpty_iff]
  fetch_eq := by
    rintro sc d i x ⟨id, hid, hlt⟩ hsc hx
    have hx' : (seedEntries nSamples d.sampleId d.inBuffer)[i]? = some x := hx
    rw [hid, seedEntries_some, List.getElem?_map] at hx'
    cases hr : d.inBuffer[i]? with
    | none => simp [hr] at hx'
    | some r =>
      simp only [hr, Option.map_some', Option.some.injEq] at hx'
      subst hx'
      show (match d.inBuffer[i]?, d.sampleId with
        | some minRecord, some sampleId =>
          Option.map (fun minTabRecord => (minRecord, minTabRecord))
            ( DetailsRecord.initialize sc.2 minRecord.overall sampleId nSamples)
        | _, _ => none) = some (seedEntry nSamples id r)
      rw [hr, hid]
      simp only [ DetailsRecord.initialize, if_pos hlt, resizeFill_zeros _ _ hsc, Option.map_some']
      rfl
  buffer_tag := by
    rintro d i x ⟨id, hid, -⟩ hx
    have hx' : (seedEntries nSamples d.sampleId d.inBuffer)[i]? = some x := hx
    rw [hid, seedEntries_some, List.getElem?_map] at hx'
    cases hr : d.inBuffer[i]? with
    | none => simp [hr] at hx'
    | some r =>
      simp only [hr, Option.map_some', Option.some.injEq] at hx'
      subst hx'
      exact ⟨r, hr, rfl⟩
  merge_ok := by
    intro a b ha hb htag hbd
    obtain ⟨c, b', h1, h2, h3, h4, h5⟩ := pair_merge_ok qlen nSamples a b ha hb htag hbd
    exact ⟨c, b', h1, h2, h3, h4, h5⟩
  scratch_empty := by
    intro x hx
    simp [seedingOps, DetailsRecord.empty] at hx
  scratch_moved := by
    intro _ x hx
    simp [seedingOps, DetailsRecord.empty] at hx
  bounded_left := by
    intro a b h
    show a.1 < 2 ^ 32
    have h' : a.1 + b.1 < 2 ^ 32 := h
    omega
  pending_ge := by
    rintro d ⟨id, hid, -⟩
    show (seedEntries nSamples d.sampleId d.reader).length ≤ d.reader.length
    rw [hid, seedEntries_some, List.length_map]

theorem seedAll_cons (nSamples : Nat) (r : SequenceReader) (rs : List SequenceReader)
    (id : Nat) (ids : List Nat) :
    seedAll nSamples (r :: rs) (id :: ids)
      = r.map (seedEntry nSamples id) ++ seedAll nSamples rs ids := rfl

theorem mem_seedInputs : ∀ (readers : List SequenceReader) (ids : List Nat),
    readers.length ≤ ids.length → ∀ d ∈ seedInputs readers ids,
      ∃ r ∈ readers, ∃ id ∈ ids, d = { reader := r, inBuffer := [], sampleId := some id }
  | [], _, _, d, hd => by simp [seedInputs] at hd
  | _ :: _, [], h, _, _ => by simp at h
  | r :: rs, id :: ids, h, d, hd => by
    simp only [seedInputs, List.head?_cons, List.tail_cons, List.mem_cons] at hd
    rcases hd with rfl | hd
    · exact ⟨r, List.mem_cons_self _ _, id, List.mem_cons_self _ _, rfl⟩
    · obtain ⟨r', hr', id', hid', e⟩ := mem_seedInputs rs ids (by simpa using h) d hd
      exact ⟨r', List.mem_cons_of_mem _ hr', id', List.mem_cons_of_mem _ hid', e⟩

theorem ksum_map {α γ M : Type} [AddCommMonoid M] (tag : α → List Nat) (val : α → M)
    (g : γ → α) (s : List Nat) : ∀ (l : List γ),
    ksum tag val s (l.map g) = ksum (fun x => tag (g x)) (fun x => val (g x)) s l
  | [] => rfl
  | x :: l => by
    rw [List.map_cons, ksum_cons, ksum_cons, ksum_map tag val g s l]

theorem ksum_const_zero {α : Type} (tag : α → List Nat) (s : List Nat) :
    ∀ (l : List α), ksum tag (fun _ => (0 : Nat)) s l = 0
  | [] => rfl
  | x :: l => by
    rw [ksum_cons, ksum_const_zero tag s l]
    simp

theorem replicate_set_getD (n id i c : Nat) :
    ((List.replicate n 0).set id c).getD i 0 = if id = i ∧ i < n then c else 0 := by
  rw [List.getD_eq_getElem?_getD, List.getElem?_set]
  by_cases h : id = i
  · subst h
    by_cases hlt : id < n
    · simp [hlt]
    · simp [hlt]
  · simp only [h, if_false, false_and]
    by_cases hlt : i < n
    · simp [List.getElem?_replicate, hlt]
    · simp [List.getElem?_replicate, hlt]

/-- Counts of a sequence over the entries of the seeding overload: the counts of the
sequence over all readers. -/
theorem seedAll_count (nSamples : Nat) (s : List Nat) :
    ∀ (readers : List SequenceReader) (ids : List Nat), readers.length ≤ ids.length →
      ksum (fun e : SequenceRecord × DetailsRecord => e.1.tag) (fun e => (pairVal e).1) s
        (seedAll nSamples readers ids) = tagCount s readers.flatten
  | [], _, _ => rfl
  | _ :: _, [], h => by simp at h
  | r :: rs, id :: ids, h => by
    rw [seedAll_cons, ksum_append, seedAll_count nSamples s rs ids (by simpa using h), ksum_map,
      List.flatten_cons]
    show tagCount s r + tagCount s rs.flatten = tagCount s (r ++ rs.flatten)
    simp [tagCount]

theorem seedEntry_counter (nSamples id i : Nat) (s : List Nat) (r : List SequenceRecord) :
    ksum (fun e : SequenceRecord × DetailsRecord => e.1.tag) (fun e => (pairVal e).2 i) s
      (r.map (seedEntry nSamples id)) = if id = i ∧ i < nSamples then tagCount s r else 0 := by
  rw [ksum_map]
  show ksum (fun x : SequenceRecord => x.tag)
    (fun x => ((List.replicate nSamples 0).set id x.overall).getD i 0) s r = _
  simp only [replicate_set_getD]
  by_cases h : id = i ∧ i < nSamples
  · simp only [h, and_self, if_true]
    rfl
  · simp only [h, if_false]
    exact ksum_const_zero _ s r

/-- A sample that reads no input has counter 0. -/
theorem seedAll_counter_absent (nSamples : Nat) (s : List Nat) (i : Nat) :
    ∀ (readers : List SequenceReader) (ids : List Nat), i ∉ ids →
      ksum (fun e : SequenceRecord × DetailsRecord => e.1.tag) (fun e => (pairVal e).2 i) s
        (seedAll nSamples readers ids) = 0
  | [], _, _ => rfl
  | r :: rs, [], _ => by
    have e : seedAll nSamples (r :: rs) [] = seedAll nSamples rs [] := rfl
    rw [e]
    exact seedAll_counter_absent nSamples s i rs [] (by simp)
  | r :: rs, id :: ids, h => by
    simp only [List.mem_cons, not_or] at h
    rw [seedAll_cons, ksum_append, seedAll_counter_absent nSamples s i rs ids h.2,
      seedEntry_counter, if_neg (fun hc => h.1 hc.1.symm)]

/-- The counter of the sample of reader `j` adds up to the count of the sequence in
reader `j`. -/
theorem seedAll_counter (nSamples : Nat) (s : List Nat) (i : Nat) :
    ∀ (readers : List SequenceReader) (ids : List Nat), ids.Nodup → (∀ id ∈ ids, id < nSamples) →
      ∀ (j : Nat) (r : SequenceReader), readers[j]? = some r → ids[j]? = some i →
      ksum (fun e : SequenceRecord × DetailsRecord => e.1.tag) (fun e => (pairVal e).2 i) s
        (seedAll nSamples readers ids) = tagCount s r
  | [], _, _, _, j, r, hr, _ => by simp at hr
  | _ :: _, [], _, _, j, r, _, hi => by simp at hi
  | r0 :: rs, id :: ids, hnd, hlt, 0, r, hr, hi => by
    simp only [List.getElem?_cons_zero, Option.some.injEq] at hr hi
    subst hr hi
    rw [List.nodup_cons] at hnd
    rw [seedAll_cons, ksum_append, seedAll_counter_absent nSamples s id rs ids hnd.1,
      seedEntry_counter, if_pos ⟨rfl, hlt id (List.mem_cons_self _ _)⟩, add_zero]
  | r0 :: rs, id :: ids, hnd, hlt, j + 1, r, hr, hi => by
    simp only [List.getElem?_cons_succ] at hr hi
    rw [List.nodup_cons] at hnd
    have hne : id ≠ i := by
      intro hc
      subst hc
      exact hnd.1 (List.getElem?_mem hi)
    rw [seedAll_cons, ksum_append, seedEntry_counter, if_neg (fun hc => hne hc.1), zero_add]
    exact seedAll_counter nSamples s i rs ids hnd.2
      (fun x hx => hlt x (List.mem_cons_of_mem _ hx)) j r hr hi

/-- C8 (amended). Seeding-details `Buffer::merge`: for a non-empty list of readers,
each yielding a non-empty stream strictly increasing by sequence with counts at least
1, `maxLoadable >= 1`, one sample id below `nSamples` per reader, pairwise distinct,
the counts of every sequence adding up to less than `2 ^ 32` over all inputs and
records of one sequence having qualities of one length, the call returns; sequence
and details records are written in lockstep, strictly increasing by sequence, and
for every written pair the details record has exactly `nSamples` counters, the
counter of the sample of reader `j` is the count of the sequence in reader `j` (0 if
absent), and its overall count equals the count of the sequence record, the sum of
its counters and the sum of the counts of the sequence over all inputs. -/
theorem merge_seeding_spec (readers : List SequenceReader) (samplesIds : List Nat)
    (maxLoadable nSamples : Nat) (hne : readers ≠ []) (hm : 1 ≤ maxLoadable)
    (hr : ∀ r ∈ readers, r ≠ [] ∧ (r.map (fun x => x.tag)).Pairwise (fun a b => a < b) ∧
      ∀ x ∈ r, 1 ≤ x.overall)
    (hlen : samplesIds.length = readers.length) (hid : ∀ id ∈ samplesIds, id < nSamples)
    (hnd : samplesIds.Nodup)
    (hsum : ∀ s, tagCount s readers.flatten < 2 ^ 32)
    (hq : QualAligned readers.flatten) :
    ∃ n chunks, Buffer.mergeSeeding readers samplesIds maxLoadable nSamples = some (n, chunks) ∧
      n = chunks.flatten.length ∧
      (chunks.flatten.map (fun e => e.1.tag)).Pairwise (fun a b => a < b) ∧
      ∀ e ∈ chunks.flatten,
        e.2.occurrences.length = nSamples ∧
        (∀ (j : Nat) (r : SequenceReader) (id : Nat), readers[j]? = some r →
          samplesIds[j]? = some id →
          e.2.occurrences[id]? = some (tagCount e.1.tag r)) ∧
        e.2.overall = e.1.overall ∧ e.2.occurrences.sum = e.1.overall ∧
        e.1.overall = tagCount e.1.tag readers.flatten := by
  have hal := qualLen_of_aligned readers.flatten hq
  have hle : readers.length ≤ samplesIds.length := by omega
  have hcount := fun s => seedAll_count nSamples s readers samplesIds hle
  obtain ⟨n, chunks, h1, h2, h3, h4, h5, -⟩ := mergeCore_spec (seedingOps nSamples)
    (fun d => ∃ id, d.sampleId = some id ∧ id < nSamples)
    (fun d => seedEntries nSamples d.sampleId d.reader)
    (fun d => seedEntries nSamples d.sampleId d.inBuffer)
    (fun sc => ∀ x ∈ sc.2.occurrences, x = 0) (PairOK (qualLen readers.flatten) nSamples) pairVal
    (fun v => v.1 < 2 ^ 32) maxLoadable (seeding_laws _ nSamples maxLoadable) hm
    (seedInputs readers samplesIds)
    (by
      cases readers with
      | nil => exact absurd rfl hne
      | cons r rs => simp [seedInputs])
    (by
      intro d hd
      obtain ⟨r, hrm, id, hidm, rfl⟩ := mem_seedInputs readers samplesIds hle d hd
      refine ⟨⟨id, rfl, hid id hidm⟩, ?_⟩
      show seedEntries nSamples (some id) r ≠ []
      rw [seedEntries_some]
      simpa using (hr r hrm).1)
    (by
      intro d hd
      obtain ⟨r, hrm, id, hidm, rfl⟩ := mem_seedInputs readers samplesIds hle d hd
      show ((seedEntries nSamples (some id) r).map (fun e => e.1.tag)).Pairwise _
      rw [seedEntries_some, List.map_map]
      exact (hr r hrm).2.1.imp le_of_lt)
    (by
      intro d hd y hy
      obtain ⟨r, hrm, id, hidm, rfl⟩ := mem_seedInputs readers samplesIds hle d hd
      have hy' : y ∈ seedEntries nSamples (some id) r := hy
      rw [seedEntries_some] at hy'
      obtain ⟨x, hx, rfl⟩ := List.mem_map.1 hy'
      refine ⟨(hr r hrm).2.2 x hx, hal x (List.mem_flatten.2 ⟨r, hrm, hx⟩), ?_, rfl, ?_⟩
      · simp [seedEntry]
      · exact replicate_set_sum nSamples id x.overall (hid id hidm))
    (by
      intro s
      show (ksum (fun e : SequenceRecord × DetailsRecord => e.1.tag) pairVal s
        (seedAll nSamples readers samplesIds)).1 < 2 ^ 32
      rw [ksum_fst, hcount s]
      exact hsum s)
  refine ⟨n, chunks, h1, h2, h3, fun e he => ?_⟩
  have hu : ksum (fun e : SequenceRecord × DetailsRecord => e.1.tag) pairVal e.1.tag
      chunks.flatten = pairVal e :=
    ksum_unique (seedingOps nSamples).tag pairVal chunks.flatten h3 e he
  have h4' : ksum (fun e : SequenceRecord × DetailsRecord => e.1.tag) pairVal e.1.tag
      chunks.flatten = ksum (fun e : SequenceRecord × DetailsRecord => e.1.tag) pairVal e.1.tag
        (seedAll nSamples readers samplesIds) := h4 e.1.tag
  rw [hu] at h4'
  obtain ⟨-, -, o3, o4, o5⟩ := h5 e he
  refine ⟨o3, ?_, o4, o5, ?_⟩
  · intro j r id hj hi
    have hlt : id < nSamples := hid id (List.getElem?_mem hi)
    have hc := congrFun (congrArg Prod.snd h4') id
    rw [ksum_snd, seedAll_counter nSamples e.1.tag id readers samplesIds hnd hid j r hj hi] at hc
    have hg : (pairVal e).2 id = e.2.occurrences.getD id 0 := rfl
    rw [hg, List.getD_eq_getElem?_getD] at hc
    have hsome : ∃ v, e.2.occurrences[id]? = some v :=
      ⟨_, List.getElem?_eq_getElem (by omega)⟩
    obtain ⟨v, hv⟩ := hsome
    rw [hv] at hc ⊢
    simp only [Option.getD_some] at hc
    rw [hc]
  · have hc := congrArg Prod.fst h4'
    rw [ksum_fst, hcount] at hc
    exact hc

theorem merge_seeding_spec_witness :
    Buffer.mergeSeeding [[⟨[0, 0, 0], [], 2, 0⟩], [⟨[0, 0, 0], [], 1, 0⟩, ⟨[1, 1, 1], [], 1, 0⟩],
        [⟨[1, 1, 1], [], 3, 0⟩]] [0, 1, 2] 2 3 =
      some (2, [[(⟨[0, 0, 0], [], 3, 0⟩, ⟨[2, 1, 0], 3⟩), (⟨[1, 1, 1], [], 4, 0⟩, ⟨[0, 1, 3], 4⟩)]]) ∧
    ∃ n chunks, Buffer.mergeSeeding [[⟨[0, 0, 0], [], 2, 0⟩],
        [⟨[0, 0, 0], [], 1, 0⟩, ⟨[1, 1, 1], [], 1, 0⟩], [⟨[1, 1, 1], [], 3, 0⟩]] [0, 1, 2] 2 3 =
        some (n, chunks) ∧ n = chunks.flatten.length ∧
      ∀ e ∈ chunks.flatten, e.2.occurrences.length = 3 ∧ e.2.overall = e.1.overall ∧
        e.2.occurrences.sum = e.1.overall := by
  refine ⟨by decide, ?_⟩
  obtain ⟨n, chunks, h1, h2, -, h4⟩ := merge_seeding_spec
    [[⟨[0, 0, 0], [], 2, 0⟩], [⟨[0, 0, 0], [], 1, 0⟩, ⟨[1, 1, 1], [], 1, 0⟩],
      [⟨[1, 1, 1], [], 3, 0⟩]] [0, 1, 2] 2 3
    (by decide) (by decide) (by decide) (by decide) (by decide) (by decide)
    (tagCount_lt_of_total _ (by decide)) (by unfold QualAligned; decide)
  exact ⟨n, chunks, h1, h2, fun e he => ⟨(h4 e he).1, (h4 e he).2.2.1, (h4 e he).2.2.2.1⟩⟩

/-- C8 (counterexample). Two readers with samples 0 and 1, each yielding the one record
with sequence `[0]` and count `2 ^ 31`: the details record written has the counters
`2 ^ 31` and `2 ^ 31`, whose sum is `2 ^ 32`, while its overall count and the count of
the sequence record have wrapped to 0. -/
theorem merge_seeding_count_wraps :
    Buffer.mergeSeeding [[⟨[0], [], 2 ^ 31, 0⟩], [⟨[0], [], 2 ^ 31, 0⟩]] [0, 1] 1 2 =
        some (1, [[(⟨[0], [], 0, 0⟩, ⟨[2 ^ 31, 2 ^ 31], 0⟩)]]) ∧
      ([2 ^ 31, 2 ^ 31] : List Nat).sum = 2 ^ 32 := by
  decide

theorem zip_take_take {α γ : Type} : ∀ (m : Nat) (l : List α) (l' : List γ),
    (l.take m).zip (l'.take m) = (l.zip l').take m
  | 0, _, _ => by simp
  | _ + 1, [], _ => by simp
  | _ + 1, _ :: _, [] => by simp
  | m + 1, a :: l, b :: l' => by simp [zip_take_take m l l']

theorem zip_drop_drop {α γ : Type} : ∀ (m : Nat) (l : List α) (l' : List γ),
    (l.drop m).zip (l'.drop m) = (l.zip l').drop m
  | 0, _, _ => by simp
  | _ + 1, [], _ => by simp
  | _ + 1, _ :: _, [] => by simp
  | m + 1, a :: l, b :: l' => by simp [zip_drop_drop m l l']

theorem readRow_eq (slot row : DetailsRecord)
    (h : slot.occurrences.length ≤ row.occurrences.length) : slot.readRow row = row := by
  cases row with
  | mk occ ov =>
    simp only [DetailsRecord.readRow, DetailsRecord.mk.injEq, and_true]
    rw [List.drop_eq_nil_of_le h, List.append_nil]

/-- A load that finds a row for every buffer entry reads the rows into the entries
and leaves the `eofbit` alone. -/
theorem read_full (n : Nat) : ∀ (slots source : List DetailsRecord),
    (∀ t ∈ source, 1 ≤ t.overall ∧ t.occurrences.length = n) →
    (∀ t ∈ slots, t.occurrences.length ≤ n) → slots.length ≤ source.length →
    DetailsReader.read slots source = (source.take slots.length, source.drop slots.length, false)
  | [], source, _, _, _ => by simp [DetailsReader.read]
  | slot :: slots, [], _, _, h => by simp at h
  | slot :: slots, row :: source, hs, hl, h => by
    have hrow := hs row (by simp)
    have e : slot.readRow row = row :=
      readRow_eq slot row (by rw [hrow.2]; exact hl slot (by simp))
    have ih := read_full n slots source (fun t ht => hs t (List.mem_cons_of_mem _ ht))
      (fun t ht => hl t (List.mem_cons_of_mem _ ht)) (by simpa using h)
    rw [DetailsReader.read, e, if_pos (by omega), ih]
    simp

/-- A load into a fresh buffer with more entries than rows are left reads all rows
and sets the `eofbit`; the entry behind the last row has count 0 and is not counted. -/
theorem read_fresh (n : Nat) : ∀ (source : List DetailsRecord) (k : Nat),
    (∀ t ∈ source, 1 ≤ t.overall ∧ t.occurrences.length = n) → source.length < k →
    DetailsReader.read (List.replicate k { occurrences := [], overall := 0 }) source =
      (source, [], true)
  | [], k, _, h => by
    obtain ⟨k', rfl⟩ : ∃ k', k = k' + 1 := ⟨k - 1, by simp at h; omega⟩
    simp [List.replicate_succ, DetailsReader.read]
  | row :: source, k, hs, h => by
    obtain ⟨k', rfl⟩ : ∃ k', k = k' + 1 := ⟨k - 1, by simp at h; omega⟩
    have hrow := hs row (by simp)
    have e : DetailsRecord.readRow { occurrences := [], overall := 0 } row = row :=
      readRow_eq _ row (by simp)
    have ih := read_fresh n source k' (fun t ht => hs t (List.mem_cons_of_mem _ ht))
      (by simpa using h)
    rw [List.replicate_succ, DetailsReader.read, e, if_pos (by omega), ih]

/-- The load of the details buffer of a consistent input that is not at its end reads
the next `m` rows, or all of them. -/
theorem loadDetails_spec (m n : Nat) (d : PairInput) (h : PairWF m n d) (hne : d.tabReader ≠ []) :
    Buffer.loadDetails d.inTabBuffer d.tabReader d.tabEof m =
      (d.tabReader.take m, d.tabReader.drop m, decide (d.tabReader.length < m),
        (d.tabReader.take m).length) := by
  obtain ⟨-, -, h3, h4, h5⟩ := h
  rcases h5 with h5 | ⟨he, h5⟩
  · exact absurd h5 hne
  have hpos : 0 < d.tabReader.length := List.length_pos.2 hne
  unfold Buffer.loadDetails
  rw [he]
  simp only [Bool.false_eq_true, if_false]
  by_cases hlt : d.tabReader.length < m
  · have hfresh : d.inTabBuffer = [] := by
      rcases h5 with h5 | h5
      · exact h5.1
      · have := Nat.le_of_dvd hpos h5
        omega
    rw [hfresh]
    simp only [List.take_nil, List.nil_append, List.length_nil, Nat.sub_zero]
    rw [read_fresh n d.tabReader m h3 hlt, List.take_of_length_le (by omega),
      List.drop_eq_nil_of_le (by omega)]
    simp [hlt]
  · have hslots : (d.inTabBuffer.take m ++
        List.replicate (m - d.inTabBuffer.length)
          ({ occurrences := [], overall := 0 } : DetailsRecord)).length
        = m := by
      simp only [List.length_append, List.length_take, List.length_replicate]
      omega
    rw [read_full n _ d.tabReader h3
      (by
        intro t ht
        rcases List.mem_append.1 ht with ht | ht
        · exact h4 t (List.mem_of_mem_take ht)
        · rw [(List.mem_replicate.1 ht).2]
          exact Nat.zero_le _)
      (by rw [hslots]; omega), hslots]
    simp [hlt]

/-- The parts of the propagating overload satisfy the laws of the generic merge, for
inputs whose streams fit one load or are a multiple of `m` long. -/
theorem propagating_laws (qlen : List Nat → Nat) (nCounters m : Nat) :
    MergeLaws propagatingOps (PairWF m nCounters)
      (fun d => d.reader.zip d.tabReader) (fun d => d.inBuffer.zip d.inTabBuffer)
      (fun _ => True) (PairOK qlen nCounters) pairVal (fun v => v.1 < 2 ^ 32) m where
  load_wf := by
    intro d h hne
    have hne' : d.tabReader ≠ [] := by
      intro hc
      apply hne
      show d.reader.zip d.tabReader = []
      rw [hc, List.zip_nil_right]
    have hl := loadDetails_spec m nCounters d h hne'
    obtain ⟨h1, -, h3, h4, h5⟩ := h
    have e1 : (propagatingOps.load d m).1.reader = d.reader.drop m := rfl
    have e2 : (propagatingOps.load d m).1.tabReader = d.tabReader.drop m := by
      show (Buffer.loadDetails d.inTabBuffer d.tabReader d.tabEof m).2.1 = _
      rw [hl]
    have e3 : (propagatingOps.load d m).1.inBuffer = d.reader.take m := rfl
    have e4 : (propagatingOps.load d m).1.inTabBuffer = d.tabReader.take m := by
      show (Buffer.loadDetails d.inTabBuffer d.tabReader d.tabEof m).1 = _
      rw [hl]
    have e5 : (propagatingOps.load d m).1.tabEof = decide (d.tabReader.length < m) := by
      show (Buffer.loadDetails d.inTabBuffer d.tabReader d.tabEof m).2.2.1 = _
      rw [hl]
    refine ⟨?_, ?_, ?_, ?_, ?_⟩
    · rw [e1, e2, List.length_drop, List.length_drop, h1]
    · rw [e3, e4, List.length_take, List.length_take, h1]
    · rw [e2]
      exact fun t ht => h3 t (List.mem_of_mem_drop ht)
    · rw [e4]
      exact fun t ht => le_of_eq (h3 t (List.mem_of_mem_take ht)).2
    · rw [e2, e4, e5]
      rcases h5 with h5 | ⟨-, h5⟩
      · exact absurd h5 hne'
      rcases h5 with ⟨-, h5⟩ | h5
      · exact Or.inl (List.drop_eq_nil_of_le h5)
      · by_cases hlt : d.tabReader.length < m
        · exact Or.inl (List.drop_eq_nil_of_le (by omega))
        · refine Or.inr ⟨by simp [hlt], Or.inr ?_⟩
          rw [List.length_drop]
          exact (Nat.dvd_sub' h5 (dvd_refl m))
  load_bf := by
    intro d h hne
    have hne' : d.tabReader ≠ [] := by
      intro hc
      apply hne
      show d.reader.zip d.tabReader = []
      rw [hc, List.zip_nil_right]
    have hl := loadDetails_spec m nCounters d h hne'
    show (d.reader.take m).zip (Buffer.loadDetails d.inTabBuffer d.tabReader d.tabEof m).1 = _
    rw [hl]
    exact zip_take_take m d.reader d.tabReader
  load_rd := by
    intro d h hne
    have hne' : d.tabReader ≠ [] := by
      intro hc
      apply hne
      show d.reader.zip d.tabReader = []
      rw [hc, List.zip_nil_right]
    have hl := loadDetails_spec m nCounters d h hne'
    show (d.reader.drop m).zip (Buffer.loadDetails d.inTabBuffer d.tabReader d.tabEof m).2.1 = _
    rw [hl]
    exact zip_drop_drop m d.reader d.tabReader
  load_n := by
    intro d h hne
    have hne' : d.tabReader ≠ [] := by
      intro hc
      apply hne
      show d.reader.zip d.tabReader = []
      rw [hc, List.zip_nil_right]
    have hl := loadDetails_spec m nCounters d h hne'
    show (Buffer.loadDetails d.inTabBuffer d.tabReader d.tabEof m).2.2.2 =
      ((d.reader.zip d.tabReader).take m).length
    rw [hl]
    simp only [List.length_take, List.length_zip, h.1]
    omega
  atEnd_iff := by
    rintro d ⟨h1, -⟩
    show d.reader.isEmpty = true ↔ d.reader.zip d.tabReader = []
    rw [List.zip_eq_nil_iff, List.isEmpty_iff]
    constructor
    · exact Or.inl
    · rintro (h | h)
      · exact h
      · rw [h] at h1
        exact List.length_eq_zero.1 h1
  fetch_eq := by
    intro sc d i x _ _ hx
    have hx' : (d.inBuffer.zip d.inTabBuffer)[i]? = some x := hx
    rw [List.getElem?_zip_eq_some] at hx'
    show (match d.inBuffer[i]?, d.inTabBuffer[i]? with
      | some minRecord, some minTabRecord => some (minRecord, minTabRecord)
      | _, _ => none) = some x
    rw [hx'.1, hx'.2]
  buffer_tag := by
    intro d i x _ hx
    have hx' : (d.inBuffer.zip d.inTabBuffer)[i]? = some x := hx
    rw [List.getElem?_zip_eq_some] at hx'
    exact ⟨x.1, hx'.1, rfl⟩
  merge_ok := by
    intro a b ha hb htag hbd
    obtain ⟨c, b', h1, h2, h3, h4, -⟩ := pair_merge_ok qlen nCounters a b ha hb htag hbd
    exact ⟨c, b', h1, h2, h3, h4, trivial⟩
  scratch_empty := trivial
  scratch_moved := fun _ => trivial
  bounded_left := by
    intro a b h
    show a.1 < 2 ^ 32
    have h' : a.1 + b.1 < 2 ^ 32 := h
    omega
  pending_ge := by
    intro d _
    show (d.reader.zip d.tabReader).length ≤ d.reader.length + d.tabReader.length
    rw [List.length_zip]
    omega

theorem zip_count (s : List Nat) : ∀ (r : List SequenceRecord) (t : List DetailsRecord),
    r.length = t.length →
    ksum (fun e : SequenceRecord × DetailsRecord => e.1.tag) (fun e => (pairVal e).1) s (r.zip t)
      = tagCount s r
  | [], _, _ => rfl
  | _ :: _, [], h => by simp at h
  | x :: r, y :: t, h => by
    rw [List.zip_cons_cons, ksum_cons, zip_count s r t (by simpa using h)]
    show _ = ksum (fun x : SequenceRecord => x.tag) (fun x => x.overall) s (x :: r)
    rw [ksum_cons]
    rfl

theorem pairsAll_count (s : List Nat) : ∀ (readers : List SequenceReader)
    (tabReaders : List DetailsReader), readers.length = tabReaders.length →
    (∀ p ∈ readers.zip tabReaders, p.1.length = p.2.length) →
    ksum (fun e : SequenceRecord × DetailsRecord => e.1.tag) (fun e => (pairVal e).1) s
      (pairsAll readers tabReaders) = tagCount s readers.flatten
  | [], _, _, _ => rfl
  | _ :: _, [], h, _ => by simp at h
  | r :: rs, t :: ts, h, hp => by
    have e : pairsAll (r :: rs) (t :: ts) = r.zip t ++ pairsAll rs ts := rfl
    rw [e, ksum_append, zip_count s r t (hp (r, t) (by simp)),
      pairsAll_count s rs ts (by simpa using h)
        (fun p hpm => hp p (by simp only [List.zip_cons_cons]; exact List.mem_cons_of_mem _ hpm)),
      List.flatten_cons]
    show tagCount s r + tagCount s rs.flatten = tagCount s (r ++ rs.flatten)
    simp [tagCount]

theorem zip_tags : ∀ (r : List SequenceRecord) (t : List DetailsRecord), r.length = t.length →
    (r.zip t).map (fun e => e.1.tag) = r.map (fun x => x.tag)
  | [], _, _ => rfl
  | _ :: _, [], h => by simp at h
  | x :: r, y :: t, h => by
    rw [List.zip_cons_cons, List.map_cons, List.map_cons, zip_tags r t (by simpa using h)]

theorem pairsAll_tags (s : List Nat) : ∀ (readers : List SequenceReader)
    (tabReaders : List DetailsReader), readers.length = tabReaders.length →
    (∀ p ∈ readers.zip tabReaders, p.1.length = p.2.length) →
    (s ∈ (pairsAll readers tabReaders).map (fun e => e.1.tag) ↔
      s ∈ readers.flatten.map (fun x => x.tag))
  | [], _, _, _ => by simp [pairsAll]
  | _ :: _, [], h, _ => by simp at h
  | r :: rs, t :: ts, h, hp => by
    have e : pairsAll (r :: rs) (t :: ts) = r.zip t ++ pairsAll rs ts := rfl
    have ih := pairsAll_tags s rs ts (by simpa using h)
      (fun p hpm => hp p (by simp only [List.zip_cons_cons]; exact List.mem_cons_of_mem _ hpm))
    rw [e, List.map_append, List.mem_append, zip_tags r t (hp (r, t) (by simp)), ih,
      List.flatten_cons, List.map_append, List.mem_append]

theorem mem_pairInputs : ∀ (readers : List SequenceReader) (tabReaders : List DetailsReader)
    (d : PairInput),
    d ∈ List.zipWith
      (fun r t => ({ reader := r, tabReader := t, tabEof := false, inBuffer := [],
                     inTabBuffer := [] } : PairInput))
      readers tabReaders →
    ∃ p ∈ readers.zip tabReaders,
      d = { reader := p.1, tabReader := p.2, tabEof := false, inBuffer := [],
            inTabBuffer := [] }
  | [], _, d, hd => by simp at hd
  | _ :: _, [], d, hd => by simp at hd
  | r :: rs, t :: ts, d, hd => by
    simp only [List.zipWith_cons_cons, List.mem_cons] at hd
    rcases hd with rfl | hd
    · exact ⟨(r, t), by simp, rfl⟩
    · obtain ⟨p, hp, e⟩ := mem_pairInputs rs ts d hd
      exact ⟨p, by simp only [List.zip_cons_cons]; exact List.mem_cons_of_mem _ hp, e⟩

/-- C9 (amended). Propagating-details `Buffer::merge`: for a non-empty list of
(sequence reader, details reader) pairs whose streams are non-empty, have equal
length and are strictly increasing by sequence, whose i-th details record has
`nCounters` counters and an overall count equal to the count of the i-th sequence
record and to the sum of its counters, with counts at least 1, `maxLoadable >= 1`,
every stream at most `maxLoadable` records or a multiple of `maxLoadable` records
long, the counts of every sequence adding up to less than `2 ^ 32` over all inputs and
records of one sequence having qualities of one length, the call returns; sequence
and details records are written in lockstep, strictly increasing by sequence, the
sequences written are exactly the sequences of the inputs, and every written details
record is the element-wise sum of the details records of all input records with its
sequence, with overall count equal to the count of the sequence record and to the sum
of its counters. -/
theorem merge_propagating_spec (readers : List SequenceReader)
    (tabReaders : List DetailsReader) (maxLoadable nCounters : Nat)
    (hne : readers ≠ []) (hlen : readers.length = tabReaders.length) (hm : 1 ≤ maxLoadable)
    (hr : ∀ p ∈ readers.zip tabReaders, p.1 ≠ [] ∧ p.1.length = p.2.length ∧
      (p.1.map (fun x => x.tag)).Pairwise (fun a b => a < b) ∧
      ∀ e ∈ p.1.zip p.2, 1 ≤ e.1.overall ∧ e.2.overall = e.1.overall ∧
        e.2.occurrences.sum = e.1.overall ∧ e.2.occurrences.length = nCounters)
    (hfit : ∀ p ∈ readers.zip tabReaders,
      p.2.length ≤ maxLoadable ∨ maxLoadable ∣ p.2.length)
    (hsum : ∀ s, tagCount s readers.flatten < 2 ^ 32)
    (hq : QualAligned readers.flatten) :
    ∃ n chunks, Buffer.mergePropagating readers tabReaders maxLoadable = some (n, chunks) ∧
      n = chunks.flatten.length ∧
      (chunks.flatten.map (fun e => e.1.tag)).Pairwise (fun a b => a < b) ∧
      (∀ s, s ∈ chunks.flatten.map (fun e => e.1.tag) ↔
        s ∈ readers.flatten.map (fun x => x.tag)) ∧
      ∀ e ∈ chunks.flatten,
        e.2.occurrences.length = nCounters ∧
        (∀ i, i < nCounters →
          e.2.occurrences[i]? = some (detailsSum e.1.tag i (pairsAll readers tabReaders))) ∧
        e.2.overall = e.1.overall ∧ e.2.occurrences.sum = e.1.overall := by
  have hal := qualLen_of_aligned readers.flatten hq
  have hcount := fun s => pairsAll_count s readers tabReaders hlen
    (fun p hp => (hr p hp).2.1)
  have hmapL : (List.zipWith
      (fun r t => ({ reader := r, tabReader := t, tabEof := false, inBuffer := [],
                     inTabBuffer := [] } : PairInput))
      readers tabReaders).map
        (fun d => d.reader.zip d.tabReader) = List.zipWith List.zip readers tabReaders := by
    rw [List.map_zipWith]
  obtain ⟨n, chunks, h1, h2, h3, h4, h5, h6⟩ := mergeCore_spec propagatingOps
    (PairWF maxLoadable nCounters)
    (fun d => d.reader.zip d.tabReader) (fun d => d.inBuffer.zip d.inTabBuffer)
    (fun _ => True) (PairOK (qualLen readers.flatten) nCounters) pairVal
    (fun v => v.1 < 2 ^ 32) maxLoadable (propagating_laws _ nCounters maxLoadable) hm
    (List.zipWith (fun r t => { reader := r, tabReader := t, tabEof := false, inBuffer := [],
                                inTabBuffer := [] })
      readers tabReaders)
    (by
      cases readers with
      | nil => exact absurd rfl hne
      | cons r rs =>
        cases tabReaders with
        | nil => simp at hlen
        | cons t ts => simp)
    (by
      intro d hd
      obtain ⟨p, hp, rfl⟩ := mem_pairInputs readers tabReaders d hd
      obtain ⟨g1, g2, -, g4⟩ := hr p hp
      refine ⟨⟨g2, rfl, ?_, by simp, Or.inr ⟨rfl, ?_⟩⟩, ?_⟩
      · intro t ht
        show 1 ≤ t.overall ∧ t.occurrences.length = nCounters
        have ht' : t ∈ p.2 := ht
        obtain ⟨i, hi, hti⟩ := List.getElem_of_mem ht'
        have hi1 : i < p.1.length := by omega
        have hmem : (p.1[i], t) ∈ p.1.zip p.2 := by
          rw [← hti]
          have hz : i < (p.1.zip p.2).length := by
            rw [List.length_zip]
            omega
          have := List.getElem_mem hz
          rwa [List.getElem_zip] at this
        obtain ⟨k1, k2, -, k4⟩ := g4 _ hmem
        have k1' : 1 ≤ p.1[i].overall := k1
        have k2' : t.overall = p.1[i].overall := k2
        exact ⟨by omega, k4⟩
      · rcases hfit p hp with h | h
        · exact Or.inl ⟨rfl, h⟩
        · exact Or.inr h
      show p.1.zip p.2 ≠ []
      rw [Ne, List.zip_eq_nil_iff]
      rintro (h | h)
      · exact g1 h
      · rw [h] at g2
        exact g1 (List.length_eq_zero.1 g2))
    (by
      intro d hd
      obtain ⟨p, hp, rfl⟩ := mem_pairInputs readers tabReaders d hd
      obtain ⟨-, g2, g3, -⟩ := hr p hp
      show ((p.1.zip p.2).map (fun e => e.1.tag)).Pairwise _
      have e : (p.1.zip p.2).map (fun e => e.1.tag)
          = ((p.1.zip p.2).map Prod.fst).map (fun x => x.tag) := by
        rw [List.map_map]
        rfl
      rw [e, List.map_fst_zip _ _ (by omega)]
      exact g3.imp le_of_lt)
    (by
      intro d hd y hy
      obtain ⟨p, hp, rfl⟩ := mem_pairInputs readers tabReaders d hd
      obtain ⟨-, -, -, g4⟩ := hr p hp
      have hy' : y ∈ p.1.zip p.2 := hy
      obtain ⟨k1, k2, k3, k4⟩ := g4 y hy'
      have hmem : y.1 ∈ p.1 := (@List.of_mem_zip _ _ y.1 y.2 _ _ hy').1
      have hpm : p.1 ∈ readers := (@List.of_mem_zip _ _ p.1 p.2 _ _ hp).1
      exact ⟨k1, hal y.1 (List.mem_flatten.2 ⟨p.1, hpm, hmem⟩), k4, k2, k3⟩)
    (by
      intro s
      rw [hmapL]
      show (ksum (fun e : SequenceRecord × DetailsRecord => e.1.tag) pairVal s
        (pairsAll readers tabReaders)).1 < 2 ^ 32
      rw [ksum_fst, hcount s]
      exact hsum s)
  rw [hmapL] at h4 h6
  refine ⟨n, chunks, ?_, h2, h3, fun s => ?_, fun e he => ?_⟩
  · unfold Buffer.mergePropagating
    rw [if_pos (by omega)]
    exact h1
  · rw [show (fun e : SequenceRecord × DetailsRecord => e.1.tag) = propagatingOps.tag from rfl,
      h6 s]
    exact pairsAll_tags s readers tabReaders hlen (fun p hp => (hr p hp).2.1)
  have hu : ksum (fun e : SequenceRecord × DetailsRecord => e.1.tag) pairVal e.1.tag
      chunks.flatten = pairVal e :=
    ksum_unique propagatingOps.tag pairVal chunks.flatten h3 e he
  have h4' : ksum (fun e : SequenceRecord × DetailsRecord => e.1.tag) pairVal e.1.tag
      chunks.flatten = ksum (fun e : SequenceRecord × DetailsRecord => e.1.tag) pairVal e.1.tag
        (pairsAll readers tabReaders) := h4 e.1.tag
  rw [hu] at h4'
  obtain ⟨-, -, o3, o4, o5⟩ := h5 e he
  refine ⟨o3, ?_, o4, o5⟩
  intro i hi
  have hc := congrFun (congrArg Prod.snd h4') i
  rw [ksum_snd] at hc
  have hg : (pairVal e).2 i = e.2.occurrences.getD i 0 := rfl
  rw [hg, List.getD_eq_getElem?_getD] at hc
  have hsome : ∃ v, e.2.occurrences[i]? = some v := ⟨_, List.getElem?_eq_getElem (by omega)⟩
  obtain ⟨v, hv⟩ := hsome
  rw [hv] at hc ⊢
  simp only [Option.getD_some] at hc
  rw [hc]
  rfl

theorem merge_propagating_spec_witness :
    Buffer.mergePropagating [[⟨[0], [], 2, 0⟩], [⟨[0], [], 1, 0⟩, ⟨[1], [], 4, 0⟩]]
        [[⟨[2, 0], 2⟩], [⟨[0, 1], 1⟩, ⟨[1, 3], 4⟩]] 1 =
      some (2, [[(⟨[0], [], 3, 0⟩, ⟨[2, 1], 3⟩)], [(⟨[1], [], 4, 0⟩, ⟨[1, 3], 4⟩)]]) ∧
    ∃ n chunks, Buffer.mergePropagating [[⟨[0], [], 2, 0⟩], [⟨[0], [], 1, 0⟩, ⟨[1], [], 4, 0⟩]]
        [[⟨[2, 0], 2⟩], [⟨[0, 1], 1⟩, ⟨[1, 3], 4⟩]] 1 = some (n, chunks) ∧
      n = chunks.flatten.length ∧
      ∀ e ∈ chunks.flatten, e.2.occurrences.length = 2 ∧ e.2.overall = e.1.overall ∧
        e.2.occurrences.sum = e.1.overall := by
  refine ⟨by decide, ?_⟩
  obtain ⟨n, chunks, h1, h2, -, -, h4⟩ := merge_propagating_spec
    [[⟨[0], [], 2, 0⟩], [⟨[0], [], 1, 0⟩, ⟨[1], [], 4, 0⟩]]
    [[⟨[2, 0], 2⟩], [⟨[0, 1], 1⟩, ⟨[1, 3], 4⟩]] 1 2
    (by decide) (by decide) (by decide) (by decide) (by decide)
    (tagCount_lt_of_total _ (by decide)) (by unfold QualAligned; decide)
  exact ⟨n, chunks, h1, h2, fun e he => ⟨(h4 e he).1, (h4 e he).2.2.1, (h4 e he).2.2.2⟩⟩

/-- C9 (counterexample). Two pairs of readers, each yielding the one record with
sequence `[0]` and count `2 ^ 31` and the details record with the one counter
`2 ^ 31`: the details record written has the counter 0, not the element-wise sum
`2 ^ 31 + 2 ^ 31` of the details records of the inputs with that sequence. A stream of
three records read with `maxLoadable = 2`: the second load of the details buffer
finds one row, counts the entry behind it, which still holds the second record of the
first load, and the merge reads the sequence buffer past its end. A stream whose
first record has count 0: the row of that record is not counted, and the sequence
`[0]` is written with the details of the sequence `[1]`, which is not written at
all. An empty stream next to a stream with a record, and `maxLoadable = 0`: the call
has no defined result. -/
theorem merge_propagating_diverges :
    (Buffer.mergePropagating [[⟨[0], [], 2 ^ 31, 0⟩], [⟨[0], [], 2 ^ 31, 0⟩]]
        [[⟨[2 ^ 31], 2 ^ 31⟩], [⟨[2 ^ 31], 2 ^ 31⟩]] 1 =
        some (1, [[(⟨[0], [], 0, 0⟩, ⟨[0], 0⟩)]]) ∧
      detailsSum [0] 0 (pairsAll [[⟨[0], [], 2 ^ 31, 0⟩], [⟨[0], [], 2 ^ 31, 0⟩]]
        [[⟨[2 ^ 31], 2 ^ 31⟩], [⟨[2 ^ 31], 2 ^ 31⟩]]) = 2 ^ 32) ∧
    Buffer.mergePropagating [[⟨[0], [], 1, 0⟩, ⟨[1], [], 1, 0⟩, ⟨[2], [], 1, 0⟩]]
      [[⟨[1], 1⟩, ⟨[1], 1⟩, ⟨[1], 1⟩]] 2 = none ∧
    Buffer.mergePropagating [[⟨[0], [], 0, 0⟩, ⟨[1], [], 1, 0⟩]] [[⟨[0], 0⟩, ⟨[1], 1⟩]] 2 =
      some (1, [[(⟨[0], [], 0, 0⟩, ⟨[1], 1⟩)]]) ∧
    Buffer.mergePropagating [[], [⟨[1], [], 1, 0⟩]] [[], [⟨[1], 1⟩]] 1 = none ∧
    Buffer.mergePropagating [[⟨[1], [], 1, 0⟩]] [[⟨[1], 1⟩]] 0 = none := by
  refine ⟨by decide, by decide, by decide, by decide, by decide⟩

/-- C20. `DetailsRecord::merge (a, b)`: for two details records with counters of the
same length, each with its overall count equal to the sum of its counters, and the
two overall counts adding up to less than `2 ^ 32`, the call returns; the counters of
`a` are the element-wise sums, the overall count of `a` is the sum of the two overall
counts and still the sum of the counters of `a`, and `b` keeps its number of counters,
all of them 0, with overall count 0. -/
theorem details_merge_spec (a b : DetailsRecord)
    (hlen : a.occurrences.length = b.occurrences.length)
    (ha : a.overall = a.occurrences.sum) (hb : b.overall = b.occurrences.sum)
    (hov : a.overall + b.overall < 2 ^ 32) :
    ∃ a' b', DetailsRecord.merge a b = some (a', b') ∧
      a'.occurrences = List.zipWith (fun x y => x + y) a.occurrences b.occurrences ∧
      a'.overall = a.overall + b.overall ∧ a'.overall = a'.occurrences.sum ∧
      b'.occurrences.length = b.occurrences.length ∧ (∀ x ∈ b'.occurrences, x = 0) ∧
      b'.overall = 0 := by
  have h := details_merge_ok a b hlen (by rw [← ha, ← hb]; exact hov) hov
  refine ⟨_, _, h, rfl, rfl, ?_, ?_, ?_, rfl⟩
  · show a.overall + b.overall = (List.zipWith (fun x y => x + y) a.occurrences b.occurrences).sum
    rw [zipWith_add_sum _ _ hlen, ha, hb]
  · show (List.replicate a.occurrences.length 0).length = b.occurrences.length
    rw [List.length_replicate, hlen]
  · intro x hx
    exact List.eq_of_mem_replicate hx

theorem details_merge_spec_witness :
    ∃ a' b', DetailsRecord.merge ⟨[2, 0, 1], 3⟩ ⟨[0, 4, 1], 5⟩ = some (a', b') ∧
      a'.occurrences = [2, 4, 2] ∧ a'.overall = 8 ∧ b'.occurrences.length = 3 ∧
      (∀ x ∈ b'.occurrences, x = 0) ∧ b'.overall = 0 := by
  obtain ⟨a', b', h1, h2, h3, -, h5, h6, h7⟩ := details_merge_spec ⟨[2, 0, 1], 3⟩ ⟨[0, 4, 1], 5⟩
    (by decide) (by decide) (by decide) (by decide)
  exact ⟨a', b', h1, h2.trans (by decide), h3.trans (by decide), h5.trans (by decide), h6, h7⟩

/-- C19 (amended). `DetailsRecord::initialize (overall, sampleId, nSamples)` with
`sampleId < nSamples`: the call returns, the record has `nSamples` counters, the
counter of `sampleId` and the overall count are `overall`; when the record held no
counter other than 0 before the call, every other counter is 0 and the overall count
is the sum of the counters. -/
theorem initialize_spec (record : DetailsRecord) (overall sampleId nSamples : Nat)
    (hlt : sampleId < nSamples) :
    ∃ d, DetailsRecord.initialize record overall sampleId nSamples = some d ∧
      d.occurrences.length = nSamples ∧ d.occurrences[sampleId]? = some overall ∧
      d.overall = overall ∧
      ((∀ x ∈ record.occurrences, x = 0) →
        d.occurrences.sum = overall ∧
        ∀ i, i ≠ sampleId → i < nSamples → d.occurrences[i]? = some 0) := by
  have hl : (resizeFill record.occurrences nSamples).length = nSamples := by
    simp only [resizeFill, List.length_append, List.length_take, List.length_replicate]
    omega
  refine ⟨{ occurrences := (resizeFill record.occurrences nSamples).set sampleId overall,
            overall := overall },
    by simp only [ DetailsRecord.initialize, if_pos hlt], ?_, ?_, rfl, ?_⟩
  · show ((resizeFill record.occurrences nSamples).set sampleId overall).length = nSamples
    rw [List.length_set, hl]
  · show ((resizeFill record.occurrences nSamples).set sampleId overall)[sampleId]? = some overall
    rw [List.getElem?_set_self (by omega)]
  · intro h0
    show ((resizeFill record.occurrences nSamples).set sampleId overall).sum = overall ∧
      ∀ i, i ≠ sampleId → i < nSamples →
        ((resizeFill record.occurrences nSamples).set sampleId overall)[i]? = some 0
    rw [resizeFill_zeros _ _ h0]
    refine ⟨replicate_set_sum nSamples sampleId overall hlt, fun i hne hi => ?_⟩
    rw [List.getElem?_set_ne (fun hc => hne hc.symm), List.getElem?_replicate, if_pos hi]

theorem initialize_spec_witness :
    ∃ d, DetailsRecord.initialize ⟨[0, 0, 0], 0⟩ 7 1 3 = some d ∧
      d.occurrences.length = 3 ∧ d.occurrences[1]? = some 7 ∧ d.overall = 7 ∧
      d.occurrences.sum = 7 := by
  obtain ⟨d, h1, h2, h3, h4, h5⟩ := initialize_spec ⟨[0, 0, 0], 0⟩ 7 1 3 (by decide)
  exact ⟨d, h1, h2, h3, h4, (h5 (by decide)).1⟩

/-- C19 (counterexample). A record that holds the counters 5 and 7: after
`initialize (3, 0, 2)` the counters are 3 and 7, the counter of the other sample is
not 0 and the overall count 3 is not the sum 10 of the counters. -/
theorem initialize_keeps_old_counters :
    DetailsRecord.initialize ⟨[5, 7], 12⟩ 3 0 2 = some ⟨[3, 7], 3⟩ ∧
      ([3, 7] : List Nat).sum = 10 := by
  decide

/-- C18 (amended). Frame of `SequenceRecord::merge (a, b)`: for records with quality
strings of equal length whose counts do not add up to 0 modulo `2 ^ 32` (or that carry
no quality), the call returns and leaves the sequence and the offset of `a` and the
sequence, the quality and the offset of `b` unchanged; when both qualities are empty
the quality of `a` is still empty. -/
theorem merge_pair_frame (a b : SequenceRecord) (hlen : a.qual.length = b.qual.length)
    (hz : (a.overall + b.overall) % 2 ^ 32 ≠ 0 ∨ a.qual = []) :
    ∃ a' b', a.merge b = some (a', b') ∧ a'.tag = a.tag ∧ a'.bpOffset = a.bpOffset ∧
      b'.tag = b.tag ∧ b'.qual = b.qual ∧ b'.bpOffset = b.bpOffset ∧
      (a.qual = [] → b.qual = [] → a'.qual = []) := by
  obtain ⟨a', b', h⟩ := merge_pair_isSome a b (le_of_eq hlen) hz
  obtain ⟨⟨h1, h2, h3⟩, -, h5⟩ := merge_pair_shape a b a' b' h
  refine ⟨a', b', h, h1, h3, ?_, ?_, ?_, fun ha _ => ?_⟩
  · rw [h5]
  · rw [h5]
  · rw [h5]
  · apply List.length_eq_zero.1
    rw [h2, ha]
    rfl

theorem merge_pair_frame_witness :
    ∃ a' b', SequenceRecord.merge ⟨[0, 1], [33, 34], 1, 1⟩ ⟨[0, 1], [35, 36], 2, 1⟩ = some (a', b') ∧
      a'.tag = [0, 1] ∧ a'.bpOffset = 1 ∧ b'.tag = [0, 1] ∧ b'.qual = [35, 36] ∧
      b'.bpOffset = 1 := by
  obtain ⟨a', b', h, h1, h2, h3, h4, h5, -⟩ := merge_pair_frame ⟨[0, 1], [33, 34], 1, 1⟩
    ⟨[0, 1], [35, 36], 2, 1⟩ (by decide) (Or.inl (by decide))
  exact ⟨a', b', h, h1, h2, h3, h4, h5⟩

/-- C18 (counterexample). Two records with one sequence, qualities of equal length
and count `2 ^ 31` each: the 32-bit sum of the counts is 0 and the call divides the
weighted quality by it; it has no defined result, so nothing is left unchanged. -/
theorem merge_pair_zero_total :
    SequenceRecord.merge ⟨[0], [33], 2 ^ 31, 0⟩ ⟨[0], [33], 2 ^ 31, 0⟩ = none := by
  decide

/-- C16 (amended). Overflow of the counter is not reported: the pairwise merge, the
range merge and `DetailsRecord::merge` have no failure path. When the counts add up
to `2 ^ 32` or more (and the quality strings are aligned and the 32-bit total is not
0, or there are no qualities), each call returns normally and stores the sum of the
counts modulo `2 ^ 32`, which is smaller than the sum. -/
theorem merge_overflow_wraps :
    (∀ a b : SequenceRecord, a.qual.length = b.qual.length →
      2 ^ 32 ≤ a.overall + b.overall →
      ((a.overall + b.overall) % 2 ^ 32 ≠ 0 ∨ a.qual = []) →
      ∃ a' b', a.merge b = some (a', b') ∧ a'.overall = (a.overall + b.overall) % 2 ^ 32 ∧
        a'.overall < a.overall + b.overall) ∧
    (∀ (r : SequenceRecord) (rs : List SequenceRecord),
      (∀ x ∈ rs, x.qual.length ≤ r.qual.length) →
      2 ^ 32 ≤ totalCount (r :: rs) →
      (totalCount (r :: rs) % 2 ^ 32 ≠ 0 ∨ r.qual = []) →
      ∃ r' rs', SequenceRecord.mergeRange (r :: rs) = some (r' :: rs') ∧
        r'.overall = totalCount (r :: rs) % 2 ^ 32 ∧ r'.overall < totalCount (r :: rs)) ∧
    (∀ a b : DetailsRecord, a.occurrences.length ≤ b.occurrences.length →
      2 ^ 32 ≤ a.overall + b.overall →
      ∃ a' b', DetailsRecord.merge a b = some (a', b') ∧
        a'.overall = (a.overall + b.overall) % 2 ^ 32 ∧ a'.overall < a.overall + b.overall) := by
  refine ⟨?_, ?_, ?_⟩
  · intro a b hlen hov hz
    obtain ⟨a', b', h⟩ := merge_pair_isSome a b (le_of_eq hlen) hz
    obtain ⟨-, h4, -⟩ := merge_pair_shape a b a' b' h
    refine ⟨a', b', h, h4, ?_⟩
    rw [h4]
    exact lt_of_lt_of_le (Nat.mod_lt _ (by decide)) hov
  · intro r rs hq hov hz
    obtain ⟨l', h⟩ := mergeRange_isSome r rs hq hz
    obtain ⟨q, -, hl⟩ := mergeRange_shape r rs l' h
    rw [hl] at h
    refine ⟨_, _, h, rfl, ?_⟩
    exact lt_of_lt_of_le (Nat.mod_lt _ (by decide)) hov
  · intro a b hlen hov
    have hmo : ∀ (o1 o2 : List Nat), o1.length ≤ o2.length →
        ∃ r, mergeOccurrences o1 o2 = some r := by
      intro o1
      induction o1 with
      | nil => intro o2 _; exact ⟨_, rfl⟩
      | cons x o1 ih =>
        intro o2 h
        cases o2 with
        | nil => simp at h
        | cons y o2 =>
          obtain ⟨r, hr⟩ := ih o2 (by simpa using h)
          exact ⟨((x + y) % counterMod :: r.1, 0 :: r.2), by simp [mergeOccurrences, hr]⟩
    obtain ⟨⟨o1, o2⟩, hr⟩ := hmo a.occurrences b.occurrences hlen
    refine ⟨{ occurrences := o1, overall := (a.overall + b.overall) % counterMod },
      { occurrences := o2, overall := 0 }, by simp only [DetailsRecord.merge, hr], rfl, ?_⟩
    exact lt_of_lt_of_le (Nat.mod_lt _ (by decide)) hov

theorem merge_overflow_wraps_witness :
    (∃ a' b', SequenceRecord.merge ⟨[0], [40], 2 ^ 32 - 1, 0⟩ ⟨[0], [40], 2, 0⟩ = some (a', b') ∧
      a'.overall = 1) ∧
    (∃ r' rs', SequenceRecord.mergeRange [⟨[0], [40], 2 ^ 32 - 1, 0⟩, ⟨[0], [40], 2, 0⟩] =
      some (r' :: rs') ∧ r'.overall = 1) ∧
    (∃ a' b', DetailsRecord.merge ⟨[2 ^ 32 - 1], 2 ^ 32 - 1⟩ ⟨[2], 2⟩ = some (a', b') ∧
      a'.overall = 1) := by
  obtain ⟨h1, h2, h3⟩ := merge_overflow_wraps
  refine ⟨?_, ?_, ?_⟩
  · obtain ⟨a', b', h, ho, -⟩ := h1 ⟨[0], [40], 2 ^ 32 - 1, 0⟩ ⟨[0], [40], 2, 0⟩ (by decide)
      (by decide) (Or.inl (by decide))
    exact ⟨a', b', h, ho.trans (by decide)⟩
  · obtain ⟨r', rs', h, ho, -⟩ := h2 ⟨[0], [40], 2 ^ 32 - 1, 0⟩ [⟨[0], [40], 2, 0⟩] (by decide)
      (by decide) (Or.inl (by decide))
    exact ⟨r', rs', h, ho.trans (by decide)⟩
  · obtain ⟨a', b', h, ho, -⟩ := h3 ⟨[2 ^ 32 - 1], 2 ^ 32 - 1⟩ ⟨[2], 2⟩ (by decide) (by decide)
    exact ⟨a', b', h, ho.trans (by decide)⟩

/-- C16 (counterexample). Two records with count `2 ^ 31` each: the pairwise merge
and the range merge return normally with the wrapped count 0, and so does
`DetailsRecord::merge` on two details records with overall count `2 ^ 31`. -/
theorem merge_overflow_no_error :
    SequenceRecord.merge ⟨[0], [], 2 ^ 31, 0⟩ ⟨[0], [], 2 ^ 31, 0⟩ =
      some (⟨[0], [], 0, 0⟩, ⟨[0], [], 0, 0⟩) ∧
    SequenceRecord.mergeRange [⟨[0], [], 2 ^ 31, 0⟩, ⟨[0], [], 2 ^ 31, 0⟩] =
      some [⟨[0], [], 0, 0⟩, ⟨[0], [], 0, 0⟩] ∧
    DetailsRecord.merge ⟨[2 ^ 31], 2 ^ 31⟩ ⟨[2 ^ 31], 2 ^ 31⟩ = some (⟨[0], 0⟩, ⟨[0], 0⟩) := by
  decide

theorem infixOf_eq (s : List Nat) (trimLeft trimRight : Nat) (h : trimLeft + trimRight ≤ s.length)
    (hl : s.length < 2 ^ 64) :
    infixOf s trimLeft ((s.length + 2 ^ 64 - trimRight) % 2 ^ 64)
      = some ((s.take (s.length - trimRight)).drop trimLeft) := by
  have e : (s.length + 2 ^ 64 - trimRight) % 2 ^ 64 = s.length - trimRight := by
    have e1 : s.length + 2 ^ 64 - trimRight = (s.length - trimRight) + 2 ^ 64 := by omega
    rw [e1, Nat.add_mod_right]
    exact Nat.mod_eq_of_lt (by omega)
  rw [e]
  unfold infixOf
  rw [if_pos ⟨by omega, by omega⟩]

/-- C12 (quality present). `SequenceRecord::trim (L, R)` on a record whose quality
string is as long as its sequence, with `L + R <= len (sequence)`: the call returns,
the sequence is the infix `[L, len - R)` of the old sequence, of length `len - L - R`,
the quality is the same infix of the old quality, and the count is unchanged. -/
theorem trim_content (r : SequenceRecord) (trimLeft trimRight : Nat)
    (hq : r.qual.length = r.tag.length) (h : trimLeft + trimRight ≤ r.tag.length)
    (hl : r.tag.length < 2 ^ 64) :
    ∃ r', r.trim trimLeft trimRight = some r' ∧
      r'.tag = (r.tag.take (r.tag.length - trimRight)).drop trimLeft ∧
      r'.tag.length = r.tag.length - trimLeft - trimRight ∧
      r'.qual = (r.qual.take (r.qual.length - trimRight)).drop trimLeft ∧
      r'.overall = r.overall := by
  have h1 := infixOf_eq r.tag trimLeft trimRight h hl
  have h2 := infixOf_eq r.qual trimLeft trimRight (by omega) (by omega)
  unfold SequenceRecord.trim
  simp only [h1, h2]
  refine ⟨_, rfl, rfl, ?_, rfl, rfl⟩
  show ((r.tag.take (r.tag.length - trimRight)).drop trimLeft).length = _
  rw [List.length_drop, List.length_take]
  omega

theorem trim_content_witness :
    ∃ r', SequenceRecord.trim ⟨[4, 0, 1, 2, 3, 4], [30, 31, 32, 33, 34, 35], 1, 0⟩ 1 1 = some r' ∧
      r'.tag = [0, 1, 2, 3] ∧ r'.tag.length = 4 ∧ r'.qual = [31, 32, 33, 34] := by
  obtain ⟨r', h1, h2, h3, h4, -⟩ := trim_content
    ⟨[4, 0, 1, 2, 3, 4], [30, 31, 32, 33, 34, 35], 1, 0⟩ 1 1 (by decide) (by decide) (by decide)
  exact ⟨r', h1, h2.trans (by decide), h3.trans (by decide), h4.trans (by decide)⟩

/-- C12 (failing input). The record `NACGTN` without qualities, trimmed with `L = 1`
and `R = 1`: the end position of the quality infix is `0 - 1` in unsigned 64-bit
arithmetic, past the end of the empty quality string, so the call has no defined
result. -/
theorem trim_absent_quality :
    SequenceRecord.trim ⟨[4, 0, 1, 2, 3, 4], [], 1, 0⟩ 1 1 = none := by
  decide

/-- C13 (failing input). A record of length 6 with offset 4, trimmed with `L = 1` and
`R = 1`: the offset satisfies `L <= 4 <= 6 - R`, so the rule gives `4 - L = 3`, but
the call compares the offset with the length 4 of the trimmed sequence minus `R` and
stores the trimmed length 4. -/
theorem trim_offset_compares_new_length :
    SequenceRecord.trim ⟨[4, 0, 1, 2, 3, 4], [30, 31, 32, 33, 34, 35], 1, 4⟩ 1 1 =
      some ⟨[0, 1, 2, 3], [31, 32, 33, 34], 1, 4⟩ ∧
    ¬ (4 < 1) ∧ 4 ≤ 6 - 1 ∧ 4 - 1 = 3 := by
  decide

/-- C14 (failing input). A record of length 6 with offset 5, trimmed with `L = 0` and
`R = 4`: the trimmed sequence has length 2, the bound `2 - 4` wraps in unsigned
64-bit arithmetic and the offset stays 5, which is above the length of the trimmed
sequence. -/
theorem trim_offset_past_end :
    SequenceRecord.trim ⟨[4, 0, 1, 2, 3, 4], [30, 31, 32, 33, 34, 35], 1, 5⟩ 0 4 =
      some ⟨[4, 0], [30, 31], 1, 5⟩ ∧
    ¬ (5 ≤ ([4, 0] : List Nat).length) := by
  decide

theorem ltSequence_false_iff (a b : SequenceRecord) : ltSequence b a = false ↔ a.tag ≤ b.tag := by
  unfold ltSequence
  simp

/-- The call `std::sort` with the comparator of the collapser leaves the buffer sorted
by sequence. -/
theorem stdSort_sorted (l : List SequenceRecord) : SortedBySequence (stdSort ltSequence l) := by
  have h := @List.sorted_insertionSort SequenceRecord (fun a b => ltSequence b a = false) _
    ⟨fun a b => by
      rw [ltSequence_false_iff, ltSequence_false_iff]
      exact le_total a.tag b.tag⟩
    ⟨fun a b c => by
      rw [ltSequence_false_iff, ltSequence_false_iff, ltSequence_false_iff]
      exact le_trans⟩ l
  unfold SortedBySequence stdSort
  exact List.Pairwise.imp (fun {a b} hab => (ltSequence_false_iff a b).1 hab) h

theorem stdSort_perm {α : Type} (comparator : α → α → Bool) (l : List α) :
    (stdSort comparator l).Perm l :=
  List.perm_insertionSort _ l

theorem sort_single {α : Type} (comparator : α → α → Bool) (nThreads : Nat) (buf : List α)
    (h : nThreads ≤ 1 ∨ buf.length < 2048) :
    Buffer.sort comparator nThreads buf = stdSort comparator buf := by
  unfold Buffer.sort
  simp only
  rw [if_neg (computeMaxThreads_single buf.length nThreads h)]

theorem tagCount_perm (s : List Nat) {l1 l2 : List SequenceRecord} (h : l1.Perm l2) :
    tagCount s l1 = tagCount s l2 :=
  ((h.filter _).map _).sum_eq

theorem totalCount_perm {l1 l2 : List SequenceRecord} (h : l1.Perm l2) :
    totalCount l1 = totalCount l2 :=
  (h.map _).sum_eq

theorem qualAligned_perm {l1 l2 : List SequenceRecord} (h : l1.Perm l2) (hq : QualAligned l2) :
    QualAligned l1 :=
  fun a ha b hb => hq a (h.subset ha) b (h.subset hb)

/-- The collapse on the single-threaded path of a non-empty sorted buffer: it returns,
and the buffer after the call is what `CollapsedAt` describes at every position. -/
theorem collapse_single_spec (buf : Buffer) (nThreads : Nat)
    (ht : nThreads ≤ 1 ∨ buf.length < 2048) (hne : buf ≠ [])
    (hs : SortedBySequence buf) (hc : Collapsible buf) :
    ∃ out n, Buffer.collapse eqSequence nThreads buf = some (out, n) ∧
      out.length = buf.length ∧ CollapsedFrom buf 0 out ∧ n = out.countP isAlive := by
  obtain ⟨out, b, n, h1, h2, h3, h4, -⟩ := collapseBufferRange_spec buf hne hs hc
  refine ⟨out, n, ?_, h2, h3, h4⟩
  simp only [Buffer.collapse, if_neg (computeMaxThreads_single buf.length nThreads ht), h1,
    Option.map_some']

theorem collapsedAt_of_mem (buf out : List SequenceRecord) (h : CollapsedFrom buf 0 out)
    (o : SequenceRecord) (ho : o ∈ out) : ∃ i, out[i]? = some o ∧ CollapsedAt buf i o := by
  obtain ⟨i, hi⟩ := List.getElem?_of_mem ho
  have := collapsedFrom_get buf out 0 i o h hi
  rw [Nat.zero_add] at this
  exact ⟨i, hi, this⟩

theorem sorted_get (buf : List SequenceRecord) (hs : SortedBySequence buf) (i j : Nat)
    (a b : SequenceRecord) (hij : i ≤ j) (ha : buf[i]? = some a) (hb : buf[j]? = some b) :
    a.tag ≤ b.tag := by
  obtain ⟨hi, rfl⟩ := List.getElem?_eq_some.1 ha
  obtain ⟨hj, rfl⟩ := List.getElem?_eq_some.1 hb
  rcases Nat.lt_or_eq_of_le hij with hlt | heq
  · exact (List.pairwise_iff_getElem.1 hs) i j hi hj hlt
  · subst heq
    exact le_refl _

/-- An alive record of a collapsed buffer sits at the first position of its run. -/
theorem alive_isLeader (buf : List SequenceRecord) (i : Nat) (o : SequenceRecord)
    (h : CollapsedAt buf i o) (ha : isAlive o = true) : isLeader buf i := by
  by_contra hn
  obtain ⟨w, -, -, -, -, -, h0, -⟩ := h
  have := h0 hn
  simp [isAlive, this] at ha

/-- The alive records of a collapsed sorted buffer are strictly increasing by
sequence. -/
theorem alive_sorted (buf out : List SequenceRecord) (hs : SortedBySequence buf)
    (h : CollapsedFrom buf 0 out) :
    ((out.filter isAlive).map (fun r => r.tag)).Pairwise (fun a b => a < b) := by
  have e : out.filter isAlive = out.filter (fun b => decide (isAlive b = true)) := by
    congr
    funext b
    simp
  rw [List.pairwise_map, e, List.pairwise_filter, List.pairwise_iff_getElem]
  intro i j hi hj hij hai haj
  have hoi : out[i]? = some out[i] := List.getElem?_eq_getElem hi
  have hoj : out[j]? = some out[j] := List.getElem?_eq_getElem hj
  have ci := collapsedFrom_get buf out 0 i _ h hoi
  have cj := collapsedFrom_get buf out 0 j _ h hoj
  rw [Nat.zero_add] at ci cj
  have hlead := alive_isLeader buf j _ cj haj
  obtain ⟨wi, hwi, hti, -⟩ := ci
  obtain ⟨wj, hwj, htj, -⟩ := cj
  rw [hti, htj]
  rcases hlead with h0 | hne
  · omega
  · have hj1 : j - 1 < buf.length := by
      have := (List.getElem?_eq_some.1 hwj).1
      omega
    have hp : buf[j - 1]? = some buf[j - 1] := List.getElem?_eq_getElem hj1
    rw [hp, hwj] at hne
    simp only [Option.map_some', ne_eq, Option.some.injEq] at hne
    have h1 := sorted_get buf hs i (j - 1) wi _ (by omega) hwi hp
    have h2 := sorted_get buf hs (j - 1) j _ wj (by omega) hp hwj
    exact lt_of_le_of_lt h1 (lt_of_le_of_ne h2 hne)

/-- Every alive record of a collapsed buffer carries the total count of its sequence
and the sequence, quality length and offset of a record of the buffer. -/
theorem alive_count (buf out : List SequenceRecord) (h : CollapsedFrom buf 0 out)
    (e : SequenceRecord) (he : e ∈ out.filter isAlive) :
    e.overall = tagCount e.tag buf ∧ 1 ≤ e.overall ∧
      ∃ w ∈ buf, e.tag = w.tag ∧ e.qual.length = w.qual.length ∧ e.bpOffset = w.bpOffset := by
  obtain ⟨hm, ha⟩ := List.mem_filter.1 he
  obtain ⟨i, hi, hc⟩ := collapsedAt_of_mem buf out h e hm
  have hlead := alive_isLeader buf i e hc ha
  obtain ⟨w, hw, ht, hb, hq, hl, -, -⟩ := hc
  refine ⟨?_, ?_, w, mem_of_getElem?_eq hw, ht, hq, hb⟩
  · rw [hl hlead, ht]
  · simpa [isAlive] using ha

/-- Every sequence of the buffer is the sequence of an alive record after the
collapse. -/
theorem alive_complete (buf out : List SequenceRecord) (hlen : out.length = buf.length)
    (hpos : ∀ r ∈ buf, 1 ≤ r.overall) (h : CollapsedFrom buf 0 out)
    (w : SequenceRecord) (hw : w ∈ buf) :
    w.tag ∈ (out.filter isAlive).map (fun r => r.tag) := by
  classical
  have hex : ∃ i : Nat, ∃ w' : SequenceRecord, buf[i]? = some w' ∧ w'.tag = w.tag := by
    obtain ⟨i, hi⟩ := List.getElem?_of_mem hw
    exact ⟨i, w, hi, rfl⟩
  obtain ⟨w', hw', ht'⟩ := Nat.find_spec hex
  have hmin := fun m (hm : m < Nat.find hex) => Nat.find_min hex hm
  have hi : Nat.find hex < out.length := by
    rw [hlen]
    exact (List.getElem?_eq_some.1 hw').1
  have ho : out[Nat.find hex]? = some out[Nat.find hex] := List.getElem?_eq_getElem hi
  have hc := collapsedFrom_get buf out 0 _ _ h ho
  rw [Nat.zero_add] at hc
  obtain ⟨w2, hw2, ht, -, -, hl, -, -⟩ := hc
  rw [hw'] at hw2
  cases hw2
  have hlead : isLeader buf (Nat.find hex) := by
    by_cases h0 : Nat.find hex = 0
    · exact Or.inl h0
    · right
      have hlt : Nat.find hex - 1 < buf.length := by
        have := (List.getElem?_eq_some.1 hw').1
        omega
      rw [List.getElem?_eq_getElem hlt, hw']
      simp only [Option.map_some', ne_eq, Option.some.injEq]
      intro hc
      exact hmin (Nat.find hex - 1) (by omega) ⟨_, List.getElem?_eq_getElem hlt, hc.trans ht'⟩
  have hov := hl hlead
  have hge : 1 ≤ tagCount w'.tag buf :=
    le_trans (hpos w' (mem_of_getElem?_eq hw')) (le_tagCount_of_mem buf w' (mem_of_getElem?_eq hw'))
  refine List.mem_map.2 ⟨out[Nat.find hex], List.mem_filter.2 ⟨List.getElem_mem _, ?_⟩, ?_⟩
  · simp only [isAlive, decide_eq_true_eq]
    omega
  · rw [ht, ht']

/-- Counts per sequence are the same in the alive records of the collapsed buffer and
in the buffer. -/
theorem alive_tagCount (buf out : List SequenceRecord) (hs : SortedBySequence buf)
    (hlen : out.length = buf.length) (hpos : ∀ r ∈ buf, 1 ≤ r.overall)
    (h : CollapsedFrom buf 0 out) (s : List Nat) :
    tagCount s (out.filter isAlive) = tagCount s buf := by
  by_cases hmem : ∃ w ∈ buf, w.tag = s
  · obtain ⟨w, hw, rfl⟩ := hmem
    obtain ⟨e, he, het⟩ := List.mem_map.1 (alive_complete buf out hlen hpos h w hw)
    have hu := ksum_unique (fun r : SequenceRecord => r.tag) (fun r => r.overall)
      (out.filter isAlive) (alive_sorted buf out hs h) e he
    have hc := (alive_count buf out h e he).1
    rw [← het]
    exact hu.trans hc
  · have h1 : tagCount s buf = 0 :=
      tagCount_eq_zero s buf (fun r hr hc => hmem ⟨r, hr, hc⟩)
    rw [h1]
    apply tagCount_eq_zero
    intro e he hc
    obtain ⟨-, -, w, hw, ht, -⟩ := alive_count buf out h e he
    exact hmem ⟨w, hw, ht.symm.trans hc⟩

theorem tagCount_filter_alive (s : List Nat) : ∀ (l : List SequenceRecord),
    tagCount s (l.filter isAlive) = tagCount s l
  | [] => rfl
  | r :: l => by
    by_cases ha : isAlive r = true
    · rw [List.filter_cons_of_pos ha, tagCount_cons, tagCount_cons, tagCount_filter_alive s l]
    · rw [List.filter_cons_of_neg ha, tagCount_cons, tagCount_filter_alive s l]
      have h0 : r.overall = 0 := by simpa [isAlive] using ha
      rw [h0]
      simp

theorem tagCount_set (s : List Nat) : ∀ (l : List SequenceRecord) (i : Nat) (a w : SequenceRecord),
    l[i]? = some w →
      tagCount s (l.set i a) + (if w.tag = s then w.overall else 0) =
        tagCount s l + (if a.tag = s then a.overall else 0)
  | [], _, _, _, h => by simp at h
  | x :: l, 0, a, w, h => by
    simp only [List.getElem?_cons_zero, Option.some.injEq] at h
    subst h
    simp only [List.set_cons_zero, tagCount_cons]
    omega
  | x :: l, i + 1, a, w, h => by
    simp only [List.getElem?_cons_succ] at h
    have := tagCount_set s l i a w h
    simp only [List.set_cons_succ, tagCount_cons]
    omega

theorem tagCount_modify_zero (s : List Nat) : ∀ (l : List SequenceRecord) (j : Nat)
    (w : SequenceRecord), l[j]? = some w →
      tagCount s (l.modify (fun r => { r with overall := 0 }) j) +
        (if w.tag = s then w.overall else 0) = tagCount s l
  | [], _, _, h => by simp at h
  | x :: l, 0, w, h => by
    simp only [List.getElem?_cons_zero, Option.some.injEq] at h
    subst h
    simp only [List.modify, List.modifyHead, List.modifyTailIdx, tagCount_cons]
    split <;> omega
  | x :: l, j + 1, w, h => by
    simp only [List.getElem?_cons_succ] at h
    have := tagCount_modify_zero s l j w h
    simp only [List.modify_succ_cons, tagCount_cons]
    omega

theorem two_le_tagCount (l : List SequenceRecord) (i j : Nat) (x y : SequenceRecord)
    (hi : l[i]? = some x) (hj : l[j]? = some y) (hne : i ≠ j) (ht : x.tag = y.tag) :
    x.overall + y.overall ≤ tagCount x.tag l := by
  have h1 := tagCount_set x.tag l i { x with overall := 0 } x hi
  have h2 := le_tagCount_of_mem (l.set i { x with overall := 0 }) y
    (mem_of_getElem?_eq (by rw [getElem?_set_other _ _ _ _ hne]; exact hj))
  rw [← ht] at h2
  simp only [if_true] at h1
  omega

/-- The in-place merge of two records with one sequence keeps the counts per sequence
when the counts of that sequence fit the counter. -/
theorem mergeAt_tagCount (buf buf' : Buffer) (i j : Nat) (h : mergeAt buf i j = some buf')
    (hne : i ≠ j) (ht : ∀ l f, buf[i]? = some l → buf[j]? = some f → l.tag = f.tag)
    (hb : ∀ s, tagCount s buf < counterMod) (s : List Nat) :
    tagCount s buf' = tagCount s buf := by
  obtain ⟨l, f, a, hi, hj, hsim, ha, rfl⟩ := mergeAt_shape buf buf' i j h
  have htag := ht l f hi hj
  have h1 := tagCount_set s buf i a l hi
  have h2 := tagCount_modify_zero s (buf.set i a) j f
    (by rw [getElem?_set_other _ _ _ _ hne]; exact hj)
  have h3 := two_le_tagCount buf i j l f hi hj hne htag
  have h4 := hb l.tag
  rw [Nat.mod_eq_of_lt (by omega)] at ha
  rw [hsim.1] at h1
  rw [← htag] at h2
  by_cases hs : l.tag = s
  · simp only [hs, if_true] at h1 h2
    omega
  · simp only [hs, if_false] at h1 h2
    omega

/-- The stitching loop returns on a buffer whose records keep the sequences and
quality lengths of a buffer `W` with aligned qualities and counts per sequence that
fit the counter, when the first record of every region still to be stitched has a
positive count; the buffer it leaves keeps the sequences, the quality lengths and the
counts per sequence. -/
theorem stitch_spec (W : List SequenceRecord) (hal : QualAligned W)
    (hW : ∀ s, tagCount s W < counterMod) :
    ∀ (meta : List (Nat × Nat)) (bs : List Nat) (buf : Buffer) (c : Nat),
      List.Forall₂ (fun m b => m.1 < b) meta bs → bs.Pairwise (fun a b => a < b) →
      List.Forall₂ Sim W buf → (∀ s, tagCount s buf = tagCount s W) →
      (∀ b ∈ bs, ∃ x, buf[b]? = some x ∧ 1 ≤ x.overall) →
      ∃ buf' c', stitch eqSequence buf c meta bs = some (buf', c') ∧
        List.Forall₂ Sim W buf' ∧ ∀ s, tagCount s buf' = tagCount s W
  | _, _, buf, c, List.Forall₂.nil, _, hsim, htot, _ => ⟨buf, c, by simp [stitch], hsim, htot⟩
  | m :: meta, b :: bs, buf, c, List.Forall₂.cons hmb hrest, hsorted, hsim, htot, hheads => by
    obtain ⟨f, hf, hfpos⟩ := hheads b (by simp)
    have hblt : b < buf.length := by
      by_contra hcon
      rw [List.getElem?_eq_none (by omega)] at hf
      cases hf
    have hmlt : m.1 < buf.length := by omega
    have hl : buf[m.1]? = some buf[m.1] := List.getElem?_eq_getElem hmlt
    have hs' := List.pairwise_cons.1 hsorted
    simp only [stitch, hl, hf]
    by_cases he : eqSequence buf[m.1] f = true
    · simp only [he, if_true]
      have htag : buf[m.1].tag = f.tag := by simpa [eqSequence] using he
      obtain ⟨w1, hw1, hs1⟩ := forall₂_get hsim m.1 _ hl
      obtain ⟨w2, hw2, hs2⟩ := forall₂_get hsim b _ hf
      have hqlen : buf[m.1].qual.length = f.qual.length := by
        rw [hs1.2.1, hs2.2.1]
        exact hal w1 (mem_of_getElem?_eq hw1) w2 (mem_of_getElem?_eq hw2)
          (by rw [← hs1.1, ← hs2.1, htag])
      have hsum := two_le_tagCount buf m.1 b _ f hl hf (by omega) htag
      have hbound := hW buf[m.1].tag
      rw [← htot] at hbound
      obtain ⟨a, b', hm⟩ := merge_pair_isSome buf[m.1] f (le_of_eq hqlen)
        (Or.inl (by rw [Nat.mod_eq_of_lt (by omega)]; omega))
      have hma : mergeAt buf m.1 b =
          some ((buf.set m.1 a).modify (fun r => { r with overall := 0 }) b) := by
        simp only [mergeAt, hl, hf, hm]
      simp only [hma]
      obtain ⟨hsa, -, -⟩ := merge_pair_shape _ _ _ _ hm
      refine stitch_spec W hal hW meta bs _ (c - 1) hrest hs'.2
        (forall₂_sim_modify_zero _ _ _ (forall₂_sim_set _ _ _ _ _ hsim hl hsa)) ?_ ?_
      · intro s
        rw [mergeAt_tagCount buf _ m.1 b hma (by omega)
          (by
            intro l0 f0 h1 h2
            rw [hl] at h1
            rw [hf] at h2
            cases h1
            cases h2
            exact htag)
          (fun s => by rw [htot s]; exact hW s) s, htot s]
      · intro b2 hb2
        obtain ⟨x, hx, hxpos⟩ := hheads b2 (List.mem_cons_of_mem _ hb2)
        have hlt := hs'.1 b2 hb2
        refine ⟨x, ?_, hxpos⟩
        rw [List.getElem?_modify, getElem?_set_other _ _ _ _ (by omega), hx]
        simp
        omega
    · simp only [he]
      exact stitch_spec W hal hW meta bs buf c hrest hs'.2 hsim htot
        (fun b2 hb2 => hheads b2 (List.mem_cons_of_mem _ hb2))

theorem collapseChunks_tagCount (s : List Nat) :
    ∀ (chunks : List (List SequenceRecord)) (outs : List (List SequenceRecord × Nat × Nat)),
      (∀ c ∈ chunks, c ≠ [] ∧ SortedBySequence c ∧ Collapsible c) →
      collapseChunks eqSequence chunks = some outs →
      tagCount s (outs.map (fun o => o.1)).flatten = tagCount s chunks.flatten
  | [], outs, _, h => by
    simp only [collapseChunks, Option.some.injEq] at h
    subst h
    rfl
  | c :: cs, outs, hc, h => by
    obtain ⟨hne, hs, hcol⟩ := hc c (by simp)
    obtain ⟨out, b, n, h1, h2, h3, -, -⟩ := collapseBufferRange_spec c hne hs hcol
    simp only [collapseChunks, h1, Option.map_eq_some'] at h
    obtain ⟨os, hos, rfl⟩ := h
    have ih := collapseChunks_tagCount s cs os (fun d hd => hc d (List.mem_cons_of_mem _ hd)) hos
    simp only [List.map_cons, List.flatten_cons, tagCount_append, ih]
    rw [← tagCount_filter_alive s out, alive_tagCount c out hs h2 hcol.pos h3 s]

/-- `collapseRangeMT_` returns on a sorted buffer that meets `Collapsible` and whose
regions are not empty; the buffer it leaves keeps, position by position, the
sequences and the quality lengths, and keeps the counts per sequence. -/
theorem collapseRangeMT_spec (buf : Buffer) (t : Nat) (ht : 1 ≤ t) (hk : t ≤ buf.length)
    (hs : SortedBySequence buf) (hc : Collapsible buf) :
    ∃ out n, collapseRangeMT_ eqSequence t buf = some (out, n) ∧
      List.Forall₂ Sim buf out ∧ ∀ s, tagCount s out = tagCount s buf := by
  obtain ⟨t', rfl⟩ : ∃ t', t = t' + 1 := ⟨t - 1, by omega⟩
  have hk1 : 1 ≤ buf.length / (t' + 1) := (Nat.le_div_iff_mul_le (by omega)).2 (by omega)
  have hne := chunksOf_ne_nil _ hk1 t' buf (Nat.mul_div_le _ _)
  have hsub := chunksOf_sublist (buf.length / (t' + 1)) t' buf
  have hall : ∀ c ∈ chunksOf (buf.length / (t' + 1)) t' buf,
      c ≠ [] ∧ SortedBySequence c ∧ Collapsible c :=
    fun c hcm => ⟨hne c hcm, sortedBySequence_sublist (hsub c hcm) hs,
      collapsible_sublist (hsub c hcm) hc⟩
  obtain ⟨outs, ho1, ho2⟩ := collapseChunks_total (chunksOf (buf.length / (t' + 1)) t' buf) hall
  have hreg := collapseRegions_chunks eqSequence (chunksOf (buf.length / (t' + 1)) t' buf) []
  simp only [List.nil_append, List.length_nil, flatten_chunksOf] at hreg
  have hcons : ∀ s, tagCount s (outs.map (fun o => o.1)).flatten = tagCount s buf := by
    intro s
    have := collapseChunks_tagCount s _ outs hall ho1
    rwa [flatten_chunksOf] at this
  have hsim := forall₂_sim_flatten _ _ ho2
  rw [flatten_chunksOf] at hsim
  have hf := meta_lt_bounds eqSequence _ outs 0 ho1 hne
  have hheads := heads_at_bounds _ outs [] ho2 hne
  simp only [List.nil_append, List.length_nil] at hheads
  have hlen : (boundsOf 0 (chunksOf (buf.length / (t' + 1)) t' buf)).length = t' + 2 := by
    rw [length_boundsOf, length_chunksOf]
  have hsorted := boundsOf_sorted (chunksOf (buf.length / (t' + 1)) t' buf) 0 hne
  unfold collapseRangeMT_
  simp only
  rw [setBufferBounds_eq, hreg, ho1]
  simp only [Option.map_some', Nat.add_sub_cancel]
  exact stitch_spec buf hc.aligned hc.bound _ _ _ _
    (by
      rw [List.drop_one]
      exact List.forall₂_take _ hf)
    (List.Pairwise.sublist ((List.take_sublist _ _).trans (List.drop_sublist _ _)) hsorted)
    hsim hcons
    (fun b hbm => hheads b (mem_dropLast_of_mem_take_drop _ t' b hlen hbm))

/-- `Buffer::collapse` with any number of threads on a non-empty sorted buffer that
meets `Collapsible`: it returns, and the buffer it leaves keeps, position by position,
the sequences and the quality lengths, and keeps the counts per sequence. -/
theorem collapse_any_spec (buf : Buffer) (nThreads : Nat) (hne : buf ≠ [])
    (hs : SortedBySequence buf) (hc : Collapsible buf) :
    ∃ out n, Buffer.collapse eqSequence nThreads buf = some (out, n) ∧
      List.Forall₂ Sim buf out ∧ ∀ s, tagCount s out = tagCount s buf := by
  unfold Buffer.collapse
  simp only
  by_cases ht : computeMaxThreads_ buf.length nThreads (2 ^ 10) > 1
  · rw [if_pos ht]
    obtain ⟨h1, h2⟩ := computeMaxThreads_bounds _ _ ht
    exact collapseRangeMT_spec buf _ h1 h2 hs hc
  · rw [if_neg ht]
    obtain ⟨out, b, n, h1, h2, h3, -, -⟩ := collapseBufferRange_spec buf hne hs hc
    refine ⟨out, n, by rw [h1]; rfl, (collapseBufferRange_shape eqSequence buf out b n h1).1, ?_⟩
    intro s
    rw [← tagCount_filter_alive s out, alive_tagCount buf out hs h2 hc.pos h3 s]

theorem totalCount_readPaired (forceNoQual : Bool) (pairs : List (FastxRecord × FastxRecord)) :
    totalCount (pairs.map (fun p => SequenceRecord.readPaired forceNoQual p.1 p.2))
      = pairs.length := by
  induction pairs with
  | nil => rfl
  | cons p ps ih =>
    simp only [totalCount, List.map_cons, List.sum_cons, List.length_cons] at ih ⊢
    rw [ih]
    simp only [SequenceRecord.readPaired]
    omega

/-- C15 (amended). Records produced by the paired-end read carry the sequence
`mate-1 ++ mate-2` and the offset `len (mate-1)` modulo `2 ^ 8`. When all first mates
have one length `k` (fewer than `2 ^ 32` pairs, records of one sequence with qualities
of one length), sorting and collapsing the records returns, and the offset of every
record of the collapsed buffer, a leader in particular, is the offset of every record
read with the same sequence. -/
theorem paired_offsets_kept (forceNoQual : Bool) (pairs : List (FastxRecord × FastxRecord))
    (k : Nat) (hk : ∀ p ∈ pairs, p.1.seq.length = k) (hne : pairs ≠ [])
    (hq : QualAligned (pairs.map (fun p => SequenceRecord.readPaired forceNoQual p.1 p.2)))
    (hn : pairs.length < 2 ^ 32) :
    (∀ p ∈ pairs, (SequenceRecord.readPaired forceNoQual p.1 p.2).tag = p.1.seq ++ p.2.seq ∧
      (SequenceRecord.readPaired forceNoQual p.1 p.2).bpOffset = k % 2 ^ 8) ∧
    ∃ out n, Buffer.collapse eqSequence 1 (Buffer.sort ltSequence 1
        (pairs.map (fun p => SequenceRecord.readPaired forceNoQual p.1 p.2))) = some (out, n) ∧
      ∀ o ∈ out, ∀ p ∈ pairs,
        (SequenceRecord.readPaired forceNoQual p.1 p.2).tag = o.tag →
        (SequenceRecord.readPaired forceNoQual p.1 p.2).bpOffset = o.bpOffset := by
  have hoff : ∀ p ∈ pairs,
      (SequenceRecord.readPaired forceNoQual p.1 p.2).tag = p.1.seq ++ p.2.seq ∧
      (SequenceRecord.readPaired forceNoQual p.1 p.2).bpOffset = k % 2 ^ 8 := by
    intro p hp
    refine ⟨rfl, ?_⟩
    show p.1.seq.length % offsetMod = k % 2 ^ 8
    rw [hk p hp]
    rfl
  refine ⟨hoff, ?_⟩
  have hsort := sort_single ltSequence 1
    (pairs.map (fun p => SequenceRecord.readPaired forceNoQual p.1 p.2)) (Or.inl (le_refl _))
  rw [hsort]
  have hperm := stdSort_perm ltSequence
    (pairs.map (fun p => SequenceRecord.readPaired forceNoQual p.1 p.2))
  have hall : ∀ w ∈ stdSort ltSequence
      (pairs.map (fun p => SequenceRecord.readPaired forceNoQual p.1 p.2)),
      w.overall = 1 ∧ w.bpOffset = k % 2 ^ 8 := by
    intro w hw
    obtain ⟨p, hp, rfl⟩ := List.mem_map.1 (hperm.subset hw)
    exact ⟨rfl, (hoff p hp).2⟩
  have hc : Collapsible (stdSort ltSequence
      (pairs.map (fun p => SequenceRecord.readPaired forceNoQual p.1 p.2))) := by
    refine ⟨fun r hr => by rw [(hall r hr).1], ?_, qualAligned_perm hperm hq⟩
    apply tagCount_lt_of_total
    rw [totalCount_perm hperm, totalCount_readPaired]
    exact hn
  obtain ⟨out, n, h1, -, h3, -⟩ := collapse_single_spec _ 1 (Or.inl (le_refl _))
    (by
      intro hnil
      have := hperm.length_eq
      rw [hnil] at this
      simp only [List.length_nil, List.length_map] at this
      exact hne (List.length_eq_zero.1 this.symm))
    (stdSort_sorted _) hc
  refine ⟨out, n, h1, fun o ho p hp _ => ?_⟩
  obtain ⟨i, -, w, hw, -, hb, -⟩ := collapsedAt_of_mem _ out h3 o ho
  rw [hb, (hall w (mem_of_getElem?_eq hw)).2]
  exact (hoff p hp).2

theorem paired_offsets_kept_witness :
    ∃ out n, Buffer.collapse eqSequence 1 (Buffer.sort ltSequence 1
        ([(⟨[0, 1], [30, 31]⟩, ⟨[2, 3], [32, 33]⟩), (⟨[0, 1], [34, 35]⟩, ⟨[2, 3], [36, 37]⟩),
          (⟨[0, 0], [30, 30]⟩, ⟨[1], [30]⟩)].map
          (fun p => SequenceRecord.readPaired false p.1 p.2))) = some (out, n) ∧
      ∀ o ∈ out, ∀ p ∈ ([(⟨[0, 1], [30, 31]⟩, ⟨[2, 3], [32, 33]⟩),
          (⟨[0, 1], [34, 35]⟩, ⟨[2, 3], [36, 37]⟩), (⟨[0, 0], [30, 30]⟩, ⟨[1], [30]⟩)] :
          List (FastxRecord × FastxRecord)),
        (SequenceRecord.readPaired false p.1 p.2).tag = o.tag →
        (SequenceRecord.readPaired false p.1 p.2).bpOffset = o.bpOffset :=
  (paired_offsets_kept false [(⟨[0, 1], [30, 31]⟩, ⟨[2, 3], [32, 33]⟩),
    (⟨[0, 1], [34, 35]⟩, ⟨[2, 3], [36, 37]⟩), (⟨[0, 0], [30, 30]⟩, ⟨[1], [30]⟩)] 2
    (by decide) (by decide) (by unfold QualAligned; decide) (by decide)).2

/-- C15 (counterexample). The mate pairs `AC / GT` and `A / CGT` are read as records
with the same sequence `ACGT` and the offsets 2 and 1. Sorting and collapsing them
leaves a leader with count 2 and offset 2, which is not the offset 1 of the record
merged into it. -/
theorem paired_offsets_differ :
    (SequenceRecord.readPaired true ⟨[0, 1], []⟩ ⟨[2, 3], []⟩).tag =
      (SequenceRecord.readPaired true ⟨[0], []⟩ ⟨[1, 2, 3], []⟩).tag ∧
    (SequenceRecord.readPaired true ⟨[0, 1], []⟩ ⟨[2, 3], []⟩).bpOffset = 2 ∧
    (SequenceRecord.readPaired true ⟨[0], []⟩ ⟨[1, 2, 3], []⟩).bpOffset = 1 ∧
    Buffer.collapse eqSequence 1 (Buffer.sort ltSequence 1
      [SequenceRecord.readPaired true ⟨[0, 1], []⟩ ⟨[2, 3], []⟩,
       SequenceRecord.readPaired true ⟨[0], []⟩ ⟨[1, 2, 3], []⟩]) =
      some ([⟨[0, 1, 2, 3], [], 2, 2⟩, ⟨[0, 1, 2, 3], [], 0, 1⟩], 1) := by
  decide

theorem weightedSum_append (i : Nat) (l1 l2 : List SequenceRecord) :
    weightedSum i (l1 ++ l2) = weightedSum i l1 + weightedSum i l2 := by
  simp [weightedSum]

theorem weightedSum_perm (i : Nat) {l1 l2 : List SequenceRecord} (h : l1.Perm l2) :
    weightedSum i l1 = weightedSum i l2 :=
  (h.map _).sum_eq

theorem weightedSum_le (i : Nat) : ∀ (l : List SequenceRecord),
    (∀ x ∈ l, ∀ q ∈ x.qual, q < 128) → weightedSum i l ≤ 127 * totalCount l
  | [], _ => by simp [weightedSum, totalCount]
  | x :: l, h => by
    have ih := weightedSum_le i l (fun y hy => h y (List.mem_cons_of_mem _ hy))
    have hq : x.qual.getD i 0 ≤ 127 := by
      rw [List.getD_eq_getElem?_getD]
      cases hx : x.qual[i]? with
      | none => simp
      | some q =>
        have := h x (List.mem_cons_self _ _) q (List.getElem?_mem hx)
        simp only [Option.getD_some]
        omega
    have hm := Nat.mul_le_mul_right x.overall hq
    simp only [weightedSum, totalCount, List.map_cons, List.sum_cons] at ih ⊢
    rw [Nat.mul_add]
    omega

theorem getD_lt_128 (q : List Nat) (i : Nat) (h : ∀ x ∈ q, x < 128) : q.getD i 0 < 128 := by
  rw [List.getD_eq_getElem?_getD]
  cases hx : q[i]? with
  | none => simp
  | some v =>
    simp only [Option.getD_some]
    exact h v (List.getElem?_mem hx)

theorem zipWith_getD (f : Nat → Nat → Nat) : ∀ (a b : List Nat) (i : Nat),
    i < a.length → i < b.length →
    (List.zipWith f a b).getD i 0 = f (a.getD i 0) (b.getD i 0)
  | [], _, _, h, _ => by simp at h
  | _ :: _, [], _, _, h => by simp at h
  | x :: a, y :: b, 0, _, _ => by simp
  | x :: a, y :: b, i + 1, h1, h2 => by
    have ih := zipWith_getD f a b i (by simpa using h1) (by simpa using h2)
    simpa using ih

theorem totalCount_snoc (P : List SequenceRecord) (x : SequenceRecord) :
    totalCount (P ++ [x]) = totalCount P + x.overall := by
  simp [totalCount]

/-- One step of the fold keeps `FoldInv`. -/
theorem foldInv_step (m : Nat) (r x : SequenceRecord) (P : List SequenceRecord)
    (h : FoldInv m r P) (hP : 1 ≤ P.length) (hC : 1 ≤ totalCount P)
    (hxl : x.qual.length = m) (hxq : ∀ q ∈ x.qual, q < 128)
    (hb : 128 * (totalCount P + x.overall) ≤ 2 ^ 32) :
    ∃ r1 b, r.merge x = some (r1, b) ∧ FoldInv m r1 (P ++ [x]) := by
  obtain ⟨h1, h2, h3, h4⟩ := h
  have hmod : (r.overall + x.overall) % counterMod = r.overall + x.overall :=
    Nat.mod_eq_of_lt (by unfold counterMod; omega)
  have htot : (r.overall + x.overall) % counterMod ≠ 0 := by
    rw [hmod]
    omega
  have hmq := mergeQual_eq r.overall x.overall _ htot r.qual x.qual (by rw [h2, hxl])
  rw [hmod] at hmq
  refine ⟨⟨r.tag, List.zipWith (fun a b => toQAlpha ((weightU32 a r.overall +
      weightU32 b x.overall) / (r.overall + x.overall))) r.qual x.qual,
      r.overall + x.overall, r.bpOffset⟩, ⟨x.tag, x.qual, 0, x.bpOffset⟩,
    by simp only [SequenceRecord.merge, hmod, hmq], ?_⟩
  have hval : ∀ i, i < m →
      (List.zipWith (fun a b => toQAlpha ((weightU32 a r.overall + weightU32 b x.overall) /
        (r.overall + x.overall))) r.qual x.qual).getD i 0
      = (r.qual.getD i 0 * r.overall + x.qual.getD i 0 * x.overall) /
        (r.overall + x.overall) := by
    intro i hi
    rw [zipWith_getD _ _ _ _ (by omega) (by omega)]
    have ha := h3 i
    have hbq := getD_lt_128 x.qual i hxq
    have hp1 : r.qual.getD i 0 * r.overall < 2 ^ 32 := by
      have := Nat.mul_le_mul_right r.overall (Nat.le_of_lt_succ ha)
      omega
    have hp2 : x.qual.getD i 0 * x.overall < 2 ^ 32 := by
      have := Nat.mul_le_mul_right x.overall (Nat.le_of_lt_succ hbq)
      omega
    rw [weightU32_eq ha hp1, weightU32_eq hbq hp2]
    have := @weighted_mean_lt (r.qual.getD i 0) (x.qual.getD i 0) r.overall x.overall ha hbq
      (by omega)
    exact Nat.mod_eq_of_lt (by omega)
  refine ⟨?_, ?_, ?_, ?_⟩
  · show r.overall + x.overall = totalCount (P ++ [x])
    rw [totalCount_snoc, h1]
  · show (List.zipWith _ r.qual x.qual).length = m
    simp [h2, hxl]
  · intro i
    show (List.zipWith _ r.qual x.qual).getD i 0 < 128
    by_cases hi : i < m
    · rw [hval i hi]
      exact weighted_mean_lt (h3 i) (getD_lt_128 x.qual i hxq) (by omega)
    · rw [List.getD_eq_default _ _ (by simp [h2, hxl]; omega)]
      omega
  · intro i hi
    show (List.zipWith _ r.qual x.qual).getD i 0 * totalCount (P ++ [x]) ≤ weightedSum i (P ++ [x]) ∧
      weightedSum i (P ++ [x]) ≤ (List.zipWith _ r.qual x.qual).getD i 0 * totalCount (P ++ [x]) +
        ((P ++ [x]).length - 1) * (totalCount (P ++ [x]) - 1)
    rw [hval i hi, totalCount_snoc, weightedSum_append, ← h1]
    obtain ⟨l1, l2⟩ := h4 i hi
    rw [← h1] at l1 l2
    have hws : weightedSum i [x] = x.qual.getD i 0 * x.overall := by simp [weightedSum]
    rw [hws]
    have hd1 := Nat.div_mul_le_self (r.qual.getD i 0 * r.overall + x.qual.getD i 0 * x.overall)
      (r.overall + x.overall)
    have hd2 := @Nat.lt_div_mul_add (r.qual.getD i 0 * r.overall + x.qual.getD i 0 * x.overall)
      (r.overall + x.overall) (by omega)
    have hk : (P ++ [x]).length - 1 = (P.length - 1) + 1 := by
      simp only [List.length_append, List.length_singleton]
      omega
    rw [hk, Nat.add_mul, Nat.one_mul]
    have hmono : (P.length - 1) * (r.overall - 1) ≤ (P.length - 1) * (r.overall + x.overall - 1) :=
      Nat.mul_le_mul_left _ (by omega)
    constructor
    · omega
    · omega

theorem totalCount_pos_of_mem (l : List SequenceRecord) (h : ∀ x ∈ l, 1 ≤ x.overall)
    (hne : l ≠ []) : 1 ≤ totalCount l := by
  cases l with
  | nil => exact absurd rfl hne
  | cons x l =>
    have := h x (List.mem_cons_self _ _)
    simp only [totalCount, List.map_cons, List.sum_cons]
    omega

/-- The left fold of the pairwise merge over records with qualities of one length,
bytes below 128 and counts at least 1 whose total does not overflow: it returns and
keeps `FoldInv`. -/
theorem foldMerge_spec (m : Nat) : ∀ (xs : List SequenceRecord) (r : SequenceRecord)
    (P : List SequenceRecord), FoldInv m r P → 1 ≤ P.length → (∀ y ∈ P, 1 ≤ y.overall) →
    (∀ x ∈ xs, x.qual.length = m ∧ 1 ≤ x.overall ∧ ∀ q ∈ x.qual, q < 128) →
    128 * totalCount (P ++ xs) ≤ 2 ^ 32 →
    ∃ f, foldMerge r xs = some f ∧ FoldInv m f (P ++ xs)
  | [], r, P, h, _, _, _, _ => ⟨r, rfl, by simpa using h⟩
  | x :: xs, r, P, h, hP, hpos, hx, hb => by
    obtain ⟨hx1, hx2, hx3⟩ := hx x (List.mem_cons_self _ _)
    have hC : 1 ≤ totalCount P :=
      totalCount_pos_of_mem P hpos (by intro hc; rw [hc] at hP; simp at hP)
    have hb' : 128 * (totalCount P + x.overall) ≤ 2 ^ 32 := by
      have e : totalCount (P ++ x :: xs) = totalCount P + x.overall + totalCount xs := by
        simp [totalCount]
        omega
      rw [e] at hb
      omega
    obtain ⟨r1, b, hm, hinv⟩ := foldInv_step m r x P h hP hC hx1 hx3 hb'
    obtain ⟨f, hf, hfi⟩ := foldMerge_spec m xs r1 (P ++ [x]) hinv (by simp)
      (by
        intro y hy
        rcases List.mem_append.1 hy with hy | hy
        · exact hpos y hy
        · simp only [List.mem_singleton] at hy
          rw [hy]
          exact hx2)
      (fun y hy => hx y (List.mem_cons_of_mem _ hy))
      (by simpa using hb)
    refine ⟨f, ?_, by simpa using hfi⟩
    simp only [foldMerge, hm]
    exact hf

theorem foldInv_init (r : SequenceRecord) (hq : ∀ q ∈ r.qual, q < 128) :
    FoldInv r.qual.length r [r] := by
  refine ⟨by simp [totalCount], rfl, fun i => getD_lt_128 r.qual i hq, fun i _ => ?_⟩
  simp [weightedSum, totalCount]

theorem accumulate_getD (c : Nat) : ∀ (tmp q tmp' : List Nat), accumulate c tmp q = some tmp' →
    ∀ i, i < q.length → tmp'.getD i 0 = tmp.getD i 0 + weightU32 (q.getD i 0) c
  | tmp, [], tmp', _, i, hi => by simp at hi
  | [], _ :: _, _, h, _, _ => by simp [accumulate] at h
  | t :: tmp, q :: qs, tmp', h, i, hi => by
    simp only [accumulate, Option.map_eq_some'] at h
    obtain ⟨r, hr, rfl⟩ := h
    cases i with
    | zero => simp
    | succ i =>
      have ih := accumulate_getD c tmp qs r hr i (by simpa using hi)
      simpa using ih

theorem mergeRangeAcc_getD : ∀ (rs : List SequenceRecord) (tmp : List Nat) (ov : Nat)
    (tmp' : List Nat) (tot : Nat), mergeRangeAcc tmp ov rs = some (tmp', tot) →
    (∀ r ∈ rs, r.qual.length = tmp.length) → ∀ i, i < tmp.length →
    tmp'.getD i 0 = tmp.getD i 0 + (rs.map (fun r => weightU32 (r.qual.getD i 0) r.overall)).sum
  | [], tmp, ov, tmp', tot, h, _, i, _ => by
    simp only [mergeRangeAcc, Option.some.injEq, Prod.mk.injEq] at h
    rw [← h.1]
    simp
  | r :: rs, tmp, ov, tmp', tot, h, hl, i, hi => by
    simp only [mergeRangeAcc] at h
    cases ha : accumulate r.overall tmp r.qual with
    | none => simp [ha] at h
    | some t1 =>
      simp only [ha] at h
      have hl1 := accumulate_length _ _ _ _ ha
      have hv := accumulate_getD _ _ _ _ ha i (by rw [hl r (List.mem_cons_self _ _)]; exact hi)
      have ih := mergeRangeAcc_getD rs t1 _ tmp' tot h
        (fun x hx => by rw [hl1]; exact hl x (List.mem_cons_of_mem _ hx)) i (by rw [hl1]; exact hi)
      rw [ih, hv, List.map_cons, List.sum_cons]
      omega

theorem weightU32_sum (i : Nat) : ∀ (l : List SequenceRecord),
    (∀ x ∈ l, ∀ q ∈ x.qual, q < 128) → 128 * totalCount l ≤ 2 ^ 32 →
    (l.map (fun r => weightU32 (r.qual.getD i 0) r.overall)).sum = weightedSum i l
  | [], _, _ => rfl
  | x :: l, hq, hb => by
    have e : totalCount (x :: l) = x.overall + totalCount l := by simp [totalCount]
    rw [e] at hb
    have ih := weightU32_sum i l (fun y hy => hq y (List.mem_cons_of_mem _ hy)) (by omega)
    have hx := getD_lt_128 x.qual i (hq x (List.mem_cons_self _ _))
    have hp : x.qual.getD i 0 * x.overall < 2 ^ 32 := by
      have := Nat.mul_le_mul_right x.overall (Nat.le_of_lt_succ hx)
      omega
    simp only [List.map_cons, List.sum_cons, weightedSum] at ih ⊢
    rw [ih, weightU32_eq hx hp]

/-- The range merge over records with qualities of one length, bytes below 128 and
counts at least 1 whose total does not overflow: it returns, the first record carries
the total count and, at every position, the exact weighted mean rounded down. -/
theorem range_quality (r : SequenceRecord) (rs : List SequenceRecord)
    (hlen : ∀ x ∈ rs, x.qual.length = r.qual.length)
    (hpos : ∀ x ∈ r :: rs, 1 ≤ x.overall)
    (hq : ∀ x ∈ r :: rs, ∀ q ∈ x.qual, q < 128)
    (hb : 128 * totalCount (r :: rs) ≤ 2 ^ 32) :
    ∃ g rest, SequenceRecord.mergeRange (r :: rs) = some (g :: rest) ∧
      g.overall = totalCount (r :: rs) ∧ g.qual.length = r.qual.length ∧
      ∀ i, i < r.qual.length →
        g.qual.getD i 0 = weightedSum i (r :: rs) / totalCount (r :: rs) := by
  have hC := totalCount_pos_of_mem (r :: rs) hpos (by simp)
  have hall : ∀ x ∈ r :: rs, x.qual.length = (List.replicate r.qual.length 0).length := by
    intro x hx
    rw [List.length_replicate]
    rcases List.mem_cons.1 hx with rfl | hx
    · rfl
    · exact hlen x hx
  obtain ⟨⟨tmp, tot⟩, hacc⟩ := mergeRangeAcc_isSome (r :: rs) (List.replicate r.qual.length 0) 0
    (fun x hx => le_of_eq (hall x hx))
  obtain ⟨h1, h2, h3⟩ := mergeRangeAcc_spec _ _ _ _ _ hacc
  have htot : tot = totalCount (r :: rs) := by
    have := h3 (by decide)
    rw [← Nat.mod_eq_of_lt this, h2, Nat.zero_add]
    exact Nat.mod_eq_of_lt (by unfold counterMod; omega)
  have hlt : tmp.length = r.qual.length := by simpa using h1
  have hv := mergeRangeAcc_getD _ _ _ _ _ hacc hall
  refine ⟨⟨r.tag, tmp.map (fun t => toQAlpha (t / tot)), tot, r.bpOffset⟩,
    rs.map (fun x => { x with overall := 0 }), ?_, htot, by simpa using hlt, ?_⟩
  · simp only [SequenceRecord.mergeRange, hacc]
    rw [if_neg (by omega)]
  · intro i hi
    show (tmp.map (fun t => toQAlpha (t / tot))).getD i 0 = _
    have hi' : i < tmp.length := by omega
    rw [List.getD_eq_getElem?_getD, List.getElem?_map, List.getElem?_eq_getElem hi']
    simp only [Option.map_some', Option.getD_some]
    have hval := hv i (by simpa using hi)
    rw [List.getD_eq_getElem?_getD, List.getElem?_eq_getElem hi'] at hval
    simp only [Option.getD_some] at hval
    rw [hval, weightU32_sum i (r :: rs) hq hb, htot]
    have h0 : (List.replicate r.qual.length 0).getD i 0 = 0 := by
      rw [List.getD_eq_getElem?_getD, List.getElem?_replicate]
      split <;> rfl
    rw [h0, Nat.zero_add]
    have hle := weightedSum_le i (r :: rs) hq
    have : weightedSum i (r :: rs) / totalCount (r :: rs) < 128 := by
      rw [Nat.div_lt_iff_lt_mul (by omega)]
      omega
    exact Nat.mod_eq_of_lt (by omega)

/-- C17 (amended). Merge-order rounding: for `n >= 1` records with quality strings of
one length `m`, quality bytes below 128 and counts at least 1 whose total, times 128,
fits in 32 bits, the single-pass range merge returns, and folding the pairwise merge
from left to right over the records in any order returns a record with the same count
whose quality at every position is at most the quality of the range merge and below
it by at most `n - 2` (by 0 for `n <= 2`). -/
theorem fold_range_rounding (r : SequenceRecord) (rs : List SequenceRecord) (m : Nat)
    (hlen : ∀ x ∈ r :: rs, x.qual.length = m)
    (hpos : ∀ x ∈ r :: rs, 1 ≤ x.overall)
    (hq : ∀ x ∈ r :: rs, ∀ q ∈ x.qual, q < 128)
    (hb : 128 * totalCount (r :: rs) ≤ 2 ^ 32) :
    ∃ g rest, SequenceRecord.mergeRange (r :: rs) = some (g :: rest) ∧ g.qual.length = m ∧
      ∀ r' rs', (r' :: rs').Perm (r :: rs) →
        ∃ f, foldMerge r' rs' = some f ∧ f.overall = g.overall ∧ f.qual.length = m ∧
          ∀ i, i < m → f.qual.getD i 0 ≤ g.qual.getD i 0 ∧
            g.qual.getD i 0 ≤ f.qual.getD i 0 + (rs.length - 1) := by
  have hm : r.qual.length = m := hlen r (List.mem_cons_self _ _)
  obtain ⟨g, rest, hg, hgo, hgl, hgq⟩ := range_quality r rs
    (fun x hx => by rw [hlen x (List.mem_cons_of_mem _ hx), hm]) hpos hq hb
  refine ⟨g, rest, hg, by rw [hgl, hm], ?_⟩
  intro r' rs' hperm
  have hmem : ∀ x, x ∈ r' :: rs' → x ∈ r :: rs := fun x hx => hperm.subset hx
  have hm' : r'.qual.length = m := hlen r' (hmem r' (List.mem_cons_self _ _))
  have hinit := foldInv_init r' (hq r' (hmem r' (List.mem_cons_self _ _)))
  rw [hm'] at hinit
  obtain ⟨f, hf, hfo, hfl, -, hfq⟩ := foldMerge_spec m rs' r' [r'] hinit (by simp)
    (by
      intro y hy
      simp only [List.mem_singleton] at hy
      rw [hy]
      exact hpos r' (hmem r' (List.mem_cons_self _ _)))
    (fun x hx => ⟨hlen x (hmem x (List.mem_cons_of_mem _ hx)),
      hpos x (hmem x (List.mem_cons_of_mem _ hx)), hq x (hmem x (List.mem_cons_of_mem _ hx))⟩)
    (by
      rw [List.singleton_append, totalCount_perm hperm]
      exact hb)
  rw [List.singleton_append] at hfo hfq
  have htc := totalCount_perm hperm
  have hC := totalCount_pos_of_mem (r :: rs) hpos (by simp)
  have hlen' : (r' :: rs').length = rs.length + 1 := by
    rw [hperm.length_eq]
    rfl
  refine ⟨f, hf, by rw [hfo, hgo, htc], hfl, fun i hi => ?_⟩
  obtain ⟨l1, l2⟩ := hfq i hi
  rw [weightedSum_perm i hperm, htc] at l1 l2
  rw [hlen'] at l2
  rw [hgq i (by rw [hm]; exact hi)]
  constructor
  · exact (Nat.le_div_iff_mul_le (by omega)).2 l1
  · by_cases hn : rs.length = 0
    · rw [hn] at l2 ⊢
      simp only [Nat.zero_add, Nat.sub_self, Nat.zero_mul, Nat.add_zero] at l2
      simp only [Nat.zero_sub, Nat.add_zero]
      exact Nat.div_le_of_le_mul (by rw [Nat.mul_comm]; exact l2)
    · have hlt : weightedSum i (r :: rs) / totalCount (r :: rs) <
          f.qual.getD i 0 + rs.length := by
        rw [Nat.div_lt_iff_lt_mul (by omega), Nat.add_mul]
        have e : rs.length + 1 - 1 = rs.length := by omega
        rw [e] at l2
        have hlt2 : rs.length * (totalCount (r :: rs) - 1) < rs.length * totalCount (r :: rs) :=
          Nat.mul_lt_mul_of_pos_left (by omega) (by omega)
        omega
      omega

theorem fold_range_rounding_witness :
    ∃ g rest, SequenceRecord.mergeRange
        [⟨[0], [30, 40], 1, 0⟩, ⟨[0], [31, 41], 2, 0⟩, ⟨[0], [33, 40], 1, 0⟩] = some (g :: rest) ∧
      g.qual.length = 2 ∧
      ∃ f, foldMerge ⟨[0], [30, 40], 1, 0⟩ [⟨[0], [31, 41], 2, 0⟩, ⟨[0], [33, 40], 1, 0⟩] = some f ∧
        f.overall = g.overall ∧ f.qual.length = 2 ∧
        ∀ i, i < 2 → f.qual.getD i 0 ≤ g.qual.getD i 0 ∧ g.qual.getD i 0 ≤ f.qual.getD i 0 + 1 := by
  obtain ⟨g, rest, h1, h2, h3⟩ := fold_range_rounding ⟨[0], [30, 40], 1, 0⟩
    [⟨[0], [31, 41], 2, 0⟩, ⟨[0], [33, 40], 1, 0⟩] 2 (by decide) (by decide) (by decide)
    (by decide)
  exact ⟨g, rest, h1, h2, h3 _ _ (List.Perm.refl _)⟩

/-- C17 (counterexample). Five records with one sequence, count 1 and the quality
bytes 0, 1, 2, 3, 4: folding the pairwise merge from left to right gives the quality
0, the single-pass range merge gives 2; the two differ by 2. -/
theorem fold_range_differ_by_two :
    foldMerge ⟨[0], [0], 1, 0⟩
        [⟨[0], [1], 1, 0⟩, ⟨[0], [2], 1, 0⟩, ⟨[0], [3], 1, 0⟩, ⟨[0], [4], 1, 0⟩] =
      some ⟨[0], [0], 5, 0⟩ ∧
    (SequenceRecord.mergeRange [⟨[0], [0], 1, 0⟩, ⟨[0], [1], 1, 0⟩, ⟨[0], [2], 1, 0⟩,
        ⟨[0], [3], 1, 0⟩, ⟨[0], [4], 1, 0⟩]).map (fun l => l.head?) =
      some (some ⟨[0], [2], 5, 0⟩) := by
  decide

/-- One iteration of the merge loop passes only non-empty ranges to the writer and
keeps the output buffer non-empty. -/
theorem mergeStep_written {β α : Type} (ops : MergeOps β α) (m : Nat) (st st' : MergeState β α)
    (h : mergeStep ops m st = some st')
    (hw : (∀ c ∈ st.written, c ≠ []) ∧ st.outBuffer ≠ []) :
    (∀ c ∈ st'.written, c ≠ []) ∧ st'.outBuffer ≠ [] := by
  have hset : ∀ (i : Nat) (x : α), st.outBuffer.set i x ≠ [] := by
    intro i x hc
    have := congrArg List.length hc
    rw [List.length_set] at this
    exact hw.2 (List.length_eq_zero.1 this)
  unfold mergeStep at h
  split at h
  · simp at h
  · split at h
    · simp at h
    · split at h
      · rename_i item cur _ _
        simp only at h
        split at h
        · split at h
          · simp at h
          · simp only [Option.some.injEq] at h
            subst h
            exact ⟨hw.1, hset _ _⟩
        · split at h
          · split at h
            · simp only [Option.some.injEq] at h
              subst h
              refine ⟨?_, hset _ _⟩
              intro c hc
              rcases List.mem_append.1 hc with hc | hc
              · exact hw.1 c hc
              · simp only [List.mem_singleton] at hc
                rw [hc]
                exact hw.2
            · simp at h
          · split at h
            · simp only [Option.some.injEq] at h
              subst h
              exact ⟨hw.1, hset _ _⟩
            · simp at h
      · simp at h

theorem mergeLoop_written {β α : Type} (ops : MergeOps β α) (m : Nat) :
    ∀ (fuel : Nat) (st st' : MergeState β α), mergeLoop ops m fuel st = some st' →
      ((∀ c ∈ st.written, c ≠ []) ∧ st.outBuffer ≠ []) →
      (∀ c ∈ st'.written, c ≠ []) ∧ st'.outBuffer ≠ []
  | 0, st, st', h, hw => by
    unfold mergeLoop at h
    split at h
    · simp at h
    · simp only [Option.some.injEq] at h
      subst h
      exact hw
  | fuel + 1, st, st', h, hw => by
    unfold mergeLoop at h
    split at h
    · cases hs : mergeStep ops m st with
      | none => simp [hs] at h
      | some st1 =>
        simp only [hs] at h
        exact mergeLoop_written ops m fuel st1 st' h (mergeStep_written ops m st st1 hs hw)
    · simp only [Option.some.injEq] at h
      subst h
      exact hw

/-- Every range a merge passes to the writer is non-empty. -/
theorem mergeCore_chunks_ne {β α : Type} (ops : MergeOps β α) (readers : List β) (m n : Nat)
    (chunks : List (List α)) (h : mergeCore ops readers m = some (n, chunks)) :
    ∀ c ∈ chunks, c ≠ [] := by
  unfold mergeCore at h
  cases hs : mergeStart ops readers m with
  | none => simp [hs] at h
  | some st0 =>
    simp only [hs] at h
    cases hl : mergeLoop ops m (readers.map ops.pending).sum st0 with
    | none => simp [hl] at h
    | some st =>
      simp only [hl, Option.some.injEq, Prod.mk.injEq] at h
      have h0 : (∀ c ∈ st0.written, c ≠ []) ∧ st0.outBuffer ≠ [] := by
        unfold mergeStart at hs
        simp only at hs
        split at hs
        · simp at hs
        · split at hs
          · simp at hs
          · split at hs
            · simp at hs
            · split at hs
              · rename_i hpos
                simp only [Option.some.injEq] at hs
                subst hs
                refine ⟨by simp, ?_⟩
                intro hc
                have := congrArg List.length hc
                simp only [List.length_set, List.length_replicate, List.length_nil] at this
                omega
              · simp at hs
      obtain ⟨h1, h2⟩ := mergeLoop_written ops m _ st0 st hl h0
      intro c hc
      rw [← h.2] at hc
      rcases List.mem_append.1 hc with hc | hc
      · exact h1 c hc
      · simp only [List.mem_singleton] at hc
        rw [hc]
        intro hnil
        have := congrArg List.length hnil
        simp only [List.length_take, List.length_nil] at this
        have : st.outBuffer.length = 0 := by omega
        exact h2 (List.length_eq_zero.1 this)

/-- The one-stream merge of non-empty inputs that are increasing by sequence, with
counts at least 1, qualities of the length `qlen` gives to their
sequence and counts per sequence adding up to less than `2 ^ 32`: it returns, the
written records are strictly increasing by sequence, keep the counts per sequence and
the quality lengths, and no range written is empty. -/
theorem merge_one_stream_full (qlen : List Nat → Nat) (readers : List SequenceReader)
    (maxLoadable : Nat) (hne : readers ≠ []) (hm : 1 ≤ maxLoadable)
    (hr : ∀ r ∈ readers, r ≠ [] ∧ (r.map (fun x => x.tag)).Pairwise (fun a b => a ≤ b) ∧
      ∀ x ∈ r, 1 ≤ x.overall ∧ x.qual.length = qlen x.tag)
    (hsum : ∀ s, tagCount s readers.flatten < 2 ^ 32) :
    ∃ n chunks, Buffer.merge readers maxLoadable = some (n, chunks) ∧
      n = chunks.flatten.length ∧
      (chunks.flatten.map (fun x => x.tag)).Pairwise (fun a b => a < b) ∧
      (∀ s, tagCount s chunks.flatten = tagCount s readers.flatten) ∧
      (∀ e ∈ chunks.flatten, 1 ≤ e.overall ∧ e.qual.length = qlen e.tag) ∧
      (∀ c ∈ chunks, c ≠ []) := by
  have hrd : (readers.map (fun r => ({ reader := r, inBuffer := [] } : SeqInput))).map
      (fun d => d.reader) = readers := by
    rw [List.map_map]
    exact List.map_id _
  obtain ⟨n, chunks, h1, h2, h3, h4, h5, -⟩ := mergeCore_spec oneStreamOps (fun _ => True)
    (fun d => d.reader) (fun d => d.inBuffer) (fun _ => True)
    (fun r => 1 ≤ r.overall ∧ r.qual.length = qlen r.tag)
    (fun r => r.overall) (fun n => n < 2 ^ 32) maxLoadable (oneStream_laws _ maxLoadable) hm
    (readers.map (fun r => { reader := r, inBuffer := [] }))
    (by simpa using hne)
    (by
      intro d hd
      obtain ⟨r, hrm, rfl⟩ := List.mem_map.1 hd
      exact ⟨trivial, (hr r hrm).1⟩)
    (by
      intro d hd
      obtain ⟨r, hrm, rfl⟩ := List.mem_map.1 hd
      exact (hr r hrm).2.1)
    (by
      intro d hd y hy
      obtain ⟨r, hrm, rfl⟩ := List.mem_map.1 hd
      exact (hr r hrm).2.2 y hy)
    (by
      intro s
      rw [hrd]
      exact hsum s)
  rw [hrd] at h4
  exact ⟨n, chunks, h1, h2, h3, h4, h5, mergeCore_chunks_ne _ _ _ _ _ h1⟩

theorem appendToLast_snoc {α : Type} (x : α) :
    ∀ (init : List (List α)) (last : List α),
      appendToLast x (init ++ [last]) = init ++ [last ++ [x]]
  | [], last => rfl
  | f :: fs, last => by
    have ih := appendToLast_snoc x fs last
    simp only [List.cons_append]
    cases hfs : fs ++ [last] with
    | nil => simp at hfs
    | cons a t =>
      simp only [appendToLast]
      rw [← hfs, ih]

theorem appendToLast_flatten {α : Type} (x : α) :
    ∀ (paths : List (List α)), (appendToLast x paths).flatten = paths.flatten ++ [x]
  | [] => rfl
  | [f] => by simp [appendToLast]
  | f :: g :: fs => by
    have ih := appendToLast_flatten x (g :: fs)
    simp only [appendToLast, List.flatten_cons] at ih ⊢
    rw [ih]
    simp [List.append_assoc]

theorem appendToLast_ne_nil {α : Type} (x : α) :
    ∀ (paths : List (List α)), appendToLast x paths ≠ []
  | [] => by simp [appendToLast]
  | [f] => by simp [appendToLast]
  | f :: g :: fs => by simp [appendToLast]

/-- The records a call of `writeSingleEnd_` adds to the files of the writer are the
valid records of the range, in order, whatever the number of files it opens. -/
theorem writeSingleEnd_records (validator : SequenceRecord → Bool) :
    ∀ (rs : List SequenceRecord) (w : SequenceWriter),
      (SequenceWriter.writeSingleEnd_ validator w rs).1.records =
        w.records ++ rs.filter validator ∧
      (w.outputPaths ≠ [] → (SequenceWriter.writeSingleEnd_ validator w rs).1.outputPaths ≠ [])
  | [], w => by simp [SequenceWriter.writeSingleEnd_]
  | r :: rs, w => by
    unfold SequenceWriter.writeSingleEnd_
    by_cases hv : validator r = true
    · rw [if_pos hv]
      simp only
      have ih := writeSingleEnd_records validator rs
        { (if w.currentOutputRecords = w.maxOutputRecords then w.switchSink else w) with
          outputPaths := appendToLast
            ((if w.currentOutputRecords = w.maxOutputRecords then w.switchSink else w).currentSequenceId, r)
            (if w.currentOutputRecords = w.maxOutputRecords then w.switchSink else w).outputPaths,
          currentOutputRecords :=
            (if w.currentOutputRecords = w.maxOutputRecords then w.switchSink else w).currentOutputRecords + 1,
          currentSequenceId :=
            (if w.currentOutputRecords = w.maxOutputRecords then w.switchSink else w).currentSequenceId + 1 }
      refine ⟨?_, fun _ => ih.2 (appendToLast_ne_nil _ _)⟩
      rw [ih.1]
      simp only [SequenceWriter.records, appendToLast_flatten, List.map_append, List.map_cons,
        List.map_nil, List.filter_cons, hv, if_true]
      have hsw : (if w.currentOutputRecords = w.maxOutputRecords then w.switchSink else w).outputPaths.flatten
          = w.outputPaths.flatten := by
        split
        · simp [SequenceWriter.switchSink]
        · rfl
      rw [hsw]
      simp
    · rw [if_neg hv]
      have ih := writeSingleEnd_records validator rs w
      refine ⟨?_, ih.2⟩
      rw [ih.1]
      simp [List.filter_cons, hv]

/-- A call of `writeIf` on a non-empty range returns and adds the valid records of the
range to the files of the writer. -/
theorem writeIf_records (validator : SequenceRecord → Bool) (w : SequenceWriter)
    (rs : List SequenceRecord) (hne : rs ≠ []) :
    ∃ w1 k, SequenceWriter.writeIf validator w rs = some (w1, k) ∧
      w1.records = w.records ++ rs.filter validator ∧
      ((w.isOpen = false ∨ w.outputPaths ≠ []) → w1.outputPaths ≠ []) := by
  unfold SequenceWriter.writeIf
  by_cases ho : w.isOpen = true
  · rw [if_pos ho]
    refine ⟨_, _, rfl, (writeSingleEnd_records validator rs w).1, ?_⟩
    intro h
    rcases h with h | h
    · rw [ho] at h
      cases h
    · exact (writeSingleEnd_records validator rs w).2 h
  · rw [if_neg ho]
    cases rs with
    | nil => exact absurd rfl hne
    | cons r rs =>
      have h := writeSingleEnd_records validator (r :: rs) w.switchSink
      refine ⟨(SequenceWriter.writeSingleEnd_ validator w.switchSink (r :: rs)).1,
        (SequenceWriter.writeSingleEnd_ validator w.switchSink (r :: rs)).2, rfl, ?_,
        fun _ => h.2 (by simp [SequenceWriter.switchSink])⟩
      rw [h.1]
      simp [SequenceWriter.records, SequenceWriter.switchSink]

/-- The calls `write` of one merge, each on a non-empty range, return and add the
records of all ranges to the files of the writer. -/
theorem writeAll_records :
    ∀ (chunks : List (List SequenceRecord)) (w : SequenceWriter), (∀ c ∈ chunks, c ≠ []) →
      ∃ w1, SequenceWriter.writeAll w chunks = some w1 ∧
        w1.records = w.records ++ chunks.flatten
  | [], w, _ => ⟨w, rfl, by simp⟩
  | c :: cs, w, h => by
    obtain ⟨w1, k, h1, h2, -⟩ := writeIf_records (fun _ => true) w c (h c (by simp))
    obtain ⟨w2, h3, h4⟩ := writeAll_records cs w1 (fun x hx => h x (List.mem_cons_of_mem _ hx))
    refine ⟨w2, ?_, ?_⟩
    · unfold SequenceWriter.writeAll SequenceWriter.write
      rw [h1]
      exact h3
    · rw [h4, h2]
      simp

/-- While the open file has room for the whole range, `writeSingleEnd_` appends the
valid records of the range to the last file and opens no other file. -/
theorem writeSingleEnd_last (validator : SequenceRecord → Bool) :
    ∀ (rs : List SequenceRecord) (w : SequenceWriter) (init : List (List (Nat × SequenceRecord)))
      (last : List (Nat × SequenceRecord)),
      w.outputPaths = init ++ [last] →
      w.currentOutputRecords + rs.length ≤ w.maxOutputRecords →
      ∃ entries, entries.map (fun p => p.2) = rs.filter validator ∧
        (SequenceWriter.writeSingleEnd_ validator w rs).1.outputPaths = init ++ [last ++ entries] ∧
        (SequenceWriter.writeSingleEnd_ validator w rs).1.isOpen = w.isOpen ∧
        (SequenceWriter.writeSingleEnd_ validator w rs).1.maxOutputRecords = w.maxOutputRecords ∧
        (SequenceWriter.writeSingleEnd_ validator w rs).1.currentOutputRecords =
          w.currentOutputRecords + entries.length
  | [], w, init, last, hp, _ => ⟨[], by simp [SequenceWriter.writeSingleEnd_, hp]⟩
  | r :: rs, w, init, last, hp, hb => by
    simp only [List.length_cons] at hb
    unfold SequenceWriter.writeSingleEnd_
    by_cases hv : validator r = true
    · rw [if_pos hv]
      have hne : ¬ w.currentOutputRecords = w.maxOutputRecords := by omega
      simp only [if_neg hne]
      obtain ⟨entries, e1, e2, e3, e4, e5⟩ := writeSingleEnd_last validator rs
        { w with outputPaths := appendToLast (w.currentSequenceId, r) w.outputPaths,
                 currentOutputRecords := w.currentOutputRecords + 1,
                 currentSequenceId := w.currentSequenceId + 1 }
        init (last ++ [(w.currentSequenceId, r)])
        (by simp only [hp, appendToLast_snoc])
        (by simp only; omega)
      refine ⟨(w.currentSequenceId, r) :: entries, ?_, ?_, e3, e4, ?_⟩
      · simp [List.filter_cons, hv, e1]
      · rw [e2]
        simp
      · rw [e5]
        simp only [List.length_cons]
        omega
    · rw [if_neg hv]
      obtain ⟨entries, e1, e2, e3, e4, e5⟩ := writeSingleEnd_last validator rs w init last hp
        (by omega)
      exact ⟨entries, by simp [List.filter_cons, hv, e1], e2, e3, e4, e5⟩

/-- A call `switchSink` followed by `writeIf` on a range that fits one file adds one
file, which holds the valid records of the range. -/
theorem switchSink_writeIf_file (validator : SequenceRecord → Bool) (w : SequenceWriter)
    (rs : List SequenceRecord) (hb : rs.length ≤ w.maxOutputRecords) :
    ∃ w1 k entries, w.switchSink.writeIf validator rs = some (w1, k) ∧
      entries.map (fun p => p.2) = rs.filter validator ∧
      w1.outputPaths = w.outputPaths ++ [entries] ∧ w1.isOpen = true ∧
      w1.maxOutputRecords = w.maxOutputRecords := by
  obtain ⟨entries, e1, e2, e3, e4, -⟩ := writeSingleEnd_last validator rs w.switchSink
    w.outputPaths [] rfl (by simp only [SequenceWriter.switchSink]; omega)
  refine ⟨(SequenceWriter.writeSingleEnd_ validator w.switchSink rs).1,
    (SequenceWriter.writeSingleEnd_ validator w.switchSink rs).2, entries, ?_, e1, ?_, ?_, ?_⟩
  · unfold SequenceWriter.writeIf
    rw [if_pos (by rfl)]
  · rw [e2]
    simp
  · rw [e3]
    rfl
  · rw [e4]
    rfl

/-- A call of `writeIf` on a closed writer and a non-empty range that fits one file
adds one file, which holds the valid records of the range. -/
theorem closed_writeIf_file (validator : SequenceRecord → Bool) (w : SequenceWriter)
    (rs : List SequenceRecord) (hc : w.isOpen = false) (hne : rs ≠ [])
    (hb : rs.length ≤ w.maxOutputRecords) :
    ∃ w1 k entries, w.writeIf validator rs = some (w1, k) ∧
      entries.map (fun p => p.2) = rs.filter validator ∧
      w1.outputPaths = w.outputPaths ++ [entries] ∧ w1.isOpen = true ∧
      w1.maxOutputRecords = w.maxOutputRecords := by
  obtain ⟨w1, k, entries, h1, h2, h3, h4, h5⟩ := switchSink_writeIf_file validator w rs hb
  refine ⟨w1, k, entries, ?_, h2, h3, h4, h5⟩
  rw [← h1]
  unfold SequenceWriter.writeIf
  rw [hc]
  cases rs with
  | nil => exact absurd rfl hne
  | cons r rs => simp [SequenceWriter.switchSink]

/-- The calls `write` of one merge on an open writer whose file has room for all the
ranges append the records of the ranges to the last file. -/
theorem writeAll_last :
    ∀ (chunks : List (List SequenceRecord)) (w : SequenceWriter)
      (init : List (List (Nat × SequenceRecord))) (last : List (Nat × SequenceRecord)),
      w.isOpen = true → w.outputPaths = init ++ [last] →
      w.currentOutputRecords + chunks.flatten.length ≤ w.maxOutputRecords →
      ∃ w1 entries, SequenceWriter.writeAll w chunks = some w1 ∧
        entries.map (fun p => p.2) = chunks.flatten ∧
        w1.outputPaths = init ++ [last ++ entries] ∧ w1.isOpen = true ∧
        w1.maxOutputRecords = w.maxOutputRecords
  | [], w, init, last, ho, hp, _ => ⟨w, [], rfl, by simp, by simp [hp], ho, rfl⟩
  | c :: cs, w, init, last, ho, hp, hb => by
    simp only [List.flatten_cons, List.length_append] at hb
    obtain ⟨entries, e1, e2, e3, e4, e5⟩ := writeSingleEnd_last (fun _ => true) c w init last hp
      (by omega)
    have hlen : entries.length = c.length := by
      have := congrArg List.length e1
      simpa using this
    obtain ⟨w2, entries2, f1, f2, f3, f4, f5⟩ := writeAll_last cs
      (SequenceWriter.writeSingleEnd_ (fun _ => true) w c).1 init (last ++ entries)
      (by rw [e3]; exact ho) e2 (by rw [e4, e5, hlen]; omega)
    refine ⟨w2, entries ++ entries2, ?_, ?_, ?_, f4, ?_⟩
    · unfold SequenceWriter.writeAll SequenceWriter.write SequenceWriter.writeIf
      rw [if_pos ho]
      exact f1
    · rw [List.map_append, e1, f2]
      simp
    · rw [f3, List.append_assoc]
    · rw [f5, e4]

/-- A call `switchSink` followed by the calls `write` of one merge, whose ranges fit
one file, adds one file, which holds the records of the ranges. -/
theorem switchSink_writeAll_file (w : SequenceWriter) (chunks : List (List SequenceRecord))
    (hb : chunks.flatten.length ≤ w.maxOutputRecords) :
    ∃ w1 entries, w.switchSink.writeAll chunks = some w1 ∧
      entries.map (fun p => p.2) = chunks.flatten ∧
      w1.outputPaths = w.outputPaths ++ [entries] ∧ w1.isOpen = true ∧
      w1.maxOutputRecords = w.maxOutputRecords := by
  obtain ⟨w1, entries, h1, h2, h3, h4, h5⟩ := writeAll_last chunks w.switchSink w.outputPaths []
    rfl rfl (by simp only [SequenceWriter.switchSink]; omega)
  exact ⟨w1, entries, h1, h2, by rw [h3]; simp, h4, by rw [h5]; rfl⟩

theorem swo_asymm {α : Type} {lt : α → α → Bool} (h : StrictWeakOrder lt) (a b : α)
    (hab : lt a b = true) : lt b a = false := by
  by_contra hc
  have hba : lt b a = true := by simpa using hc
  have := h.trans a b a hab hba
  rw [h.irrefl a] at this
  cases this

theorem swo_negTrans {α : Type} {lt : α → α → Bool} (h : StrictWeakOrder lt) (a b c : α)
    (hba : lt b a = false) (hcb : lt c b = false) : lt c a = false := by
  by_contra hc
  have hca : lt c a = true := by simpa using hc
  cases hab : lt a b with
  | true =>
    have := h.trans c a b hca hab
    rw [hcb] at this
    cases this
  | false =>
    cases hbc : lt b c with
    | true =>
      have := h.trans b c a hbc hca
      rw [hba] at this
      cases this
    | false =>
      have := (h.incomp a b c hab hba hbc hcb).2
      rw [hca] at this
      cases this

/-- The call `std::sort` with a strict weak ordering leaves the range sorted. -/
theorem stdSort_sortedBy {α : Type} {lt : α → α → Bool} (h : StrictWeakOrder lt) (l : List α) :
    SortedBy lt (stdSort lt l) := by
  haveI : IsTotal α (fun a b => lt b a = false) :=
    ⟨fun a b => by
      by_cases hab : lt a b = true
      · exact Or.inl (swo_asymm h a b hab)
      · exact Or.inr (by simpa using hab)⟩
  haveI : IsTrans α (fun a b => lt b a = false) :=
    ⟨fun a b c hab hbc => swo_negTrans h a b c hab hbc⟩
  unfold SortedBy stdSort
  exact List.sorted_insertionSort _ l

theorem inplaceMerge_perm {α : Type} (lt : α → α → Bool) :
    ∀ (n : Nat) (xs ys : List α), (inplaceMerge lt n xs ys).Perm (xs ++ ys)
  | 0, xs, ys => by simp [inplaceMerge]
  | n + 1, [], ys => by simp [inplaceMerge]
  | n + 1, x :: xs, [] => by simp [inplaceMerge]
  | n + 1, x :: xs, y :: ys => by
    unfold inplaceMerge
    split
    · have ih := inplaceMerge_perm lt n (x :: xs) ys
      exact (List.Perm.cons y ih).trans (List.perm_middle.symm)
    · have ih := inplaceMerge_perm lt n xs (y :: ys)
      exact List.Perm.cons x ih

/-- The call `std::inplace_merge` on two sorted ranges leaves the whole range sorted. -/
theorem inplaceMerge_sortedBy {α : Type} {lt : α → α → Bool} (h : StrictWeakOrder lt) :
    ∀ (n : Nat) (xs ys : List α), xs.length + ys.length ≤ n → SortedBy lt xs → SortedBy lt ys →
      SortedBy lt (inplaceMerge lt n xs ys)
  | 0, xs, ys, hn, _, _ => by
    have hx : xs = [] := List.length_eq_zero.1 (by omega)
    have hy : ys = [] := List.length_eq_zero.1 (by omega)
    simp [inplaceMerge, hx, hy, SortedBy]
  | n + 1, [], ys, _, _, hy => by simpa [inplaceMerge] using hy
  | n + 1, x :: xs, [], _, hx, _ => by simpa [inplaceMerge] using hx
  | n + 1, x :: xs, y :: ys, hn, hx, hy => by
    simp only [List.length_cons] at hn
    have hx' := List.pairwise_cons.1 hx
    have hy' := List.pairwise_cons.1 hy
    unfold inplaceMerge
    by_cases hyx : lt y x = true
    · rw [if_pos hyx]
      have ih := inplaceMerge_sortedBy h n (x :: xs) ys (by simp only [List.length_cons]; omega)
        hx hy'.2
      refine List.pairwise_cons.2 ⟨?_, ih⟩
      intro z hz
      have hz' := (inplaceMerge_perm lt n (x :: xs) ys).subset hz
      have hxy : lt x y = false := swo_asymm h y x hyx
      rcases List.mem_append.1 hz' with hz' | hz'
      · rcases List.mem_cons.1 hz' with hz' | hz'
        · rw [hz']
          exact hxy
        · exact swo_negTrans h y x z hxy (hx'.1 z hz')
      · exact hy'.1 z hz'
    · rw [if_neg hyx]
      have hyx' : lt y x = false := by simpa using hyx
      have ih := inplaceMerge_sortedBy h n xs (y :: ys) (by simp only [List.length_cons]; omega)
        hx'.2 hy
      refine List.pairwise_cons.2 ⟨?_, ih⟩
      intro z hz
      have hz' := (inplaceMerge_perm lt n xs (y :: ys)).subset hz
      rcases List.mem_append.1 hz' with hz' | hz'
      · exact hx'.1 z hz'
      · rcases List.mem_cons.1 hz' with hz' | hz'
        · rw [hz']
          exact hyx'
        · exact swo_negTrans h x y z hyx' (hy'.1 z hz')

theorem segment_append {α : Type} (buf : List α) (lo mid hi : Nat) (h1 : lo ≤ mid) (h2 : mid ≤ hi) :
    segment buf lo mid ++ segment buf mid hi = segment buf lo hi := by
  unfold segment
  have e1 : hi - lo = (mid - lo) + (hi - mid) := by omega
  have e2 : buf.drop mid = (buf.drop lo).drop (mid - lo) := by
    rw [List.drop_drop]
    congr 1
    omega
  rw [e1, e2, List.take_add]

theorem segment_whole {α : Type} (buf : List α) : segment buf 0 buf.length = buf := by
  simp [segment]

theorem split_at_segment {α : Type} (buf : List α) (lo hi : Nat) (h1 : lo ≤ hi) :
    buf.take lo ++ segment buf lo hi ++ buf.drop hi = buf := by
  unfold segment
  have e : buf.drop hi = (buf.drop lo).drop (hi - lo) := by
    rw [List.drop_drop]
    congr 1
    omega
  rw [e, List.append_assoc, List.take_append_drop, List.take_append_drop]

/-- Replacing the range `[lo, hi)` of a vector by a list of the same length keeps the
length and every range that lies before `lo` or behind `hi`, and puts the list at
`[lo, hi)`. -/
theorem replace_segment {α : Type} (buf M : List α) (lo hi : Nat) (h1 : lo ≤ hi)
    (h2 : hi ≤ buf.length) (hM : M.length = hi - lo) :
    (buf.take lo ++ M ++ buf.drop hi).length = buf.length ∧
    segment (buf.take lo ++ M ++ buf.drop hi) lo hi = M ∧
    (∀ a b, b ≤ lo → segment (buf.take lo ++ M ++ buf.drop hi) a b = segment buf a b) ∧
    (∀ a b, hi ≤ a → segment (buf.take lo ++ M ++ buf.drop hi) a b = segment buf a b) := by
  have hl : (buf.take lo).length = lo := by
    rw [List.length_take]
    omega
  refine ⟨?_, ?_, ?_, ?_⟩
  · simp only [List.length_append, hl, hM, List.length_drop]
    omega
  · unfold segment
    rw [List.append_assoc, List.drop_left' hl, List.take_left' hM]
  · intro a b hb
    unfold segment
    by_cases hab : a ≤ b
    · have e1 : ∀ (R : List α), ((buf.take lo ++ R).drop a).take (b - a) =
          ((buf.take lo).drop a).take (b - a) := by
        intro R
        rw [List.drop_append_of_le_length (by omega),
          List.take_append_of_le_length (by rw [List.length_drop]; omega)]
      rw [List.append_assoc, e1]
      have e2 := e1 (buf.drop lo)
      rw [List.take_append_drop] at e2
      rw [e2]
    · have : b - a = 0 := by omega
      rw [this]
      simp
  · intro a b ha
    unfold segment
    have e1 : ∀ (P : List α), P.length = hi → (P ++ buf.drop hi).drop a =
        (buf.drop hi).drop (a - hi) := by
      intro P hP
      have : a = P.length + (a - hi) := by omega
      rw [this, List.drop_append]
      simp [hP]
    rw [e1 _ (by simp only [List.length_append, hl, hM]; omega)]
    have e2 := e1 (buf.take hi) (by rw [List.length_take]; omega)
    rw [List.take_append_drop] at e2
    rw [e2]

theorem onRange_perm {α : Type} (f : List α → List α) (hf : ∀ l, (f l).Perm l) (buf : List α)
    (lo hi : Nat) (h1 : lo ≤ hi) : (onRange f buf lo hi).Perm buf := by
  have h := split_at_segment buf lo hi h1
  unfold onRange
  have : (buf.take lo ++ f (segment buf lo hi) ++ buf.drop hi).Perm
      (buf.take lo ++ segment buf lo hi ++ buf.drop hi) :=
    List.Perm.append_right _ (List.Perm.append_left _ (hf _))
  rw [h] at this
  exact this

theorem segment_length {α : Type} (buf : List α) (lo hi : Nat) (h2 : hi ≤ buf.length) :
    (segment buf lo hi).length = hi - lo := by
  unfold segment
  rw [List.length_take, List.length_drop]
  omega

/-- The first loop of `sortBufferMT_` over non-decreasing bounds: the result is a
permutation, every region between consecutive bounds is sorted, and the records before
the first bound are kept. -/
theorem sortRegions_spec {α : Type} {lt : α → α → Bool} (h : StrictWeakOrder lt) :
    ∀ (bs : List Nat) (buf : List α), bs.Pairwise (fun a b => a ≤ b) →
      (∀ b ∈ bs, b ≤ buf.length) →
      (sortRegions lt buf bs).Perm buf ∧
      (∀ a b, (∀ x ∈ bs, b ≤ x) → segment (sortRegions lt buf bs) a b = segment buf a b) ∧
      ∀ k, k + 1 < bs.length →
        SortedBy lt (segment (sortRegions lt buf bs) (bs.getD k 0) (bs.getD (k + 1) 0))
  | [], buf, _, _ => by
    refine ⟨by simp [sortRegions], fun a b _ => by simp [sortRegions], fun k hk => ?_⟩
    simp at hk
  | [x], buf, _, _ => by
    refine ⟨by simp [sortRegions], fun a b _ => by simp [sortRegions], fun k hk => ?_⟩
    simp at hk
  | lo :: hi :: rest, buf, hp, hb => by
    have hp1 := List.pairwise_cons.1 hp
    have hlohi : lo ≤ hi := hp1.1 hi (by simp)
    have hhi : hi ≤ buf.length := hb hi (by simp)
    have hM : (stdSort lt (segment buf lo hi)).length = hi - lo := by
      unfold stdSort
      rw [List.length_insertionSort, segment_length buf lo hi hhi]
    obtain ⟨r1, r2, r3, r4⟩ := replace_segment buf (stdSort lt (segment buf lo hi)) lo hi hlohi
      hhi hM
    have hbuf1 : onRange (stdSort lt) buf lo hi =
        buf.take lo ++ stdSort lt (segment buf lo hi) ++ buf.drop hi := rfl
    obtain ⟨i1, i2, i3⟩ := sortRegions_spec h (hi :: rest) (onRange (stdSort lt) buf lo hi) hp1.2
      (by
        intro b hbm
        rw [hbuf1, r1]
        exact hb b (List.mem_cons_of_mem _ hbm))
    have hout : sortRegions lt buf (lo :: hi :: rest) =
        sortRegions lt (onRange (stdSort lt) buf lo hi) (hi :: rest) := rfl
    rw [hout]
    have hle : ∀ x ∈ hi :: rest, hi ≤ x := by
      intro x hx
      rcases List.mem_cons.1 hx with hx | hx
      · omega
      · exact (List.pairwise_cons.1 hp1.2).1 x hx
    refine ⟨?_, ?_, ?_⟩
    · exact i1.trans (onRange_perm _ (fun l => List.perm_insertionSort _ l) buf lo hi hlohi)
    · intro a b hab
      have hblo : b ≤ lo := hab lo (by simp)
      rw [i2 a b (fun x hx => le_trans (by omega) (hle x hx)), hbuf1, r3 a b hblo]
    · intro k hk
      cases k with
      | zero =>
        simp only [List.getD_cons_zero, Nat.zero_add, List.getD_cons_succ]
        rw [i2 lo hi hle, hbuf1, r2]
        exact stdSort_sortedBy h _
      | succ k =>
        simp only [List.getD_cons_succ]
        have := i3 k (by simp only [List.length_cons] at hk ⊢; omega)
        simpa only [List.getD_cons_succ] using this

theorem getD_mono (bounds : List Nat) (hp : bounds.Pairwise (fun a b => a ≤ b)) (i j : Nat)
    (hij : i ≤ j) (hj : j < bounds.length) : bounds.getD i 0 ≤ bounds.getD j 0 := by
  rcases Nat.eq_or_lt_of_le hij with h | h
  · rw [h]
  · have hi : i < bounds.length := by omega
    have := List.pairwise_iff_getElem.1 hp i j hi hj h
    rw [List.getD_eq_getElem _ _ hi, List.getD_eq_getElem _ _ hj]
    exact this

/-- One round of `sortBufferMT_` with span `s`, from iteration `i` on: when the groups
of `2 * s` regions before `i` and the groups of `s` regions from `i` on are sorted, all
groups of `2 * s` regions are sorted after the round. -/
theorem mergeRound_spec {α : Type} {lt : α → α → Bool} (h : StrictWeakOrder lt)
    (bounds : List Nat) (nThreads s : Nat) (buf0 : List α) (hs : 1 ≤ s)
    (hlen : bounds.length = nThreads + 1) (hp : bounds.Pairwise (fun a b => a ≤ b))
    (hlast : bounds.getD nThreads 0 = buf0.length) :
    ∀ (fuel i : Nat) (buf : List α), 2 * s ∣ i → nThreads ≤ i + fuel → buf.Perm buf0 →
      (∀ j, 2 * s ∣ j → j < i → j < nThreads →
        SortedBy lt (segment buf (bounds.getD j 0) (bounds.getD (min (j + 2 * s) nThreads) 0))) →
      (∀ j, s ∣ j → i ≤ j → j < nThreads →
        SortedBy lt (segment buf (bounds.getD j 0) (bounds.getD (min (j + s) nThreads) 0))) →
      (mergeRound lt bounds nThreads s fuel i buf).Perm buf0 ∧
      ∀ j, 2 * s ∣ j → j < nThreads →
        SortedBy lt (segment (mergeRound lt bounds nThreads s fuel i buf) (bounds.getD j 0)
          (bounds.getD (min (j + 2 * s) nThreads) 0))
  | 0, i, buf, _, hf, hperm, h2, _ => by
    refine ⟨hperm, ?_⟩
    intro j hj hjn
    exact h2 j hj (by omega) hjn
  | fuel + 1, i, buf, hi, hf, hperm, h2, h3 => by
    have hsi : s ∣ i := Dvd.dvd.trans (Dvd.intro_left 2 rfl) hi
    unfold mergeRound
    by_cases hc : i < nThreads - s
    · rw [if_pos hc]
      simp only
      have hN : buf.length = buf0.length := hperm.length_eq
      have hmin : min (i + 2 * s) nThreads ≤ nThreads := Nat.min_le_right _ _
      have hlomid : bounds.getD i 0 ≤ bounds.getD (i + s) 0 :=
        getD_mono bounds hp _ _ (by omega) (by omega)
      have hmidhi : bounds.getD (i + s) 0 ≤ bounds.getD (min (i + 2 * s) nThreads) 0 :=
        getD_mono bounds hp _ _ (by rw [Nat.le_min]; omega) (by omega)
      have hhiN : bounds.getD (min (i + 2 * s) nThreads) 0 ≤ buf.length := by
        rw [hN, ← hlast]
        exact getD_mono bounds hp _ _ hmin (by omega)
      have hxs : SortedBy lt (segment buf (bounds.getD i 0) (bounds.getD (i + s) 0)) := by
        have := h3 i hsi (le_refl _) (by omega)
        rwa [Nat.min_eq_left (by omega)] at this
      have hys : SortedBy lt (segment buf (bounds.getD (i + s) 0)
          (bounds.getD (min (i + 2 * s) nThreads) 0)) := by
        have := h3 (i + s) (Dvd.dvd.add hsi (dvd_refl s)) (by omega) (by omega)
        have e : i + s + s = i + 2 * s := by omega
        rwa [e] at this
      have hsegx : (buf.drop (bounds.getD i 0)).take (bounds.getD (i + s) 0 - bounds.getD i 0) =
          segment buf (bounds.getD i 0) (bounds.getD (i + s) 0) := rfl
      have hsegy : (buf.drop (bounds.getD (i + s) 0)).take
          (bounds.getD (min (i + 2 * s) nThreads) 0 - bounds.getD (i + s) 0) =
          segment buf (bounds.getD (i + s) 0) (bounds.getD (min (i + 2 * s) nThreads) 0) := rfl
      rw [hsegx, hsegy]
      have hMperm := inplaceMerge_perm lt
        (bounds.getD (min (i + 2 * s) nThreads) 0 - bounds.getD i 0)
        (segment buf (bounds.getD i 0) (bounds.getD (i + s) 0))
        (segment buf (bounds.getD (i + s) 0) (bounds.getD (min (i + 2 * s) nThreads) 0))
      rw [segment_append buf _ _ _ hlomid hmidhi] at hMperm
      have hMlen := hMperm.length_eq
      rw [segment_length buf _ _ hhiN] at hMlen
      have hMsorted := inplaceMerge_sortedBy h
        (bounds.getD (min (i + 2 * s) nThreads) 0 - bounds.getD i 0)
        (segment buf (bounds.getD i 0) (bounds.getD (i + s) 0))
        (segment buf (bounds.getD (i + s) 0) (bounds.getD (min (i + 2 * s) nThreads) 0))
        (by
          rw [segment_length buf _ _ (le_trans hmidhi hhiN), segment_length buf _ _ hhiN]
          omega)
        hxs hys
      obtain ⟨r1, r2, r3, r4⟩ := replace_segment buf _ (bounds.getD i 0)
        (bounds.getD (min (i + 2 * s) nThreads) 0) (le_trans hlomid hmidhi) hhiN hMlen
      have hperm1 : (buf.take (bounds.getD i 0) ++
          inplaceMerge lt (bounds.getD (min (i + 2 * s) nThreads) 0 - bounds.getD i 0)
            (segment buf (bounds.getD i 0) (bounds.getD (i + s) 0))
            (segment buf (bounds.getD (i + s) 0) (bounds.getD (min (i + 2 * s) nThreads) 0)) ++
          buf.drop (bounds.getD (min (i + 2 * s) nThreads) 0)).Perm buf := by
        have e := split_at_segment buf (bounds.getD i 0)
          (bounds.getD (min (i + 2 * s) nThreads) 0) (le_trans hlomid hmidhi)
        have : (buf.take (bounds.getD i 0) ++
            inplaceMerge lt (bounds.getD (min (i + 2 * s) nThreads) 0 - bounds.getD i 0)
              (segment buf (bounds.getD i 0) (bounds.getD (i + s) 0))
              (segment buf (bounds.getD (i + s) 0) (bounds.getD (min (i + 2 * s) nThreads) 0)) ++
            buf.drop (bounds.getD (min (i + 2 * s) nThreads) 0)).Perm
            (buf.take (bounds.getD i 0) ++
              segment buf (bounds.getD i 0) (bounds.getD (min (i + 2 * s) nThreads) 0) ++
              buf.drop (bounds.getD (min (i + 2 * s) nThreads) 0)) :=
          List.Perm.append_right _ (List.Perm.append_left _ hMperm)
        rwa [e] at this
      apply mergeRound_spec h bounds nThreads s buf0 hs hlen hp hlast fuel (i + 2 * s) _
        (Dvd.dvd.add hi (dvd_refl _)) (by omega) (hperm1.trans hperm)
      · intro j hj hji hjn
        have hjle : j ≤ i := Nat.le_of_lt_add_of_dvd hji hj hi
        rcases Nat.eq_or_lt_of_le hjle with hje | hjlt
        · rw [hje, r2]
          exact hMsorted
        · have hj2 : j + 2 * s ≤ i :=
            Nat.le_of_lt_add_of_dvd (by omega) (Dvd.dvd.add hj (dvd_refl _)) hi
          rw [r3 _ _ (getD_mono bounds hp _ _ (le_trans (Nat.min_le_left _ _) hj2) (by omega))]
          exact h2 j hj hjlt hjn
      · intro j hj hji hjn
        rw [r4 _ _ (getD_mono bounds hp _ _ (le_trans (Nat.min_le_left _ _) hji) (by omega))]
        exact h3 j hj (by omega) hjn
    · rw [if_neg hc]
      refine ⟨hperm, ?_⟩
      intro j hj hjn
      by_cases hji : j < i
      · exact h2 j hj hji hjn
      · have hsj : s ∣ j := Dvd.dvd.trans (Dvd.intro_left 2 rfl) hj
        have := h3 j hsj (by omega) hjn
        rw [Nat.min_eq_right (by omega)] at this
        rw [Nat.min_eq_right (by omega)]
        exact this

/-- The rounds of `sortBufferMT_` from span `s` on: when all groups of `s` regions are
sorted, the whole vector is sorted after the rounds. -/
theorem mergeRounds_spec {α : Type} {lt : α → α → Bool} (h : StrictWeakOrder lt)
    (bounds : List Nat) (nThreads : Nat) (buf0 : List α) (hn : 1 ≤ nThreads)
    (hlen : bounds.length = nThreads + 1) (hp : bounds.Pairwise (fun a b => a ≤ b))
    (hfirst : bounds.getD 0 0 = 0) (hlast : bounds.getD nThreads 0 = buf0.length) :
    ∀ (fuel s : Nat) (buf : List α), 1 ≤ s → nThreads ≤ s + fuel → buf.Perm buf0 →
      (∀ j, s ∣ j → j < nThreads →
        SortedBy lt (segment buf (bounds.getD j 0) (bounds.getD (min (j + s) nThreads) 0))) →
      (mergeRounds lt bounds nThreads fuel s buf).Perm buf0 ∧
      SortedBy lt (mergeRounds lt bounds nThreads fuel s buf) := by
  have hdone : ∀ (s : Nat) (buf : List α), nThreads ≤ s → buf.Perm buf0 →
      (∀ j, s ∣ j → j < nThreads →
        SortedBy lt (segment buf (bounds.getD j 0) (bounds.getD (min (j + s) nThreads) 0))) →
      SortedBy lt buf := by
    intro s buf hsn hperm hinv
    have := hinv 0 (dvd_zero s) (by omega)
    rw [Nat.zero_add, Nat.min_eq_right hsn, hfirst, hlast, ← hperm.length_eq,
      segment_whole] at this
    exact this
  intro fuel
  induction fuel with
  | zero =>
    intro s buf hs hf hperm hinv
    exact ⟨hperm, hdone s buf (by omega) hperm hinv⟩
  | succ fuel ih =>
    intro s buf hs hf hperm hinv
    unfold mergeRounds
    by_cases hc : s < nThreads
    · rw [if_pos hc]
      obtain ⟨r1, r2⟩ := mergeRound_spec h bounds nThreads s buf0 hs hlen hp hlast nThreads 0 buf
        (dvd_zero _) (by omega) hperm (fun j _ hj0 _ => by omega) (fun j hj _ hjn => hinv j hj hjn)
      have e : s * 2 = 2 * s := Nat.mul_comm _ _
      rw [e]
      exact ih (2 * s) _ (by omega) (by omega) r1 r2
    · rw [if_neg hc]
      exact ⟨hperm, hdone s buf (by omega) hperm hinv⟩

theorem setBufferBounds_pairwise (size nThreads : Nat) :
    (setBufferBounds_ size nThreads).Pairwise (fun a b => a ≤ b) := by
  unfold setBufferBounds_
  rw [List.pairwise_append]
  refine ⟨?_, by simp, ?_⟩
  · rw [List.pairwise_map]
    exact List.Pairwise.imp (fun {a b} hab => Nat.mul_le_mul_right _ (le_of_lt hab))
      (List.pairwise_lt_range nThreads)
  · intro a ha b hb
    simp only [List.mem_singleton] at hb
    obtain ⟨i, hi, rfl⟩ := List.mem_map.1 ha
    have hi' := List.mem_range.1 hi
    rw [hb]
    calc i * (size / nThreads) ≤ nThreads * (size / nThreads) :=
          Nat.mul_le_mul_right _ (le_of_lt hi')
      _ ≤ size := Nat.mul_div_le _ _

theorem setBufferBounds_facts (size nThreads : Nat) (hn : 1 ≤ nThreads) :
    (setBufferBounds_ size nThreads).length = nThreads + 1 ∧
    (setBufferBounds_ size nThreads).getD 0 0 = 0 ∧
    (setBufferBounds_ size nThreads).getD nThreads 0 = size ∧
    ∀ b ∈ setBufferBounds_ size nThreads, b ≤ size := by
  have hl : (setBufferBounds_ size nThreads).length = nThreads + 1 := by
    simp [setBufferBounds_]
  have hlast : (setBufferBounds_ size nThreads).getD nThreads 0 = size := by
    unfold setBufferBounds_
    rw [List.getD_eq_getElem?_getD, List.getElem?_append_right (by simp)]
    simp
  refine ⟨hl, ?_, hlast, ?_⟩
  · obtain ⟨t, rfl⟩ : ∃ t, nThreads = t + 1 := ⟨nThreads - 1, by omega⟩
    simp [setBufferBounds_, List.range_succ_eq_map]
  · intro b hb
    obtain ⟨k, hk, rfl⟩ := List.getElem_of_mem hb
    have := getD_mono _ (setBufferBounds_pairwise size nThreads) k nThreads (by omega)
      (by omega)
    rw [hlast, List.getD_eq_getElem _ _ hk] at this
    exact this

/-- Private `sortBufferMT_` with any number of threads of at least 1 and a strict weak
ordering: the result is a sorted permutation of the vector. -/
theorem sortBufferMT_spec {α : Type} {lt : α → α → Bool} (h : StrictWeakOrder lt)
    (nThreads : Nat) (hn : 1 ≤ nThreads) (buf : List α) :
    (sortBufferMT_ lt nThreads buf).Perm buf ∧ SortedBy lt (sortBufferMT_ lt nThreads buf) := by
  obtain ⟨f1, f2, f3, f4⟩ := setBufferBounds_facts buf.length nThreads hn
  have hp := setBufferBounds_pairwise buf.length nThreads
  obtain ⟨s1, -, s3⟩ := sortRegions_spec h (setBufferBounds_ buf.length nThreads) buf hp f4
  unfold sortBufferMT_
  simp only
  exact mergeRounds_spec h _ nThreads buf hn f1 hp f2 f3 nThreads 1 _ (le_refl _) (by omega) s1
    (by
      intro j _ hj
      rw [Nat.min_eq_left (by omega)]
      exact s3 j (by omega))

/-- Public `Buffer::sort` with any number of threads and a strict weak ordering: the
result is a sorted permutation of the buffer. -/
theorem sort_sorted_perm {α : Type} {lt : α → α → Bool} (h : StrictWeakOrder lt)
    (nThreads : Nat) (buf : List α) :
    (Buffer.sort lt nThreads buf).Perm buf ∧ SortedBy lt (Buffer.sort lt nThreads buf) := by
  unfold Buffer.sort
  simp only
  by_cases ht : computeMaxThreads_ buf.length nThreads (2 ^ 10) > 1
  · rw [if_pos ht]
    exact sortBufferMT_spec h _ (by omega) buf
  · rw [if_neg ht]
    exact ⟨List.perm_insertionSort _ buf, stdSort_sortedBy h buf⟩

theorem ltSequence_swo : StrictWeakOrder ltSequence :=
  { irrefl := fun a => by simp [ltSequence]
    trans := fun a b c hab hbc => by
      simp only [ltSequence, decide_eq_true_eq] at *
      exact lt_trans hab hbc
    incomp := fun a b c h1 h2 h3 h4 => by
      simp only [ltSequence, decide_eq_false_iff_not, not_lt] at *
      have e1 : a.tag = b.tag := le_antisymm h2 h1
      have e2 : b.tag = c.tag := le_antisymm h4 h3
      rw [e1, e2]
      exact ⟨le_refl _, le_refl _⟩ }

/-- C22. `Buffer::sort` with a strict weak ordering: for every buffer and every number
of threads (at least 1) the buffer after the call is a permutation of the buffer before
and is sorted, so that no record is ordered before the record in front of it; and the
multi-threaded path `sortBufferMT_` gives a sorted permutation for every thread count
of at least 1, powers of two or not. -/
theorem sort_spec {α : Type} (lt : α → α → Bool) (h : StrictWeakOrder lt) (nThreads : Nat)
    (_hn : 1 ≤ nThreads) (buf : List α) :
    (Buffer.sort lt nThreads buf).Perm buf ∧ SortedBy lt (Buffer.sort lt nThreads buf) ∧
    (∀ j a b, (Buffer.sort lt nThreads buf)[j]? = some a →
      (Buffer.sort lt nThreads buf)[j + 1]? = some b → lt b a = false) ∧
    ∀ t, 1 ≤ t → (sortBufferMT_ lt t buf).Perm buf ∧ SortedBy lt (sortBufferMT_ lt t buf) := by
  obtain ⟨h1, h2⟩ := sort_sorted_perm h nThreads buf
  refine ⟨h1, h2, ?_, fun t ht => sortBufferMT_spec h t ht buf⟩
  intro j a b ha hb
  have hj1 : j + 1 < (Buffer.sort lt nThreads buf).length := (List.getElem?_eq_some.1 hb).1
  have hj : j < (Buffer.sort lt nThreads buf).length := by omega
  have := List.pairwise_iff_getElem.1 h2 j (j + 1) hj hj1 (by omega)
  rw [List.getElem?_eq_getElem hj, Option.some.injEq] at ha
  rw [List.getElem?_eq_getElem hj1, Option.some.injEq] at hb
  rw [← ha, ← hb]
  exact this

theorem sort_spec_witness :
    (sortBufferMT_ ltSequence 3
        [⟨[3], [], 1, 0⟩, ⟨[1], [], 1, 0⟩, ⟨[2], [], 1, 0⟩, ⟨[0], [], 1, 0⟩, ⟨[1], [], 2, 0⟩]).Perm
      [⟨[3], [], 1, 0⟩, ⟨[1], [], 1, 0⟩, ⟨[2], [], 1, 0⟩, ⟨[0], [], 1, 0⟩, ⟨[1], [], 2, 0⟩] ∧
    SortedBy ltSequence (sortBufferMT_ ltSequence 3
      [⟨[3], [], 1, 0⟩, ⟨[1], [], 1, 0⟩, ⟨[2], [], 1, 0⟩, ⟨[0], [], 1, 0⟩, ⟨[1], [], 2, 0⟩]) :=
  (sort_spec ltSequence ltSequence_swo 3 (by decide)
    [⟨[3], [], 1, 0⟩, ⟨[1], [], 1, 0⟩, ⟨[2], [], 1, 0⟩, ⟨[0], [], 1, 0⟩, ⟨[1], [], 2, 0⟩]).2.2.2 3
    (by decide)

theorem sortedBy_iff (l : List SequenceRecord) : SortedBy ltSequence l ↔ SortedBySequence l := by
  unfold SortedBy SortedBySequence
  constructor
  · exact fun h => h.imp (fun hab => by simpa [ltSequence] using hab)
  · exact fun h => h.imp (fun hab => by simpa [ltSequence] using hab)

theorem sim_tags : ∀ {W out : List SequenceRecord}, List.Forall₂ Sim W out →
    out.map (fun r => r.tag) = W.map (fun r => r.tag)
  | _, _, List.Forall₂.nil => rfl
  | _, _, List.Forall₂.cons h hs => by
    simp only [List.map_cons, h.1, sim_tags hs]

/-- The block "load, sort, collapse" on a reader that is not at its end, without
trimming and with any number of threads: it returns, consumes `maxLoadable` records
(or all of them), and the alive records of the buffer are a batch with the counts per
sequence of the records loaded; on the single-thread path they are strictly
increasing by sequence. -/
theorem loadSortCollapse_spec (qlen : List Nat → Nat) (c : Collapser) (reader : SequenceReader)
    (maxLoadable : Nat) (hl : c.trimLeft = 0) (hr : c.trimRight = 0)
    (hne : reader ≠ []) (hm : 1 ≤ maxLoadable)
    (hok : RecordsOK qlen reader) (hb : ∀ s, tagCount s reader < 2 ^ 32) :
    ∃ out n, loadSortCollapse c reader maxLoadable =
        some (out, reader.drop maxLoadable, (reader.take maxLoadable).length, n) ∧
      out ≠ [] ∧ out.length = (reader.take maxLoadable).length ∧
      0 < (reader.take maxLoadable).length ∧
      BatchOK qlen (out.filter isAlive) ∧
      (∀ s, tagCount s (out.filter isAlive) = tagCount s (reader.take maxLoadable)) ∧
      ((c.nThreads ≤ 1 ∨ maxLoadable < 2048) → StrictBySeq (out.filter isAlive)) := by
  have hlen : (reader.take maxLoadable).length ≤ maxLoadable := by
    rw [List.length_take]
    omega
  have hpos : 0 < (reader.take maxLoadable).length := by
    rw [List.length_take]
    have : 0 < reader.length := List.length_pos.2 hne
    omega
  obtain ⟨hperm, hsorted⟩ := sort_sorted_perm ltSequence_swo c.nThreads (reader.take maxLoadable)
  have hss : SortedBySequence (Buffer.sort ltSequence c.nThreads (reader.take maxLoadable)) :=
    (sortedBy_iff _).1 hsorted
  have hsub : ∀ r ∈ Buffer.sort ltSequence c.nThreads (reader.take maxLoadable), r ∈ reader :=
    fun r hr => List.mem_of_mem_take (hperm.subset hr)
  have hcol : Collapsible (Buffer.sort ltSequence c.nThreads (reader.take maxLoadable)) :=
    { pos := fun r hr => (hok r (hsub r hr)).1
      bound := fun s => by
        rw [tagCount_perm s hperm]
        exact lt_of_le_of_lt (tagCount_sublist s (List.take_sublist _ _)) (hb s)
      aligned := fun a ha b hb2 hab => by
        rw [(hok a (hsub a ha)).2, (hok b (hsub b hb2)).2, hab] }
  have hsne : Buffer.sort ltSequence c.nThreads (reader.take maxLoadable) ≠ [] := by
    intro h
    have := hperm.length_eq
    rw [h] at this
    simp only [List.length_nil] at this
    omega
  obtain ⟨out, n, h1, hsim, hcons⟩ := collapse_any_spec _ c.nThreads hsne hss hcol
  have hol : out.length = (reader.take maxLoadable).length := by
    rw [← hsim.length_eq, hperm.length_eq]
  have hcount : ∀ s, tagCount s (out.filter isAlive) = tagCount s (reader.take maxLoadable) := by
    intro s
    rw [tagCount_filter_alive, hcons s, tagCount_perm s hperm]
  refine ⟨out, n, ?_, ?_, hol, hpos, ⟨?_, ?_, ?_⟩, hcount, ?_⟩
  · unfold loadSortCollapse Buffer.load
    simp only
    rw [if_neg (by omega)]
    simp only [h1]
  · intro h
    rw [h] at hol
    simp only [List.length_nil] at hol
    omega
  · intro h
    obtain ⟨w, hw⟩ := List.exists_mem_of_length_pos hpos
    have h5 := hcount w.tag
    rw [h] at h5
    have : 1 ≤ tagCount w.tag (reader.take maxLoadable) := by
      obtain ⟨l1, l2, hsplit⟩ := List.append_of_mem hw
      rw [hsplit, tagCount_append, tagCount_cons, if_pos rfl]
      have := (hok w (List.mem_of_mem_take hw)).1
      omega
    have h0 : tagCount w.tag ([] : List SequenceRecord) = 0 := rfl
    omega
  · have hall : (out.map (fun r => r.tag)).Pairwise (fun a b => a ≤ b) := by
      rw [sim_tags hsim, List.pairwise_map]
      exact hss
    exact hall.sublist ((List.filter_sublist out).map _)
  · intro e he
    obtain ⟨hm1, ha⟩ := List.mem_filter.1 he
    obtain ⟨i, hi⟩ := List.getElem?_of_mem hm1
    obtain ⟨w, hw, hs1⟩ := forall₂_get hsim i e hi
    refine ⟨by simpa [isAlive] using ha, ?_⟩
    rw [hs1.2.1, hs1.1]
    exact (hok w (hsub w (mem_of_getElem?_eq hw))).2
  · intro ht
    have hsort : Buffer.sort ltSequence c.nThreads (reader.take maxLoadable) =
        stdSort ltSequence (reader.take maxLoadable) :=
      sort_single _ _ _ (by rcases ht with h | h; exact Or.inl h; exact Or.inr (by omega))
    obtain ⟨out2, n2, g1, -, g3, -⟩ := collapse_single_spec
      (Buffer.sort ltSequence c.nThreads (reader.take maxLoadable)) c.nThreads
      (by rcases ht with h | h; exact Or.inl h; exact Or.inr (by rw [hperm.length_eq]; omega))
      hsne hss hcol
    rw [h1] at g1
    cases g1
    exact alive_sorted _ out hss g3

theorem filesRecords_append (a b : List (List (Nat × SequenceRecord))) :
    filesRecords (a ++ b) = filesRecords a ++ filesRecords b := by
  simp [filesRecords, fileRecords]

theorem filesRecords_singleton (f : List (Nat × SequenceRecord)) :
    filesRecords [f] = fileRecords f := by
  simp [filesRecords, fileRecords]

theorem tagCount_take_drop (s : List Nat) (l : List SequenceRecord) (n : Nat) :
    tagCount s (l.take n) + tagCount s (l.drop n) = tagCount s l := by
  rw [← tagCount_append, List.take_append_drop]

theorem recordsOK_drop (qlen : List Nat → Nat) (l : List SequenceRecord) (n : Nat)
    (h : RecordsOK qlen l) : RecordsOK qlen (l.drop n) :=
  fun r hr => h r (List.mem_of_mem_drop hr)

/-- The loop of `makeTemporaryBatches_` on a reader that is not at its end: it
returns with any number of threads, adds at least one file, every file added is a
batch, and the files added hold the counts per sequence of the records read. -/
theorem batchLoop_spec (qlen : List Nat → Nat) (c : Collapser) (maxLoadable : Nat)
    (hl : c.trimLeft = 0) (hr : c.trimRight = 0) (hm : 1 ≤ maxLoadable) :
    ∀ (fuel : Nat) (reader : SequenceReader) (w : SequenceWriter) (raw : Nat),
      reader ≠ [] → reader.length < fuel → RecordsOK qlen reader →
      (∀ s, tagCount s reader < 2 ^ 32) → reader.length ≤ w.maxOutputRecords →
      ∃ w1 raw1 files, batchLoop c maxLoadable fuel reader w raw = some (w1, raw1) ∧
        w1.outputPaths = w.outputPaths ++ files ∧ files ≠ [] ∧
        (∀ f ∈ files, BatchOK qlen (fileRecords f)) ∧
        (∀ s, tagCount s (filesRecords files) = tagCount s reader) ∧
        w1.maxOutputRecords = w.maxOutputRecords
  | 0, reader, w, raw, _, hf, _, _, _ => by omega
  | fuel + 1, reader, w, raw, hne, hf, hok, hb, hmax => by
    obtain ⟨out, n, h1, h2, h3, h4, h5, h6, -⟩ :=
      loadSortCollapse_spec qlen c reader maxLoadable hl hr hne hm hok hb
    have hlen : reader.length = (reader.take maxLoadable).length + (reader.drop maxLoadable).length := by
      rw [← List.length_append, List.take_append_drop]
    have htl : (reader.take maxLoadable).length ≤ maxLoadable := by
      rw [List.length_take]
      omega
    have hout : out.length ≤ reader.length := by omega
    obtain ⟨w1, k, entries, e1, e2, e3, e4, e5⟩ :=
      switchSink_writeIf_file isAlive w out (by omega)
    have hentries : fileRecords entries = out.filter isAlive := e2
    unfold batchLoop
    simp only [h1, if_pos h4, e1, Option.map_some']
    by_cases hemp : (reader.drop maxLoadable).isEmpty = true
    · rw [if_pos hemp]
      have hd : reader.drop maxLoadable = [] := List.isEmpty_iff.1 hemp
      refine ⟨w1, _, [entries], rfl, e3, by simp, ?_, ?_, e5⟩
      · intro f hf2
        simp only [List.mem_singleton] at hf2
        rw [hf2, hentries]
        exact h5
      · intro s
        rw [filesRecords_singleton, hentries, h6 s, ← tagCount_take_drop s reader maxLoadable, hd]
        rfl
    · rw [if_neg hemp]
      have hd : reader.drop maxLoadable ≠ [] := fun h => hemp (List.isEmpty_iff.2 h)
      obtain ⟨w2, raw2, files, f1, f2, f3, f4, f5, f6⟩ := batchLoop_spec qlen c maxLoadable hl hr hm
        fuel (reader.drop maxLoadable) w1 (raw + (reader.take maxLoadable).length) hd
        (by omega) (recordsOK_drop qlen reader maxLoadable hok)
        (fun s => lt_of_le_of_lt (tagCount_sublist s (List.drop_sublist _ _)) (hb s))
        (by rw [e5]; omega)
      refine ⟨w2, raw2, entries :: files, f1, ?_, by simp, ?_, ?_, by rw [f6, e5]⟩
      · rw [f2, e3]
        simp
      · intro f hf2
        rcases List.mem_cons.1 hf2 with h | h
        · rw [h, hentries]
          exact h5
        · exact f4 f h
      · intro s
        have : filesRecords (entries :: files) = fileRecords entries ++ filesRecords files := by
          simp [filesRecords, fileRecords]
        rw [this, tagCount_append, hentries, h6 s, f5 s, tagCount_take_drop]

theorem mem_of_getElem?_eq' {α : Type} {l : List α} {i : Nat} {w : α}
    (h : l[i]? = some w) : w ∈ l := by
  obtain ⟨hi, rfl⟩ := List.getElem?_eq_some.1 h
  exact List.getElem_mem _

theorem tagCount_pos_of_mem (l : List SequenceRecord) (e : SequenceRecord) (he : e ∈ l)
    (h : 1 ≤ e.overall) : 1 ≤ tagCount e.tag l := by
  obtain ⟨l1, l2, hsplit⟩ := List.append_of_mem he
  rw [hsplit, tagCount_append, tagCount_cons, if_pos rfl]
  omega

/-- Records that are strictly increasing by sequence and whose counts per sequence
do not exceed those of `input` are at most as many as the records of `input`. -/
theorem batch_length_le (qlen : List Nat → Nat) (l input : List SequenceRecord)
    (hst : StrictBySeq l) (hl : RecordsOK qlen l) (h : ∀ s, tagCount s l ≤ tagCount s input) :
    l.length ≤ input.length := by
  have hnd : (l.map (fun r => r.tag)).Nodup := hst.imp (fun hab => ne_of_lt hab)
  have hsub : l.map (fun r => r.tag) ⊆ input.map (fun r => r.tag) := by
    intro s hs
    obtain ⟨e, he, rfl⟩ := List.mem_map.1 hs
    have h1 := tagCount_pos_of_mem l e he (hl e he).1
    have h2 := h e.tag
    by_contra hcon
    have h3 := tagCount_eq_zero e.tag input (fun r hr hc => hcon (List.mem_map.2 ⟨r, hr, hc⟩))
    omega
  have := (List.subperm_of_subset hnd hsub).length_le
  simpa using this

theorem recordsOfFile_tags (f : List (Nat × SequenceRecord)) :
    (recordsOfFile f).map (fun r => r.tag) = (fileRecords f).map (fun r => r.tag) := by
  simp [recordsOfFile, fileRecords]

theorem recordsOfFile_tagCount (s : List Nat) (f : List (Nat × SequenceRecord)) :
    tagCount s (recordsOfFile f) = tagCount s (fileRecords f) := by
  induction f with
  | nil => rfl
  | cons p f ih =>
    have h1 : recordsOfFile (p :: f) = { p.2 with bpOffset := 0 } :: recordsOfFile f := rfl
    have h2 : fileRecords (p :: f) = p.2 :: fileRecords f := rfl
    rw [h1, h2, tagCount_cons, tagCount_cons, ih]

theorem recordsOfFile_batch (qlen : List Nat → Nat) (f : List (Nat × SequenceRecord))
    (h : BatchOK qlen (fileRecords f)) : BatchOK qlen (recordsOfFile f) := by
  refine ⟨?_, ?_, ?_⟩
  · intro hc
    apply h.1
    have := congrArg List.length hc
    simp only [recordsOfFile, List.length_map, List.length_nil] at this
    exact List.length_eq_zero.1 (by simpa [fileRecords] using this)
  · rw [recordsOfFile_tags]
    exact h.2.1
  · intro r hr
    obtain ⟨p, hp, rfl⟩ := List.mem_map.1 hr
    exact h.2.2 p.2 (List.mem_map.2 ⟨p, hp, rfl⟩)

theorem readers_tagCount (s : List Nat) (files : List (List (Nat × SequenceRecord))) :
    tagCount s (files.map recordsOfFile).flatten = tagCount s (filesRecords files) := by
  induction files with
  | nil => rfl
  | cons f files ih =>
    have h : filesRecords (f :: files) = fileRecords f ++ filesRecords files := by
      simp [filesRecords, fileRecords]
    rw [List.map_cons, List.flatten_cons, tagCount_append, ih, h, tagCount_append,
      recordsOfFile_tagCount]

theorem mapM_some {α β : Type} (f : α → Option β) (g : α → β) :
    ∀ (l : List α), (∀ x ∈ l, f x = some (g x)) → l.mapM f = some (l.map g)
  | [], _ => rfl
  | x :: l, h => by
    rw [List.mapM_cons, h x (by simp), mapM_some f g l (fun y hy => h y (List.mem_cons_of_mem _ hy))]
    rfl

/-- A file without a record of empty sequence is read back record by record. -/
theorem readerOfFile_some (f : List (Nat × SequenceRecord)) (h : ∀ p ∈ f, p.2.tag ≠ []) :
    readerOfFile f = some (recordsOfFile f) := by
  unfold readerOfFile
  rw [if_pos]
  rw [List.all_eq_true]
  intro p hp
  have := h p hp
  cases ht : p.2.tag with
  | nil => exact absurd ht this
  | cons a l => rfl

/-- Files of batches that hold at most the counts per sequence of `input` hold no
record of empty sequence when `input` holds none. -/
theorem files_tags_ne (qlen : List Nat → Nat) (input : List SequenceRecord)
    (files : List (List (Nat × SequenceRecord)))
    (hb : ∀ f ∈ files, BatchOK qlen (fileRecords f))
    (hc : ∀ s, tagCount s (filesRecords files) ≤ tagCount s input)
    (htag : ∀ r ∈ input, r.tag ≠ []) : ∀ f ∈ files, ∀ p ∈ f, p.2.tag ≠ [] := by
  intro f hf p hp hnil
  have hm : p.2 ∈ filesRecords files :=
    List.mem_map.2 ⟨p, List.mem_flatten.2 ⟨f, hf, hp⟩, rfl⟩
  have h1 := tagCount_pos_of_mem _ p.2 hm
    ((hb f hf).2.2 p.2 (List.mem_map.2 ⟨p, hp, rfl⟩)).1
  have h2 := hc p.2.tag
  have h3 := tagCount_eq_zero p.2.tag input (fun r hr hcn => htag r hr (hcn.trans hnil))
  omega

/-- The readers `configureBatchReaders_` opens are the readers of the `n` files from
`startIdx` on, when these hold no record of empty sequence. -/
theorem configureBatchReaders_eq (paths : List (List (Nat × SequenceRecord))) (startIdx n : Nat)
    (h : startIdx + n ≤ paths.length)
    (htag : ∀ f ∈ (paths.drop startIdx).take n, ∀ p ∈ f, p.2.tag ≠ []) :
    configureBatchReaders_ paths startIdx n =
      some (((paths.drop startIdx).take n).map recordsOfFile) := by
  unfold configureBatchReaders_
  rw [mapM_some _ (fun i => recordsOfFile (paths.getD (startIdx + i) []))]
  · congr 1
    apply List.ext_getElem?
    intro i
    by_cases hi : i < n
    · have h1 : startIdx + i < paths.length := by omega
      simp [List.getElem?_map, List.getElem?_take, List.getElem?_drop, List.getElem?_range, hi,
        List.getElem?_eq_getElem h1, List.getD_eq_getElem?_getD]
    · simp [List.getElem?_map, List.getElem?_take, hi]
      omega
  · intro i hi
    have hin := List.mem_range.1 hi
    have h1 : startIdx + i < paths.length := by omega
    have hmem : paths[startIdx + i] ∈ (paths.drop startIdx).take n := by
      have h2 : ((paths.drop startIdx).take n)[i]? = some paths[startIdx + i] := by
        rw [List.getElem?_take, if_pos hin, List.getElem?_drop, List.getElem?_eq_getElem h1]
      exact mem_of_getElem?_eq' h2
    simp only [List.getElem?_eq_getElem h1, Option.bind_some, List.getD_eq_getElem?_getD,
      Option.getD_some]
    exact readerOfFile_some _ (htag _ hmem)

/-- The merge of the batches `files`, which hold at most the counts of `input`: it
returns, the records written are a batch, strictly increasing by sequence, and hold
the counts of `files`. -/
theorem merge_files_spec (qlen : List Nat → Nat) (input : List SequenceRecord)
    (files : List (List (Nat × SequenceRecord))) (m : Nat) (hne : files ≠ []) (hm : 1 ≤ m)
    (hb : ∀ f ∈ files, BatchOK qlen (fileRecords f))
    (hc : ∀ s, tagCount s (filesRecords files) ≤ tagCount s input)
    (hin : ∀ s, tagCount s input < 2 ^ 32) :
    ∃ n chunks, Buffer.merge (files.map recordsOfFile) m = some (n, chunks) ∧
      n = chunks.flatten.length ∧ BatchOK qlen chunks.flatten ∧
      (∀ s, tagCount s chunks.flatten = tagCount s (filesRecords files)) ∧
      (∀ c ∈ chunks, c ≠ []) ∧ chunks.flatten.length ≤ input.length ∧
      StrictBySeq chunks.flatten := by
  obtain ⟨n, chunks, h1, h2, h3, h4, h5, h6⟩ := merge_one_stream_full qlen (files.map recordsOfFile)
    m (by simpa using hne) hm
    (by
      intro r hr
      obtain ⟨f, hf, rfl⟩ := List.mem_map.1 hr
      exact recordsOfFile_batch qlen f (hb f hf))
    (by
      intro s
      rw [readers_tagCount]
      exact lt_of_le_of_lt (hc s) (hin s))
  have hcount : ∀ s, tagCount s chunks.flatten = tagCount s (filesRecords files) := by
    intro s
    rw [h4 s, readers_tagCount]
  have hcne : chunks.flatten ≠ [] := by
    obtain ⟨f, hf⟩ := List.exists_mem_of_ne_nil files hne
    obtain ⟨e, he⟩ := List.exists_mem_of_ne_nil _ (hb f hf).1
    have he2 : e ∈ filesRecords files := by
      obtain ⟨p, hp, rfl⟩ := List.mem_map.1 he
      exact List.mem_map.2 ⟨p, List.mem_flatten.2 ⟨f, hf, hp⟩, rfl⟩
    have h7 := tagCount_pos_of_mem _ e he2 ((hb f hf).2.2 e he).1
    intro hnil
    have h8 := hcount e.tag
    rw [hnil] at h8
    have h0 : tagCount e.tag ([] : List SequenceRecord) = 0 := rfl
    omega
  have hbatch : BatchOK qlen chunks.flatten := ⟨hcne, h3.imp le_of_lt, h5⟩
  exact ⟨n, chunks, h1, h2, hbatch, hcount, h6,
    batch_length_le qlen _ input h3 h5 (fun s => by rw [hcount s]; exact hc s), h3⟩

/-- The loop of `mergeSSTmpBatches_` with fan-out 16 and at least 16 loadable records:
it returns with at most 16 files left to merge, and the files left are batches that
hold the counts per sequence of `input`. -/
theorem mergeRoundsSS_spec (qlen : List Nat → Nat) (input : List SequenceRecord) (m : Nat)
    (hm : 16 ≤ m) (hin : ∀ s, tagCount s input < 2 ^ 32) (htag : ∀ r ∈ input, r.tag ≠ []) :
    ∀ (fuel : Nat) (w : SequenceWriter) (startIdx : Nat), TmpInv qlen input w startIdx →
      1 ≤ fuel → w.outputPaths.length - startIdx ≤ 15 * (fuel - 1) + 16 →
      ∃ w1 idx, mergeRoundsSS 16 m fuel w startIdx = some (w1, idx) ∧
        TmpInv qlen input w1 idx ∧ w1.outputPaths.length ≤ idx + 16
  | 0, w, startIdx, _, hf, _ => by omega
  | fuel + 1, w, startIdx, hinv, _, hmu => by
    unfold mergeRoundsSS
    by_cases hcond : startIdx + 16 < w.outputPaths.length
    · have hD : w.outputPaths.drop startIdx =
          (w.outputPaths.drop startIdx).take 16 ++ w.outputPaths.drop (startIdx + 16) := by
        rw [← List.drop_drop, List.take_append_drop]
      have hsplit : ∀ s, tagCount s (filesRecords ((w.outputPaths.drop startIdx).take 16)) +
          tagCount s (filesRecords (w.outputPaths.drop (startIdx + 16))) = tagCount s input := by
        intro s
        rw [← tagCount_append, ← filesRecords_append, ← hD]
        exact hinv.count s
      rw [if_pos hcond, configureBatchReaders_eq _ _ _ (by omega)
        (files_tags_ne qlen input _ (fun f hf => hinv.batch f (List.mem_of_mem_take hf))
          (fun s => by have := hsplit s; omega) htag)]
      simp only
      obtain ⟨n, chunks, h1, h2, h3, h4, h5, h6, -⟩ := merge_files_spec qlen input
        ((w.outputPaths.drop startIdx).take 16) (m / 16)
        (by
          intro hc
          have := congrArg List.length hc
          simp only [List.length_take, List.length_drop, List.length_nil] at this
          omega)
        (by omega)
        (fun f hf => hinv.batch f (List.mem_of_mem_take hf))
        (fun s => by have := hsplit s; omega) hin
      rw [h1]
      simp only
      obtain ⟨w1, entries, e1, e2, e3, e4, e5⟩ := switchSink_writeAll_file w chunks
        (le_trans h6 hinv.room)
      rw [e1]
      simp only
      have hdrop : w1.outputPaths.drop (startIdx + 16) =
          w.outputPaths.drop (startIdx + 16) ++ [entries] := by
        rw [e3, List.drop_append_of_le_length (by omega)]
      have hinv1 : TmpInv qlen input w1 (startIdx + 16) :=
        { lt := by rw [e3]; simp only [List.length_append, List.length_singleton]; omega
          batch := by
            intro f hf
            rw [hdrop] at hf
            rcases List.mem_append.1 hf with hf | hf
            · exact hinv.batch f (by rw [hD]; exact List.mem_append_right _ hf)
            · simp only [List.mem_singleton] at hf
              rw [hf]
              have : fileRecords entries = chunks.flatten := e2
              rw [this]
              exact h3
          count := by
            intro s
            rw [hdrop, filesRecords_append, tagCount_append, filesRecords_singleton]
            have : fileRecords entries = chunks.flatten := e2
            rw [this, h4 s]
            have := hsplit s
            omega
          room := by rw [e5]; exact hinv.room }
      have hlen1 : w1.outputPaths.length = w.outputPaths.length + 1 := by
        rw [e3]
        simp
      exact mergeRoundsSS_spec qlen input m hm hin htag fuel w1 (startIdx + 16) hinv1 (by omega)
        (by omega)
    · rw [if_neg hcond]
      exact ⟨w, startIdx, rfl, hinv, by omega⟩

/-- What `makeTemporaryBatches_` leaves on fresh writers, without trimming and with
any number of threads: either the input fits one buffer and the output writer holds
the collapsed records, strictly increasing by sequence on the single-thread path, or
the temporary writer holds at least two batches. -/
theorem makeTemporaryBatches_spec (qlen : List Nat → Nat) (c : Collapser)
    (input : SequenceReader) (tmpWriter outWriter : SequenceWriter) (maxLoadable : Nat)
    (stats : StatsCollapse) (hl : c.trimLeft = 0) (hr : c.trimRight = 0)
    (hm : 1 ≤ maxLoadable) (hne : input ≠ [])
    (hok : RecordsOK qlen input) (hb : ∀ s, tagCount s input < 2 ^ 32)
    (htc : tmpWriter.isOpen = false) (htp : tmpWriter.outputPaths = [])
    (htm : input.length ≤ tmpWriter.maxOutputRecords)
    (hoc : outWriter.isOpen = false) (hop : outWriter.outputPaths = []) :
    ∃ tw ow st, makeTemporaryBatches_ c input tmpWriter outWriter maxLoadable stats =
        some (tw, ow, st) ∧
      ((input.length ≤ maxLoadable ∧ tw.outputPaths = [] ∧ BatchOK qlen ow.records ∧
          (∀ s, tagCount s ow.records = tagCount s input) ∧
          ((c.nThreads ≤ 1 ∨ maxLoadable < 2048) → StrictBySeq ow.records)) ∨
       (maxLoadable < input.length ∧ ow = outWriter ∧ 2 ≤ tw.outputPaths.length ∧
          TmpInv qlen input tw 0)) := by
  obtain ⟨out, n, h1, h2, h3, h4, h5, h6, h7⟩ :=
    loadSortCollapse_spec qlen c input maxLoadable hl hr hne hm hok hb
  have hlen : input.length = (input.take maxLoadable).length + (input.drop maxLoadable).length := by
    rw [← List.length_append, List.take_append_drop]
  unfold makeTemporaryBatches_
  simp only [h1]
  by_cases hemp : (input.drop maxLoadable).isEmpty = true
  · rw [if_pos hemp]
    have hd : input.drop maxLoadable = [] := List.isEmpty_iff.1 hemp
    have hle : input.length ≤ maxLoadable := by
      have := congrArg List.length hd
      simp only [List.length_drop, List.length_nil] at this
      omega
    obtain ⟨w1, k, e1, e2, e3⟩ := writeIf_records isAlive outWriter out h2
    rw [e1]
    simp only
    have hp := e3 (Or.inl hoc)
    have hrec : w1.records = out.filter isAlive := by
      rw [e2]
      simp [SequenceWriter.records, hop]
    cases hw : w1.outputPaths with
    | nil => exact absurd hw hp
    | cons f fs =>
      have hf : w1.flush = some { w1 with isOpen := true } := by
        unfold SequenceWriter.flush
        rw [hw]
      rw [hf]
      refine ⟨_, _, _, rfl, Or.inl ⟨hle, htp, ?_, ?_, ?_⟩⟩
      · have : ({ w1 with isOpen := true } : SequenceWriter).records = w1.records := rfl
        rw [this, hrec]
        exact h5
      · intro s
        have : ({ w1 with isOpen := true } : SequenceWriter).records = w1.records := rfl
        rw [this, hrec, h6 s, List.take_of_length_le hle]
      · intro ht
        have : ({ w1 with isOpen := true } : SequenceWriter).records = w1.records := rfl
        rw [this, hrec]
        exact h7 ht
  · rw [if_neg hemp]
    have hd : input.drop maxLoadable ≠ [] := fun h => hemp (List.isEmpty_iff.2 h)
    have hgt : maxLoadable < input.length := by
      by_contra hcon
      exact hd (List.drop_of_length_le (by omega))
    obtain ⟨w1, k, entries, e1, e2, e3, e4, e5⟩ := closed_writeIf_file isAlive tmpWriter out htc h2
      (by omega)
    rw [e1]
    simp only
    obtain ⟨w2, raw2, files, f1, f2, f3, f4, f5, f6⟩ := batchLoop_spec qlen c maxLoadable hl hr hm
      ((input.drop maxLoadable).length + 1) (input.drop maxLoadable) w1
      (input.take maxLoadable).length hd (by omega) (recordsOK_drop qlen input maxLoadable hok)
      (fun s => lt_of_le_of_lt (tagCount_sublist s (List.drop_sublist _ _)) (hb s))
      (by rw [e5]; omega)
    rw [f1]
    simp only
    have hpaths : w2.outputPaths = entries :: files := by
      rw [f2, e3, htp]
      rfl
    have hf : w2.flush = some { w2 with isOpen := true } := by
      unfold SequenceWriter.flush
      rw [hpaths]
    rw [hf]
    have hfl : 1 ≤ files.length := List.length_pos.2 f3
    have hentries : fileRecords entries = out.filter isAlive := e2
    refine ⟨_, _, _, rfl, Or.inr ⟨hgt, rfl, ?_, ?_⟩⟩
    · simp only [hpaths, List.length_cons]
      omega
    · exact
        { lt := by simp only [hpaths, List.length_cons]; omega
          batch := by
            intro f hf2
            simp only [hpaths, List.drop_zero] at hf2
            rcases List.mem_cons.1 hf2 with h | h
            · rw [h, hentries]
              exact h5
            · exact f4 f h
          count := by
            intro s
            simp only [hpaths, List.drop_zero]
            have : filesRecords (entries :: files) = fileRecords entries ++ filesRecords files := by
              simp [filesRecords, fileRecords]
            rw [this, tagCount_append, hentries, h6 s, f5 s, tagCount_take_drop]
          room := by
            simp only
            rw [f6, e5]
            exact htm }

/-- The final stage `mergeSSTmpBatches_` with fan-out 16 and at least 16 loadable
records on a temporary writer holding batches without a record of empty sequence: it
returns and the output writer holds a batch, strictly increasing by sequence, with the
counts per sequence of `input`. -/
theorem mergeSSTmpBatches_spec (qlen : List Nat → Nat) (input : List SequenceRecord)
    (tw outWriter : SequenceWriter) (maxLoadable : Nat) (stats : StatsCollapse)
    (hm : 16 ≤ maxLoadable) (hin : ∀ s, tagCount s input < 2 ^ 32)
    (htag : ∀ r ∈ input, r.tag ≠ [])
    (hinv : TmpInv qlen input tw 0) (hop : outWriter.outputPaths = []) :
    ∃ tw1 ow st, mergeSSTmpBatches_ 16 tw outWriter maxLoadable stats = some (tw1, ow, st) ∧
      BatchOK qlen ow.records ∧ (∀ s, tagCount s ow.records = tagCount s input) ∧
      StrictBySeq ow.records := by
  obtain ⟨w, idx, h1, h2, h3⟩ := mergeRoundsSS_spec qlen input maxLoadable hm hin htag
    (tw.outputPaths.length + 1) tw 0 hinv (by omega) (by simp only [Nat.add_sub_cancel]; omega)
  unfold mergeSSTmpBatches_
  rw [h1]
  simp only
  have hlt := h2.lt
  cases hw : w.outputPaths with
  | nil =>
    rw [hw] at hlt
    simp at hlt
  | cons f fs =>
    have hf : w.flush = some { w with isOpen := true } := by
      unfold SequenceWriter.flush
      rw [hw]
    rw [hf]
    simp only
    have htake : (w.outputPaths.drop idx).take (w.outputPaths.length - idx) =
        w.outputPaths.drop idx := List.take_of_length_le (by simp)
    rw [configureBatchReaders_eq _ _ _ (by omega)
      (by
        rw [htake]
        exact files_tags_ne qlen input _ h2.batch (fun s => le_of_eq (h2.count s)) htag)]
    simp only
    rw [htake]
    have hrl : ((w.outputPaths.drop idx).map recordsOfFile).length = w.outputPaths.length - idx := by
      simp
    have hdne : w.outputPaths.drop idx ≠ [] := by
      intro hc
      have := congrArg List.length hc
      simp only [List.length_drop, List.length_nil] at this
      omega
    rw [if_neg (by rw [hrl]; omega)]
    obtain ⟨n, chunks, g1, g2, g3, g4, g5, g6, g7⟩ := merge_files_spec qlen input
      (w.outputPaths.drop idx) (maxLoadable / ((w.outputPaths.drop idx).map recordsOfFile).length)
      hdne
      (by
        rw [hrl]
        exact (Nat.le_div_iff_mul_le (by omega)).2 (by omega))
      h2.batch (fun s => le_of_eq (h2.count s)) hin
    rw [g1]
    simp only
    obtain ⟨ow, k1, k2⟩ := writeAll_records chunks outWriter g5
    rw [k1]
    have hrec : ow.records = chunks.flatten := by
      rw [k2]
      simp [SequenceWriter.records, hop]
    refine ⟨_, _, _, rfl, ?_, ?_, ?_⟩
    · rw [hrec]
      exact g3
    · intro s
      rw [hrec, g4 s]
      exact h2.count s
    · rw [hrec]
      exact g7

/-- The single-sample pipeline `collapseSS_` on a non-empty input and fresh writers,
without trimming, with any number of threads and with a buffer that holds the whole
input, or holds at least 16 records while no input record has an empty sequence: it
returns, and the records of the output writer are increasing by sequence, carry
counts of at least 1 and hold, for every sequence, the sum of the counts of the input
records with that sequence; they are strictly increasing by sequence on the
single-thread path and when the input does not fit the buffer. -/
theorem collapseSS_spec (qlen : List Nat → Nat) (c : Collapser)
    (input : SequenceReader) (tmpWriter outWriter : SequenceWriter) (loadable : Nat)
    (stats : StatsCollapse) (hl : c.trimLeft = 0) (hr : c.trimRight = 0)
    (hm : input.length ≤ loadable ∨ (16 ≤ loadable ∧ ∀ r ∈ input, r.tag ≠ []))
    (hne : input ≠ [])
    (hok : RecordsOK qlen input) (hb : ∀ s, tagCount s input < 2 ^ 32)
    (htc : tmpWriter.isOpen = false) (htp : tmpWriter.outputPaths = [])
    (htm : input.length ≤ tmpWriter.maxOutputRecords)
    (hoc : outWriter.isOpen = false) (hop : outWriter.outputPaths = []) :
    ∃ tw ow st, collapseSS_ c input tmpWriter outWriter loadable stats = some (tw, ow, st) ∧
      BatchOK qlen ow.records ∧ (∀ s, tagCount s ow.records = tagCount s input) ∧
      ((c.nThreads ≤ 1 ∨ loadable < 2048 ∨ loadable < input.length) →
        StrictBySeq ow.records) := by
  have hpos : 0 < input.length := List.length_pos.2 hne
  obtain ⟨tw, ow, st, h1, h2⟩ := makeTemporaryBatches_spec qlen c input tmpWriter outWriter
    loadable stats hl hr (by omega) hne hok hb htc htp htm hoc hop
  unfold collapseSS_
  rw [h1]
  simp only
  rcases h2 with ⟨h2, h3, h4, h5, h7⟩ | ⟨h3, h4, h5, h6⟩
  · rw [if_neg (by rw [h3]; simp)]
    refine ⟨tw, ow, st, rfl, h4, h5, fun ht => h7 ?_⟩
    rcases ht with ht | ht | ht
    · exact Or.inl ht
    · exact Or.inr ht
    · omega
  · rw [if_pos (by omega)]
    rw [h4]
    have hm' : 16 ≤ loadable ∧ ∀ r ∈ input, r.tag ≠ [] := by
      rcases hm with hm | hm
      · omega
      · exact hm
    obtain ⟨tw1, ow1, st1, g1, g2, g3, g4⟩ := mergeSSTmpBatches_spec qlen input tw outWriter
      loadable st hm'.1 hb hm'.2 h6 hop
    exact ⟨tw1, ow1, st1, g1, g2, g3, fun _ => g4⟩

theorem digitChar_isDigitOf : ∀ k, k < 10 → IsDigitOf (Nat.digitChar k) k := by
  intro k hk
  unfold IsDigitOf
  interval_cases k <;> decide

theorem toDigitsCore_spec :
    ∀ (fuel n : Nat) (ds : List Char), n < fuel →
      ∃ pre, Nat.toDigitsCore 10 fuel n ds = pre ++ ds ∧ pre ≠ [] ∧
        (∀ c ∈ pre, ∃ k, IsDigitOf c k) ∧ pre.foldl stolStep 0 = n
  | 0, n, ds, h => by omega
  | fuel + 1, n, ds, h => by
    unfold Nat.toDigitsCore
    simp only
    have hd := digitChar_isDigitOf (n % 10) (Nat.mod_lt _ (by omega))
    by_cases h0 : n / 10 = 0
    · rw [if_pos h0]
      refine ⟨[Nat.digitChar (n % 10)], rfl, by simp, ?_, ?_⟩
      · intro c hc
        simp only [List.mem_singleton] at hc
        rw [hc]
        exact ⟨_, hd⟩
      · simp only [List.foldl_cons, List.foldl_nil, stolStep, hd.2.1]
        omega
    · rw [if_neg h0]
      obtain ⟨pre, h1, h2, h3, h4⟩ := toDigitsCore_spec fuel (n / 10)
        (Nat.digitChar (n % 10) :: ds) (by omega)
      refine ⟨pre ++ [Nat.digitChar (n % 10)], ?_, by simp, ?_, ?_⟩
      · rw [h1]
        simp
      · intro c hc
        rcases List.mem_append.1 hc with hc | hc
        · exact h3 c hc
        · simp only [List.mem_singleton] at hc
          rw [hc]
          exact ⟨_, hd⟩
      · rw [List.foldl_append, h4]
        simp only [List.foldl_cons, List.foldl_nil, stolStep, hd.2.1]
        omega

/-- The text `std::to_string (n)`: not empty, decimal digits only, and the digits
read back give `n`. -/
theorem toStringNat_spec (n : Nat) :
    toStringNat n ≠ [] ∧ (∀ c ∈ toStringNat n, ∃ k, IsDigitOf c k) ∧
      (toStringNat n).foldl stolStep 0 = n := by
  obtain ⟨pre, h1, h2, h3, h4⟩ := toDigitsCore_spec (n + 1) n [] (by omega)
  have : toStringNat n = pre := by
    unfold toStringNat Nat.toDigits
    rw [h1]
    simp
  rw [this]
  exact ⟨h2, h3, h4⟩

theorem findLastOf_none (c : Char) : ∀ (l : List Char), c ∉ l → findLastOf c l = none
  | [], _ => rfl
  | x :: xs, h => by
    simp only [List.mem_cons, not_or] at h
    unfold findLastOf
    rw [findLastOf_none c xs h.2]
    simp only
    rw [if_neg (fun hc => h.1 hc.symm)]

theorem findLastOf_append (c : Char) (d : List Char) (hd : c ∉ d) :
    ∀ (a : List Char), findLastOf c (a ++ c :: d) = some a.length
  | [] => by
    simp only [List.nil_append, List.length_nil]
    unfold findLastOf
    rw [findLastOf_none c d hd]
    simp
  | x :: xs => by
    simp only [List.cons_append, List.length_cons]
    unfold findLastOf
    rw [findLastOf_append c d hd xs]

/-- The call `std::stol` on the decimal digits of a value below `2 ^ 63` returns the
value. -/
theorem stol_toStringNat (n : Nat) (h : n < 2 ^ 63) : stol (toStringNat n) = some (n : Int) := by
  obtain ⟨h1, h2, h3⟩ := toStringNat_spec n
  cases hs : toStringNat n with
  | nil => exact absurd hs h1
  | cons x xs =>
    rw [hs] at h2 h3
    obtain ⟨k, hx⟩ := h2 x (by simp)
    have hdw : (x :: xs).dropWhile isSpaceC = x :: xs := by
      rw [List.dropWhile_cons_of_neg (by rw [hx.2.2.1]; simp)]
    have htw : (x :: xs).takeWhile Char.isDigit = x :: xs := by
      rw [List.takeWhile_eq_self_iff]
      intro c hc
      obtain ⟨k2, hk2⟩ := h2 c hc
      exact hk2.1
    have hfold : (x :: xs).foldl (fun acc c => acc * 10 + (c.toNat - 48)) 0 = n := h3
    unfold stol
    simp only [hdw, List.head?_cons, Option.some.injEq, hx.2.2.2.1, hx.2.2.2.2.1, or_self,
      if_false, htw, hfold, decide_False]
    simp
    omega

/-- The count `getTagCount_` reads from the header `_makeFastxHeader` writes is the
count of the record, for counts below `2 ^ 63`. -/
theorem getTagCount_header (r : SequenceRecord) (id : Nat) (h : r.overall < 2 ^ 63) :
    getTagCount_ (r.makeFastxHeader id) = some r.overall := by
  have hno : ':' ∉ toStringNat r.overall := by
    intro hc
    obtain ⟨k, hk⟩ := (toStringNat_spec r.overall).2.1 ':' hc
    exact hk.2.2.2.2.2 rfl
  have hsplit : r.makeFastxHeader id =
      (String.toList "BIOSEQZIP|ID:" ++ toStringNat id ++ ['|', 'C', 'N']) ++
        ':' :: toStringNat r.overall := by
    unfold SequenceRecord.makeFastxHeader
    have : String.toList "|CN:" = ['|', 'C', 'N', ':'] := rfl
    rw [this]
    simp
  unfold getTagCount_
  simp only
  rw [hsplit, findLastOf_append ':' _ hno]
  simp only
  have hdrop : List.drop ((String.toList "BIOSEQZIP|ID:" ++ toStringNat id ++ ['|', 'C', 'N']).length + 1)
      ((String.toList "BIOSEQZIP|ID:" ++ toStringNat id ++ ['|', 'C', 'N']) ++
        ':' :: toStringNat r.overall) = toStringNat r.overall := by
    have e : (String.toList "BIOSEQZIP|ID:" ++ toStringNat id ++ ['|', 'C', 'N']) ++
        ':' :: toStringNat r.overall =
        ((String.toList "BIOSEQZIP|ID:" ++ toStringNat id ++ ['|', 'C', 'N']) ++ [':']) ++
          toStringNat r.overall := by simp
    rw [e, List.drop_left' (by simp)]
  rw [hdrop, stol_toStringNat _ h]
  simp only [Option.map_some', Option.some.injEq]
  have h1 : ((r.overall : Int) % (2 ^ 64 : Int)) = (r.overall : Int) :=
    Int.emod_eq_of_lt (by omega) (by
      have : r.overall < 2 ^ 64 := lt_trans h (by norm_num)
      exact_mod_cast this)
  rw [h1]
  simp

theorem expandBatch_bamOfFile :
    ∀ (f : List (Nat × SequenceRecord)), (∀ p ∈ f, p.2.overall < 2 ^ 63) →
      expandBatch (bamOfFile f) = some (expansionOf f)
  | [], _ => rfl
  | p :: f, h => by
    have ih := expandBatch_bamOfFile f (fun q hq => h q (List.mem_cons_of_mem _ hq))
    have h1 : bamOfFile (p :: f) =
        { qName := p.2.makeFastxHeader p.1, seq := p.2.tag } :: bamOfFile f := rfl
    rw [h1]
    unfold expandBatch
    simp only
    rw [getTagCount_header p.2 p.1 (h p (by simp)), ih]
    rfl

theorem expandBatch_append :
    ∀ (a b : List BamRecord) (out : List BamRecord), expandBatch (a ++ b) = some out →
      ∃ o1 o2, expandBatch a = some o1 ∧ expandBatch b = some o2 ∧ out = o1 ++ o2
  | [], b, out, h => ⟨[], out, rfl, h, rfl⟩
  | x :: a, b, out, h => by
    simp only [List.cons_append] at h
    unfold expandBatch at h
    cases hn : getTagCount_ x.qName with
    | none => simp [hn] at h
    | some n =>
      cases hr : expandBatch (a ++ b) with
      | none => simp [hn, hr] at h
      | some rest =>
        simp only [hn, hr, Option.some.injEq] at h
        obtain ⟨o1, o2, h1, h2, h3⟩ := expandBatch_append a b rest hr
        refine ⟨List.replicate n x ++ o1, o2, ?_, h2, ?_⟩
        · unfold expandBatch
          simp only [hn, h1]
        · rw [← h, h3, List.append_assoc]

/-- With at least one record per batch the loop of `expandSingleSampleCore_` ends and
writes what one batch over the whole input writes. -/
theorem expandLoop_eq (m : Nat) (hm : 1 ≤ m) :
    ∀ (fuel : Nat) (input out : List BamRecord), input.length < fuel →
      expandBatch input = some out → expandLoop m fuel input = some out
  | 0, input, out, h, _ => by omega
  | fuel + 1, input, out, h, he => by
    rw [← List.take_append_drop m input] at he
    obtain ⟨o1, o2, h1, h2, h3⟩ := expandBatch_append _ _ out he
    unfold expandLoop
    simp only [h1]
    by_cases hemp : (input.drop m).isEmpty = true
    · rw [if_pos hemp]
      have hd : input.drop m = [] := List.isEmpty_iff.1 hemp
      rw [hd] at h2
      have : o2 = [] := by
        unfold expandBatch at h2
        simpa using h2.symm
      rw [h3, this, List.append_nil]
    · rw [if_neg hemp]
      have hd : input.drop m ≠ [] := fun hc => hemp (List.isEmpty_iff.2 hc)
      have hpos : 0 < input.length := by
        rcases input with _ | ⟨x, xs⟩
        · simp at hd
        · simp
      rw [expandLoop_eq m hm fuel (input.drop m) o2 (by rw [List.length_drop]; omega) h2]
      simp only [Option.map_some', h3]

/-- The expansion of the collapsed records of a file with counts below `2 ^ 63`
returns and writes every record as many times as its count. -/
theorem expand_file (f : List (Nat × SequenceRecord)) (m : Nat) (hm : 1 ≤ m)
    (h : ∀ p ∈ f, p.2.overall < 2 ^ 63) :
    expandSingleSampleCore_ (bamOfFile f) m = some (expansionOf f) := by
  unfold expandSingleSampleCore_
  exact expandLoop_eq m hm _ _ _ (by omega) (expandBatch_bamOfFile f h)

theorem overall_le_tagCount (l : List SequenceRecord) (e : SequenceRecord) (he : e ∈ l) :
    e.overall ≤ tagCount e.tag l := by
  obtain ⟨l1, l2, hsplit⟩ := List.append_of_mem he
  rw [hsplit, tagCount_append, tagCount_cons, if_pos rfl]
  omega

/-- The number of copies of a sequence in the expansion of some files is the sum of
the counts of the records with that sequence. -/
theorem count_expansion [BEq (List Nat)] [LawfulBEq (List Nat)] (s : List Nat) :
    ∀ (files : List (List (Nat × SequenceRecord))),
      ((files.map expansionOf).flatten.map (fun b => b.seq)).count s =
        tagCount s (filesRecords files)
  | [] => rfl
  | [] :: files => by
    have ih := count_expansion s files
    have h1 : filesRecords ([] :: files) = filesRecords files := rfl
    rw [h1, ← ih]
    rfl
  | (p :: f) :: files => by
    have ih := count_expansion s (f :: files)
    have h1 : filesRecords ((p :: f) :: files) = p.2 :: filesRecords (f :: files) := rfl
    have h2 : ((((p :: f) :: files).map expansionOf).flatten.map (fun b => b.seq)) =
        List.replicate p.2.overall p.2.tag ++
          ((f :: files).map expansionOf).flatten.map (fun b => b.seq) := by
      simp [expansionOf, List.map_replicate]
    rw [h1, h2, List.count_append, ih, tagCount_cons, List.count_replicate]
    by_cases hs : p.2.tag = s
    · simp [hs]
    · have : ¬ (p.2.tag == s) = true := by simpa using hs
      simp [hs, this]

theorem count_tags_of_reads [BEq (List Nat)] [LawfulBEq (List Nat)] (s : List Nat) :
    ∀ (input : List SequenceRecord), (∀ r ∈ input, r.overall = 1) →
      (input.map (fun r => r.tag)).count s = tagCount s input
  | [], _ => rfl
  | r :: input, h => by
    have ih := count_tags_of_reads s input (fun x hx => h x (List.mem_cons_of_mem _ hx))
    rw [List.map_cons, List.count_cons, ih, tagCount_cons, h r (by simp)]
    by_cases hs : r.tag = s
    · simp [hs]
      omega
    · have : ¬ (r.tag == s) = true := by simpa using hs
      simp [hs, this]

/-- C11 (amended). Round trip of a collapse and an expansion. For a non-empty list of
reads (count 1, equal sequences with qualities of equal length, every sequence fewer
than `2 ^ 32` times, fewer than `2 ^ 64` reads), a collapser without trimming and with
any number of threads, a buffer that holds the whole input, or holds at least 16
records while every read has a sequence that is not empty, and an expander that loads
at least one record per batch: `collapseSS_` and the expansion of its output files
return, and the multiset of the expanded sequences is the multiset of the input
sequences. -/
theorem expand_collapse_round_trip (c : Collapser) (input : SequenceReader)
    (loadable maxOutputRecords expandLoadable : Nat)
    (hl : c.trimLeft = 0) (hr : c.trimRight = 0)
    (hm : input.length ≤ loadable ∨ (16 ≤ loadable ∧ ∀ r ∈ input, r.tag ≠ []))
    (hne : input ≠ [])
    (hone : ∀ r ∈ input, r.overall = 1) (hq : QualAligned input)
    (hb : ∀ s, tagCount s input < 2 ^ 32) (hlen : input.length < 2 ^ 64)
    (he : 1 ≤ expandLoadable) :
    ∃ out, expandCollapsed c input loadable maxOutputRecords expandLoadable = some out ∧
      (out.map (fun b => b.seq)).Perm (input.map (fun r => r.tag)) := by
  have hal := qualLen_of_aligned input hq
  obtain ⟨tw, ow, st, h1, h2, h3, -⟩ := collapseSS_spec (qualLen input) c input
    SequenceWriter.configureTemporary (SequenceWriter.configure maxOutputRecords) loadable
    { rawSequences := 0, collapsedSequences := 0 } hl hr hm hne
    (fun r hr2 => ⟨by rw [hone r hr2], hal r hr2⟩) hb rfl rfl
    (by
      have : SequenceWriter.configureTemporary.maxOutputRecords = 2 ^ 64 - 1 := rfl
      rw [this]
      omega)
    rfl rfl
  have hsmall : ∀ f ∈ ow.outputPaths, ∀ p ∈ f, p.2.overall < 2 ^ 63 := by
    intro f hf p hp
    have hmem : p.2 ∈ ow.records := List.mem_map.2 ⟨p, List.mem_flatten.2 ⟨f, hf, hp⟩, rfl⟩
    have h4 := overall_le_tagCount _ _ hmem
    rw [h3] at h4
    have h5 := hb p.2.tag
    have : (2 : Nat) ^ 32 < 2 ^ 63 := by norm_num
    omega
  refine ⟨(ow.outputPaths.map expansionOf).flatten, ?_, ?_⟩
  · unfold expandCollapsed
    rw [h1]
    simp only
    rw [mapM_some _ expansionOf ow.outputPaths
      (fun f hf => expand_file f expandLoadable he (hsmall f hf))]
    rfl
  · rw [List.perm_iff_count]
    intro s
    rw [@count_expansion instBEqOfDecidableEq inferInstance s ow.outputPaths,
      @count_tags_of_reads instBEqOfDecidableEq inferInstance s input hone]
    exact h3 s

theorem expand_collapse_round_trip_witness :
    ∃ out, expandCollapsed ⟨0, 0, 4⟩
        (List.replicate 9 ⟨[1], [], 1, 0⟩ ++ List.replicate 9 ⟨[0], [], 1, 0⟩) 16 100 4 =
        some out ∧
      (out.map (fun b => b.seq)).Perm
        ((List.replicate 9 ⟨[1], [], 1, 0⟩ ++ List.replicate 9 ⟨[0], [], 1, 0⟩ :
          List SequenceRecord).map (fun r => r.tag)) :=
  expand_collapse_round_trip ⟨0, 0, 4⟩
    (List.replicate 9 ⟨[1], [], 1, 0⟩ ++ List.replicate 9 ⟨[0], [], 1, 0⟩)
    16 100 4 rfl rfl (Or.inr ⟨by decide, by decide⟩) (by decide) (by decide)
    (by unfold QualAligned; decide)
    (fun s => lt_of_le_of_lt (tagCount_le_total s _) (by decide)) (by decide) (by decide)

/-- C11 (counterexample). One read `ACGT` with qualities and a collapser that trims
one base on the left: the round trip returns the sequence `CGT`, which is not the
input sequence. Two reads with different sequences and a buffer of one record: two
temporary batches are written, the final merge is called with `1 / 2 = 0` records per
input and has no defined result, so the round trip returns nothing. Seventeen reads,
one of them with an empty sequence, and a buffer of 16 records: the temporary batch
with the empty sequence cannot be read back, so the round trip returns nothing. No
read at all, an expander that loads no record per batch, or two reads of one sequence
of which only the second has a quality string: the round trip returns nothing. -/
theorem round_trip_fails :
    (expandCollapsed ⟨1, 0, 1⟩ [⟨[0, 1, 2, 3], [30, 31, 32, 33], 1, 0⟩] 16 100 4).map
      (fun out => out.map (fun b => b.seq)) = some [[1, 2, 3]] ∧
    expandCollapsed ⟨0, 0, 1⟩ [⟨[0], [], 1, 0⟩, ⟨[1], [], 1, 0⟩] 1 100 4 = none ∧
    expandCollapsed ⟨0, 0, 1⟩ (⟨[], [], 1, 0⟩ :: List.replicate 16 ⟨[0], [], 1, 0⟩) 16 100 4 =
      none ∧
    expandCollapsed ⟨0, 0, 1⟩ [] 16 100 4 = none ∧
    expandCollapsed ⟨0, 0, 1⟩ [⟨[0], [], 1, 0⟩] 16 100 0 = none ∧
    expandCollapsed ⟨0, 0, 1⟩ [⟨[0], [], 1, 0⟩, ⟨[0], [30], 1, 0⟩] 16 100 4 = none := by
  refine ⟨by decide, by decide, by decide, by decide, by decide, by decide⟩

theorem collapseLoop_strict :
    ∀ (rest done : List SequenceRecord) (base : SequenceRecord) (c : Nat),
      StrictBySequence (base :: rest) →
      collapseLoop eqSequence done base [] false c rest =
        some (done ++ base :: rest, done.length + rest.length, c + rest.length)
  | [], done, base, c, _ => by simp [collapseLoop]
  | x :: rest, done, base, c, h => by
    have hs : StrictBySequence (x :: rest) := (List.pairwise_cons.1 h).2
    have hne : eqSequence base x = false := by
      unfold eqSequence
      have : base.tag < x.tag := (List.pairwise_cons.1 h).1 x.tag (by simp)
      simpa using ne_of_lt this
    unfold collapseLoop
    simp only [hne, Bool.false_eq_true, if_false]
    rw [collapseLoop_strict rest (done ++ [base]) x (c + 1) hs]
    simp only [List.append_assoc, List.singleton_append, List.length_append, List.length_cons,
      List.length_nil, Option.some.injEq, Prod.mk.injEq, true_and]
    omega

/-- On a non-empty range that is strictly increasing by sequence `collapseBufferRange_`
changes nothing, ends with `itBase` on the last record and returns the length. -/
theorem collapseBufferRange_strict (l : List SequenceRecord) (hne : l ≠ [])
    (h : StrictBySequence l) :
    collapseBufferRange_ eqSequence l = some (l, l.length - 1, l.length) := by
  cases l with
  | nil => exact absurd rfl hne
  | cons r rest =>
    show collapseLoop eqSequence [] r [] false 1 rest = _
    rw [collapseLoop_strict rest [] r 1 h]
    simp only [List.nil_append, List.length_nil, Nat.zero_add, List.length_cons,
      Nat.add_sub_cancel, Option.some.injEq, Prod.mk.injEq, true_and]
    omega

theorem strictBySequence_sublist {c l : List SequenceRecord} (h : c.Sublist l)
    (hl : StrictBySequence l) : StrictBySequence c :=
  List.Pairwise.sublist (h.map _) hl

theorem collapseChunks_strict :
    ∀ (chunks : List (List SequenceRecord)),
      (∀ c ∈ chunks, c ≠ [] ∧ StrictBySequence c) →
      collapseChunks eqSequence chunks =
        some (chunks.map (fun c => (c, c.length - 1, c.length)))
  | [], _ => rfl
  | c :: cs, h => by
    unfold collapseChunks
    rw [collapseBufferRange_strict c (h c (by simp)).1 (h c (by simp)).2,
      collapseChunks_strict cs (fun x hx => h x (List.mem_cons_of_mem _ hx))]
    rfl

theorem metaOf_counts :
    ∀ (chunks : List (List SequenceRecord)) (lo : Nat),
      ((metaOf lo (chunks.map (fun c => (c, c.length - 1, c.length)))).map (fun m => m.2)).sum =
        chunks.flatten.length
  | [], _ => rfl
  | c :: cs, lo => by
    simp only [List.map_cons, metaOf, List.sum_cons, List.flatten_cons, List.length_append]
    rw [metaOf_counts cs]

theorem boundsOf_dropLast_lt :
    ∀ (cs : List (List SequenceRecord)) (lo : Nat), (∀ c ∈ cs, c ≠ []) →
      ∀ b ∈ (boundsOf lo cs).dropLast, b < lo + cs.flatten.length
  | [], lo, _, b, hb => by simp [boundsOf] at hb
  | c :: cs, lo, h, b, hb => by
    have hc : 0 < c.length := List.length_pos.2 (h c (by simp))
    rw [boundsOf, boundsOf_eq_cons (lo + c.length) cs, List.dropLast_cons₂] at hb
    simp only [List.flatten_cons, List.length_append]
    rcases List.mem_cons.1 hb with hb | hb
    · omega
    · rw [← boundsOf_eq_cons] at hb
      have := boundsOf_dropLast_lt cs (lo + c.length)
        (fun x hx => h x (List.mem_cons_of_mem _ hx)) b hb
      omega

/-- On a buffer that is strictly increasing by sequence the stitching loop of
`collapseRangeMT_` merges nothing. -/
theorem stitch_strict (buf : Buffer) (hs : StrictBySequence buf) :
    ∀ (meta : List (Nat × Nat)) (bs : List Nat) (c : Nat),
      List.Forall₂ (fun m b => m.1 < b) meta bs → (∀ b ∈ bs, b < buf.length) →
      stitch eqSequence buf c meta bs = some (buf, c)
  | [], bs, c, _, _ => by cases bs <;> rfl
  | m :: meta, [], c, h, _ => by cases h
  | m :: meta, b :: bs, c, h, hb => by
    obtain ⟨hmb, hrest⟩ := List.forall₂_cons.1 h
    have hb1 : b < buf.length := hb b (by simp)
    have hm1 : m.1 < buf.length := by omega
    have htag : buf[m.1].tag < buf[b].tag := by
      have hp := List.pairwise_iff_getElem.1 hs m.1 b (by simpa using hm1) (by simpa using hb1) hmb
      simpa using hp
    have hne : eqSequence buf[m.1] buf[b] = false := by
      unfold eqSequence
      simpa using ne_of_lt htag
    unfold stitch
    simp only [List.getElem?_eq_getElem hm1, List.getElem?_eq_getElem hb1, hne,
      Bool.false_eq_true, if_false]
    exact stitch_strict buf hs meta bs c hrest (fun x hx => hb x (List.mem_cons_of_mem _ hx))

/-- On a buffer that is strictly increasing by sequence, with non-empty regions,
`collapseRangeMT_` changes nothing and returns the length. -/
theorem collapseRangeMT_strict (buf : Buffer) (t : Nat) (ht : 1 ≤ t) (hk : t ≤ buf.length)
    (hs : StrictBySequence buf) :
    collapseRangeMT_ eqSequence t buf = some (buf, buf.length) := by
  obtain ⟨t', rfl⟩ : ∃ t', t = t' + 1 := ⟨t - 1, by omega⟩
  have hk1 : 1 ≤ buf.length / (t' + 1) := (Nat.le_div_iff_mul_le (by omega)).2 (by omega)
  have hne := chunksOf_ne_nil _ hk1 t' buf (Nat.mul_div_le _ _)
  have hsub := chunksOf_sublist (buf.length / (t' + 1)) t' buf
  have ho1 := collapseChunks_strict (chunksOf (buf.length / (t' + 1)) t' buf)
    (fun c hcm => ⟨hne c hcm, strictBySequence_sublist (hsub c hcm) hs⟩)
  have hreg := collapseRegions_chunks eqSequence (chunksOf (buf.length / (t' + 1)) t' buf) []
  simp only [List.nil_append, List.length_nil, flatten_chunksOf] at hreg
  have hf := meta_lt_bounds eqSequence _ _ 0 ho1 hne
  have hlen : (boundsOf 0 (chunksOf (buf.length / (t' + 1)) t' buf)).length = t' + 2 := by
    rw [length_boundsOf, length_chunksOf]
  have hlt := boundsOf_dropLast_lt (chunksOf (buf.length / (t' + 1)) t' buf) 0 hne
  simp only [flatten_chunksOf, Nat.zero_add] at hlt
  have hflat : ((chunksOf (buf.length / (t' + 1)) t' buf).map
      (fun c => (c, c.length - 1, c.length))).map (fun o => o.1) =
      chunksOf (buf.length / (t' + 1)) t' buf := by
    rw [List.map_map]
    exact List.map_id _
  have hcount := metaOf_counts (chunksOf (buf.length / (t' + 1)) t' buf) 0
  rw [flatten_chunksOf] at hcount
  unfold collapseRangeMT_
  simp only
  rw [setBufferBounds_eq, hreg, ho1]
  simp only [Option.map_some', Nat.add_sub_cancel, hflat, flatten_chunksOf, hcount]
  exact stitch_strict buf hs _ _ _
    (by
      rw [List.drop_one]
      exact List.forall₂_take _ hf)
    (fun b hbm => hlt b (mem_dropLast_of_mem_take_drop _ t' b hlen hbm))

/-- `Buffer::collapse` on a non-empty buffer that is strictly increasing by sequence,
for every number of threads: nothing changes and the length is returned. -/
theorem collapse_strict (buf : Buffer) (nThreads : Nat) (hne : buf ≠ [])
    (hs : StrictBySequence buf) :
    Buffer.collapse eqSequence nThreads buf = some (buf, buf.length) := by
  unfold Buffer.collapse
  simp only
  by_cases ht : computeMaxThreads_ buf.length nThreads (2 ^ 10) > 1
  · rw [if_pos ht]
    obtain ⟨h1, h2⟩ := computeMaxThreads_bounds _ _ ht
    exact collapseRangeMT_strict buf _ h1 h2 hs
  · rw [if_neg ht, collapseBufferRange_strict buf hne hs]
    rfl

theorem filter_isAlive_of_pos (buf : List SequenceRecord) (hpos : ∀ r ∈ buf, 1 ≤ r.overall) :
    buf.filter isAlive = buf := by
  rw [List.filter_eq_self]
  intro r hr
  have := hpos r hr
  unfold isAlive
  simpa using this

/-- C21. Idempotence of collapse. For every non-empty buffer that is strictly
increasing by sequence with all counts at least 1 and every number of threads (at
least 1), `Buffer::collapse` returns, leaves every record as it was (sequence, quality,
count and offset) and returns the buffer length; hence the alive records of its result
are the records of the buffer, and collapsing them a second time, with any number of
threads, gives the same records with the same counts. -/
theorem collapse_idempotent (buf : Buffer) (nThreads : Nat) (hne : buf ≠ [])
    (hs : StrictBySequence buf) (hpos : ∀ r ∈ buf, 1 ≤ r.overall) (_ht : 1 ≤ nThreads) :
    Buffer.collapse eqSequence nThreads buf = some (buf, buf.length) ∧
    ∀ out n, Buffer.collapse eqSequence nThreads buf = some (out, n) →
      out.filter isAlive = buf ∧
      ∀ nThreads2, 1 ≤ nThreads2 →
        Buffer.collapse eqSequence nThreads2 (out.filter isAlive) =
          some (out.filter isAlive, (out.filter isAlive).length) := by
  have h1 := collapse_strict buf nThreads hne hs
  refine ⟨h1, ?_⟩
  intro out n h
  rw [h1] at h
  simp only [Option.some.injEq, Prod.mk.injEq] at h
  have hf : out.filter isAlive = buf := by
    rw [← h.1]
    exact filter_isAlive_of_pos buf hpos
  refine ⟨hf, ?_⟩
  intro nThreads2 _
  rw [hf]
  exact collapse_strict buf nThreads2 hne hs

theorem collapse_idempotent_witness :
    Buffer.collapse eqSequence 2 [⟨[0], [33], 3, 0⟩, ⟨[1], [40], 1, 0⟩, ⟨[1, 0], [], 2, 1⟩] =
      some ([⟨[0], [33], 3, 0⟩, ⟨[1], [40], 1, 0⟩, ⟨[1, 0], [], 2, 1⟩], 3) :=
  (collapse_idempotent [⟨[0], [33], 3, 0⟩, ⟨[1], [40], 1, 0⟩, ⟨[1, 0], [], 2, 1⟩] 2
    (by decide) (by unfold StrictBySequence; decide) (by decide) (by decide)).1

theorem writeSingleEnd_shardInv (K : Nat) (hK : 1 ≤ K) (validator : SequenceRecord → Bool) :
    ∀ (rs : List SequenceRecord) (w : SequenceWriter), ShardInv K w →
      ShardInv K (SequenceWriter.writeSingleEnd_ validator w rs).1
  | [], w, h => by simpa [SequenceWriter.writeSingleEnd_] using h
  | r :: rs, w, h => by
    obtain ⟨ho, hm, full, last, hp, hfull, hlen, hle, hemp⟩ := h
    unfold SequenceWriter.writeSingleEnd_
    by_cases hv : validator r = true
    · rw [if_pos hv]
      simp only
      apply writeSingleEnd_shardInv K hK validator rs
      by_cases hsw : w.currentOutputRecords = w.maxOutputRecords
      · rw [if_pos hsw]
        refine ⟨rfl, hm, full ++ [last], [(w.currentSequenceId, r)], ?_, ?_, ?_, ?_, ?_⟩
        · simp only [SequenceWriter.switchSink, hp]
          rw [appendToLast_snoc]
          simp
        · intro f hf
          rcases List.mem_append.1 hf with hf | hf
          · exact hfull f hf
          · simp only [List.mem_singleton] at hf
            rw [hf, hlen, hsw, hm]
        · simp [SequenceWriter.switchSink]
        · simpa using hK
        · simp
      · rw [if_neg hsw]
        refine ⟨ho, hm, full, last ++ [(w.currentSequenceId, r)], ?_, hfull, ?_, ?_, ?_⟩
        · simp only [hp]
          rw [appendToLast_snoc]
        · simp [hlen]
        · simp only [List.length_append, List.length_singleton]
          rw [hm] at hsw
          omega
        · simp
    · rw [if_neg hv]
      exact writeSingleEnd_shardInv K hK validator rs w ⟨ho, hm, full, last, hp, hfull, hlen, hle, hemp⟩

theorem writeCalls_open (K : Nat) (hK : 1 ≤ K) :
    ∀ (calls : List ((SequenceRecord → Bool) × List SequenceRecord)) (w : SequenceWriter),
      ShardInv K w →
      ∃ w1, SequenceWriter.writeCalls w calls = some w1 ∧ ShardInv K w1 ∧
        w1.records = w.records ++ acceptedRecords calls
  | [], w, h => ⟨w, rfl, h, by simp [acceptedRecords]⟩
  | c :: cs, w, h => by
    have h1 := writeSingleEnd_shardInv K hK c.1 c.2 w h
    obtain ⟨w1, e1, e2, e3⟩ := writeCalls_open K hK cs _ h1
    refine ⟨w1, ?_, e2, ?_⟩
    · unfold SequenceWriter.writeCalls SequenceWriter.writeIf
      rw [if_pos h.1]
      exact e1
    · rw [e3, (writeSingleEnd_records c.1 c.2 w).1]
      simp [acceptedRecords]

theorem shardInv_count (K : Nat) (hK : 1 ≤ K) (w : SequenceWriter) (h : ShardInv K w)
    (hn : 1 ≤ w.records.length) :
    w.outputPaths.length = (w.records.length + K - 1) / K ∧
    (∀ f ∈ w.outputPaths.dropLast, f.length = K) ∧
    (∀ last ∈ w.outputPaths.getLast?,
      last.length = w.records.length - K * ((w.records.length + K - 1) / K - 1)) := by
  obtain ⟨ho, hm, full, last, hp, hfull, hlen, hle, hemp⟩ := h
  have hrec : w.records.length = K * full.length + last.length := by
    unfold SequenceWriter.records
    rw [hp]
    simp only [List.length_map, List.flatten_append, List.length_append, List.flatten_cons,
      List.flatten_nil, List.append_nil]
    congr 1
    clear hp hemp
    induction full with
    | nil => simp
    | cons f fs ih =>
      simp only [List.flatten_cons, List.length_append, List.length_cons]
      rw [ih (fun x hx => hfull x (List.mem_cons_of_mem _ hx)), hfull f (by simp)]
      ring
  have hl1 : 1 ≤ last.length := by
    by_contra hc
    have h0 : last = [] := List.length_eq_zero.1 (by omega)
    have := hemp h0
    rw [h0, this] at hrec
    simp only [List.length_nil, Nat.mul_zero, Nat.add_zero] at hrec
    omega
  have hceil : (w.records.length + K - 1) / K = full.length + 1 := by
    rw [hrec]
    have e : K * full.length + last.length + K - 1 = (last.length - 1) + K * (full.length + 1) := by
      rw [Nat.mul_add, Nat.mul_one]
      omega
    rw [e, Nat.add_mul_div_left _ _ (by omega), Nat.div_eq_of_lt (by omega)]
    omega
  refine ⟨?_, ?_, ?_⟩
  · rw [hceil, hp]
    simp
  · rw [hp, List.dropLast_concat]
    exact hfull
  · intro l hl
    rw [hp, List.getLast?_concat] at hl
    simp only [Option.mem_def, Option.some.injEq] at hl
    rw [← hl, hceil, hrec]
    simp

/-- C23 (where the code is right). Shard rollover: a fresh writer with `K >= 1` records
per file and a sequence of calls `write` / `writeIf` whose first range is not empty and
that accept `n >= 1` records in total. All calls return, the writer has `ceil (n / K)`
files, every file except the last holds `K` records, the last holds
`n - K * (ceil (n / K) - 1)` records, and the records of the files, in order, are the
accepted records in write order. -/
theorem shard_rollover (K : Nat) (hK : 1 ≤ K)
    (calls : List ((SequenceRecord → Bool) × List SequenceRecord))
    (hfirst : ∀ c ∈ calls.head?, c.2 ≠ []) (hn : 1 ≤ (acceptedRecords calls).length) :
    ∃ w, (SequenceWriter.configure K).writeCalls calls = some w ∧
      w.outputPaths.length = ((acceptedRecords calls).length + K - 1) / K ∧
      (∀ f ∈ w.outputPaths.dropLast, f.length = K) ∧
      (∀ last ∈ w.outputPaths.getLast?, last.length =
        (acceptedRecords calls).length - K * (((acceptedRecords calls).length + K - 1) / K - 1)) ∧
      w.records = acceptedRecords calls := by
  cases calls with
  | nil => simp [acceptedRecords] at hn
  | cons c cs =>
    have hne : c.2 ≠ [] := hfirst c (by simp)
    have h0 : ShardInv K (SequenceWriter.configure K).switchSink :=
      ⟨rfl, rfl, [], [], rfl, by simp, rfl, by simp, fun _ => rfl⟩
    have h1 := writeSingleEnd_shardInv K hK c.1 c.2 _ h0
    obtain ⟨w1, e1, e2, e3⟩ := writeCalls_open K hK cs _ h1
    have hrec : w1.records = acceptedRecords (c :: cs) := by
      rw [e3, (writeSingleEnd_records c.1 c.2 _).1]
      simp [acceptedRecords, SequenceWriter.records, SequenceWriter.switchSink,
        SequenceWriter.configure]
    have hfirstCall : (SequenceWriter.configure K).writeIf c.1 c.2 =
        some (SequenceWriter.writeSingleEnd_ c.1 (SequenceWriter.configure K).switchSink c.2) := by
      unfold SequenceWriter.writeIf
      rw [if_neg (by simp [SequenceWriter.configure])]
      cases hc : c.2 with
      | nil => exact absurd hc hne
      | cons r rs => rfl
    refine ⟨w1, ?_, ?_⟩
    · unfold SequenceWriter.writeCalls
      rw [hfirstCall]
      exact e1
    · have := shardInv_count K hK w1 e2 (by rw [hrec]; exact hn)
      rw [hrec] at this
      exact ⟨this.1, this.2.1, this.2.2, hrec⟩

theorem shard_rollover_witness :
    ∃ w, (SequenceWriter.configure 2).writeCalls
        [(fun _ => true, [⟨[0], [], 1, 0⟩, ⟨[1], [], 1, 0⟩, ⟨[2], [], 1, 0⟩]),
         (isAlive, [⟨[3], [], 1, 0⟩, ⟨[4], [], 0, 0⟩, ⟨[5], [], 1, 0⟩])] = some w ∧
      w.outputPaths.map (fun f => f.length) = [2, 2, 1] ∧
      w.records = [⟨[0], [], 1, 0⟩, ⟨[1], [], 1, 0⟩, ⟨[2], [], 1, 0⟩, ⟨[3], [], 1, 0⟩,
        ⟨[5], [], 1, 0⟩] := by
  obtain ⟨w, h1, -, -, -, h5⟩ := shard_rollover 2 (by decide)
    [(fun _ => true, [⟨[0], [], 1, 0⟩, ⟨[1], [], 1, 0⟩, ⟨[2], [], 1, 0⟩]),
     (isAlive, [⟨[3], [], 1, 0⟩, ⟨[4], [], 0, 0⟩, ⟨[5], [], 1, 0⟩])]
    (by simp) (by decide)
  refine ⟨w, h1, ?_, h5⟩
  have h2 : ((SequenceWriter.configure 2).writeCalls
      [(fun _ => true, [⟨[0], [], 1, 0⟩, ⟨[1], [], 1, 0⟩, ⟨[2], [], 1, 0⟩]),
       (isAlive, [⟨[3], [], 1, 0⟩, ⟨[4], [], 0, 0⟩, ⟨[5], [], 1, 0⟩])]).map
      (fun x => x.outputPaths.map (fun f => f.length)) = some [2, 2, 1] := by
    decide
  rw [h1] at h2
  simpa using h2

/-- C23 (failing input). A fresh writer with 2 records per file receives `write` on an
empty range and then `write` on one record: the first call finds the sink closed and
reads `itStart->getQualities ()` on the empty range, so the calls have no defined
result, although one record is accepted in total. -/
theorem shard_rollover_empty_first_range :
    (acceptedRecords [(fun _ => true, []), (fun _ => true, [⟨[0], [], 1, 0⟩])]).length = 1 ∧
    ((SequenceWriter.configure 2).writeCalls
      [(fun _ => true, []), (fun _ => true, [⟨[0], [], 1, 0⟩])]).isNone = true := by
  decide

theorem openedPaths_length (pairedEnd : Bool) (base fileExt : List Char) :
    ∀ n, (openedPaths pairedEnd base fileExt n).length = n
  | 0 => rfl
  | n + 1 => by
    unfold openedPaths switchSinkPaths
    have ih := openedPaths_length pairedEnd base fileExt n
    cases pairedEnd <;> simp [ih]

theorem openedPaths_get (pairedEnd : Bool) (base fileExt : List Char) :
    ∀ (n k : Nat), k < n →
      (openedPaths pairedEnd base fileExt n)[k]? =
        some (if pairedEnd then
          (generateNewPath_ base fileExt k ['_', '1'], generateNewPath_ base fileExt k ['_', '2'])
          else (generateNewPath_ base fileExt k [], []))
  | 0, k, h => by omega
  | n + 1, k, h => by
    have hl := openedPaths_length pairedEnd base fileExt n
    unfold openedPaths switchSinkPaths
    simp only [hl]
    by_cases hk : k < n
    · have ih := openedPaths_get pairedEnd base fileExt n k hk
      cases pairedEnd <;>
        simp only [Bool.false_eq_true, if_false, if_true] at ih ⊢ <;>
        rw [List.getElem?_append_left (by omega), ih]
    · have hkn : k = n := by omega
      subst hkn
      cases pairedEnd <;>
        simp only [Bool.false_eq_true, if_false, if_true] <;>
        rw [List.getElem?_append_right (by omega)] <;>
        simp [hl]

/-- C24. Shard naming. For every joined path `dir/basename`, extension, shard index
`k` and suffix `s`, `generateNewPath_ (k, s)` is the path followed by nothing when
`k = 0` or by `_` and the decimal digits of `k` when `k > 0`, then `s`, then the
extension; and the `k`-th file a writer opens (zero-based) gets the index `k`: its
paths are `generateNewPath_ (k, "")` for the single-end layout and
`generateNewPath_ (k, "_1")`, `generateNewPath_ (k, "_2")` for the paired-end
layout. -/
theorem shard_naming (base fileExt s : List Char) (k : Nat) :
    generateNewPath_ base fileExt k s =
      base ++ (if k = 0 then [] else '_' :: (toString k).toList) ++ s ++ fileExt ∧
    ∀ (pairedEnd : Bool) (n : Nat), k < n →
      (openedPaths pairedEnd base fileExt n)[k]? =
        some (if pairedEnd then
          (generateNewPath_ base fileExt k ['_', '1'], generateNewPath_ base fileExt k ['_', '2'])
          else (generateNewPath_ base fileExt k [], [])) := by
  refine ⟨?_, fun pairedEnd n hk => openedPaths_get pairedEnd base fileExt n k hk⟩
  unfold generateNewPath_
  have hd : (toString k).toList = toStringNat k := rfl
  by_cases h0 : k = 0
  · simp [h0]
  · have hpos : k > 0 := Nat.pos_of_ne_zero h0
    simp only [hpos, if_true, h0, if_false, hd]
    simp

theorem shard_naming_witness :
    (openedPaths false "out/reads".toList ".fq".toList 3).map (fun p => String.mk p.1) =
      ["out/reads.fq", "out/reads_1.fq", "out/reads_2.fq"] ∧
    (openedPaths false "out/reads".toList ".fq".toList 3)[2]? =
      some ("out/reads_2.fq".toList, []) ∧
    (openedPaths true "out/reads".toList ".fq".toList 3)[2]? =
      some ("out/reads_2_1.fq".toList, "out/reads_2_2.fq".toList) := by
  have h := shard_naming "out/reads".toList ".fq".toList [] 2
  refine ⟨by decide, ?_, ?_⟩
  · rw [h.2 false 3 (by decide)]
    decide
  · rw [h.2 true 3 (by decide)]
    decide

theorem appendToLast_map {α β : Type} (g : α → β) (x : α) :
    ∀ (l : List (List α)),
      appendToLast (g x) (l.map (fun f => f.map g)) = (appendToLast x l).map (fun f => f.map g)
  | [] => rfl
  | [f] => by simp [appendToLast]
  | f :: f2 :: fs => by
    have ih := appendToLast_map g x (f2 :: fs)
    simp only [List.map_cons] at ih ⊢
    simp only [appendToLast]
    rw [ih]
    simp

theorem mirror_switchSink (sw : SequenceWriter) (dw : DetailsWriter)
    (acc : List (SequenceRecord × DetailsRecord)) (h : Mirror sw dw acc) :
    Mirror sw.switchSink dw.switchSink acc := by
  obtain ⟨-, h2, -, shards, h4, h5, h6⟩ := h
  refine ⟨rfl, h2, rfl, shards ++ [[]], ?_, ?_, ?_⟩
  · simp [SequenceWriter.switchSink, h4]
  · simp [DetailsWriter.switchSink, h5]
  · simpa using h6

theorem mirror_write_ :
    ∀ (chunk : List (SequenceRecord × DetailsRecord)) (sw : SequenceWriter) (dw : DetailsWriter)
      (acc : List (SequenceRecord × DetailsRecord)), Mirror sw dw acc →
      Mirror (SequenceWriter.writeSingleEnd_ (fun _ => true) sw (chunk.map (fun p => p.1))).1
        (DetailsWriter.write_ dw (chunk.map (fun p => p.2))).1 (acc ++ chunk)
  | [], sw, dw, acc, h => by
    simpa [SequenceWriter.writeSingleEnd_, DetailsWriter.write_] using h
  | p :: chunk, sw, dw, acc, h => by
    simp only [List.map_cons]
    unfold SequenceWriter.writeSingleEnd_ DetailsWriter.write_
    simp only [if_true]
    have hstep : ∀ (sw1 : SequenceWriter) (dw1 : DetailsWriter), Mirror sw1 dw1 acc →
        Mirror
          { sw1 with outputPaths := appendToLast (sw1.currentSequenceId, p.1) sw1.outputPaths,
                     currentOutputRecords := sw1.currentOutputRecords + 1,
                     currentSequenceId := sw1.currentSequenceId + 1 }
          { dw1 with outputPaths := appendToLast p.2 dw1.outputPaths,
                     curOutRecords := dw1.curOutRecords + 1 } (acc ++ [p]) := by
      intro sw1 dw1 h1
      obtain ⟨h1, h2, h3, shards, h4, h5, h6⟩ := h1
      refine ⟨h1, h2, by simp only [h3], appendToLast ((sw1.currentSequenceId, p.1), p.2) shards,
        ?_, ?_, ?_⟩
      · simp only [h4]
        exact appendToLast_map (fun x : (Nat × SequenceRecord) × DetailsRecord => x.1)
          ((sw1.currentSequenceId, p.1), p.2) shards
      · simp only [h5]
        exact appendToLast_map (fun x : (Nat × SequenceRecord) × DetailsRecord => x.2)
          ((sw1.currentSequenceId, p.1), p.2) shards
      · rw [appendToLast_flatten, List.map_append, h6]
        rfl
    have hcond : (sw.currentOutputRecords = sw.maxOutputRecords) ↔
        (dw.curOutRecords = dw.maxOutRecords) := by
      rw [h.2.2.1, h.2.1]
    have e : acc ++ p :: chunk = (acc ++ [p]) ++ chunk := by simp
    rw [e]
    by_cases hc : sw.currentOutputRecords = sw.maxOutputRecords
    · rw [if_pos hc, if_pos (hcond.1 hc)]
      exact mirror_write_ chunk _ _ _ (hstep _ _ (mirror_switchSink sw dw acc h))
    · rw [if_neg hc, if_neg (fun hd => hc (hcond.2 hd))]
      exact mirror_write_ chunk _ _ _ (hstep _ _ h)

theorem mirror_write (chunk : List (SequenceRecord × DetailsRecord)) (hne : chunk ≠ [])
    (sw : SequenceWriter) (dw : DetailsWriter) (acc : List (SequenceRecord × DetailsRecord))
    (h : Mirror sw dw acc) :
    ∃ sw1 k, sw.write (chunk.map (fun p => p.1)) = some (sw1, k) ∧
      Mirror sw1 (dw.write (chunk.map (fun p => p.2))).1 (acc ++ chunk) := by
  unfold SequenceWriter.write SequenceWriter.writeIf DetailsWriter.write
  by_cases ho : sw.isOpen = true
  · have hd : dw.isOpen = true := by rw [← h.1]; exact ho
    rw [if_pos ho, if_pos hd]
    exact ⟨_, _, rfl, mirror_write_ chunk sw dw acc h⟩
  · have hd : ¬ dw.isOpen = true := by rw [← h.1]; exact ho
    rw [if_neg ho, if_neg hd]
    cases chunk with
    | nil => exact absurd rfl hne
    | cons p chunk =>
      exact ⟨_, _, rfl, mirror_write_ (p :: chunk) _ _ acc (mirror_switchSink sw dw acc h)⟩

theorem mirror_writePairs :
    ∀ (chunks : List (List (SequenceRecord × DetailsRecord))), (∀ c ∈ chunks, c ≠ []) →
      ∀ (sw : SequenceWriter) (dw : DetailsWriter) (acc : List (SequenceRecord × DetailsRecord)),
      Mirror sw dw acc →
      ∃ sw1 dw1, writePairs sw dw chunks = some (sw1, dw1) ∧ Mirror sw1 dw1 (acc ++ chunks.flatten)
  | [], _, sw, dw, acc, h => ⟨sw, dw, rfl, by simpa using h⟩
  | c :: cs, hne, sw, dw, acc, h => by
    obtain ⟨sw1, k, e1, e2⟩ := mirror_write c (hne c (by simp)) sw dw acc h
    obtain ⟨sw2, dw2, f1, f2⟩ := mirror_writePairs cs (fun x hx => hne x (List.mem_cons_of_mem _ hx))
      sw1 _ _ e2
    refine ⟨sw2, dw2, ?_, ?_⟩
    · unfold writePairs
      rw [e1]
      exact f1
    · simpa [List.append_assoc] using f2

/-- C25. Details sharding mirrors sequence sharding. A sequence writer and a details
writer configured with the same number of records per file receive the ranges of a
seeding-details or propagating-details merge. After every write call, that is for the
first `k` ranges for every `k`, both calls returned, and the files of the two writers
are the two sides of one list of shards of pairs: both writers have the same number of
files, every file has the same number of records in both, the `i`-th row of the
`j`-th details file is the row written with the `i`-th record of the `j`-th sequence
file, and the pairs appear in write order. -/
theorem details_sharding_mirrors (K n : Nat) (readers : List SequenceReader)
    (samplesIds : List Nat) (tabReaders : List DetailsReader) (maxLoadable nSamples : Nat)
    (chunks : List (List (SequenceRecord × DetailsRecord)))
    (hm : Buffer.mergeSeeding readers samplesIds maxLoadable nSamples = some (n, chunks) ∨
      Buffer.mergePropagating readers tabReaders maxLoadable = some (n, chunks)) (k : Nat) :
    ∃ sw dw, writePairs (SequenceWriter.configure K) (DetailsWriter.configure K)
        (chunks.take k) = some (sw, dw) ∧
      sw.outputPaths.length = dw.outputPaths.length ∧
      sw.outputPaths.map (fun f => f.length) = dw.outputPaths.map (fun f => f.length) ∧
      ∃ shards : List (List ((Nat × SequenceRecord) × DetailsRecord)),
        sw.outputPaths = shards.map (fun f => f.map (fun x => x.1)) ∧
        dw.outputPaths = shards.map (fun f => f.map (fun x => x.2)) ∧
        shards.flatten.map (fun x => (x.1.2, x.2)) = (chunks.take k).flatten := by
  have hne : ∀ c ∈ chunks, c ≠ [] := by
    rcases hm with hm | hm
    · exact mergeCore_chunks_ne _ _ _ _ _ hm
    · unfold Buffer.mergePropagating at hm
      split at hm
      · exact mergeCore_chunks_ne _ _ _ _ _ hm
      · cases hm
  obtain ⟨sw, dw, h1, -, -, -, shards, h4, h5, h6⟩ := mirror_writePairs (chunks.take k)
    (fun c hc => hne c (List.mem_of_mem_take hc)) (SequenceWriter.configure K)
    (DetailsWriter.configure K) [] ⟨rfl, rfl, rfl, [], rfl, rfl, rfl⟩
  refine ⟨sw, dw, h1, ?_, ?_, shards, h4, h5, by simpa using h6⟩
  · rw [h4, h5]
    simp
  · rw [h4, h5]
    simp [Function.comp]

theorem details_sharding_mirrors_witness :
    ∃ sw dw, writePairs (SequenceWriter.configure 1) (DetailsWriter.configure 1)
        (([[(⟨[0], [], 1, 0⟩, ⟨[1, 0], 1⟩), (⟨[1], [], 3, 0⟩, ⟨[1, 2], 3⟩)],
          [(⟨[2], [], 1, 0⟩, ⟨[0, 1], 1⟩)]] :
          List (List (SequenceRecord × DetailsRecord))).take 2) = some (sw, dw) ∧
      sw.outputPaths.length = dw.outputPaths.length ∧
      sw.outputPaths.map (fun f => f.length) = dw.outputPaths.map (fun f => f.length) := by
  obtain ⟨sw, dw, h1, h2, h3, -⟩ := details_sharding_mirrors 1 3
    [[⟨[0], [], 1, 0⟩, ⟨[1], [], 1, 0⟩], [⟨[1], [], 2, 0⟩, ⟨[2], [], 1, 0⟩]] [0, 1] [] 2 2
    [[(⟨[0], [], 1, 0⟩, ⟨[1, 0], 1⟩), (⟨[1], [], 3, 0⟩, ⟨[1, 2], 3⟩)],
      [(⟨[2], [], 1, 0⟩, ⟨[0, 1], 1⟩)]]
    (Or.inl (by decide)) 2
  exact ⟨sw, dw, h1, h2, h3⟩

/-- C26. Header count round trip. For every identifier and every count of the 32-bit
counter type, the header `_makeFastxHeader` builds is the text `BIOSEQZIP|ID:`, the
decimal digits of the identifier, `|CN:` and the decimal digits of the count, and
`getTagCount_` applied to that header returns the count. -/
theorem header_count_round_trip (r : SequenceRecord) (id : Nat) (h : r.overall < 2 ^ 32) :
    String.mk (r.makeFastxHeader id) =
      "BIOSEQZIP|ID:" ++ toString id ++ "|CN:" ++ toString r.overall ∧
    getTagCount_ (r.makeFastxHeader id) = some r.overall := by
  refine ⟨?_, getTagCount_header r id (lt_trans h (by norm_num))⟩
  apply String.ext
  simp only [String.data_append]
  rfl

theorem header_count_round_trip_witness :
    String.mk (SequenceRecord.makeFastxHeader ⟨[0, 1], [], 42, 0⟩ 7) = "BIOSEQZIP|ID:7|CN:42" ∧
    getTagCount_ (SequenceRecord.makeFastxHeader ⟨[0, 1], [], 42, 0⟩ 7) = some 42 :=
  ⟨by decide, (header_count_round_trip ⟨[0, 1], [], 42, 0⟩ 7 (by decide)).2⟩

/-- C27 (amended). Paired-end read and write round trip. For every pair of mates whose
first mate is shorter than 256 bases (the range of the 8-bit offset) and carries a
quality string of the length of its sequence, or with no qualities at all, the paired
read stores the sequence `m1 ++ m2`, the quality `q1 ++ q2` and the offset `len (m1)`,
and the paired write of that record sends `m1` with `q1` to the first sink and `m2`
with `q2` to the second sink, both with the header of the record. -/
theorem paired_round_trip (mate1 mate2 : FastxRecord) (id : Nat)
    (hlen : mate1.seq.length < 2 ^ 8)
    (hq : mate1.qual.length = mate1.seq.length ∨ (mate1.qual = [] ∧ mate2.qual = [])) :
    (SequenceRecord.readPaired false mate1 mate2).tag = mate1.seq ++ mate2.seq ∧
    (SequenceRecord.readPaired false mate1 mate2).qual = mate1.qual ++ mate2.qual ∧
    (SequenceRecord.readPaired false mate1 mate2).bpOffset = mate1.seq.length ∧
    (SequenceRecord.readPaired false mate1 mate2).writePaired id =
      some ({ header := (SequenceRecord.readPaired false mate1 mate2).makeFastxHeader id,
              seq := mate1.seq, qual := mate1.qual },
            { header := (SequenceRecord.readPaired false mate1 mate2).makeFastxHeader id,
              seq := mate2.seq, qual := mate2.qual }) := by
  have hoff : (SequenceRecord.readPaired false mate1 mate2).bpOffset = mate1.seq.length := by
    simp only [SequenceRecord.readPaired, offsetMod]
    exact Nat.mod_eq_of_lt hlen
  have htag : (SequenceRecord.readPaired false mate1 mate2).tag = mate1.seq ++ mate2.seq := rfl
  have hqual : (SequenceRecord.readPaired false mate1 mate2).qual = mate1.qual ++ mate2.qual := by
    simp [SequenceRecord.readPaired]
  refine ⟨htag, hqual, hoff, ?_⟩
  unfold SequenceRecord.writePaired
  simp only [hoff, htag, hqual]
  have hp : prefixOf (mate1.seq ++ mate2.seq) mate1.seq.length = some mate1.seq := by
    unfold prefixOf
    rw [if_pos (by simp)]
    simp
  have hs : suffixOf (mate1.seq ++ mate2.seq) mate1.seq.length = some mate2.seq := by
    unfold suffixOf
    rw [if_pos (by simp)]
    simp
  by_cases h0 : (mate1.qual ++ mate2.qual).length = 0
  · have hnil : mate1.qual ++ mate2.qual = [] := List.length_eq_zero.1 h0
    obtain ⟨h1, h2⟩ := List.append_eq_nil.1 hnil
    rw [if_pos h0, hp, hs, h1, h2]
  · rw [if_neg h0]
    have hq1 : mate1.qual.length = mate1.seq.length := by
      rcases hq with hq | ⟨h1, h2⟩
      · exact hq
      · rw [h1, h2] at h0
        simp at h0
    have hpq : prefixOf (mate1.qual ++ mate2.qual) mate1.seq.length = some mate1.qual := by
      unfold prefixOf
      rw [if_pos (by simp [hq1]), ← hq1]
      simp
    have hsq : suffixOf (mate1.qual ++ mate2.qual) mate1.seq.length = some mate2.qual := by
      unfold suffixOf
      rw [if_pos (by simp [hq1]), ← hq1]
      simp
    rw [hp, hs, hpq, hsq]

theorem paired_round_trip_witness :
    (SequenceRecord.readPaired false ⟨[0, 1], [30, 31]⟩ ⟨[2, 3], [32, 33]⟩).tag = [0, 1, 2, 3] ∧
    (SequenceRecord.readPaired false ⟨[0, 1], [30, 31]⟩ ⟨[2, 3], [32, 33]⟩).bpOffset = 2 ∧
    ((SequenceRecord.readPaired false ⟨[0, 1], [30, 31]⟩ ⟨[2, 3], [32, 33]⟩).writePaired 0).map
      (fun p => ((p.1.seq, p.1.qual), (p.2.seq, p.2.qual))) =
      some (([0, 1], [30, 31]), ([2, 3], [32, 33])) := by
  obtain ⟨h1, -, h3, h4⟩ := paired_round_trip ⟨[0, 1], [30, 31]⟩ ⟨[2, 3], [32, 33]⟩ 0
    (by decide) (Or.inl (by decide))
  refine ⟨h1, h3, ?_⟩
  rw [h4]
  rfl

theorem readPaired_bpOffset (forceNoQual : Bool) (mate1 mate2 : FastxRecord) :
    (SequenceRecord.readPaired forceNoQual mate1 mate2).bpOffset =
      mate1.seq.length % offsetMod := rfl

theorem writePaired_offset_zero (r : SequenceRecord) (id : Nat) (hq : r.qual = [])
    (h0 : r.bpOffset = 0) :
    r.writePaired id = some ({ header := r.makeFastxHeader id, seq := [], qual := [] },
      { header := r.makeFastxHeader id, seq := r.tag, qual := [] }) := by
  unfold SequenceRecord.writePaired
  simp [hq, h0, prefixOf, suffixOf]

/-- C27 (counterexample). A first mate of 256 bases: the offset is stored in 8 bits, so
the paired read stores offset 0 instead of 256, and the paired write sends an empty
sequence to the first sink and all 257 bases to the second. -/
theorem paired_offset_wraps :
    (SequenceRecord.readPaired false ⟨List.replicate 256 0, []⟩ ⟨[1], []⟩).bpOffset = 0 ∧
    ((SequenceRecord.readPaired false ⟨List.replicate 256 0, []⟩ ⟨[1], []⟩).writePaired 0).map
      (fun p => (p.1.seq.length, p.2.seq.length)) = some (0, 257) := by
  have hoff : (SequenceRecord.readPaired false ⟨List.replicate 256 0, []⟩ ⟨[1], []⟩).bpOffset = 0 := by
    rw [readPaired_bpOffset]
    simp only [List.length_replicate]
    rfl
  have hq : (SequenceRecord.readPaired false ⟨List.replicate 256 0, []⟩ ⟨[1], []⟩).qual = [] := rfl
  have ht : (SequenceRecord.readPaired false ⟨List.replicate 256 0, []⟩ ⟨[1], []⟩).tag =
      List.replicate 256 0 ++ [1] := rfl
  refine ⟨hoff, ?_⟩
  rw [writePaired_offset_zero _ 0 hq hoff]
  simp only [Option.map_some', List.length_nil, ht, List.length_append, List.length_replicate,
    List.length_singleton]

theorem readUntilSA_append (stop bad : Char → Bool) (c : Char) (rest : List Char)
    (hc : stop c = true) :
    ∀ (pre : List Char), (∀ x ∈ pre, stop x = false ∧ bad x = false) →
      readUntilSA stop bad (pre ++ c :: rest) = some (pre, c :: rest)
  | [], _ => by simp [readUntilSA, hc]
  | x :: pre, h => by
    have hx := h x (by simp)
    have ih := readUntilSA_append stop bad c rest hc pre
      (fun y hy => h y (List.mem_cons_of_mem _ hy))
    show readUntilSA stop bad (x :: (pre ++ c :: rest)) = _
    unfold readUntilSA
    rw [if_neg (by simp [hx.1]), if_neg (by simp [hx.2]), ih]
    rfl

theorem dropWhile_of_head {α : Type} (p : α → Bool) (l : List α)
    (h : ∀ x ∈ l.head?, p x = false) : l.dropWhile p = l := by
  cases l with
  | nil => rfl
  | cons x xs =>
    have := h x (by simp)
    rw [List.dropWhile_cons_of_neg (by simp [this])]

theorem skipComments_of_head (fuel : Nat) (l : List Char) (h : ∀ x ∈ l.head?, x ≠ '#') :
    skipComments fuel l = l := by
  cases fuel with
  | zero => rfl
  | succ fuel =>
    cases l with
    | nil => rfl
    | cons x xs =>
      have := h x (by simp)
      simp [skipComments, this]

theorem isDigitOf_not_white (c : Char) (k : Nat) (h : IsDigitOf c k) :
    c ≠ '\t' ∧ isNewlineSA c = false := by
  obtain ⟨-, -, hs, -, -, -⟩ := h
  unfold isSpaceC at hs
  simp only [Bool.or_eq_false_iff, Bool.and_eq_false_iff, decide_eq_false_iff_not] at hs
  refine ⟨?_, ?_⟩
  · intro hc
    rw [hc] at hs
    revert hs
    decide
  · unfold isNewlineSA
    simp only [Bool.or_eq_false_iff, decide_eq_false_iff_not]
    constructor
    · intro hc
      rw [hc] at hs
      revert hs
      decide
    · intro hc
      rw [hc] at hs
      revert hs
      decide

/-- The call `lexicalCast<TCounter>` on the decimal digits of a 32-bit count returns
the count. -/
theorem lexicalCastCounter_toStringNat (n : Nat) (h : n < 2 ^ 32) :
    lexicalCastCounter (toStringNat n) = some n := by
  obtain ⟨h1, h2, h3⟩ := toStringNat_spec n
  have hfold : (toStringNat n).foldl (fun acc c => acc * 10 + (c.toNat - 48)) 0 = n := h3
  have hall : (toStringNat n).all Char.isDigit = true := by
    rw [List.all_eq_true]
    intro c hc
    obtain ⟨k, hk⟩ := h2 c hc
    exact hk.1
  unfold lexicalCastCounter
  simp only [hfold]
  rw [if_pos ⟨h1, hall, h⟩]

/-- The function `readRecord` applied to the text `writeRecord` wrote for a writable
sequence and a 32-bit count, followed by text that is empty or starts with a character
that is not white space, returns the sequence, the count and the text that follows. -/
theorem readRecordTAG_written (toChar : Nat → Char) (ofChar : Char → Nat) (tagSeq : List Nat)
    (counter : Nat) (rest : List Char) (ht : TagWritable toChar ofChar tagSeq)
    (hc : counter < 2 ^ 32) (hr : ∀ x ∈ rest.head?, isWhitespaceSA x = false) :
    readRecordTAG ofChar (writeRecordTAG toChar tagSeq counter ++ rest) =
      some (tagSeq, counter, rest) := by
  obtain ⟨hne, hall, hhead⟩ := ht
  have htext : writeRecordTAG toChar tagSeq counter ++ rest =
      tagSeq.map toChar ++ '\t' :: (toStringNat counter ++ '\n' :: rest) := by
    simp [writeRecordTAG]
  obtain ⟨v, vs, rfl⟩ : ∃ v vs, tagSeq = v :: vs := by
    cases tagSeq with
    | nil => exact absurd rfl hne
    | cons v vs => exact ⟨v, vs, rfl⟩
  have hv := hall v (by simp)
  have hhash : toChar v ≠ '#' := hhead v (by simp)
  have hstart : ∀ x ∈ (writeRecordTAG toChar (v :: vs) counter ++ rest).head?,
      isWhitespaceSA x = false := by
    intro x hx
    rw [htext] at hx
    simp only [List.map_cons, List.cons_append, List.head?_cons, Option.mem_def,
      Option.some.injEq] at hx
    rw [← hx]
    exact hv.2
  have hstart2 : ∀ x ∈ (writeRecordTAG toChar (v :: vs) counter ++ rest).head?, x ≠ '#' := by
    intro x hx
    rw [htext] at hx
    simp only [List.map_cons, List.cons_append, List.head?_cons, Option.mem_def,
      Option.some.injEq] at hx
    rw [← hx]
    exact hhash
  have hcol1 : readUntilSA (fun c => decide (c = '\t')) isNewlineSA
      ((v :: vs).map toChar ++ '\t' :: (toStringNat counter ++ '\n' :: rest)) =
      some ((v :: vs).map toChar, '\t' :: (toStringNat counter ++ '\n' :: rest)) := by
    apply readUntilSA_append _ _ _ _ (by simp)
    intro x hx
    obtain ⟨u, hu, rfl⟩ := List.mem_map.1 hx
    have hw := (hall u hu).2
    unfold isWhitespaceSA at hw
    simp only [Bool.or_eq_false_iff, decide_eq_false_iff_not] at hw
    exact ⟨by simpa using hw.1.2, hw.2⟩
  have hcol2 : readUntilSA isNewlineSA (fun c => decide (c = '\t'))
      (toStringNat counter ++ '\n' :: rest) = some (toStringNat counter, '\n' :: rest) := by
    apply readUntilSA_append _ _ _ _ (by decide)
    intro x hx
    obtain ⟨k, hk⟩ := (toStringNat_spec counter).2.1 x hx
    have := isDigitOf_not_white x k hk
    exact ⟨this.2, by simpa using this.1⟩
  have hmap : ((v :: vs).map toChar).map ofChar = v :: vs := by
    rw [List.map_map]
    conv_rhs => rw [← List.map_id (v :: vs)]
    apply List.map_congr_left
    intro u hu
    exact (hall u hu).1
  unfold readRecordTAG
  simp only
  rw [dropWhile_of_head _ _ hstart, skipComments_of_head _ _ hstart2,
    dropWhile_of_head _ _ hstart, htext, hcol1]
  simp only
  rw [hcol2]
  simp only
  rw [lexicalCastCounter_toStringNat counter hc]
  simp only
  rw [dropWhile_of_head _ _ hr, hmap]

theorem writeTagFile_head (toChar : Nat → Char) (ofChar : Char → Nat) :
    ∀ (records : List (List Nat × Nat)), (∀ r ∈ records, TagWritable toChar ofChar r.1) →
      ∀ x ∈ (writeTagFile toChar records).head?, isWhitespaceSA x = false
  | [], _, x, hx => by simp [writeTagFile] at hx
  | r :: rs, h, x, hx => by
    obtain ⟨hne, hall, -⟩ := h r (by simp)
    cases hr : r.1 with
    | nil => exact absurd hr hne
    | cons v vs =>
      simp only [writeTagFile, writeRecordTAG, hr, List.map_cons, List.cons_append,
        List.head?_cons, Option.mem_def, Option.some.injEq] at hx
      rw [← hx]
      exact (hall v (by rw [hr]; simp)).2

theorem loadTagFile_written (toChar : Nat → Char) (ofChar : Char → Nat) :
    ∀ (records : List (List Nat × Nat)) (fuel : Nat), records.length < fuel →
      (∀ r ∈ records, TagWritable toChar ofChar r.1 ∧ r.2 < 2 ^ 32) →
      loadTagFile ofChar fuel (writeTagFile toChar records) = some records
  | [], fuel, hf, _ => by
    obtain ⟨f, rfl⟩ : ∃ f, fuel = f + 1 := ⟨fuel - 1, by simp at hf; omega⟩
    simp [loadTagFile, writeTagFile]
  | r :: rs, fuel, hf, h => by
    obtain ⟨f, rfl⟩ : ∃ f, fuel = f + 1 := ⟨fuel - 1, by omega⟩
    simp only [List.length_cons] at hf
    have hr := h r (by simp)
    have hrest := writeTagFile_head toChar ofChar rs
      (fun x hx => (h x (List.mem_cons_of_mem _ hx)).1)
    have hread := readRecordTAG_written toChar ofChar r.1 r.2 (writeTagFile toChar rs) hr.1 hr.2
      hrest
    have hne : (writeTagFile toChar (r :: rs)).isEmpty = false := by
      simp [writeTagFile, writeRecordTAG]
    unfold loadTagFile
    rw [hne]
    simp only [Bool.false_eq_true, if_false]
    have e : writeTagFile toChar (r :: rs) =
        writeRecordTAG toChar r.1 r.2 ++ writeTagFile toChar rs := rfl
    rw [e, hread]
    simp only
    rw [loadTagFile_written toChar ofChar rs f (by omega)
      (fun x hx => h x (List.mem_cons_of_mem _ hx))]
    rfl

theorem writeTagFile_length (toChar : Nat → Char) :
    ∀ (records : List (List Nat × Nat)), records.length ≤ (writeTagFile toChar records).length
  | [] => by simp [writeTagFile]
  | r :: rs => by
    have := writeTagFile_length toChar rs
    simp only [writeTagFile, writeRecordTAG, List.length_append, List.length_cons,
      List.length_map, List.length_nil]
    omega

/-- C28. Tag format round trip. For every non-empty sequence whose symbols are written
as characters that are not white space (no space, tab or newline), convert back to the
symbol and do not start with `#`, and every count of the 32-bit counter type: the text
`writeRecord` writes is the sequence, a tab, the decimal digits of the count and a
newline, and `readRecord` applied to that text returns the sequence and the count and
leaves nothing. Hence loading the file to which a list of such records was written
returns the list. -/
theorem tag_round_trip (toChar : Nat → Char) (ofChar : Char → Nat) (tagSeq : List Nat)
    (counter : Nat) (ht : TagWritable toChar ofChar tagSeq) (hc : counter < 2 ^ 32) :
    writeRecordTAG toChar tagSeq counter =
      tagSeq.map toChar ++ ['\t'] ++ (toString counter).toList ++ ['\n'] ∧
    readRecordTAG ofChar (writeRecordTAG toChar tagSeq counter) = some (tagSeq, counter, []) ∧
    ∀ records : List (List Nat × Nat),
      (∀ r ∈ records, TagWritable toChar ofChar r.1 ∧ r.2 < 2 ^ 32) →
      loadTagFile ofChar ((writeTagFile toChar records).length + 1)
        (writeTagFile toChar records) = some records := by
  refine ⟨rfl, ?_, ?_⟩
  · have := readRecordTAG_written toChar ofChar tagSeq counter [] ht hc (by simp)
    simpa using this
  · intro records h
    exact loadTagFile_written toChar ofChar records _
      (by have := writeTagFile_length toChar records; omega) h

theorem tag_round_trip_witness :
    String.mk (writeRecordTAG (fun n => "ACGTN".toList.getD n 'N') [0, 1, 2, 3] 5) = "ACGT\t5\n" ∧
    readRecordTAG (fun c => if c = 'A' then 0 else if c = 'C' then 1 else if c = 'G' then 2
        else if c = 'T' then 3 else 4)
      (writeRecordTAG (fun n => "ACGTN".toList.getD n 'N') [0, 1, 2, 3] 5) =
      some ([0, 1, 2, 3], 5, []) :=
  ⟨by decide, (tag_round_trip (fun n => "ACGTN".toList.getD n 'N')
    (fun c => if c = 'A' then 0 else if c = 'C' then 1 else if c = 'G' then 2
      else if c = 'T' then 3 else 4) [0, 1, 2, 3] 5 (by unfold TagWritable; decide)
    (by decide)).2.1⟩

theorem intercalate_singleton (sep a : List Char) : List.intercalate sep [a] = a := by
  simp [List.intercalate, List.intersperse]

theorem intercalate_cons_cons (sep a b : List Char) (r : List (List Char)) :
    List.intercalate sep (a :: b :: r) = a ++ sep ++ List.intercalate sep (b :: r) := by
  simp [List.intercalate, List.intersperse]

/-- The call `atoll` on the decimal digits of a value below `2 ^ 63` returns the
value. -/
theorem atollC_toStringNat (n : Nat) (h : n < 2 ^ 63) : atollC (toStringNat n) = some (n : Int) := by
  obtain ⟨h1, h2, h3⟩ := toStringNat_spec n
  cases hs : toStringNat n with
  | nil => exact absurd hs h1
  | cons x xs =>
    rw [hs] at h2 h3
    obtain ⟨k, hx⟩ := h2 x (by simp)
    have hdw : (x :: xs).dropWhile isSpaceC = x :: xs := by
      rw [List.dropWhile_cons_of_neg (by rw [hx.2.2.1]; simp)]
    have htw : (x :: xs).takeWhile Char.isDigit = x :: xs := by
      rw [List.takeWhile_eq_self_iff]
      intro c hc
      obtain ⟨k2, hk2⟩ := h2 c hc
      exact hk2.1
    have hfold : (x :: xs).foldl (fun acc c => acc * 10 + (c.toNat - 48)) 0 = n := h3
    unfold atollC
    simp only [hdw, List.head?_cons, Option.some.injEq, hx.2.2.2.1, hx.2.2.2.2.1, or_self,
      if_false, htw, hfold, decide_False]
    simp
    omega

theorem toStringNat_no_delim (n : Nat) :
    ∀ c ∈ toStringNat n, c ≠ '\t' ∧ c ≠ '\n' := by
  intro c hc
  obtain ⟨k, hk⟩ := (toStringNat_spec n).2.1 c hc
  have h := isDigitOf_not_white c k hk
  refine ⟨h.1, ?_⟩
  intro hn
  rw [hn] at h
  revert h
  decide

theorem getlineC_append (delim : Char) (pre rest : List Char) (hpre : ∀ c ∈ pre, c ≠ delim) :
    getlineC delim (pre ++ delim :: rest) = some (pre, rest) := by
  have htw : (pre ++ delim :: rest).takeWhile (fun c => decide (c ≠ delim)) = pre := by
    rw [List.takeWhile_append_of_pos (by simpa using hpre)]
    simp
  have hdw : (pre ++ delim :: rest).dropWhile (fun c => decide (c ≠ delim)) = delim :: rest := by
    rw [List.dropWhile_append_of_pos (by simpa using hpre)]
    simp
  unfold getlineC
  cases hs : pre ++ delim :: rest with
  | nil => simp at hs
  | cons a t =>
    simp only
    rw [← hs, htw, hdw]
    rfl

theorem getlineC_end (delim : Char) (pre : List Char) (hne : pre ≠ [])
    (hpre : ∀ c ∈ pre, c ≠ delim) : getlineC delim pre = some (pre, []) := by
  have htw : pre.takeWhile (fun c => decide (c ≠ delim)) = pre := by
    rw [List.takeWhile_eq_self_iff]
    simpa using hpre
  have hdw : pre.dropWhile (fun c => decide (c ≠ delim)) = [] := by
    rw [List.dropWhile_eq_nil_iff]
    simpa using hpre
  unfold getlineC
  cases hs : pre with
  | nil => exact absurd hs hne
  | cons a t =>
    simp only
    rw [← hs, htw, hdw]
    rfl

theorem counter_value (x : Nat) (h : x < 2 ^ 32) :
    (((x : Int)) % ((counterMod : Nat) : Int)).toNat = x := by
  have h1 : ((x : Int)) % ((counterMod : Nat) : Int) = (x : Int) :=
    Int.emod_eq_of_lt (by omega) (by
      have : x < counterMod := h
      exact_mod_cast this)
  rw [h1]
  simp

/-- The token loop of `DetailsRecord::read` on the tab-separated decimal digits of a
non-empty list of 32-bit values, with `counter` one more than the number of counters
of the record: the values are appended to the counters of the record. -/
theorem readTokens_counters :
    ∀ (occs : List Nat) (fuel : Nat) (record : DetailsRecord), occs ≠ [] →
      occs.length < fuel → (∀ x ∈ occs, x < 2 ^ 32) →
      readTokens fuel (List.intercalate ['\t'] (occs.map toStringNat))
        (record.occurrences.length + 1) record =
        some { record with occurrences := record.occurrences ++ occs }
  | [], _, _, hne, _, _ => absurd rfl hne
  | [x], fuel, record, _, hf, hx => by
    obtain ⟨f, rfl⟩ : ∃ f, fuel = f + 2 := ⟨fuel - 2, by simp at hf; omega⟩
    have hx1 := hx x (by simp)
    simp only [List.map_cons, List.map_nil, intercalate_singleton]
    unfold readTokens
    rw [getlineC_end '\t' _ (toStringNat_spec x).1 (fun c hc => (toStringNat_no_delim x c hc).1)]
    simp only
    rw [atollC_toStringNat x (lt_trans hx1 (by norm_num))]
    simp only [counter_value x hx1, Nat.add_one_ne_zero, if_false]
    rw [if_neg (by omega)]
    unfold readTokens
    rfl
  | x :: y :: r, fuel, record, _, hf, hx => by
    obtain ⟨f, rfl⟩ : ∃ f, fuel = f + 1 := ⟨fuel - 1, by simp at hf; omega⟩
    have hx1 := hx x (by simp)
    simp only [List.map_cons, intercalate_cons_cons]
    unfold readTokens
    have e : toStringNat x ++ ['\t'] ++
        List.intercalate ['\t'] (toStringNat y :: List.map toStringNat r) =
        toStringNat x ++ '\t' :: List.intercalate ['\t'] ((y :: r).map toStringNat) := by
      simp
    rw [e, getlineC_append '\t' _ _ (fun c hc => (toStringNat_no_delim x c hc).1)]
    simp only
    rw [atollC_toStringNat x (lt_trans hx1 (by norm_num))]
    simp only [counter_value x hx1, Nat.add_one_ne_zero, if_false]
    rw [if_neg (by omega)]
    have ih := readTokens_counters (y :: r) f
      { record with occurrences := record.occurrences ++ [x] } (by simp)
      (by simp only [List.length_cons] at hf ⊢; omega)
      (fun z hz => hx z (List.mem_cons_of_mem _ hz))
    simp only [List.length_append, List.length_singleton] at ih
    rw [ih]
    simp

theorem intercalate_length (occs : List Nat) :
    occs.length ≤ (List.intercalate ['\t'] (occs.map toStringNat)).length + 1 := by
  induction occs with
  | nil => simp
  | cons x xs ih =>
    cases xs with
    | nil => simp [intercalate_singleton]
    | cons y r =>
      simp only [List.map_cons, intercalate_cons_cons, List.length_append, List.length_cons,
        List.length_nil] at ih ⊢
      omega

theorem intercalate_no_newline (l : List Nat) :
    ∀ c ∈ List.intercalate ['\t'] (l.map toStringNat), c ≠ '\n' := by
  induction l with
  | nil => simp [List.intercalate]
  | cons x xs ih =>
    cases xs with
    | nil =>
      intro c hc
      simp only [List.map_cons, List.map_nil, intercalate_singleton] at hc
      exact (toStringNat_no_delim x c hc).2
    | cons y r =>
      intro c hc
      simp only [List.map_cons, intercalate_cons_cons, List.mem_append, List.mem_singleton] at hc
      rcases hc with (hc | hc) | hc
      · exact (toStringNat_no_delim x c hc).2
      · rw [hc]
        decide
      · exact ih c hc

/-- C29. Details record round trip. For every details record with at least one counter
and values of the 32-bit counter type, `write` sends the decimal digits of `overall`
and of the counters, separated by tabs and ended by a newline, and `read` of that line
into a freshly constructed record gives a record with the same `overall` and the same
counters and leaves nothing of the line. -/
theorem details_round_trip (record : DetailsRecord) (hne : record.occurrences ≠ [])
    (ho : record.overall < 2 ^ 32) (hc : ∀ x ∈ record.occurrences, x < 2 ^ 32) :
    DetailsRecord.write record =
      some (List.intercalate ['\t']
        ((record.overall :: record.occurrences).map toStringNat) ++ ['\n']) ∧
    ∀ text, DetailsRecord.write record = some text →
      DetailsRecord.read DetailsRecord.empty text = some (record, []) := by
  have hbody : ∀ (occs : List Nat) (last : Nat), occs.getLast? = some last →
      (occs.dropLast.map (fun c => toStringNat c ++ ['\t'])).flatten ++ toStringNat last =
        List.intercalate ['\t'] (occs.map toStringNat) := by
    intro occs
    induction occs with
    | nil => intro last h; simp at h
    | cons x xs ih =>
      intro last h
      cases xs with
      | nil =>
        simp only [List.getLast?_singleton, Option.some.injEq] at h
        simp [intercalate_singleton, h]
      | cons y r =>
        rw [List.getLast?_cons_cons] at h
        have := ih last h
        simp only [List.dropLast_cons₂, List.map_cons, List.flatten_cons, intercalate_cons_cons,
          List.append_assoc] at this ⊢
        rw [this]
  have hwrite : DetailsRecord.write record =
      some (List.intercalate ['\t']
        ((record.overall :: record.occurrences).map toStringNat) ++ ['\n']) := by
    unfold DetailsRecord.write
    cases hl : record.occurrences.getLast? with
    | none => exact absurd (List.getLast?_eq_none_iff.1 hl) hne
    | some last =>
      simp only
      have hb := hbody record.occurrences last hl
      cases ho2 : record.occurrences with
      | nil => exact absurd ho2 hne
      | cons y r =>
        rw [ho2] at hb
        simp only [List.map_cons, intercalate_cons_cons, Option.some.injEq]
        simp only [List.map_cons] at hb
        rw [← hb]
        simp
  refine ⟨hwrite, ?_⟩
  intro text ht
  rw [hwrite, Option.some.injEq] at ht
  subst ht
  have hline : ∀ c ∈ List.intercalate ['\t']
      ((record.overall :: record.occurrences).map toStringNat), c ≠ '\n' := by
    exact intercalate_no_newline (record.overall :: record.occurrences)
  have hget : getlineC '\n' (List.intercalate ['\t']
      ((record.overall :: record.occurrences).map toStringNat) ++ ['\n']) =
      some (List.intercalate ['\t']
        ((record.overall :: record.occurrences).map toStringNat), []) :=
    getlineC_append '\n' _ [] hline
  unfold DetailsRecord.read
  simp only [hget]
  obtain ⟨y, r, ho2⟩ : ∃ y r, record.occurrences = y :: r := by
    cases h : record.occurrences with
    | nil => exact absurd h hne
    | cons y r => exact ⟨y, r, rfl⟩
  have hlen := intercalate_length record.occurrences
  rw [ho2] at hc hlen
  simp only [ho2, List.map_cons, intercalate_cons_cons]
  have e : toStringNat record.overall ++ ['\t'] ++
      List.intercalate ['\t'] (toStringNat y :: List.map toStringNat r) =
      toStringNat record.overall ++ '\t' :: List.intercalate ['\t'] ((y :: r).map toStringNat) := by
    simp
  rw [e]
  unfold readTokens
  rw [getlineC_append '\t' _ _ (fun c hcm => (toStringNat_no_delim record.overall c hcm).1)]
  simp only
  rw [atollC_toStringNat record.overall (lt_trans ho (by norm_num))]
  simp only [counter_value record.overall ho, if_true]
  have h1 := (toStringNat_spec record.overall).1
  have hl1 : 1 ≤ (toStringNat record.overall).length := List.length_pos.2 h1
  have := readTokens_counters (y :: r)
    ((toStringNat record.overall ++
      '\t' :: List.intercalate ['\t'] ((y :: r).map toStringNat)).length)
    { DetailsRecord.empty with overall := record.overall } (by simp)
    (by
      simp only [List.length_append, List.length_cons] at hlen ⊢
      omega)
    hc
  simp only [DetailsRecord.empty, List.length_nil, Nat.zero_add, List.nil_append] at this
  simp only [DetailsRecord.empty, Nat.zero_add]
  rw [this]
  simp only [Option.map_some', Option.some.injEq, Prod.mk.injEq, and_true]
  cases record
  simp only at ho2
  rw [ho2]

theorem details_round_trip_witness :
    (DetailsRecord.write ⟨[3, 0, 2], 5⟩).map String.mk = some "5\t3\t0\t2\n" ∧
    DetailsRecord.read DetailsRecord.empty "5\t3\t0\t2\n".toList = some (⟨[3, 0, 2], 5⟩, []) :=
  ⟨by decide, (details_round_trip ⟨[3, 0, 2], 5⟩ (by decide) (by decide) (by decide)).2 _
    (by decide)⟩

theorem isDigit_cases (c : Char) (h : c.isDigit = true) :
    c ∈ ['0', '1', '2', '3', '4', '5', '6', '7', '8', '9'] := by
  have h1 : 48 ≤ c.toNat ∧ c.toNat ≤ 57 := by
    simp only [Char.isDigit, Bool.and_eq_true, decide_eq_true_eq] at h
    exact ⟨h.1, h.2⟩
  have h2 : c = Char.ofNat c.toNat := (Char.ofNat_toNat c).symm
  obtain ⟨h3, h4⟩ := h1
  generalize c.toNat = n at h2 h3 h4
  subst h2
  interval_cases n <;> decide

/-- What the parser needs of a decimal digit: it is no white space, sign or letter, and
it lies between `0` and `9`. -/
theorem isDigit_facts (c : Char) (h : c.isDigit = true) :
    isSpaceC c = false ∧ c ≠ '-' ∧ c ≠ '+' ∧ c.isAlpha = false ∧ (c ≥ '0' ∧ c ≤ '9') ∧
      c ≠ 'M' ∧ c ≠ 'G' := by
  have := isDigit_cases c h
  simp only [List.mem_cons, List.mem_singleton, List.not_mem_nil, or_false] at this
  rcases this with h | h | h | h | h | h | h | h | h | h <;> subst h <;> decide

/-- The call `std::strtoul` on a non-empty run of decimal digits whose value fits 64
bits returns the value. -/
theorem strtoulC_digits (d : List Char) (hd : ∀ c ∈ d, c.isDigit = true)
    (hv : d.foldl (fun acc c => acc * 10 + (c.toNat - 48)) 0 < 2 ^ 64) :
    strtoulC d = d.foldl (fun acc c => acc * 10 + (c.toNat - 48)) 0 := by
  have hdw : d.dropWhile isSpaceC = d := by
    cases d with
    | nil => rfl
    | cons x xs =>
      rw [List.dropWhile_cons_of_neg (by rw [(isDigit_facts x (hd x (by simp))).1]; simp)]
  have htw : d.takeWhile Char.isDigit = d := by
    rw [List.takeWhile_eq_self_iff]
    exact hd
  have hhead : ¬ (d.head? = some '-' ∨ d.head? = some '+') := by
    cases d with
    | nil => simp
    | cons x xs =>
      have := isDigit_facts x (hd x (by simp))
      simp only [List.head?_cons, Option.some.injEq]
      exact fun hc => hc.elim this.2.1 this.2.2.1
  have hneg : ¬ (d.head? = some '-') := fun hc => hhead (Or.inl hc)
  have hplus : ¬ (d.head? = some '+') := fun hc => hhead (Or.inr hc)
  unfold strtoulC
  simp only [hdw, hneg, hplus, or_self, if_false, htw, decide_False, Bool.false_eq_true]
  rw [if_neg (by omega)]

theorem parse_suffix (d : List Char) (x : Char) (hd : ∀ c ∈ d, c.isDigit = true) :
    (d ++ [x]).take ((d ++ [x]).length - 1) = d ∧ (d ++ [x]).getLast? = some x ∧
      d.any Char.isAlpha = false := by
  refine ⟨by simp, by simp, ?_⟩
  rw [List.any_eq_false]
  intro c hc
  rw [(isDigit_facts c (hd c hc)).2.2.2.1]
  simp

/-- C30. RAM string parsing. For every non-empty string `d` of decimal digits with value
`n`: `parseMaxRamString (d) = n` when `n` fits 64 bits, `parseMaxRamString (d ++ "M") =
n * 1048576` and `parseMaxRamString (d ++ "G") = n * 1073741824` when the scaled value
fits 64 bits. -/
theorem parseMaxRamString_spec (d : List Char) (n : Nat) (hne : d ≠ [])
    (hd : ∀ c ∈ d, c.isDigit = true)
    (hn : d.foldl (fun acc c => acc * 10 + (c.toNat - 48)) 0 = n) :
    (n < 2 ^ 64 → parseMaxRamString d = some n) ∧
    (n * 1048576 < 2 ^ 64 → parseMaxRamString (d ++ ['M']) = some (n * 1048576)) ∧
    (n * 1073741824 < 2 ^ 64 → parseMaxRamString (d ++ ['G']) = some (n * 1073741824)) := by
  refine ⟨?_, ?_, ?_⟩
  · intro h
    obtain ⟨init, back, rfl⟩ : ∃ init back, d = init ++ [back] :=
      ⟨d.dropLast, d.getLast hne, (List.dropLast_append_getLast hne).symm⟩
    obtain ⟨h1, h2, h3⟩ := parse_suffix init back (fun c hc => hd c (List.mem_append_left _ hc))
    have hb := isDigit_facts back (hd back (by simp))
    unfold parseMaxRamString
    simp only [h1, h2, h3, Bool.false_eq_true, if_false]
    rw [if_pos hb.2.2.2.2.1, strtoulC_digits _ hd (by rw [hn]; exact h), hn]
  · intro h
    obtain ⟨h1, h2, h3⟩ := parse_suffix d 'M' hd
    unfold parseMaxRamString
    simp only [h1, h2, h3, Bool.false_eq_true, if_false]
    have hs : strtoulC d = n := by rw [strtoulC_digits d hd (by rw [hn]; omega), hn]
    have hm : n * (1024 * 1024) % 2 ^ 64 = n * 1048576 := by
      rw [Nat.mod_eq_of_lt (by norm_num; omega)]
    rw [if_neg (by decide), if_pos trivial, hs, hm]
  · intro h
    obtain ⟨h1, h2, h3⟩ := parse_suffix d 'G' hd
    unfold parseMaxRamString
    simp only [h1, h2, h3, Bool.false_eq_true, if_false]
    have hs : strtoulC d = n := by rw [strtoulC_digits d hd (by rw [hn]; omega), hn]
    have hm : n * (1024 * 1024 * 1024) % 2 ^ 64 = n * 1073741824 := by
      rw [Nat.mod_eq_of_lt (by norm_num; omega)]
    rw [if_neg (by decide), if_neg (by decide), if_pos trivial, hs, hm]

theorem parseMaxRamString_spec_witness :
    parseMaxRamString "16".toList = some 16 ∧
    parseMaxRamString "16M".toList = some 16777216 ∧
    parseMaxRamString "16G".toList = some 17179869184 := by
  obtain ⟨h1, h2, h3⟩ := parseMaxRamString_spec "16".toList 16 (by decide) (by decide) (by decide)
  exact ⟨h1 (by norm_num), h2 (by norm_num), h3 (by norm_num)⟩

/-- C31, the part that holds. On every non-empty string `d` of decimal digits, alone or
followed by a single `M` or `G`, `parseMaxRamString` raises no error. -/
theorem parseMaxRamString_accepts (d : List Char) (hne : d ≠ [])
    (hd : ∀ c ∈ d, c.isDigit = true) :
    (parseMaxRamString d).isSome = true ∧ (parseMaxRamString (d ++ ['M'])).isSome = true ∧
      (parseMaxRamString (d ++ ['G'])).isSome = true := by
  refine ⟨?_, ?_, ?_⟩
  · have hlast : d.getLast? = some (d.getLast hne) := List.getLast?_eq_getLast d hne
    have hback := isDigit_facts _ (hd _ (List.getLast_mem hne))
    have hany : (d.take (d.length - 1)).any Char.isAlpha = false := by
      rw [List.any_eq_false]
      intro c hc
      rw [(isDigit_facts c (hd c (List.mem_of_mem_take hc))).2.2.2.1]
      simp
    unfold parseMaxRamString
    simp only [hlast, hany]
    rw [if_neg (by simp), if_pos hback.2.2.2.2.1]
    rfl
  · obtain ⟨h1, h2, h3⟩ := parse_suffix d 'M' hd
    unfold parseMaxRamString
    simp only [h1, h2, h3]
    rw [if_neg (by simp), if_neg (by decide), if_pos (by decide)]
    rfl
  · obtain ⟨h1, h2, h3⟩ := parse_suffix d 'G' hd
    unfold parseMaxRamString
    simp only [h1, h2, h3]
    rw [if_neg (by simp), if_neg (by decide), if_neg (by decide), if_pos (by decide)]
    rfl

theorem parseMaxRamString_accepts_witness :
    (parseMaxRamString "512".toList).isSome = true ∧
      (parseMaxRamString ("512".toList ++ ['M'])).isSome = true ∧
      (parseMaxRamString ("512".toList ++ ['G'])).isSome = true :=
  parseMaxRamString_accepts "512".toList (by decide) (by decide)

/-- C31, failing inputs. The strings `G`, `1.5G` and `-5M` are none of the accepted
form, yet `parseMaxRamString` raises no error on them: the check on the part before the
suffix only looks for letters, and `strtoul` reads what it can. `G` gives 0, `1.5G`
gives 1 GiB and `-5M` gives `(2^64 - 5) * 2^20` reduced modulo `2^64`. The strings `12K`
and the empty string are rejected. -/
theorem parseMaxRamString_lenient :
    parseMaxRamString "G".toList = some 0 ∧
    parseMaxRamString "1.5G".toList = some 1073741824 ∧
    parseMaxRamString "-5M".toList = some 18446744073704308736 ∧
    parseMaxRamString "12K".toList = none ∧
    parseMaxRamString "".toList = none := by
  refine ⟨by decide, by decide, by decide, by decide, by decide⟩

/-- A layout selected by `setInputLayout` determines the flags: the flags are those of
the one entry of the table with that layout. -/
theorem setInputLayout_flags (f : LayoutFlags) (layout : Nat)
    (h : setInputLayout f = some layout) :
    (layoutTable.find? (fun e => decide (e.2 = layout))).map (fun e => e.1) =
      some (flagSet f) := by
  obtain ⟨a, b, c, d, e, g, k⟩ := f
  cases a <;> cases b <;> cases c <;> cases d <;> cases e <;> cases g <;> cases k <;>
    cases h <;> decide

/-- The set of flags that are set determines the flags. -/
theorem flagSet_injective (f g : LayoutFlags) (h : flagSet f = flagSet g) : f = g := by
  have key : ∀ x : LayoutFlags,
      (⟨decide (Flag.input ∈ flagSet x), decide (Flag.inputDir ∈ flagSet x),
        decide (Flag.paired ∈ flagSet x), decide (Flag.pairedDir ∈ flagSet x),
        decide (Flag.interleaved ∈ flagSet x), decide (Flag.breakpoint ∈ flagSet x),
        decide (Flag.matchFile ∈ flagSet x)⟩ : LayoutFlags) = x := by
    intro x
    obtain ⟨a, b, c, d, e, g, k⟩ := x
    cases a <;> cases b <;> cases c <;> cases d <;> cases e <;> cases g <;> cases k <;> decide
  rw [← key f, ← key g, h]

/-- C32. Layout selection. For every assignment of the seven option flags,
`setInputLayout` gives what the table of the specification gives: it succeeds exactly
when the set of flags that are set is one of the nine sets of the table, and then
selects the layout listed for this set; every other combination raises the error. Two
assignments that select the same layout are the same assignment, so distinct
combinations give distinct layouts. -/
theorem setInputLayout_table (f : LayoutFlags) :
    setInputLayout f = layoutBySpec f ∧
    ((setInputLayout f).isSome = true ↔ flagSet f ∈ layoutTable.map (fun e => e.1)) ∧
    ∀ (g : LayoutFlags) (layout : Nat), setInputLayout f = some layout →
      setInputLayout g = some layout → f = g := by
  refine ⟨?_, ?_, ?_⟩
  · obtain ⟨a, b, c, d, e, g, k⟩ := f
    cases a <;> cases b <;> cases c <;> cases d <;> cases e <;> cases g <;> cases k <;> decide
  · obtain ⟨a, b, c, d, e, g, k⟩ := f
    cases a <;> cases b <;> cases c <;> cases d <;> cases e <;> cases g <;> cases k <;> decide
  · intro g layout hf hg
    have h1 := setInputLayout_flags f layout hf
    have h2 := setInputLayout_flags g layout hg
    rw [h1] at h2
    exact flagSet_injective f g (Option.some.inj h2)

theorem setInputLayout_table_witness :
    setInputLayout ⟨true, false, true, false, false, false, false⟩ =
        layoutBySpec ⟨true, false, true, false, false, false, false⟩ ∧
      setInputLayout ⟨true, false, true, false, false, false, false⟩ =
        some IN_LAYOUT_SS_PAIRED_END ∧
      setInputLayout ⟨true, true, false, false, false, false, false⟩ = none :=
  ⟨(setInputLayout_table ⟨true, false, true, false, false, false, false⟩).1, by decide,
    by decide⟩

/-- C33 (amended). Exit codes of `main`. When the parser reports a result other than
`PARSE_OK`, whatever the reason, `main` returns 0. When the parser reports `PARSE_OK`
and a validation of `parseCommandLine` raises its error, `main` returns -1. When the
parser reports `PARSE_OK` and the validations pass, `main` returns 0 if the pipeline
completes; an exception inside the pipeline ends the process without a return code. -/
theorem main_exit_code (cl : CommandLine) (pipelineCompletes : Bool) :
    (cl.parseResult ≠ ParseResult.PARSE_OK → main cl pipelineCompletes = ExitStatus.returned 0) ∧
    (cl.parseResult = ParseResult.PARSE_OK → parseCommandLine cl = none →
      main cl pipelineCompletes = ExitStatus.returned (-1)) ∧
    (cl.parseResult = ParseResult.PARSE_OK → parseCommandLine cl ≠ none →
      main cl true = ExitStatus.returned 0 ∧ main cl false = ExitStatus.terminated) := by
  refine ⟨?_, ?_, ?_⟩
  · intro h
    have hp : parseCommandLine cl = some cl.parseResult := by
      unfold parseCommandLine
      rw [if_neg h]
    unfold main
    rw [hp]
    simp only
    rw [if_pos h]
  · intro _ h
    unfold main
    rw [h]
  · intro h hne
    have hp : parseCommandLine cl = some ParseResult.PARSE_OK := by
      cases hc : parseCommandLine cl with
      | none => exact absurd hc hne
      | some r =>
        have : r = cl.parseResult := by
          unfold parseCommandLine at hc
          rw [if_pos h] at hc
          split at hc
          · cases hc
          · split at hc
            · cases hc
            · split at hc
              · cases hc
              · split at hc
                · cases hc
                · split at hc
                  · cases hc
                  · split at hc
                    · cases hc
                    · split at hc
                      · cases hc
                      · split at hc
                        · cases hc
                        · split at hc
                          · cases hc
                          · split at hc
                            · cases hc
                            · exact (Option.some.inj hc).symm
        rw [this, h]
    unfold main
    rw [hp]
    exact ⟨rfl, rfl⟩

theorem main_exit_code_witness :
    main ⟨ParseResult.PARSE_OK, ⟨true, false, false, false, false, false, false⟩, true, false,
        false, false, false, "fastq".toList, true, true, "4G".toList⟩ true =
        ExitStatus.returned 0 ∧
      main ⟨ParseResult.PARSE_OK, ⟨true, false, false, false, false, false, false⟩, true, false,
        false, false, false, "fastq".toList, true, true, "4G".toList⟩ false =
        ExitStatus.terminated ∧
      main ⟨ParseResult.PARSE_OK, ⟨true, true, false, false, false, false, false⟩, true, true,
        false, false, false, "fastq".toList, true, true, "4G".toList⟩ true =
        ExitStatus.returned (-1) :=
  ⟨((main_exit_code ⟨ParseResult.PARSE_OK, ⟨true, false, false, false, false, false, false⟩,
      true, false, false, false, false, "fastq".toList, true, true, "4G".toList⟩ true).2.2 rfl
      (by decide)).1,
   ((main_exit_code ⟨ParseResult.PARSE_OK, ⟨true, false, false, false, false, false, false⟩,
      true, false, false, false, false, "fastq".toList, true, true, "4G".toList⟩ true).2.2 rfl
      (by decide)).2,
   (main_exit_code ⟨ParseResult.PARSE_OK, ⟨true, true, false, false, false, false, false⟩,
      true, true, false, false, false, "fastq".toList, true, true, "4G".toList⟩ true).2.1 rfl
      (by decide)⟩

/-- C33, counterexample. The parser reports `PARSE_ERROR` (invalid arguments) and `main`
returns 0, not -1; with valid arguments and an exception inside the pipeline the
process ends without the code -1. -/
theorem main_parse_error_returns_zero :
    main ⟨ParseResult.PARSE_ERROR, ⟨true, false, false, false, false, false, false⟩, true,
        false, false, false, false, "fastq".toList, true, true, "4G".toList⟩ true =
        ExitStatus.returned 0 ∧
      main ⟨ParseResult.PARSE_ERROR, ⟨true, false, false, false, false, false, false⟩, true,
        false, false, false, false, "fastq".toList, true, true, "4G".toList⟩ true ≠
        ExitStatus.returned (-1) ∧
      main ⟨ParseResult.PARSE_OK, ⟨true, false, false, false, false, false, false⟩, true,
        false, false, false, false, "fastq".toList, true, true, "4G".toList⟩ false ≠
        ExitStatus.returned (-1) := by
  refine ⟨by decide, by decide, by decide⟩

/-- The loop of `mergeSSTmpBatches_` with fan-out 16 and at least 16 loadable records,
with the merges it makes: it returns after `rounds` iterations with `startIdx` advanced
by `16 * rounds`; every iteration reads 16 files and appends one file, files once
written stay as they are, and at most 16 files are left. -/
theorem mergeRoundsSS_structure (qlen : List Nat → Nat) (input : List SequenceRecord) (m : Nat)
    (hm : 16 ≤ m) (hin : ∀ s, tagCount s input < 2 ^ 32) (htag : ∀ r ∈ input, r.tag ≠ []) :
    ∀ (fuel : Nat) (w : SequenceWriter) (startIdx : Nat), TmpInv qlen input w startIdx →
      1 ≤ fuel → w.outputPaths.length - startIdx ≤ 15 * (fuel - 1) + 16 →
      ∃ w1 rounds, mergeRoundsSS 16 m fuel w startIdx = some (w1, startIdx + 16 * rounds) ∧
        TmpInv qlen input w1 (startIdx + 16 * rounds) ∧
        w1.outputPaths.length = w.outputPaths.length + rounds ∧
        w1.outputPaths.take w.outputPaths.length = w.outputPaths ∧
        w1.outputPaths.length ≤ startIdx + 16 * rounds + 16 ∧
        ∀ k, k < rounds → ∃ readers n ranges,
          configureBatchReaders_ w1.outputPaths (startIdx + 16 * k) 16 = some readers ∧
          readers.length = 16 ∧ Buffer.merge readers (m / 16) = some (n, ranges) ∧
          (w1.outputPaths[w.outputPaths.length + k]?).map fileRecords = some ranges.flatten
  | 0, w, startIdx, _, hf, _ => by omega
  | fuel + 1, w, startIdx, hinv, _, hmu => by
    unfold mergeRoundsSS
    by_cases hcond : startIdx + 16 < w.outputPaths.length
    · have hD : w.outputPaths.drop startIdx =
          (w.outputPaths.drop startIdx).take 16 ++ w.outputPaths.drop (startIdx + 16) := by
        rw [← List.drop_drop, List.take_append_drop]
      have hsplit : ∀ s, tagCount s (filesRecords ((w.outputPaths.drop startIdx).take 16)) +
          tagCount s (filesRecords (w.outputPaths.drop (startIdx + 16))) = tagCount s input := by
        intro s
        rw [← tagCount_append, ← filesRecords_append, ← hD]
        exact hinv.count s
      have htags := files_tags_ne qlen input ((w.outputPaths.drop startIdx).take 16)
        (fun f hf => hinv.batch f (List.mem_of_mem_take hf))
        (fun s => by have := hsplit s; omega) htag
      rw [if_pos hcond, configureBatchReaders_eq _ _ _ (by omega) htags]
      simp only
      obtain ⟨n, chunks, h1, h2, h3, h4, h5, h6, -⟩ := merge_files_spec qlen input
        ((w.outputPaths.drop startIdx).take 16) (m / 16)
        (by
          intro hc
          have := congrArg List.length hc
          simp only [List.length_take, List.length_drop, List.length_nil] at this
          omega)
        (by omega)
        (fun f hf => hinv.batch f (List.mem_of_mem_take hf))
        (fun s => by have := hsplit s; omega) hin
      rw [h1]
      simp only
      obtain ⟨w1, entries, e1, e2, e3, e4, e5⟩ := switchSink_writeAll_file w chunks
        (le_trans h6 hinv.room)
      rw [e1]
      simp only
      have hdrop : w1.outputPaths.drop (startIdx + 16) =
          w.outputPaths.drop (startIdx + 16) ++ [entries] := by
        rw [e3, List.drop_append_of_le_length (by omega)]
      have hinv1 : TmpInv qlen input w1 (startIdx + 16) :=
        { lt := by rw [e3]; simp only [List.length_append, List.length_singleton]; omega
          batch := by
            intro f hf
            rw [hdrop] at hf
            rcases List.mem_append.1 hf with hf | hf
            · exact hinv.batch f (by rw [hD]; exact List.mem_append_right _ hf)
            · simp only [List.mem_singleton] at hf
              rw [hf]
              have : fileRecords entries = chunks.flatten := e2
              rw [this]
              exact h3
          count := by
            intro s
            rw [hdrop, filesRecords_append, tagCount_append, filesRecords_singleton]
            have : fileRecords entries = chunks.flatten := e2
            rw [this, h4 s]
            have := hsplit s
            omega
          room := by rw [e5]; exact hinv.room }
      have hlen1 : w1.outputPaths.length = w.outputPaths.length + 1 := by
        rw [e3]
        simp
      obtain ⟨w2, rounds, g1, g2, g3, g4, g5, g6⟩ := mergeRoundsSS_structure qlen input m hm hin
        htag fuel w1 (startIdx + 16) hinv1 (by omega) (by omega)
      have hpre : w2.outputPaths.take w.outputPaths.length = w.outputPaths := by
        have h7 : (w2.outputPaths.take w1.outputPaths.length).take w.outputPaths.length =
            w1.outputPaths.take w.outputPaths.length := by rw [g4]
        rw [List.take_take, Nat.min_eq_left (by omega)] at h7
        rw [h7, e3, List.take_left']
        rfl
      have hget : ∀ i, i < w1.outputPaths.length → w2.outputPaths[i]? = w1.outputPaths[i]? := by
        intro i hi
        rw [← g4, List.getElem?_take_of_lt hi]
      refine ⟨w2, rounds + 1, ?_, ?_, ?_, hpre, ?_, ?_⟩
      · rw [g1]
        congr 2
        omega
      · have : startIdx + 16 * (rounds + 1) = startIdx + 16 + 16 * rounds := by omega
        rw [this]
        exact g2
      · omega
      · omega
      · intro k hk
        cases k with
        | zero =>
          have h8 : (w2.outputPaths.drop startIdx).take 16 =
              (w.outputPaths.drop startIdx).take 16 := by
            rw [← hpre, List.drop_take]
            rw [List.take_take, Nat.min_eq_left (by omega)]
          refine ⟨((w.outputPaths.drop startIdx).take 16).map recordsOfFile, n, chunks, ?_, ?_, h1,
            ?_⟩
          · simp only [Nat.mul_zero, Nat.add_zero]
            rw [configureBatchReaders_eq _ _ _ (by omega) (by rw [h8]; exact htags), h8]
          · simp only [List.length_map, List.length_take, List.length_drop]
            omega
          · simp only [Nat.add_zero]
            rw [hget _ (by omega), e3, List.getElem?_append_right (le_refl _)]
            simp only [Nat.sub_self, List.getElem?_cons_zero, Option.map_some']
            exact congrArg some e2
        | succ k =>
          obtain ⟨readers, n1, ranges, f1, f2, f3, f4⟩ := g6 k (by omega)
          refine ⟨readers, n1, ranges, ?_, f2, f3, ?_⟩
          · have : startIdx + 16 * (k + 1) = startIdx + 16 + 16 * k := by omega
            rw [this]
            exact f1
          · have : w.outputPaths.length + (k + 1) = w1.outputPaths.length + k := by omega
            rw [this]
            exact f4
    · rw [if_neg hcond]
      exact ⟨w, 0, rfl, hinv, rfl, by simp, by omega, fun k hk => absurd hk (by omega)⟩

/-- C34, the part that holds. Single-sample tiered merge with fan-out 16 on a temporary
writer that holds `p >= 2` runs (batches increasing by sequence, as
`makeTemporaryBatches_` leaves them, none with a record of empty sequence, which the
tag reader cannot read back) and with at least 16 loadable records: the call
returns after `rounds` intermediate merges; intermediate merge `k` reads exactly the 16
runs with indices `[16 k, 16 k + 16)` and appends exactly one run, with index `p + k`,
which holds what the merge wrote; runs once written are left as they are; the final
merge reads the runs from `16 * rounds` on, between 1 and 16 of them, and writes to
the output writer; every run, initial or intermediate, is read by exactly one
merge. -/
theorem tiered_merge_structure (qlen : List Nat → Nat) (input : List SequenceRecord)
    (tw outWriter : SequenceWriter) (maxLoadable : Nat) (stats : StatsCollapse)
    (hp : 2 ≤ tw.outputPaths.length) (hm : 16 ≤ maxLoadable)
    (hin : ∀ s, tagCount s input < 2 ^ 32) (htag : ∀ r ∈ input, r.tag ≠ [])
    (hinv : TmpInv qlen input tw 0) (hop : outWriter.outputPaths = []) :
    ∃ tw1 ow st rounds, mergeSSTmpBatches_ 16 tw outWriter maxLoadable stats = some (tw1, ow, st) ∧
      tw1.outputPaths.length = tw.outputPaths.length + rounds ∧
      tw1.outputPaths.take tw.outputPaths.length = tw.outputPaths ∧
      (∀ k, k < rounds → ∃ readers n ranges,
        configureBatchReaders_ tw1.outputPaths (16 * k) 16 = some readers ∧
        readers.length = 16 ∧ Buffer.merge readers (maxLoadable / 16) = some (n, ranges) ∧
        (tw1.outputPaths[tw.outputPaths.length + k]?).map fileRecords = some ranges.flatten) ∧
      16 * rounds + 1 ≤ tw1.outputPaths.length ∧ tw1.outputPaths.length ≤ 16 * rounds + 16 ∧
      (∃ readers n ranges,
        configureBatchReaders_ tw1.outputPaths (16 * rounds)
          (tw1.outputPaths.length - 16 * rounds) = some readers ∧
        readers.length = tw1.outputPaths.length - 16 * rounds ∧
        Buffer.merge readers (maxLoadable / readers.length) = some (n, ranges) ∧
        ow.records = ranges.flatten) ∧
      ∀ i, i < tw1.outputPaths.length →
        ∃ j, (j ≤ rounds ∧ 16 * j ≤ i ∧
            i < (if j < rounds then 16 * j + 16 else tw1.outputPaths.length)) ∧
          ∀ j2, (j2 ≤ rounds ∧ 16 * j2 ≤ i ∧
            i < (if j2 < rounds then 16 * j2 + 16 else tw1.outputPaths.length)) → j2 = j := by
  obtain ⟨w, rounds, h1, h2, h3, h4, h5, h6⟩ := mergeRoundsSS_structure qlen input maxLoadable hm
    hin htag (tw.outputPaths.length + 1) tw 0 hinv (by omega)
    (by simp only [Nat.add_sub_cancel]; omega)
  simp only [Nat.zero_add] at h1 h2 h5 h6
  unfold mergeSSTmpBatches_
  rw [h1]
  simp only
  have hlt := h2.lt
  cases hw : w.outputPaths with
  | nil =>
    rw [hw] at hlt
    simp at hlt
  | cons f fs =>
    have hf : w.flush = some { w with isOpen := true } := by
      unfold SequenceWriter.flush
      rw [hw]
    rw [hf]
    simp only
    have htake : (w.outputPaths.drop (16 * rounds)).take (w.outputPaths.length - 16 * rounds) =
        w.outputPaths.drop (16 * rounds) := List.take_of_length_le (by simp)
    have htags : ∀ f ∈ (w.outputPaths.drop (16 * rounds)).take
        (w.outputPaths.length - 16 * rounds), ∀ p ∈ f, p.2.tag ≠ [] := by
      rw [htake]
      exact files_tags_ne qlen input _ h2.batch (fun s => le_of_eq (h2.count s)) htag
    rw [configureBatchReaders_eq _ _ _ (by omega) htags]
    simp only
    rw [htake]
    have hrl : ((w.outputPaths.drop (16 * rounds)).map recordsOfFile).length =
        w.outputPaths.length - 16 * rounds := by
      simp
    have hdne : w.outputPaths.drop (16 * rounds) ≠ [] := by
      intro hc
      have := congrArg List.length hc
      simp only [List.length_drop, List.length_nil] at this
      omega
    rw [if_neg (by rw [hrl]; omega)]
    obtain ⟨n, chunks, g1, g2, g3, g4, g5, g6, -⟩ := merge_files_spec qlen input
      (w.outputPaths.drop (16 * rounds))
      (maxLoadable / ((w.outputPaths.drop (16 * rounds)).map recordsOfFile).length)
      hdne
      (by
        rw [hrl]
        exact (Nat.le_div_iff_mul_le (by omega)).2 (by omega))
      h2.batch (fun s => le_of_eq (h2.count s)) hin
    rw [g1]
    simp only
    obtain ⟨ow, k1, k2⟩ := writeAll_records chunks outWriter g5
    rw [k1]
    have hrec : ow.records = chunks.flatten := by
      rw [k2]
      simp [SequenceWriter.records, hop]
    have h7 : 16 * rounds + 1 ≤ w.outputPaths.length := by omega
    refine ⟨_, ow, _, rounds, rfl, h3, h4, h6, h7, h5, ?_, ?_⟩
    · refine ⟨(w.outputPaths.drop (16 * rounds)).map recordsOfFile, n, chunks, ?_, hrl, g1, hrec⟩
      show configureBatchReaders_ w.outputPaths (16 * rounds) (w.outputPaths.length - 16 * rounds)
        = _
      rw [configureBatchReaders_eq _ _ _ (by omega) htags, htake]
    · intro i hi
      have hi2 : i < w.outputPaths.length := hi
      by_cases hc : i < 16 * rounds
      · refine ⟨i / 16, ⟨by omega, by omega, ?_⟩, ?_⟩
        · rw [if_pos (by omega)]
          omega
        · rintro j2 ⟨a1, a2, a3⟩
          by_cases hj : j2 < rounds
          · rw [if_pos hj] at a3
            omega
          · omega
      · refine ⟨rounds, ⟨le_refl _, by omega, ?_⟩, ?_⟩
        · rw [if_neg (by omega)]
          exact hi
        · rintro j2 ⟨a1, a2, a3⟩
          by_cases hj : j2 < rounds
          · rw [if_pos hj] at a3
            omega
          · omega

theorem tiered_merge_structure_witness :
    ∃ tw1 ow st rounds,
      mergeSSTmpBatches_ 16
        ⟨(List.range 17).map (fun i => [(i, ⟨[i], [], 1, 0⟩)]), true, 17, 2 ^ 64 - 1, 1⟩
        (SequenceWriter.configure 100) 16 ⟨17, 0⟩ = some (tw1, ow, st) ∧
      tw1.outputPaths.length = 17 + rounds ∧ 16 * rounds + 1 ≤ tw1.outputPaths.length ∧
      tw1.outputPaths.length ≤ 16 * rounds + 16 := by
  obtain ⟨tw1, ow, st, rounds, h1, h2, -, -, h5, h6, -, -⟩ := tiered_merge_structure (fun _ => 0)
    (filesRecords ((List.range 17).map (fun i => [(i, (⟨[i], [], 1, 0⟩ : SequenceRecord))])))
    ⟨(List.range 17).map (fun i => [(i, ⟨[i], [], 1, 0⟩)]), true, 17, 2 ^ 64 - 1, 1⟩
    (SequenceWriter.configure 100) 16 ⟨17, 0⟩ (by decide) (by decide)
    (fun s => lt_of_le_of_lt (tagCount_le_total s _) (by decide)) (by decide)
    { lt := by decide
      batch := by
        intro f hf
        simp only [List.drop_zero, List.mem_map, List.mem_range] at hf
        obtain ⟨i, -, rfl⟩ := hf
        refine ⟨by simp [fileRecords], by simp [fileRecords], ?_⟩
        intro r hr
        simp only [fileRecords, List.map_cons, List.map_nil, List.mem_singleton] at hr
        subst hr
        exact ⟨le_refl _, rfl⟩
      count := fun s => rfl
      room := by decide }
    rfl
  exact ⟨tw1, ow, st, rounds, h1, h2, h5, h6⟩

/-- C34, failing input. Two temporary runs of one record each and `max_loadable = 1`:
no intermediate merge is made, and the final merge is called with `1 / 2 = 0` records
per input, so that every sub-buffer loads nothing and `findMinRecord_` reads past
the end of `limits`: the call has no defined result and nothing reaches the output
writer. With `max_loadable = 16` and a first run that holds the record of an empty
sequence, the run cannot be read back and the call has no defined result either. -/
theorem tiered_merge_small_budget :
    (mergeSSTmpBatches_ 16 ⟨[[(0, ⟨[0], [], 1, 0⟩)], [(1, ⟨[1], [], 1, 0⟩)]], true, 2, 2 ^ 64 - 1, 1⟩
      (SequenceWriter.configure 100) 1 ⟨2, 0⟩).isNone = true ∧
    (mergeSSTmpBatches_ 16 ⟨[[(0, ⟨[], [], 1, 0⟩)], [(1, ⟨[1], [], 1, 0⟩)]], true, 2, 2 ^ 64 - 1, 1⟩
      (SequenceWriter.configure 100) 16 ⟨2, 0⟩).isNone = true := by
  refine ⟨by decide, by decide⟩

/-- A merge passes at least one range to the writer. -/
theorem mergeCore_chunks_nonempty {β α : Type} (ops : MergeOps β α) (readers : List β) (m n : Nat)
    (chunks : List (List α)) (h : mergeCore ops readers m = some (n, chunks)) : chunks ≠ [] := by
  intro hc
  unfold mergeCore at h
  cases hs : mergeStart ops readers m with
  | none => simp [hs] at h
  | some st0 =>
    simp only [hs] at h
    cases hl : mergeLoop ops m (readers.map ops.pending).sum st0 with
    | none => simp [hl] at h
    | some st =>
      simp only [hl, Option.some.injEq, Prod.mk.injEq] at h
      rw [hc] at h
      simp at h

/-- The seeding-details merge of non-empty inputs that are strictly increasing by
sequence, with counts at least 1, one sample id below `nSamples` per reader, counts per
sequence adding up to less than `2 ^ 32` and qualities of one length per sequence: it
returns, no range written is empty, at least one range is written, and no more pairs
are written than records are read. -/
theorem mergeSeeding_returns (readers : List SequenceReader) (samplesIds : List Nat)
    (maxLoadable nSamples : Nat) (hne : readers ≠ []) (hm : 1 ≤ maxLoadable)
    (hr : ∀ r ∈ readers, r ≠ [] ∧ (r.map (fun x => x.tag)).Pairwise (fun a b => a < b) ∧
      ∀ x ∈ r, 1 ≤ x.overall)
    (hlen : samplesIds.length = readers.length) (hid : ∀ id ∈ samplesIds, id < nSamples)
    (hsum : ∀ s, tagCount s readers.flatten < 2 ^ 32)
    (hq : QualAligned readers.flatten) :
    ∃ n chunks, Buffer.mergeSeeding readers samplesIds maxLoadable nSamples = some (n, chunks) ∧
      (∀ c ∈ chunks, c ≠ []) ∧ chunks.flatten ≠ [] ∧
      chunks.flatten.length ≤ readers.flatten.length := by
  have hal := qualLen_of_aligned readers.flatten hq
  have hle : readers.length ≤ samplesIds.length := by omega
  have hcount := fun s => seedAll_count nSamples s readers samplesIds hle
  obtain ⟨n, chunks, h1, h2, h3, h4, h5, h6⟩ := mergeCore_spec (seedingOps nSamples)
    (fun d => ∃ id, d.sampleId = some id ∧ id < nSamples)
    (fun d => seedEntries nSamples d.sampleId d.reader)
    (fun d => seedEntries nSamples d.sampleId d.inBuffer)
    (fun sc => ∀ x ∈ sc.2.occurrences, x = 0) (PairOK (qualLen readers.flatten) nSamples) pairVal
    (fun v => v.1 < 2 ^ 32) maxLoadable (seeding_laws _ nSamples maxLoadable) hm
    (seedInputs readers samplesIds)
    (by
      cases readers with
      | nil => exact absurd rfl hne
      | cons r rs => simp [seedInputs])
    (by
      intro d hd
      obtain ⟨r, hrm, id, hidm, rfl⟩ := mem_seedInputs readers samplesIds hle d hd
      refine ⟨⟨id, rfl, hid id hidm⟩, ?_⟩
      show seedEntries nSamples (some id) r ≠ []
      rw [seedEntries_some]
      simpa using (hr r hrm).1)
    (by
      intro d hd
      obtain ⟨r, hrm, id, hidm, rfl⟩ := mem_seedInputs readers samplesIds hle d hd
      show ((seedEntries nSamples (some id) r).map (fun e => e.1.tag)).Pairwise _
      rw [seedEntries_some, List.map_map]
      exact (hr r hrm).2.1.imp le_of_lt)
    (by
      intro d hd y hy
      obtain ⟨r, hrm, id, hidm, rfl⟩ := mem_seedInputs readers samplesIds hle d hd
      have hy' : y ∈ seedEntries nSamples (some id) r := hy
      rw [seedEntries_some] at hy'
      obtain ⟨x, hx, rfl⟩ := List.mem_map.1 hy'
      refine ⟨(hr r hrm).2.2 x hx, hal x (List.mem_flatten.2 ⟨r, hrm, hx⟩), ?_, rfl, ?_⟩
      · simp [seedEntry]
      · exact replicate_set_sum nSamples id x.overall (hid id hidm))
    (by
      intro s
      show (ksum (fun e : SequenceRecord × DetailsRecord => e.1.tag) pairVal s
        (seedAll nSamples readers samplesIds)).1 < 2 ^ 32
      rw [ksum_fst, hcount s]
      exact hsum s)
  have hmerge : Buffer.mergeSeeding readers samplesIds maxLoadable nSamples = some (n, chunks) :=
    h1
  have hcne := mergeCore_chunks_ne _ _ _ _ _ h1
  have hchunks : chunks ≠ [] := mergeCore_chunks_nonempty _ _ _ _ _ h1
  refine ⟨n, chunks, hmerge, hcne, ?_, ?_⟩
  · cases chunks with
    | nil => exact absurd rfl hchunks
    | cons c cs =>
      have := hcne c (by simp)
      intro hf
      simp only [List.flatten_cons, List.append_eq_nil] at hf
      exact this hf.1
  · have hnd : (chunks.flatten.map (fun e => e.1.tag)).Nodup :=
      (h3.imp (fun h => ne_of_lt h))
    have hsub : chunks.flatten.map (fun e => e.1.tag) ⊆
        (seedAll nSamples readers samplesIds).map (fun e => e.1.tag) :=
      fun s hs => (h6 s).1 hs
    have h7 := (List.subperm_of_subset hnd hsub).length_le
    simp only [List.length_map] at h7
    have h8 : (seedAll nSamples readers samplesIds).length ≤ readers.flatten.length := by
      clear h7 hsub hnd hchunks hcne hmerge h6 h5 h4 h3 h2 h1 hcount hal hq hsum hid hr hne
      induction readers generalizing samplesIds with
      | nil => simp [seedAll, seedInputs]
      | cons r rs ih =>
        cases samplesIds with
        | nil => simp at hle
        | cons id ids =>
          rw [seedAll_cons]
          simp only [List.length_append, List.length_map, List.flatten_cons]
          have := ih ids (by simpa using hlen) (by simpa using hle)
          omega
    omega

/-- Private `DetailsWriter::write_` on a writer whose last file has room for the range:
the rows are appended to the last file. -/
theorem details_write_last :
    ∀ (rs : List DetailsRecord) (w : DetailsWriter) (init : List (List DetailsRecord))
      (last : List DetailsRecord), w.outputPaths = init ++ [last] →
      w.curOutRecords + rs.length ≤ w.maxOutRecords →
      (DetailsWriter.write_ w rs).1.outputPaths = init ++ [last ++ rs] ∧
      (DetailsWriter.write_ w rs).1.isOpen = w.isOpen ∧
      (DetailsWriter.write_ w rs).1.maxOutRecords = w.maxOutRecords ∧
      (DetailsWriter.write_ w rs).1.curOutRecords = w.curOutRecords + rs.length
  | [], w, init, last, hp, _ => by simp [DetailsWriter.write_, hp]
  | r :: rs, w, init, last, hp, hb => by
    simp only [List.length_cons] at hb
    unfold DetailsWriter.write_
    have hne : ¬ w.curOutRecords = w.maxOutRecords := by omega
    simp only [if_neg hne]
    obtain ⟨e1, e2, e3, e4⟩ := details_write_last rs
      { w with outputPaths := appendToLast r w.outputPaths, curOutRecords := w.curOutRecords + 1 }
      init (last ++ [r]) (by simp only [hp, appendToLast_snoc]) (by simp only; omega)
    refine ⟨?_, e2, e3, ?_⟩
    · rw [e1]
      simp
    · rw [e4]
      simp only [List.length_cons]
      omega

/-- The calls `write` of one details merge on open writers whose last files have room
for all the ranges: both calls return for every range, the sequence records are
appended to the last file of the sequence writer and the details records to the last
file of the details writer. -/
theorem writePairs_last :
    ∀ (chunks : List (List (SequenceRecord × DetailsRecord))) (sw : SequenceWriter)
      (dw : DetailsWriter) (initS : List (List (Nat × SequenceRecord)))
      (lastS : List (Nat × SequenceRecord)) (initD : List (List DetailsRecord))
      (lastD : List DetailsRecord),
      sw.isOpen = true → sw.outputPaths = initS ++ [lastS] →
      sw.currentOutputRecords + chunks.flatten.length ≤ sw.maxOutputRecords →
      dw.isOpen = true → dw.outputPaths = initD ++ [lastD] →
      dw.curOutRecords + chunks.flatten.length ≤ dw.maxOutRecords →
      ∃ sw1 dw1 entries, writePairs sw dw chunks = some (sw1, dw1) ∧
        entries.map (fun p => p.2) = chunks.flatten.map (fun p => p.1) ∧
        sw1.outputPaths = initS ++ [lastS ++ entries] ∧ sw1.isOpen = true ∧
        sw1.maxOutputRecords = sw.maxOutputRecords ∧
        dw1.outputPaths = initD ++ [lastD ++ chunks.flatten.map (fun p => p.2)] ∧
        dw1.isOpen = true ∧ dw1.maxOutRecords = dw.maxOutRecords
  | [], sw, dw, initS, lastS, initD, lastD, ho, hp, _, hdo, hdp, _ =>
    ⟨sw, dw, [], rfl, by simp, by simp [hp], ho, rfl, by simp [hdp], hdo, rfl⟩
  | c :: cs, sw, dw, initS, lastS, initD, lastD, ho, hp, hb, hdo, hdp, hdb => by
    simp only [List.flatten_cons, List.length_append] at hb hdb
    obtain ⟨entries, e1, e2, e3, e4, e5⟩ := writeSingleEnd_last (fun _ => true)
      (c.map (fun p => p.1)) sw initS lastS hp (by simp only [List.length_map]; omega)
    have hlen : entries.length = c.length := by
      have := congrArg List.length e1
      simpa using this
    obtain ⟨d1, d2, d3, d4⟩ := details_write_last (c.map (fun p => p.2)) dw initD lastD hdp
      (by simp only [List.length_map]; omega)
    simp only [List.length_map] at d4
    have hdw : dw.write (c.map (fun p => p.2)) = DetailsWriter.write_ dw (c.map (fun p => p.2)) := by
      unfold DetailsWriter.write
      rw [if_pos hdo]
    obtain ⟨sw2, dw2, entries2, f1, f2, f3, f4, f5, f6, f7, f8⟩ := writePairs_last cs
      (SequenceWriter.writeSingleEnd_ (fun _ => true) sw (c.map (fun p => p.1))).1
      (DetailsWriter.write_ dw (c.map (fun p => p.2))).1 initS (lastS ++ entries) initD
      (lastD ++ c.map (fun p => p.2))
      (by rw [e3]; exact ho) e2 (by rw [e4, e5, hlen]; omega)
      (by rw [d2]; exact hdo) d1 (by rw [d3, d4]; omega)
    refine ⟨sw2, dw2, entries ++ entries2, ?_, ?_, ?_, f4, ?_, ?_, f7, ?_⟩
    · unfold writePairs SequenceWriter.write SequenceWriter.writeIf
      rw [if_pos ho, hdw]
      exact f1
    · rw [List.map_append, e1, f2]
      simp
    · rw [f3, List.append_assoc]
    · rw [f5, e4]
    · rw [f6]
      simp [List.append_assoc]
    · rw [f8, d3]

/-- On closed writers the first calls `write` of a details merge open the sinks: the
calls behave as on the writers after `switchSink`. -/
theorem writePairs_closed (chunks : List (List (SequenceRecord × DetailsRecord)))
    (sw : SequenceWriter) (dw : DetailsWriter) (hs : sw.isOpen = false) (hd : dw.isOpen = false)
    (hne : chunks ≠ []) (hc : ∀ c ∈ chunks, c ≠ []) :
    writePairs sw dw chunks = writePairs sw.switchSink dw.switchSink chunks := by
  cases chunks with
  | nil => exact absurd rfl hne
  | cons c cs =>
    have hcne := hc c (by simp)
    cases c with
    | nil => exact absurd rfl hcne
    | cons x xs =>
      have h1 : sw.write ((x :: xs).map (fun p => p.1)) =
          sw.switchSink.write ((x :: xs).map (fun p => p.1)) := by
        simp [SequenceWriter.write, SequenceWriter.writeIf, hs, SequenceWriter.switchSink]
      have h2 : dw.write ((x :: xs).map (fun p => p.2)) =
          dw.switchSink.write ((x :: xs).map (fun p => p.2)) := by
        simp [DetailsWriter.write, hd, DetailsWriter.switchSink]
      unfold writePairs
      rw [h1, h2]

/-- The readers `configureBatchReaders_` opens on the samples are the readers of the
`n` samples from `startIdx` on. -/
theorem configureSampleReaders_eq (samples : List SequenceReader) (startIdx n : Nat)
    (h : startIdx + n ≤ samples.length) :
    configureSampleReaders_ samples startIdx n = some ((samples.drop startIdx).take n) := by
  unfold configureSampleReaders_
  rw [mapM_some _ (fun i => samples.getD (startIdx + i) [])]
  · congr 1
    apply List.ext_getElem?
    intro i
    by_cases hi : i < n
    · have h1 : startIdx + i < samples.length := by omega
      simp [List.getElem?_map, List.getElem?_take, List.getElem?_drop, List.getElem?_range, hi,
        List.getElem?_eq_getElem h1, List.getD_eq_getElem?_getD]
    · simp [List.getElem?_map, List.getElem?_take, hi]
      omega
  · intro i hi
    have h1 : startIdx + i < samples.length := by
      have := List.mem_range.1 hi
      omega
    simp [List.getElem?_eq_getElem h1, List.getD_eq_getElem?_getD]

theorem flatten_sublist {α : Type} {l1 l2 : List (List α)} (h : l1.Sublist l2) :
    l1.flatten.Sublist l2.flatten := by
  induction h with
  | slnil => exact List.Sublist.refl _
  | cons a _ ih =>
    simp only [List.flatten_cons]
    exact ih.trans (List.sublist_append_right _ _)
  | cons₂ a _ ih =>
    simp only [List.flatten_cons]
    exact List.Sublist.append (List.Sublist.refl _) ih

/-- The merge of one group of the first tier returns. -/
theorem group_merge_returns (F m : Nat) (samples : List SequenceReader) (hF : 1 ≤ F)
    (hm : 1 ≤ m) (hs : SamplesOK samples) (g : Nat) (hg : F * g < samples.length) :
    ∃ n chunks, Buffer.mergeSeeding ((samples.drop (F * g)).take (min F (samples.length - F * g)))
        (List.range' (F * g) (min F (samples.length - F * g))) m samples.length =
        some (n, chunks) ∧
      (∀ c ∈ chunks, c ≠ []) ∧ chunks ≠ [] ∧ chunks.flatten ≠ [] ∧
      chunks.flatten.length ≤ 2 ^ 64 - 1 := by
  have hsub : ((samples.drop (F * g)).take (min F (samples.length - F * g))).Sublist samples :=
    (List.take_sublist _ _).trans (List.drop_sublist _ _)
  have hfl : ((samples.drop (F * g)).take (min F (samples.length - F * g))).flatten.Sublist
      samples.flatten := flatten_sublist hsub
  obtain ⟨n, chunks, h1, h2, h3, h4⟩ := mergeSeeding_returns
    ((samples.drop (F * g)).take (min F (samples.length - F * g)))
    (List.range' (F * g) (min F (samples.length - F * g))) m samples.length
    (by
      intro hc
      have := congrArg List.length hc
      simp only [List.length_take, List.length_drop, List.length_nil] at this
      omega)
    hm (fun r hr => hs.each r (hsub.subset hr))
    (by simp only [List.length_range', List.length_take, List.length_drop]; omega)
    (by
      intro id hid
      rw [List.mem_range'_1] at hid
      omega)
    (fun s => lt_of_le_of_lt (tagCount_sublist s hfl) (hs.sum s))
    (fun a ha b hb hab => hs.aligned a (hfl.subset ha) b (hfl.subset hb) hab)
  refine ⟨n, chunks, h1, h2, mergeCore_chunks_nonempty _ _ _ _ _ h1, h3, ?_⟩
  have := hfl.length_le
  have := hs.room
  omega

/-- The first-tier loop of `collapseMS_` from group `g` on, on writers whose sinks
are open on an empty last file, with `k` groups left: it returns; every group adds one
file to each writer, holding what the merge of the group wrote, and the `switchSink`
calls after the last merge leave one more, empty file on each writer. -/
theorem firstTier_loop (F m : Nat) (samples : List SequenceReader) (hF : 1 ≤ F) (hm : 1 ≤ m)
    (hs : SamplesOK samples) :
    ∀ (k g fuel : Nat) (sw : SequenceWriter) (dw : DetailsWriter)
      (seqFiles : List (List (Nat × SequenceRecord))) (tabFiles : List (List DetailsRecord)),
      F * (g + k) < samples.length + F → samples.length ≤ F * (g + k) →
      F * g < samples.length → k + 1 ≤ fuel →
      sw.isOpen = true → sw.outputPaths = seqFiles ++ [[]] → sw.currentOutputRecords = 0 →
      sw.maxOutputRecords = 2 ^ 64 - 1 →
      dw.isOpen = true → dw.outputPaths = tabFiles ++ [[]] → dw.curOutRecords = 0 →
      dw.maxOutRecords = 2 ^ 64 - 1 →
      ∃ sw1 dw1 newSeq newTab,
        firstTierMS F m samples fuel (F * g) sw dw = some (sw1, dw1) ∧
        sw1.outputPaths = seqFiles ++ newSeq ++ [[]] ∧
        dw1.outputPaths = tabFiles ++ newTab ++ [[]] ∧
        newSeq.length = k ∧ newTab.length = k ∧
        ∀ j, j < k → ∃ n chunks,
          Buffer.mergeSeeding
            ((samples.drop (F * (g + j))).take (min F (samples.length - F * (g + j))))
            (List.range' (F * (g + j)) (min F (samples.length - F * (g + j)))) m
            samples.length = some (n, chunks) ∧
          chunks.flatten ≠ [] ∧
          (newSeq[j]?).map fileRecords = some (chunks.flatten.map (fun p => p.1)) ∧
          newTab[j]? = some (chunks.flatten.map (fun p => p.2))
  | 0, g, fuel, sw, dw, seqFiles, tabFiles, _, h2, h3, _, _, _, _, _, _, _, _, _ => by
    simp only [Nat.add_zero] at h2
    omega
  | k + 1, g, 0, sw, dw, seqFiles, tabFiles, _, _, _, hf, _, _, _, _, _, _, _, _ => by omega
  | k + 1, g, fuel + 1, sw, dw, seqFiles, tabFiles, h1, h2, h3, hf, so, sp, sc, sm, dop, dp, dc,
      dm => by
    have e1 : F * (g + (k + 1)) = F * g + F * k + F := by ring
    rw [e1] at h1 h2
    unfold firstTierMS
    simp only
    rw [if_pos h3, configureSampleReaders_eq _ _ _ (by omega)]
    simp only
    obtain ⟨n, chunks, m1, m2, m3, m4, m5⟩ := group_merge_returns F m samples hF hm hs g h3
    rw [m1]
    simp only
    obtain ⟨sw1, dw1, entries, w1, w2, w3, w4, w5, w6, w7, w8⟩ := writePairs_last chunks sw dw
      seqFiles [] tabFiles [] so sp (by rw [sc, sm]; omega) dop dp (by rw [dc, dm]; omega)
    rw [w1]
    simp only [List.nil_append] at w3 w6 ⊢
    have hmerge0 : Buffer.mergeSeeding
        ((samples.drop (F * (g + 0))).take (min F (samples.length - F * (g + 0))))
        (List.range' (F * (g + 0)) (min F (samples.length - F * (g + 0)))) m
        samples.length = some (n, chunks) := by simpa using m1
    have hfile0 : (([entries] : List (List (Nat × SequenceRecord)))[0]?).map fileRecords =
        some (chunks.flatten.map (fun p => p.1)) := by
      simp only [List.getElem?_cons_zero, Option.map_some']
      exact congrArg some w2
    have e2 : F * g + F = F * (g + 1) := by ring
    rw [e2]
    by_cases hc : F * (g + 1) < samples.length
    · have e3 : F * (g + 1 + k) = F * g + F * k + F := by ring
      obtain ⟨sw2, dw2, newSeq, newTab, r1, r2, r3, r4, r5, r6⟩ := firstTier_loop F m samples hF hm
        hs k (g + 1) fuel sw1.switchSink dw1.switchSink (seqFiles ++ [entries])
        (tabFiles ++ [chunks.flatten.map (fun p => p.2)])
        (by rw [e3]; exact h1) (by rw [e3]; exact h2) hc (by omega) rfl
        (by simp [SequenceWriter.switchSink, w3]) rfl
        (by simp [SequenceWriter.switchSink, w5, sm]) rfl
        (by simp [DetailsWriter.switchSink, w6]) rfl
        (by simp [DetailsWriter.switchSink, w8, dm])
      refine ⟨sw2, dw2, entries :: newSeq, chunks.flatten.map (fun p => p.2) :: newTab, r1, ?_, ?_,
        by simp [r4], by simp [r5], ?_⟩
      · rw [r2]
        simp [List.append_assoc]
      · rw [r3]
        simp [List.append_assoc]
      · intro j hj
        cases j with
        | zero => exact ⟨n, chunks, hmerge0, m4, by simpa using hfile0, by simp⟩
        | succ j =>
          obtain ⟨n2, chunks2, q1, q2, q3, q4⟩ := r6 j (by omega)
          have e4 : g + 1 + j = g + (j + 1) := by omega
          rw [e4] at q1
          exact ⟨n2, chunks2, q1, q2, by simpa using q3, by simpa using q4⟩
    · have e5 : F * (g + 1) = F * g + F := by ring
      have hk : k = 0 := by
        cases k with
        | zero => rfl
        | succ k =>
          have : F * (k + 1) = F * k + F := by ring
          rw [this] at h1
          omega
      subst hk
      cases fuel with
      | zero => omega
      | succ fuel =>
        unfold firstTierMS
        simp only
        rw [if_neg hc]
        refine ⟨sw1.switchSink, dw1.switchSink, [entries], [chunks.flatten.map (fun p => p.2)],
          rfl, by simp [SequenceWriter.switchSink, w3], by simp [DetailsWriter.switchSink, w6],
          rfl, rfl, ?_⟩
        intro j hj
        have : j = 0 := by omega
        subst this
        exact ⟨n, chunks, hmerge0, m4, hfile0, rfl⟩

/-- On closed writers the first iteration of the first-tier loop opens the sinks with
its first writes: the loop behaves as on the writers after `switchSink`. -/
theorem firstTier_closed (F m : Nat) (samples : List SequenceReader) (fuel startIdx1 : Nat)
    (sw : SequenceWriter) (dw : DetailsWriter) (hlt : startIdx1 < samples.length)
    (hs : sw.isOpen = false) (hd : dw.isOpen = false) :
    firstTierMS F m samples fuel startIdx1 sw dw =
      firstTierMS F m samples fuel startIdx1 sw.switchSink dw.switchSink := by
  cases fuel with
  | zero => rfl
  | succ fuel =>
    unfold firstTierMS
    simp only
    rw [if_pos hlt, if_pos hlt]
    cases hc : configureSampleReaders_ samples startIdx1 (min F (samples.length - startIdx1)) with
    | none => rfl
    | some readers =>
      simp only
      cases hm : Buffer.mergeSeeding readers
          (List.range' startIdx1 (min F (samples.length - startIdx1))) m samples.length with
      | none => rfl
      | some p =>
        obtain ⟨n, ranges⟩ := p
        simp only
        rw [writePairs_closed ranges sw dw hs hd (mergeCore_chunks_nonempty _ _ _ _ _ hm)
          (mergeCore_chunks_ne _ _ _ _ _ hm)]

/-- C35, the part that holds. Multi-sample first tier with fan-out `F` (64 in
`collapseMS_`) on `n >= 1` collapsed samples: group `g` merges exactly the samples with
indices `[F g, min (F g + F, n))`, passes these indices as sample ids with `nSamples =
n`, and its output is the file `g` of the temporary sequence writer and of the
temporary details writer, for every `g < ceil (n / F)`; these files are not empty.
After the tier each writer holds `ceil (n / F) + 1` files: the `switchSink` calls after
the last merge leave one more file, which is empty. -/
theorem first_tier_shards (F m : Nat) (samples : List SequenceReader) (hF : 1 ≤ F) (hm : 1 ≤ m)
    (hs : SamplesOK samples) (hne : samples ≠ []) (fuel : Nat)
    (hfuel : samples.length + 1 ≤ fuel) :
    ∃ sw dw seqFiles tabFiles,
      firstTierMS F m samples fuel 0 SequenceWriter.configureTemporary
        DetailsWriter.configureTemporary = some (sw, dw) ∧
      sw.outputPaths = seqFiles ++ [[]] ∧ dw.outputPaths = tabFiles ++ [[]] ∧
      seqFiles.length = (samples.length + F - 1) / F ∧
      tabFiles.length = (samples.length + F - 1) / F ∧
      ∀ g, g < (samples.length + F - 1) / F → ∃ n chunks,
        Buffer.mergeSeeding
          ((samples.drop (F * g)).take (min F (samples.length - F * g)))
          (List.range' (F * g) (min F (samples.length - F * g))) m samples.length =
          some (n, chunks) ∧
        chunks.flatten ≠ [] ∧
        (seqFiles[g]?).map fileRecords = some (chunks.flatten.map (fun p => p.1)) ∧
        tabFiles[g]? = some (chunks.flatten.map (fun p => p.2)) := by
  have hpos : 0 < samples.length := List.length_pos.2 hne
  have hG1 : F * ((samples.length + F - 1) / F) ≤ samples.length + F - 1 := Nat.mul_div_le _ _
  have hG2 : samples.length + F - 1 < F * ((samples.length + F - 1) / F + 1) :=
    Nat.lt_mul_div_succ _ (by omega)
  have hG3 : (samples.length + F - 1) / F ≤ samples.length := by
    have h1 : samples.length + F - 1 < (samples.length + 1) * F := by
      have : samples.length ≤ samples.length * F := Nat.le_mul_of_pos_right _ (by omega)
      have e : (samples.length + 1) * F = samples.length * F + F := by ring
      omega
    have := (Nat.div_lt_iff_lt_mul (by omega)).2 h1
    omega
  generalize (samples.length + F - 1) / F = G at hG1 hG2 hG3
  have e1 : F * (G + 1) = F * G + F := by ring
  rw [e1] at hG2
  rw [firstTier_closed F m samples fuel 0 _ _ hpos rfl rfl]
  obtain ⟨sw, dw, newSeq, newTab, r1, r2, r3, r4, r5, r6⟩ := firstTier_loop F m samples hF hm hs
    G 0 fuel SequenceWriter.configureTemporary.switchSink
    DetailsWriter.configureTemporary.switchSink [] []
    (by simp only [Nat.zero_add]; omega) (by simp only [Nat.zero_add]; omega)
    (by simpa using hpos) (by omega) rfl rfl rfl rfl rfl rfl rfl rfl
  simp only [Nat.mul_zero] at r1
  refine ⟨sw, dw, newSeq, newTab, r1, by simpa using r2, by simpa using r3, r4, r5, ?_⟩
  intro g hg
  have := r6 g hg
  simpa using this

/-- Samples of one record each, with pairwise different sequences and no qualities,
meet the hypotheses of the first tier. -/
theorem samplesOK_singletons (n : Nat) (hn : n < 2 ^ 32) :
    SamplesOK ((List.range n).map (fun i => [(⟨[i], [], 1, 0⟩ : SequenceRecord)])) := by
  have hmem : ∀ x ∈ ((List.range n).map (fun i => [(⟨[i], [], 1, 0⟩ : SequenceRecord)])).flatten,
      x.qual = [] ∧ x.overall = 1 := by
    intro x hx
    simp only [List.mem_flatten, List.mem_map, List.mem_range] at hx
    obtain ⟨l, ⟨i, -, rfl⟩, hx⟩ := hx
    simp only [List.mem_singleton] at hx
    subst hx
    exact ⟨rfl, rfl⟩
  have hlen : ((List.range n).map
      (fun i => [(⟨[i], [], 1, 0⟩ : SequenceRecord)])).flatten.length = n := by
    induction n with
    | zero => rfl
    | succ k ih =>
      rw [List.range_succ, List.map_append, List.flatten_append, List.length_append,
        ih (by omega) (fun x hx => hmem x (by
          rw [List.range_succ, List.map_append, List.flatten_append]
          exact List.mem_append_left _ hx))]
      rfl
  refine ⟨?_, ?_, ?_, by rw [hlen]; omega⟩
  · intro r hr
    simp only [List.mem_map, List.mem_range] at hr
    obtain ⟨i, -, rfl⟩ := hr
    refine ⟨by simp, by simp, ?_⟩
    intro x hx
    simp only [List.mem_singleton] at hx
    subst hx
    exact le_refl _
  · intro s
    refine lt_of_le_of_lt (tagCount_le_total s _) ?_
    have : totalCount ((List.range n).map
        (fun i => [(⟨[i], [], 1, 0⟩ : SequenceRecord)])).flatten = n := by
      have h1 : ∀ l : List SequenceRecord, (∀ x ∈ l, x.overall = 1) → totalCount l = l.length := by
        intro l
        induction l with
        | nil => intro _; rfl
        | cons a l ih =>
          intro h
          have := ih (fun x hx => h x (List.mem_cons_of_mem _ hx))
          simp only [totalCount, List.map_cons, List.sum_cons, List.length_cons] at this ⊢
          rw [this, h a (by simp)]
          omega
      rw [h1 _ (fun x hx => (hmem x hx).2), hlen]
    omega
  · intro a ha b hb _
    rw [(hmem a ha).1, (hmem b hb).1]

theorem first_tier_shards_witness :
    ∃ sw dw, firstTierMS 64 4 ((List.range 65).map (fun i => [⟨[i], [], 1, 0⟩])) 66 0
        SequenceWriter.configureTemporary DetailsWriter.configureTemporary = some (sw, dw) ∧
      sw.outputPaths.length = (65 + 64 - 1) / 64 + 1 ∧
      dw.outputPaths.length = (65 + 64 - 1) / 64 + 1 := by
  obtain ⟨sw, dw, seqFiles, tabFiles, h1, h2, h3, h4, h5, -⟩ := first_tier_shards 64 4
    ((List.range 65).map (fun i => [⟨[i], [], 1, 0⟩])) (by decide) (by decide)
    (samplesOK_singletons 65 (by decide)) (by simp) 66 (by simp)
  refine ⟨sw, dw, h1, ?_, ?_⟩
  · rw [h2, List.length_append, h4]
    simp
  · rw [h3, List.length_append, h5]
    simp

/-- C35, failing input. Sixty-five collapsed samples of one record each and fan-out 64:
the first tier makes `ceil (65 / 64) = 2` merges, and each temporary writer then holds
3 files, not 2; the third file, opened by the `switchSink` call after the second
merge, holds no record. The same loop at a small scale, fan-out 2 on three samples,
leaves files of 2, 1 and 0 records on both writers; the three files can be read back,
and the merge of the next tier on them has no defined result, as one of its readers
yields no record. -/
theorem first_tier_trailing_shard :
    (∃ sw dw, firstTierMS 64 4 ((List.range 65).map (fun i => [⟨[i], [], 1, 0⟩])) 66 0
        SequenceWriter.configureTemporary DetailsWriter.configureTemporary = some (sw, dw) ∧
      sw.outputPaths.length = 3 ∧ dw.outputPaths.length = 3 ∧
      sw.outputPaths.getLast? = some [] ∧ dw.outputPaths.getLast? = some []) ∧
    (firstTierMS 2 4 [[⟨[0], [], 1, 0⟩], [⟨[1], [], 1, 0⟩], [⟨[2], [], 1, 0⟩]] 4 0
        SequenceWriter.configureTemporary DetailsWriter.configureTemporary).map
        (fun p => (p.1.outputPaths.map (fun f => f.length),
          p.2.outputPaths.map (fun f => f.length))) = some ([2, 1, 0], [2, 1, 0]) ∧
    ((firstTierMS 2 4 [[⟨[0], [], 1, 0⟩], [⟨[1], [], 1, 0⟩], [⟨[2], [], 1, 0⟩]] 4 0
        SequenceWriter.configureTemporary DetailsWriter.configureTemporary).bind
        (fun p => p.1.outputPaths.mapM readerOfFile)).isSome = true ∧
    ((firstTierMS 2 4 [[⟨[0], [], 1, 0⟩], [⟨[1], [], 1, 0⟩], [⟨[2], [], 1, 0⟩]] 4 0
        SequenceWriter.configureTemporary DetailsWriter.configureTemporary).bind
        (fun p => (p.1.outputPaths.mapM readerOfFile).bind
          (fun readers => Buffer.mergePropagating readers p.2.outputPaths 4))).isNone = true := by
  refine ⟨?_, by decide, by decide, by decide⟩
  have hlen : ((List.range 65).map (fun i => [(⟨[i], [], 1, 0⟩ : SequenceRecord)])).length = 65 := by
    rw [List.length_map, List.length_range]
  rw [firstTier_closed 64 4 _ 66 0 _ _ (by rw [hlen]; norm_num) rfl rfl]
  obtain ⟨sw, dw, newSeq, newTab, r1, r2, r3, r4, r5, -⟩ := firstTier_loop 64 4
    ((List.range 65).map (fun i => [⟨[i], [], 1, 0⟩])) (by norm_num) (by norm_num)
    (samplesOK_singletons 65 (by norm_num)) 2 0 66
    SequenceWriter.configureTemporary.switchSink DetailsWriter.configureTemporary.switchSink [] []
    (by rw [hlen]; norm_num) (by rw [hlen]; norm_num) (by rw [hlen]; norm_num) (by norm_num)
    rfl rfl rfl rfl rfl rfl rfl rfl
  refine ⟨sw, dw, r1, ?_, ?_, ?_, ?_⟩
  · rw [r2]
    simp [r4]
  · rw [r3]
    simp [r5]
  · rw [r2]
    simp
  · rw [r3]
    simp

/-- C36, failing input. Two readers, the first with one record and the second with no
record at all, `maxLoadable = 1`: the one-stream merge has no defined result. The
active-reader count starts at 2 and is only decremented when a sub-buffer that held
records is drained, so it is still 1 when the one record has been consumed; the loop
calls `findMinRecord_` with every limit at 0, whose first loop then reads `limits` past
its last entry. The same holds with the empty reader first and for larger buffers. -/
theorem merge_empty_reader_overruns :
    (Buffer.merge [[⟨[0], [], 1, 0⟩], []] 1).isNone = true ∧
    (Buffer.merge [[], [⟨[0], [], 1, 0⟩]] 1).isNone = true ∧
    (Buffer.merge [[⟨[0], [], 1, 0⟩, ⟨[1], [], 1, 0⟩], []] 4).isNone = true ∧
    findMinRecord_ [[], []] [0, 0] [0, 0] = none ∧
    (Buffer.merge [[⟨[0], [], 1, 0⟩], [⟨[1], [], 1, 0⟩]] 1).isSome = true := by
  refine ⟨by decide, by decide, by decide, by decide, by decide⟩

/-- C37, failing input. On an empty input the probe batch loads 0 records and
`getBytesSequenceRatio_` divides `memoryUtil` by `loadedRecords = 0`, whatever the
memory consumption of the empty buffer is: the estimate has no defined result, and no
value of `max_loadable` is reached. On every input with at least one record the
division is by the number of records loaded, which is not 0. Were `max_loadable = 1`
supplied, the pipeline would still have no defined result on the empty input: the
first write finds the sink closed and reads the first record of an empty range. -/
theorem getBytesSequenceRatio_empty (memoryConsumption : Buffer → Nat) :
    getBytesSequenceRatio_ memoryConsumption [] = none ∧
    (∀ (r : SequenceRecord) (rest : SequenceReader),
      (getBytesSequenceRatio_ memoryConsumption (r :: rest)).isSome = true) ∧
    (collapseSS_ ⟨0, 0, 1⟩ [] SequenceWriter.configureTemporary (SequenceWriter.configure 100) 1
      ⟨0, 0⟩).isNone = true := by
  refine ⟨rfl, ?_, by decide⟩
  intro r rest
  unfold getBytesSequenceRatio_
  simp [Buffer.load]

/-- Two lists of records that are strictly increasing by sequence, carry counts of at
least 1 and hold the same count for every sequence list the same sequences with the
same counts. -/
theorem batch_unique :
    ∀ (l1 l2 : List SequenceRecord),
      (l1.map (fun r => r.tag)).Pairwise (fun a b => a < b) →
      (l2.map (fun r => r.tag)).Pairwise (fun a b => a < b) →
      (∀ r ∈ l1, 1 ≤ r.overall) → (∀ r ∈ l2, 1 ≤ r.overall) →
      (∀ s, tagCount s l1 = tagCount s l2) →
      l1.map (fun r => (r.tag, r.overall)) = l2.map (fun r => (r.tag, r.overall))
  | [], [], _, _, _, _, _ => rfl
  | [], b :: l2, _, _, _, p2, hc => by
    have := tagCount_pos_of_mem (b :: l2) b (by simp) (p2 b (by simp))
    have h0 : tagCount b.tag ([] : List SequenceRecord) = 0 := rfl
    have := hc b.tag
    omega
  | a :: l1, [], _, _, p1, _, hc => by
    have := tagCount_pos_of_mem (a :: l1) a (by simp) (p1 a (by simp))
    have h0 : tagCount a.tag ([] : List SequenceRecord) = 0 := rfl
    have := hc a.tag
    omega
  | a :: l1, b :: l2, s1, s2, p1, p2, hc => by
    simp only [List.map_cons, List.pairwise_cons, List.mem_map, forall_exists_index, and_imp,
      forall_apply_eq_imp_iff₂] at s1 s2
    have z1 : tagCount a.tag l1 = 0 :=
      tagCount_eq_zero _ _ (fun r hr h => lt_irrefl _ (h ▸ s1.1 r hr))
    have z2 : tagCount b.tag l2 = 0 :=
      tagCount_eq_zero _ _ (fun r hr h => lt_irrefl _ (h ▸ s2.1 r hr))
    have pa := p1 a (by simp)
    have pb := p2 b (by simp)
    have htag : a.tag = b.tag := by
      rcases lt_trichotomy a.tag b.tag with h | h | h
      · exfalso
        have h1 := hc a.tag
        rw [tagCount_cons, tagCount_cons, if_pos rfl, if_neg (ne_of_gt h), z1,
          tagCount_eq_zero _ l2 (fun r hr (hrt : r.tag = a.tag) => lt_irrefl _
            (lt_trans h (by rw [← hrt]; exact s2.1 r hr)))] at h1
        omega
      · exact h
      · exfalso
        have h1 := hc b.tag
        rw [tagCount_cons, tagCount_cons, if_pos rfl, if_neg (ne_of_gt h), z2,
          tagCount_eq_zero _ l1 (fun r hr (hrt : r.tag = b.tag) => lt_irrefl _
            (lt_trans h (by rw [← hrt]; exact s1.1 r hr)))] at h1
        omega
    have hov : a.overall = b.overall := by
      have h1 := hc a.tag
      rw [tagCount_cons, tagCount_cons, if_pos rfl, if_pos htag.symm, z1, htag, z2] at h1
      omega
    have htail : ∀ s, tagCount s l1 = tagCount s l2 := by
      intro s
      by_cases hs : a.tag = s
      · rw [← hs, z1, htag, z2]
      · have h1 := hc s
        rw [tagCount_cons, tagCount_cons, if_neg hs, if_neg (htag ▸ hs)] at h1
        omega
    have ih := batch_unique l1 l2 s1.2 s2.2 (fun r hr => p1 r (List.mem_cons_of_mem _ hr))
      (fun r hr => p2 r (List.mem_cons_of_mem _ hr)) htail
    simp only [List.map_cons, htag, hov, ih]

/-- C38, the part that holds. The single-sample result does not depend on the memory
budget on the single-thread path and without trimming: for every non-empty input of
records without qualities, none with an empty sequence (which the tag reader cannot
read back from a temporary file), and every two values of `max_loadable >= 16`, both
runs of
`collapseSS_` return, the lists of (sequence, count) of the records sent to the output
writer are the same, and they are the list of the alive records of sort-then-collapse
applied to the whole input. -/
theorem budget_independent (c : Collapser) (input : SequenceReader) (K L1 L2 : Nat)
    (stats : StatsCollapse) (hl : c.trimLeft = 0) (hr : c.trimRight = 0) (ht : c.nThreads ≤ 1)
    (hne : input ≠ []) (hok : ∀ r ∈ input, r.qual = [] ∧ 1 ≤ r.overall)
    (htag : ∀ r ∈ input, r.tag ≠ [])
    (hb : ∀ s, tagCount s input < 2 ^ 32) (hlen : input.length < 2 ^ 64)
    (h1 : 16 ≤ L1) (h2 : 16 ≤ L2) :
    ∃ tw1 ow1 st1 tw2 ow2 st2 buf n,
      collapseSS_ c input SequenceWriter.configureTemporary (SequenceWriter.configure K) L1
        stats = some (tw1, ow1, st1) ∧
      collapseSS_ c input SequenceWriter.configureTemporary (SequenceWriter.configure K) L2
        stats = some (tw2, ow2, st2) ∧
      Buffer.collapse eqSequence c.nThreads (Buffer.sort ltSequence c.nThreads input) =
        some (buf, n) ∧
      ow1.records.map (fun r => (r.tag, r.overall)) =
        ow2.records.map (fun r => (r.tag, r.overall)) ∧
      ow1.records.map (fun r => (r.tag, r.overall)) =
        (buf.filter isAlive).map (fun r => (r.tag, r.overall)) := by
  have hrok : RecordsOK (fun _ => 0) input := fun r hr0 => by
    obtain ⟨q, o⟩ := hok r hr0
    exact ⟨o, by rw [q]; rfl⟩
  have hroom : input.length ≤ SequenceWriter.configureTemporary.maxOutputRecords := by
    show input.length ≤ 2 ^ 64 - 1
    omega
  obtain ⟨tw1, ow1, st1, a1, a2, a3, a4⟩ := collapseSS_spec (fun _ => 0) c input
    SequenceWriter.configureTemporary (SequenceWriter.configure K) L1 stats hl hr
    (Or.inr ⟨h1, htag⟩) hne hrok hb rfl rfl hroom rfl rfl
  obtain ⟨tw2, ow2, st2, b1, b2, b3, b4⟩ := collapseSS_spec (fun _ => 0) c input
    SequenceWriter.configureTemporary (SequenceWriter.configure K) L2 stats hl hr
    (Or.inr ⟨h2, htag⟩) hne hrok hb rfl rfl hroom rfl rfl
  obtain ⟨out, n, c1, -, -, -, c5, c6, c7⟩ := loadSortCollapse_spec (fun _ => 0) c input
    input.length hl hr hne (List.length_pos.2 hne) hrok hb
  have hfast : Buffer.collapse eqSequence c.nThreads (Buffer.sort ltSequence c.nThreads input) =
      some (out, n) := by
    unfold loadSortCollapse at c1
    simp only [Buffer.load, List.take_length, hl, hr, gt_iff_lt, lt_self_iff_false, or_self,
      if_false] at c1
    cases hcol : Buffer.collapse eqSequence c.nThreads (Buffer.sort ltSequence c.nThreads input)
      with
    | none =>
      rw [hcol] at c1
      cases c1
    | some p =>
      rw [hcol] at c1
      simp only [Option.some.injEq, Prod.mk.injEq] at c1
      rw [← c1.1, ← c1.2.2.2]
  rw [List.take_length] at c6
  refine ⟨tw1, ow1, st1, tw2, ow2, st2, out, n, a1, b1, hfast, ?_, ?_⟩
  · exact batch_unique _ _ (a4 (Or.inl ht)) (b4 (Or.inl ht)) (fun r hr0 => (a2.2.2 r hr0).1)
      (fun r hr0 => (b2.2.2 r hr0).1) (fun s => by rw [a3 s, b3 s])
  · exact batch_unique _ _ (a4 (Or.inl ht)) (c7 (Or.inl ht)) (fun r hr0 => (a2.2.2 r hr0).1)
      (fun r hr0 => (c5.2.2 r hr0).1) (fun s => by rw [a3 s, c6 s])

theorem budget_independent_witness :
    ∃ tw1 ow1 st1 tw2 ow2 st2 buf n,
      collapseSS_ ⟨0, 0, 1⟩
        (List.replicate 9 ⟨[1], [], 1, 0⟩ ++ List.replicate 9 ⟨[0], [], 1, 0⟩)
        SequenceWriter.configureTemporary (SequenceWriter.configure 100) 16
        ⟨0, 0⟩ = some (tw1, ow1, st1) ∧
      collapseSS_ ⟨0, 0, 1⟩
        (List.replicate 9 ⟨[1], [], 1, 0⟩ ++ List.replicate 9 ⟨[0], [], 1, 0⟩)
        SequenceWriter.configureTemporary (SequenceWriter.configure 100) 32
        ⟨0, 0⟩ = some (tw2, ow2, st2) ∧
      Buffer.collapse eqSequence 1 (Buffer.sort ltSequence 1
        (List.replicate 9 ⟨[1], [], 1, 0⟩ ++ List.replicate 9 ⟨[0], [], 1, 0⟩)) =
        some (buf, n) ∧
      ow1.records.map (fun r => (r.tag, r.overall)) =
        ow2.records.map (fun r => (r.tag, r.overall)) ∧
      ow1.records.map (fun r => (r.tag, r.overall)) =
        (buf.filter isAlive).map (fun r => (r.tag, r.overall)) :=
  budget_independent ⟨0, 0, 1⟩
    (List.replicate 9 ⟨[1], [], 1, 0⟩ ++ List.replicate 9 ⟨[0], [], 1, 0⟩) 100 16 32 ⟨0, 0⟩
    rfl rfl (by decide) (by decide) (by decide) (by decide)
    (fun s => lt_of_le_of_lt (tagCount_le_total s _) (by decide)) (by decide) (by decide)
    (by decide)

theorem idInv_switchSink (w : SequenceWriter) (acc : List SequenceRecord) (h : IdInv w acc) :
    IdInv w.switchSink acc := by
  obtain ⟨h1, h2, h3⟩ := h
  refine ⟨?_, ?_, h3⟩
  · simpa [SequenceWriter.switchSink] using h1
  · simpa [SequenceWriter.switchSink] using h2

theorem idInv_writeSingleEnd (validator : SequenceRecord → Bool) :
    ∀ (rs : List SequenceRecord) (w : SequenceWriter) (acc : List SequenceRecord), IdInv w acc →
      IdInv (SequenceWriter.writeSingleEnd_ validator w rs).1 (acc ++ rs.filter validator)
  | [], w, acc, h => by simpa [SequenceWriter.writeSingleEnd_] using h
  | r :: rs, w, acc, h => by
    unfold SequenceWriter.writeSingleEnd_
    by_cases hv : validator r = true
    · rw [if_pos hv]
      simp only
      have h1 : IdInv (if w.currentOutputRecords = w.maxOutputRecords then w.switchSink else w)
          acc := by
        split
        · exact idInv_switchSink w acc h
        · exact h
      generalize (if w.currentOutputRecords = w.maxOutputRecords then w.switchSink else w) = w1
        at h1 ⊢
      obtain ⟨a1, a2, a3⟩ := h1
      have h2 : IdInv { w1 with outputPaths := appendToLast (w1.currentSequenceId, r) w1.outputPaths,
                                 currentOutputRecords := w1.currentOutputRecords + 1,
                                 currentSequenceId := w1.currentSequenceId + 1 } (acc ++ [r]) := by
        refine ⟨?_, ?_, ?_⟩
        · simp only [appendToLast_flatten, List.map_append, a1, List.map_cons, List.map_nil]
        · simp only [appendToLast_flatten, List.map_append, a2, List.map_cons, List.map_nil, a3,
            List.length_append, List.length_singleton, List.range_succ]
        · simp only [a3, List.length_append, List.length_singleton]
      have h3 := idInv_writeSingleEnd validator rs _ _ h2
      have hf : (r :: rs).filter validator = r :: rs.filter validator := by
        simp [List.filter, hv]
      rw [hf]
      simpa [List.append_assoc] using h3
    · rw [if_neg hv]
      have hf : (r :: rs).filter validator = rs.filter validator := by
        simp [List.filter, hv]
      rw [hf]
      exact idInv_writeSingleEnd validator rs w acc h

theorem idInv_writeIf (validator : SequenceRecord → Bool) (w w1 : SequenceWriter) (k : Nat)
    (rs acc : List SequenceRecord) (h : IdInv w acc)
    (hw : w.writeIf validator rs = some (w1, k)) : IdInv w1 (acc ++ rs.filter validator) := by
  unfold SequenceWriter.writeIf at hw
  by_cases ho : w.isOpen = true
  · rw [if_pos ho] at hw
    have := congrArg Prod.fst (Option.some.inj hw)
    simp only at this
    rw [← this]
    exact idInv_writeSingleEnd validator rs w acc h
  · rw [if_neg ho] at hw
    cases rs with
    | nil => cases hw
    | cons r rs1 =>
      have := congrArg Prod.fst (Option.some.inj hw)
      simp only at this
      rw [← this]
      exact idInv_writeSingleEnd validator _ _ acc (idInv_switchSink w acc h)

theorem idInv_call (w w1 : SequenceWriter) (c : WriterCall) (acc : List SequenceRecord)
    (h : IdInv w acc) (hw : w.call c = some w1) : IdInv w1 (acc ++ c.accepted) := by
  cases c with
  | write records =>
    simp only [SequenceWriter.call, SequenceWriter.write, Option.map_eq_some'] at hw
    obtain ⟨p, hp, rfl⟩ := hw
    have := idInv_writeIf (fun _ => true) w p.1 p.2 records acc h hp
    simpa [WriterCall.accepted] using this
  | writeIf validator records =>
    simp only [SequenceWriter.call, Option.map_eq_some'] at hw
    obtain ⟨p, hp, rfl⟩ := hw
    exact idInv_writeIf validator w p.1 p.2 records acc h hp
  | switchSink =>
    simp only [SequenceWriter.call, Option.some.injEq] at hw
    subst hw
    simpa [WriterCall.accepted] using idInv_switchSink w acc h
  | flush =>
    simp only [SequenceWriter.call, SequenceWriter.flush] at hw
    split at hw
    · cases hw
    · cases hw
      simpa [WriterCall.accepted] using h

theorem idInv_calls :
    ∀ (calls : List WriterCall) (w w1 : SequenceWriter) (acc : List SequenceRecord), IdInv w acc →
      SequenceWriter.calls w calls = some w1 → IdInv w1 (acc ++ acceptedByCalls calls)
  | [], w, w1, acc, h, hw => by
    simp only [SequenceWriter.calls, Option.some.injEq] at hw
    subst hw
    simpa [acceptedByCalls] using h
  | c :: cs, w, w1, acc, h, hw => by
    unfold SequenceWriter.calls at hw
    cases hc : w.call c with
    | none => rw [hc] at hw; cases hw
    | some w2 =>
      rw [hc] at hw
      have := idInv_calls cs w2 w1 _ (idInv_call w w2 c acc h hc) hw
      simpa [acceptedByCalls, List.append_assoc] using this

theorem writeSingleEnd_open (validator : SequenceRecord → Bool) :
    ∀ (rs : List SequenceRecord) (w : SequenceWriter), w.isOpen = true → w.outputPaths ≠ [] →
      (SequenceWriter.writeSingleEnd_ validator w rs).1.isOpen = true ∧
      (SequenceWriter.writeSingleEnd_ validator w rs).1.outputPaths ≠ []
  | [], w, ho, hp => by simpa [SequenceWriter.writeSingleEnd_] using ⟨ho, hp⟩
  | r :: rs, w, ho, hp => by
    unfold SequenceWriter.writeSingleEnd_
    split
    · simp only
      apply writeSingleEnd_open validator rs
      · split <;> simp [SequenceWriter.switchSink, ho]
      · exact appendToLast_ne_nil _ _
    · exact writeSingleEnd_open validator rs w ho hp

/-- On a writer whose sink is open every call is defined and leaves the sink open. -/
theorem call_open (w : SequenceWriter) (c : WriterCall) (ho : w.isOpen = true)
    (hp : w.outputPaths ≠ []) :
    ∃ w1, w.call c = some w1 ∧ w1.isOpen = true ∧ w1.outputPaths ≠ [] := by
  cases c with
  | write records =>
    refine ⟨(SequenceWriter.writeSingleEnd_ (fun _ => true) w records).1, ?_,
      writeSingleEnd_open _ records w ho hp⟩
    simp [SequenceWriter.call, SequenceWriter.write, SequenceWriter.writeIf, ho]
  | writeIf validator records =>
    refine ⟨(SequenceWriter.writeSingleEnd_ validator w records).1, ?_,
      writeSingleEnd_open _ records w ho hp⟩
    simp [SequenceWriter.call, SequenceWriter.writeIf, ho]
  | switchSink =>
    exact ⟨w.switchSink, rfl, rfl, by simp [SequenceWriter.switchSink]⟩
  | flush =>
    cases hpp : w.outputPaths with
    | nil => exact absurd hpp hp
    | cons f fs =>
      refine ⟨{ w with isOpen := true }, ?_, rfl, ?_⟩
      · simp [SequenceWriter.call, SequenceWriter.flush, hpp]
      · simp [hpp]

theorem calls_open :
    ∀ (calls : List WriterCall) (w : SequenceWriter), w.isOpen = true → w.outputPaths ≠ [] →
      ∃ w1, SequenceWriter.calls w calls = some w1
  | [], w, _, _ => ⟨w, rfl⟩
  | c :: cs, w, ho, hp => by
    obtain ⟨w1, h1, h2, h3⟩ := call_open w c ho hp
    obtain ⟨w2, h4⟩ := calls_open cs w1 h2 h3
    exact ⟨w2, by unfold SequenceWriter.calls; rw [h1]; exact h4⟩

/-- A call that opens the sink is defined on a closed writer and leaves the sink
open. -/
theorem call_closed (w : SequenceWriter) (c : WriterCall) (ho : w.isOpen = false)
    (hc : c.opensSink = true) :
    ∃ w1, w.call c = some w1 ∧ w1.isOpen = true ∧ w1.outputPaths ≠ [] := by
  have hs : w.switchSink.isOpen = true ∧ w.switchSink.outputPaths ≠ [] :=
    ⟨rfl, by simp [SequenceWriter.switchSink]⟩
  cases c with
  | write records =>
    cases records with
    | nil => simp [WriterCall.opensSink] at hc
    | cons r rs =>
      refine ⟨(SequenceWriter.writeSingleEnd_ (fun _ => true) w.switchSink (r :: rs)).1, ?_,
        writeSingleEnd_open _ (r :: rs) w.switchSink hs.1 hs.2⟩
      simp [SequenceWriter.call, SequenceWriter.write, SequenceWriter.writeIf, ho]
  | writeIf validator records =>
    cases records with
    | nil => simp [WriterCall.opensSink] at hc
    | cons r rs =>
      refine ⟨(SequenceWriter.writeSingleEnd_ validator w.switchSink (r :: rs)).1, ?_,
        writeSingleEnd_open _ (r :: rs) w.switchSink hs.1 hs.2⟩
      simp [SequenceWriter.call, SequenceWriter.writeIf, ho]
  | switchSink => exact ⟨w.switchSink, rfl, hs.1, hs.2⟩
  | flush => simp [WriterCall.opensSink] at hc

theorem appendToLastPair_fst {α : Type} (x y : α) : ∀ (L : List (List α × List α)),
    ((appendToLastPair x y L).map (fun f => f.1)).flatten = (L.map (fun f => f.1)).flatten ++ [x]
  | [] => rfl
  | [f] => by simp [appendToLastPair]
  | f :: g :: fs => by
    have ih := appendToLastPair_fst x y (g :: fs)
    simp only [appendToLastPair, List.map_cons, List.flatten_cons] at ih ⊢
    rw [ih]
    simp

theorem appendToLastPair_snd {α : Type} (x y : α) : ∀ (L : List (List α × List α)),
    ((appendToLastPair x y L).map (fun f => f.2)).flatten = (L.map (fun f => f.2)).flatten ++ [y]
  | [] => rfl
  | [f] => by simp [appendToLastPair]
  | f :: g :: fs => by
    have ih := appendToLastPair_snd x y (g :: fs)
    simp only [appendToLastPair, List.map_cons, List.flatten_cons] at ih ⊢
    rw [ih]
    simp

theorem appendToLastPair_ne_nil {α : Type} (x y : α) : ∀ (L : List (List α × List α)),
    appendToLastPair x y L ≠ []
  | [] => by simp [appendToLastPair]
  | [f] => by simp [appendToLastPair]
  | f :: g :: fs => by simp [appendToLastPair]

theorem pairedIdInv_switchSink (w : PairedWriter) (acc : List SequenceRecord)
    (h : PairedIdInv w acc) : PairedIdInv w.switchSink acc := by
  have e1 : w.switchSink.mates1 = w.mates1 := by
    simp [PairedWriter.mates1, PairedWriter.switchSink]
  have e2 : w.switchSink.mates2 = w.mates2 := by
    simp [PairedWriter.mates2, PairedWriter.switchSink]
  unfold PairedIdInv
  rw [e1, e2]
  exact h

theorem pairedIdInv_put (w : PairedWriter) (acc : List SequenceRecord) (r : SequenceRecord)
    (mates : FastxOut × FastxOut) (h : PairedIdInv w acc)
    (hm : r.writePaired w.currentSequenceId = some mates) :
    PairedIdInv (w.put mates) (acc ++ [r]) := by
  obtain ⟨a1, a2, a3, a4⟩ := h
  have g1 : (w.put mates).mates1 = w.mates1 ++ [(w.currentSequenceId, mates.1)] := by
    unfold PairedWriter.mates1 PairedWriter.put
    exact appendToLastPair_fst _ _ _
  have g2 : (w.put mates).mates2 = w.mates2 ++ [(w.currentSequenceId, mates.2)] := by
    unfold PairedWriter.mates2 PairedWriter.put
    exact appendToLastPair_snd _ _ _
  have g3 : (w.put mates).currentSequenceId = w.currentSequenceId + 1 := rfl
  refine ⟨?_, ?_, ?_, ?_⟩
  · rw [g1]
    simp [a1]
  · rw [g2]
    simp [a2]
  · rw [g3]
    simp [a3]
  · intro i x hi
    rw [g1, g2]
    by_cases hlt : i < acc.length
    · rw [List.getElem?_append_left hlt] at hi
      obtain ⟨m1, m2, b1, b2, b3⟩ := a4 i x hi
      refine ⟨m1, m2, b1, ?_, ?_⟩
      · rw [List.getElem?_append_left (by omega)]
        exact b2
      · rw [List.getElem?_append_left (by omega)]
        exact b3
    · have hi2 : i = acc.length := by
        by_contra hne
        rw [List.getElem?_eq_none (by simp; omega)] at hi
        cases hi
      subst hi2
      rw [List.getElem?_append_right (le_refl _)] at hi
      simp only [Nat.sub_self, List.getElem?_cons_zero, Option.some.injEq] at hi
      subst hi
      rw [a3] at hm
      refine ⟨mates.1, mates.2, hm, ?_, ?_⟩
      · rw [List.getElem?_append_right (by omega), a1, a3]
        simp
      · rw [List.getElem?_append_right (by omega), a2, a3]
        simp

theorem pairedIdInv_writePairedEnd (validator : SequenceRecord → Bool) :
    ∀ (rs : List SequenceRecord) (w w1 : PairedWriter) (k : Nat) (acc : List SequenceRecord),
      PairedIdInv w acc → PairedWriter.writePairedEnd_ validator w rs = some (w1, k) →
      PairedIdInv w1 (acc ++ rs.filter validator)
  | [], w, w1, k, acc, h, hw => by
    simp only [PairedWriter.writePairedEnd_, Option.some.injEq, Prod.mk.injEq] at hw
    rw [← hw.1]
    simpa using h
  | r :: rs, w, w1, k, acc, h, hw => by
    unfold PairedWriter.writePairedEnd_ at hw
    by_cases hv : validator r = true
    · rw [if_pos hv] at hw
      simp only at hw
      have h1 : PairedIdInv
          (if w.currentOutputRecords = w.maxOutputRecords then w.switchSink else w) acc := by
        split
        · exact pairedIdInv_switchSink w acc h
        · exact h
      generalize (if w.currentOutputRecords = w.maxOutputRecords then w.switchSink else w) = w0
        at h1 hw
      cases hm : r.writePaired w0.currentSequenceId with
      | none => simp [hm] at hw
      | some mates =>
        simp only [hm] at hw
        have h2 := pairedIdInv_put w0 acc r mates h1 hm
        cases hrec : PairedWriter.writePairedEnd_ validator (w0.put mates) rs with
        | none => simp [hrec] at hw
        | some res =>
          simp only [hrec, Option.some.injEq, Prod.mk.injEq] at hw
          have h3 := pairedIdInv_writePairedEnd validator rs _ res.1 res.2 _ h2 hrec
          have hf : (r :: rs).filter validator = r :: rs.filter validator := by
            simp [List.filter, hv]
          rw [hf, ← hw.1]
          simpa [List.append_assoc] using h3
    · rw [if_neg hv] at hw
      have hf : (r :: rs).filter validator = rs.filter validator := by
        simp [List.filter, hv]
      rw [hf]
      exact pairedIdInv_writePairedEnd validator rs w w1 k acc h hw

theorem pairedIdInv_writeIf (validator : SequenceRecord → Bool) (w w1 : PairedWriter) (k : Nat)
    (rs acc : List SequenceRecord) (h : PairedIdInv w acc)
    (hw : w.writeIf validator rs = some (w1, k)) :
    PairedIdInv w1 (acc ++ rs.filter validator) := by
  unfold PairedWriter.writeIf at hw
  by_cases ho : w.isOpen = true
  · rw [if_pos ho] at hw
    exact pairedIdInv_writePairedEnd validator rs w w1 k acc h hw
  · rw [if_neg ho] at hw
    cases rs with
    | nil => cases hw
    | cons r rs1 =>
      exact pairedIdInv_writePairedEnd validator _ _ w1 k acc
        (pairedIdInv_switchSink w acc h) hw

theorem pairedIdInv_call (w w1 : PairedWriter) (c : WriterCall) (acc : List SequenceRecord)
    (h : PairedIdInv w acc) (hw : w.call c = some w1) : PairedIdInv w1 (acc ++ c.accepted) := by
  cases c with
  | write records =>
    simp only [PairedWriter.call, PairedWriter.write, Option.map_eq_some'] at hw
    obtain ⟨p, hp, rfl⟩ := hw
    have := pairedIdInv_writeIf (fun _ => true) w p.1 p.2 records acc h hp
    simpa [WriterCall.accepted] using this
  | writeIf validator records =>
    simp only [PairedWriter.call, Option.map_eq_some'] at hw
    obtain ⟨p, hp, rfl⟩ := hw
    exact pairedIdInv_writeIf validator w p.1 p.2 records acc h hp
  | switchSink =>
    simp only [PairedWriter.call, Option.some.injEq] at hw
    subst hw
    simpa [WriterCall.accepted] using pairedIdInv_switchSink w acc h
  | flush =>
    simp only [PairedWriter.call, PairedWriter.flush] at hw
    split at hw
    · cases hw
    · cases hw
      simpa [WriterCall.accepted] using h

theorem pairedIdInv_calls :
    ∀ (calls : List WriterCall) (w w1 : PairedWriter) (acc : List SequenceRecord),
      PairedIdInv w acc → PairedWriter.calls w calls = some w1 →
      PairedIdInv w1 (acc ++ acceptedByCalls calls)
  | [], w, w1, acc, h, hw => by
    simp only [PairedWriter.calls, Option.some.injEq] at hw
    subst hw
    simpa [acceptedByCalls] using h
  | c :: cs, w, w1, acc, h, hw => by
    unfold PairedWriter.calls at hw
    cases hc : w.call c with
    | none => rw [hc] at hw; cases hw
    | some w2 =>
      rw [hc] at hw
      have := pairedIdInv_calls cs w2 w1 _ (pairedIdInv_call w w2 c acc h hc) hw
      simpa [acceptedByCalls, List.append_assoc] using this

/-- The identifiers a list of written mates carries are `0, 1, ...` when the `i`-th
entry carries the identifier `i`. -/
theorem ids_range (l : List (Nat × FastxOut)) (n : Nat) (hl : l.length = n)
    (h : ∀ i, i < n → ∃ m, l[i]? = some (i, m)) : l.map (fun p => p.1) = List.range n := by
  apply List.ext_getElem?
  intro i
  by_cases hi : i < n
  · obtain ⟨m, hm⟩ := h i hi
    rw [List.getElem?_map, hm, List.getElem?_range hi]
    rfl
  · rw [List.getElem?_eq_none (by simp; omega), List.getElem?_eq_none (by simp; omega)]

theorem writePaired_isSome (r : SequenceRecord) (id : Nat) (h : r.splittable) :
    ∃ m, r.writePaired id = some m := by
  obtain ⟨h1, h2⟩ := h
  unfold SequenceRecord.writePaired
  simp only [prefixOf, suffixOf, if_pos h1]
  by_cases hq : r.qual.length = 0
  · simp [hq]
  · have h3 : r.bpOffset ≤ r.qual.length := by
      rcases h2 with h2 | h2
      · exact absurd h2 hq
      · exact h2
    simp [hq, h3]

theorem writePairedEnd_open (validator : SequenceRecord → Bool) :
    ∀ (rs : List SequenceRecord) (w : PairedWriter), w.isOpen = true → w.outputPaths ≠ [] →
      (∀ r ∈ rs.filter validator, r.splittable) →
      ∃ w1 k, PairedWriter.writePairedEnd_ validator w rs = some (w1, k) ∧
        w1.isOpen = true ∧ w1.outputPaths ≠ []
  | [], w, ho, hp, _ => ⟨w, 0, rfl, ho, hp⟩
  | r :: rs, w, ho, hp, hs => by
    unfold PairedWriter.writePairedEnd_
    by_cases hv : validator r = true
    · rw [if_pos hv]
      simp only
      have hf : (r :: rs).filter validator = r :: rs.filter validator := by
        simp [List.filter, hv]
      rw [hf] at hs
      have ho1 : (if w.currentOutputRecords = w.maxOutputRecords then w.switchSink
          else w).isOpen = true := by
        split <;> simp [PairedWriter.switchSink, ho]
      generalize (if w.currentOutputRecords = w.maxOutputRecords then w.switchSink else w) = w0
        at ho1 ⊢
      obtain ⟨m, hm⟩ := writePaired_isSome r w0.currentSequenceId (hs r (by simp))
      rw [hm]
      simp only
      obtain ⟨w1, k, e1, e2, e3⟩ := writePairedEnd_open validator rs (w0.put m)
        (by simpa [PairedWriter.put] using ho1)
        (by
          unfold PairedWriter.put
          exact appendToLastPair_ne_nil _ _ _)
        (fun x hx => hs x (List.mem_cons_of_mem _ hx))
      rw [e1]
      exact ⟨w1, k + 1, rfl, e2, e3⟩
    · rw [if_neg hv]
      have hf : (r :: rs).filter validator = rs.filter validator := by
        simp [List.filter, hv]
      rw [hf] at hs
      exact writePairedEnd_open validator rs w ho hp hs

/-- On a paired-end writer whose sinks are open every call that accepts only records
that can be split is defined and leaves the sinks open. -/
theorem paired_call_open (w : PairedWriter) (c : WriterCall) (ho : w.isOpen = true)
    (hp : w.outputPaths ≠ []) (hs : ∀ r ∈ c.accepted, r.splittable) :
    ∃ w1, w.call c = some w1 ∧ w1.isOpen = true ∧ w1.outputPaths ≠ [] := by
  cases c with
  | write records =>
    obtain ⟨w1, k, e1, e2, e3⟩ := writePairedEnd_open (fun _ => true) records w ho hp
      (by simpa [WriterCall.accepted] using hs)
    exact ⟨w1, by simp [PairedWriter.call, PairedWriter.write, PairedWriter.writeIf, ho, e1],
      e2, e3⟩
  | writeIf validator records =>
    obtain ⟨w1, k, e1, e2, e3⟩ := writePairedEnd_open validator records w ho hp hs
    exact ⟨w1, by simp [PairedWriter.call, PairedWriter.writeIf, ho, e1], e2, e3⟩
  | switchSink =>
    exact ⟨w.switchSink, rfl, rfl, by simp [PairedWriter.switchSink]⟩
  | flush =>
    cases hpp : w.outputPaths with
    | nil => exact absurd hpp hp
    | cons f fs =>
      refine ⟨{ w with isOpen := true }, ?_, rfl, ?_⟩
      · simp [PairedWriter.call, PairedWriter.flush, hpp]
      · simp [hpp]

theorem paired_calls_open :
    ∀ (calls : List WriterCall) (w : PairedWriter), w.isOpen = true → w.outputPaths ≠ [] →
      (∀ r ∈ acceptedByCalls calls, r.splittable) →
      ∃ w1, PairedWriter.calls w calls = some w1
  | [], w, _, _, _ => ⟨w, rfl⟩
  | c :: cs, w, ho, hp, hs => by
    have hs1 : ∀ r ∈ c.accepted, r.splittable := fun r hr =>
      hs r (by simp [acceptedByCalls, hr])
    have hs2 : ∀ r ∈ acceptedByCalls cs, r.splittable := fun r hr =>
      hs r (by
        simp only [acceptedByCalls, List.map_cons, List.flatten_cons, List.mem_append]
        exact Or.inr hr)
    obtain ⟨w1, h1, h2, h3⟩ := paired_call_open w c ho hp hs1
    obtain ⟨w2, h4⟩ := paired_calls_open cs w1 h2 h3 hs2
    exact ⟨w2, by unfold PairedWriter.calls; rw [h1]; exact h4⟩

/-- A call that opens the sinks and accepts only records that can be split is defined
on a closed paired-end writer and leaves the sinks open. -/
theorem paired_call_closed (w : PairedWriter) (c : WriterCall) (ho : w.isOpen = false)
    (hc : c.opensSink = true) (hs : ∀ r ∈ c.accepted, r.splittable) :
    ∃ w1, w.call c = some w1 ∧ w1.isOpen = true ∧ w1.outputPaths ≠ [] := by
  have hsw : w.switchSink.isOpen = true ∧ w.switchSink.outputPaths ≠ [] :=
    ⟨rfl, by simp [PairedWriter.switchSink]⟩
  cases c with
  | write records =>
    cases records with
    | nil => simp [WriterCall.opensSink] at hc
    | cons r rs =>
      obtain ⟨w1, k, e1, e2, e3⟩ := writePairedEnd_open (fun _ => true) (r :: rs) w.switchSink
        hsw.1 hsw.2 (by simpa [WriterCall.accepted] using hs)
      exact ⟨w1, by simp [PairedWriter.call, PairedWriter.write, PairedWriter.writeIf, ho, e1],
        e2, e3⟩
  | writeIf validator records =>
    cases records with
    | nil => simp [WriterCall.opensSink] at hc
    | cons r rs =>
      obtain ⟨w1, k, e1, e2, e3⟩ := writePairedEnd_open validator (r :: rs) w.switchSink
        hsw.1 hsw.2 hs
      exact ⟨w1, by simp [PairedWriter.call, PairedWriter.writeIf, ho, e1], e2, e3⟩
  | switchSink => exact ⟨w.switchSink, rfl, hsw.1, hsw.2⟩
  | flush => simp [WriterCall.opensSink] at hc

/-- C39. Sequence identifiers are unique and consecutive across shards, in both
layouts. For a writer after `configure` and every sequence of calls of `write`,
`writeIf`, `switchSink` and `flush` that the writer reaches the end of: with the
single-end layout (`writeSingleEnd_`) the records in its files, read file after file,
are the records accepted for writing, in order, and the `i`-th of them (counted from 0
over all files) carries the identifier `i`, so no two records share an identifier;
with the paired-end layout (`writePairedEnd_`) the `i`-th accepted record is split by
`write (sinkMate1_, sinkMate2_, i)`, its two mates are the `i`-th entries of the files
of the first and of the second mates and carry the identifier `i`, so the identifiers
on either sink are `0, 1, ...` without repetition; `switchSink` resets the counter of
the records of the file and leaves the identifier alone. The end is reached by every
sequence of calls whose first call opens the sink, that is `switchSink` or a `write`
or `writeIf` on a range that is not empty; with the paired-end layout the accepted
records must have their offset within the sequence and the qualities. -/
theorem ids_consecutive (K : Nat) (calls : List WriterCall) :
    (∀ w, (SequenceWriter.configure K).calls calls = some w →
      w.outputPaths.flatten.map (fun p => p.2) = acceptedByCalls calls ∧
      (∀ (i : Nat) (r : SequenceRecord), (acceptedByCalls calls)[i]? = some r →
        w.outputPaths.flatten[i]? = some (i, r)) ∧
      (w.outputPaths.flatten.map (fun p => p.1)).Nodup ∧
      w.currentSequenceId = (acceptedByCalls calls).length) ∧
    ((∀ c ∈ calls.head?, c.opensSink = true) →
      ∃ w, (SequenceWriter.configure K).calls calls = some w) ∧
    (∀ w : SequenceWriter, w.switchSink.currentSequenceId = w.currentSequenceId ∧
      w.switchSink.currentOutputRecords = 0) ∧
    (∀ w, (PairedWriter.configure K).calls calls = some w →
      (∀ (i : Nat) (r : SequenceRecord), (acceptedByCalls calls)[i]? = some r →
        ∃ m1 m2, r.writePaired i = some (m1, m2) ∧ w.mates1[i]? = some (i, m1) ∧
          w.mates2[i]? = some (i, m2)) ∧
      w.mates1.map (fun p => p.1) = List.range (acceptedByCalls calls).length ∧
      w.mates2.map (fun p => p.1) = List.range (acceptedByCalls calls).length ∧
      (w.mates1.map (fun p => p.1)).Nodup ∧ (w.mates2.map (fun p => p.1)).Nodup ∧
      w.currentSequenceId = (acceptedByCalls calls).length) ∧
    ((∀ c ∈ calls.head?, c.opensSink = true) →
      (∀ r ∈ acceptedByCalls calls, r.splittable) →
      ∃ w, (PairedWriter.configure K).calls calls = some w) ∧
    (∀ w : PairedWriter, w.switchSink.currentSequenceId = w.currentSequenceId ∧
      w.switchSink.currentOutputRecords = 0) := by
  refine ⟨?_, ?_, fun w => ⟨rfl, rfl⟩, ?_, ?_, fun w => ⟨rfl, rfl⟩⟩
  · intro w hw
    have h0 : IdInv (SequenceWriter.configure K) [] := ⟨rfl, rfl, rfl⟩
    obtain ⟨h1, h2, h3⟩ := idInv_calls calls _ w [] h0 hw
    simp only [List.nil_append] at h1 h2 h3
    refine ⟨h1, ?_, ?_, h3⟩
    · intro i r hi
      have hlt : i < (acceptedByCalls calls).length := by
        by_contra hc
        rw [List.getElem?_eq_none (by omega)] at hi
        cases hi
      have hlen : (List.flatten w.outputPaths).length = (acceptedByCalls calls).length := by
        rw [← h1, List.length_map]
      have hi2 : i < (List.flatten w.outputPaths).length := by omega
      rw [List.getElem?_eq_getElem hi2]
      have e1 : ((List.flatten w.outputPaths).map (fun p => p.1))[i]? = some i := by
        rw [h2, List.getElem?_range hlt]
      have e2 : ((List.flatten w.outputPaths).map (fun p => p.2))[i]? = some r := by
        rw [h1, hi]
      rw [List.getElem?_map, List.getElem?_eq_getElem hi2] at e1 e2
      simp only [Option.map_some', Option.some.injEq] at e1 e2
      exact congrArg some (Prod.ext e1 e2)
    · rw [h2]
      exact List.nodup_range _
  · intro hfirst
    cases calls with
    | nil => exact ⟨_, rfl⟩
    | cons c cs =>
      obtain ⟨w1, h1, h2, h3⟩ := call_closed (SequenceWriter.configure K) c rfl
        (hfirst c (by simp))
      obtain ⟨w2, h4⟩ := calls_open cs w1 h2 h3
      exact ⟨w2, by unfold SequenceWriter.calls; rw [h1]; exact h4⟩
  · intro w hw
    have h0 : PairedIdInv (PairedWriter.configure K) [] :=
      ⟨rfl, rfl, rfl, fun i r hi => by simp at hi⟩
    obtain ⟨h1, h2, h3, h4⟩ := pairedIdInv_calls calls _ w [] h0 hw
    simp only [List.nil_append] at h1 h2 h3 h4
    have hex : ∀ i, i < (acceptedByCalls calls).length →
        (∃ m, w.mates1[i]? = some (i, m)) ∧ ∃ m, w.mates2[i]? = some (i, m) := by
      intro i hi
      obtain ⟨m1, m2, -, b2, b3⟩ := h4 i _ (List.getElem?_eq_getElem hi)
      exact ⟨⟨m1, b2⟩, ⟨m2, b3⟩⟩
    have r1 := ids_range w.mates1 _ h1 (fun i hi => (hex i hi).1)
    have r2 := ids_range w.mates2 _ h2 (fun i hi => (hex i hi).2)
    refine ⟨h4, r1, r2, ?_, ?_, h3⟩
    · rw [r1]
      exact List.nodup_range _
    · rw [r2]
      exact List.nodup_range _
  · intro hfirst hs
    cases calls with
    | nil => exact ⟨_, rfl⟩
    | cons c cs =>
      have hs1 : ∀ r ∈ c.accepted, r.splittable := fun r hr =>
        hs r (by simp [acceptedByCalls, hr])
      have hs2 : ∀ r ∈ acceptedByCalls cs, r.splittable := fun r hr =>
        hs r (by
          simp only [acceptedByCalls, List.map_cons, List.flatten_cons, List.mem_append]
          exact Or.inr hr)
      obtain ⟨w1, h1, h2, h3⟩ := paired_call_closed (PairedWriter.configure K) c rfl
        (hfirst c (by simp)) hs1
      obtain ⟨w2, h4⟩ := paired_calls_open cs w1 h2 h3 hs2
      exact ⟨w2, by unfold PairedWriter.calls; rw [h1]; exact h4⟩

theorem ids_consecutive_witness :
    (∀ w, (SequenceWriter.configure 2).calls
        [WriterCall.write [⟨[0], [], 1, 0⟩, ⟨[1], [], 1, 0⟩, ⟨[2], [], 1, 0⟩],
          WriterCall.switchSink, WriterCall.flush,
          WriterCall.writeIf isAlive [⟨[3], [], 0, 0⟩, ⟨[4], [], 1, 0⟩]] = some w →
      w.outputPaths.flatten.map (fun p => p.1) = [0, 1, 2, 3]) ∧
    (∃ w, (SequenceWriter.configure 2).calls
        [WriterCall.write [⟨[0], [], 1, 0⟩, ⟨[1], [], 1, 0⟩, ⟨[2], [], 1, 0⟩],
          WriterCall.switchSink, WriterCall.flush,
          WriterCall.writeIf isAlive [⟨[3], [], 0, 0⟩, ⟨[4], [], 1, 0⟩]] = some w) ∧
    ∃ w, (PairedWriter.configure 2).calls
        [WriterCall.write [⟨[0], [], 1, 0⟩, ⟨[1], [], 1, 0⟩, ⟨[2], [], 1, 0⟩],
          WriterCall.switchSink, WriterCall.flush,
          WriterCall.writeIf isAlive [⟨[3], [], 0, 0⟩, ⟨[4], [], 1, 0⟩]] = some w := by
  have h := ids_consecutive 2
    [WriterCall.write [⟨[0], [], 1, 0⟩, ⟨[1], [], 1, 0⟩, ⟨[2], [], 1, 0⟩],
      WriterCall.switchSink, WriterCall.flush,
      WriterCall.writeIf isAlive [⟨[3], [], 0, 0⟩, ⟨[4], [], 1, 0⟩]]
  refine ⟨?_, h.2.1 (by intro c hc; simp at hc; subst hc; rfl),
    h.2.2.2.2.1 (by intro c hc; simp at hc; subst hc; rfl) ?_⟩
  · intro w hw
    simp only [SequenceWriter.calls, SequenceWriter.call, SequenceWriter.write,
      SequenceWriter.writeIf] at hw
    cases hw
    rfl
  · intro r hr
    simp only [acceptedByCalls, WriterCall.accepted, List.map_cons, List.map_nil,
      List.flatten_cons, List.flatten_nil, List.append_nil, List.nil_append] at hr
    have hr2 : r ∈ [(⟨[0], [], 1, 0⟩ : SequenceRecord), ⟨[1], [], 1, 0⟩, ⟨[2], [], 1, 0⟩,
        ⟨[4], [], 1, 0⟩] := by simpa [isAlive] using hr
    simp only [List.mem_cons, List.mem_singleton, List.not_mem_nil, or_false] at hr2
    rcases hr2 with rfl | rfl | rfl | rfl <;> exact ⟨by decide, Or.inl rfl⟩

theorem totalCount_replicate (n : Nat) (r : SequenceRecord) :
    totalCount (List.replicate n r) = n * r.overall := by
  induction n with
  | zero => simp [totalCount]
  | succ k ih =>
    rw [List.replicate_succ, totalCount_cons, ih]
    ring

/-- The loop of `collapseBufferRange_` over records that all equal the base record:
they all become followers. -/
theorem collapseLoop_replicate (r : SequenceRecord) :
    ∀ (j : Nat) (fol : List SequenceRecord) (ip : Bool),
      collapseLoop eqSequence [] r fol ip 1 (List.replicate (j + 1) r) =
        (SequenceRecord.mergeRange (r :: (fol ++ List.replicate (j + 1) r))).map
          (fun run => (run, 0, 1))
  | 0, fol, ip => by
    simp [collapseLoop, eqSequence]
  | j + 1, fol, ip => by
    rw [List.replicate_succ, collapseLoop]
    simp only [eqSequence, decide_True, if_true]
    rw [collapseLoop_replicate r j (fol ++ [r]) true]
    simp [List.replicate_succ, List.append_assoc]

/-- Private `collapseBufferRange_` on `k + 2` copies of a record without qualities and
with count 1: the first copy gets the count `k + 2`, the others the count 0. -/
theorem collapseBufferRange_replicate (s : List Nat) (b k : Nat) (hk : k + 2 < 2 ^ 32) :
    collapseBufferRange_ eqSequence (List.replicate (k + 2) ⟨s, [], 1, b⟩) =
      some (⟨s, [], k + 2, b⟩ :: List.replicate (k + 1) ⟨s, [], 0, b⟩, 0, 1) := by
  rw [List.replicate_succ, collapseBufferRange_, collapseLoop_replicate]
  simp only [List.nil_append]
  obtain ⟨l', hl⟩ := mergeRange_isSome ⟨s, [], 1, b⟩ (List.replicate (k + 1) ⟨s, [], 1, b⟩)
    (by intro x hx; rw [List.eq_of_mem_replicate hx]) (Or.inr rfl)
  obtain ⟨q, hq, hshape⟩ := mergeRange_shape _ _ _ hl
  rw [hl, hshape]
  have hq0 : q = [] := List.length_eq_zero.1 hq
  have htot : totalCount ((⟨s, [], 1, b⟩ : SequenceRecord) ::
      List.replicate (k + 1) ⟨s, [], 1, b⟩) % counterMod = k + 2 := by
    rw [← List.replicate_succ, totalCount_replicate]
    simp only [Nat.mul_one]
    exact Nat.mod_eq_of_lt (by unfold counterMod; omega)
  rw [hq0, htot, List.map_replicate]
  rfl

theorem getElem?_at_length {α : Type} (A B : List α) (x : α) :
    (A ++ x :: B)[A.length]? = some x := by
  rw [List.getElem?_append_right (le_refl _)]
  simp

theorem set_at_length {α : Type} (A B : List α) (x y : α) :
    (A ++ x :: B).set A.length y = A ++ y :: B := by
  induction A with
  | nil => rfl
  | cons a A ih => simp [ih]

theorem modify_at_length {α : Type} (f : α → α) (A B : List α) (x : α) :
    (A ++ x :: B).modify f A.length = A ++ f x :: B := by
  induction A with
  | nil => rfl
  | cons a A ih => simp [ih]

/-- The in-place pairwise merge of the records at the positions `A.length` and
`A.length + 1 + B.length`, both without qualities. -/
theorem mergeAt_split (A B C : List SequenceRecord) (x y : SequenceRecord) (i j : Nat)
    (hi : i = A.length) (hj : j = A.length + 1 + B.length) (hx : x.qual = []) :
    mergeAt (A ++ x :: (B ++ y :: C)) i j =
      some (A ++ { x with overall := (x.overall + y.overall) % counterMod } ::
        (B ++ { y with overall := 0 } :: C)) := by
  subst hi hj
  have h1 : (A ++ x :: (B ++ y :: C))[A.length]? = some x := getElem?_at_length A _ x
  have e : A ++ x :: (B ++ y :: C) = (A ++ x :: B) ++ y :: C := by simp
  have hl : (A ++ x :: B).length = A.length + 1 + B.length := by
    simp only [List.length_append, List.length_cons]
    omega
  have h2 : (A ++ x :: (B ++ y :: C))[A.length + 1 + B.length]? = some y := by
    rw [e, ← hl]
    exact getElem?_at_length _ C y
  unfold mergeAt
  rw [h1, h2]
  simp only [SequenceRecord.merge, hx, mergeQual]
  rw [set_at_length]
  have e2 : A ++ { x with qual := [], overall := (x.overall + y.overall) % counterMod } ::
      (B ++ y :: C) =
      (A ++ { x with qual := [], overall := (x.overall + y.overall) % counterMod } :: B) ++
        y :: C := by simp
  have hl2 : (A ++ { x with qual := [], overall := (x.overall + y.overall) % counterMod } ::
      B).length = A.length + 1 + B.length := by
    simp only [List.length_append, List.length_cons]
    omega
  rw [e2, ← hl2, modify_at_length]
  have hxx : ({ x with qual := [], overall := (x.overall + y.overall) % counterMod } :
      SequenceRecord) = { x with overall := (x.overall + y.overall) % counterMod } := by
    cases x
    simp only at hx
    subst hx
    rfl
  rw [hxx]
  simp

/-- Private `collapseRangeMT_` with three threads on `3 (k + 2)` copies of a record
without qualities and with count 1: every region collapses to a leader with count `k +
2`; the first stitch adds the second leader to the first, the second stitch adds the
third leader to the second, which the first stitch had set to 0. Two records are left
alive. -/
theorem collapseRangeMT_replicate (s : List Nat) (b k : Nat) (hk : 3 * (k + 2) < 2 ^ 32) :
    collapseRangeMT_ eqSequence 3 (List.replicate (3 * (k + 2)) ⟨s, [], 1, b⟩) =
      some ((⟨s, [], 2 * (k + 2), b⟩ :: List.replicate (k + 1) ⟨s, [], 0, b⟩) ++
        (⟨s, [], k + 2, b⟩ :: List.replicate (k + 1) ⟨s, [], 0, b⟩) ++
        (⟨s, [], 0, b⟩ :: List.replicate (k + 1) ⟨s, [], 0, b⟩), 1) := by
  have hlen : (List.replicate (3 * (k + 2)) (⟨s, [], 1, b⟩ : SequenceRecord)).length =
      3 * (k + 2) := List.length_replicate _ _
  have hdiv : 3 * (k + 2) / (2 + 1) = k + 2 := by omega
  have hchunks : chunksOf (k + 2) 2 (List.replicate (3 * (k + 2)) (⟨s, [], 1, b⟩ : SequenceRecord))
      = [List.replicate (k + 2) ⟨s, [], 1, b⟩, List.replicate (k + 2) ⟨s, [], 1, b⟩,
        List.replicate (k + 2) ⟨s, [], 1, b⟩] := by
    simp only [chunksOf, List.take_replicate, List.drop_replicate]
    have e1 : min (k + 2) (3 * (k + 2)) = k + 2 := by omega
    have e2 : min (k + 2) (3 * (k + 2) - (k + 2)) = k + 2 := by omega
    have e3 : 3 * (k + 2) - (k + 2) - (k + 2) = k + 2 := by omega
    rw [e1, e2, e3]
  have hbounds : setBufferBounds_ (3 * (k + 2)) 3 =
      boundsOf 0 [List.replicate (k + 2) (⟨s, [], 1, b⟩ : SequenceRecord),
        List.replicate (k + 2) ⟨s, [], 1, b⟩, List.replicate (k + 2) ⟨s, [], 1, b⟩] := by
    have := setBufferBounds_eq (List.replicate (3 * (k + 2)) (⟨s, [], 1, b⟩ : SequenceRecord)) 2
    rw [hlen, hdiv, hchunks] at this
    exact this
  have hflat : List.replicate (3 * (k + 2)) (⟨s, [], 1, b⟩ : SequenceRecord) =
      ([] : List SequenceRecord) ++
        [List.replicate (k + 2) (⟨s, [], 1, b⟩ : SequenceRecord),
          List.replicate (k + 2) ⟨s, [], 1, b⟩, List.replicate (k + 2) ⟨s, [], 1, b⟩].flatten := by
    rw [← hchunks, flatten_chunksOf]
    rfl
  have hcol := collapseBufferRange_replicate s b k (by omega)
  unfold collapseRangeMT_
  simp only [hlen]
  rw [hbounds]
  have hreg := collapseRegions_chunks eqSequence
    [List.replicate (k + 2) (⟨s, [], 1, b⟩ : SequenceRecord),
      List.replicate (k + 2) ⟨s, [], 1, b⟩, List.replicate (k + 2) ⟨s, [], 1, b⟩] []
  rw [← hflat] at hreg
  simp only [List.length_nil] at hreg
  rw [hreg]
  simp only [collapseChunks, hcol, Option.map_some', metaOf, boundsOf, List.map_cons,
    List.map_nil, List.length_cons, List.length_replicate, List.sum_cons, List.sum_nil,
    List.take, List.drop, List.flatten_cons, List.flatten_nil, List.nil_append,
    List.append_nil, Nat.zero_add, Nat.add_zero]
  generalize hZ : List.replicate (k + 1) (⟨s, [], 0, b⟩ : SequenceRecord) = Z
  have hZl : Z.length = k + 1 := by rw [← hZ]; simp
  have e0 : (⟨s, [], k + 2, b⟩ : SequenceRecord) :: Z ++ (⟨s, [], k + 2, b⟩ :: Z ++
      ⟨s, [], k + 2, b⟩ :: Z) =
      [] ++ ⟨s, [], k + 2, b⟩ :: (Z ++ ⟨s, [], k + 2, b⟩ :: (Z ++ ⟨s, [], k + 2, b⟩ :: Z)) := by
    simp
  have g1 : ([] ++ (⟨s, [], k + 2, b⟩ : SequenceRecord) ::
      (Z ++ ⟨s, [], k + 2, b⟩ :: (Z ++ ⟨s, [], k + 2, b⟩ :: Z)))[0]? =
      some ⟨s, [], k + 2, b⟩ := by simp
  have g2 : ([] ++ (⟨s, [], k + 2, b⟩ : SequenceRecord) ::
      (Z ++ ⟨s, [], k + 2, b⟩ :: (Z ++ ⟨s, [], k + 2, b⟩ :: Z)))[k + 2]? =
      some ⟨s, [], k + 2, b⟩ := by
    have := getElem?_at_length ((⟨s, [], k + 2, b⟩ : SequenceRecord) :: Z)
      (Z ++ ⟨s, [], k + 2, b⟩ :: Z) ⟨s, [], k + 2, b⟩
    rw [List.length_cons, hZl] at this
    simpa using this
  have m1 := mergeAt_split [] Z (Z ++ (⟨s, [], k + 2, b⟩ : SequenceRecord) :: Z)
    ⟨s, [], k + 2, b⟩ ⟨s, [], k + 2, b⟩ 0 (k + 2) rfl
    (by simp only [List.length_nil, hZl]; omega) rfl
  have hmod1 : (k + 2 + (k + 2)) % counterMod = 2 * (k + 2) := by
    rw [Nat.mod_eq_of_lt (by unfold counterMod; omega)]
    omega
  simp only [hmod1] at m1
  have e1 : [] ++ (⟨s, [], 2 * (k + 2), b⟩ : SequenceRecord) ::
      (Z ++ ⟨s, [], 0, b⟩ :: (Z ++ ⟨s, [], k + 2, b⟩ :: Z)) =
      ((⟨s, [], 2 * (k + 2), b⟩ : SequenceRecord) :: Z) ++
        ⟨s, [], 0, b⟩ :: (Z ++ ⟨s, [], k + 2, b⟩ :: Z) := by simp
  have g3 : (((⟨s, [], 2 * (k + 2), b⟩ : SequenceRecord) :: Z) ++
      ⟨s, [], 0, b⟩ :: (Z ++ ⟨s, [], k + 2, b⟩ :: Z))[k + 2]? = some ⟨s, [], 0, b⟩ := by
    have := getElem?_at_length ((⟨s, [], 2 * (k + 2), b⟩ : SequenceRecord) :: Z)
      (Z ++ ⟨s, [], k + 2, b⟩ :: Z) ⟨s, [], 0, b⟩
    rw [List.length_cons, hZl] at this
    exact this
  have g4 : (((⟨s, [], 2 * (k + 2), b⟩ : SequenceRecord) :: Z) ++
      ⟨s, [], 0, b⟩ :: (Z ++ ⟨s, [], k + 2, b⟩ :: Z))[k + 2 + (k + 2)]? =
      some ⟨s, [], k + 2, b⟩ := by
    have := getElem?_at_length (((⟨s, [], 2 * (k + 2), b⟩ : SequenceRecord) :: Z) ++
      ⟨s, [], 0, b⟩ :: Z) Z ⟨s, [], k + 2, b⟩
    simp only [List.length_append, List.length_cons, hZl] at this
    have e : k + 1 + 1 + (k + 1 + 1) = k + 2 + (k + 2) := by omega
    rw [e] at this
    simpa using this
  have m2 := mergeAt_split ((⟨s, [], 2 * (k + 2), b⟩ : SequenceRecord) :: Z) Z Z
    ⟨s, [], 0, b⟩ ⟨s, [], k + 2, b⟩ (k + 2) (k + 2 + (k + 2))
    (by simp only [List.length_cons, hZl])
    (by simp only [List.length_cons, hZl]; omega) rfl
  have hmod2 : (0 + (k + 2)) % counterMod = k + 2 := by
    rw [Nat.zero_add, Nat.mod_eq_of_lt (by unfold counterMod; omega)]
  simp only [hmod2] at m2
  rw [e0, stitch]
  simp only [g1, g2, eqSequence, decide_True, if_true, m1]
  rw [e1, stitch]
  simp only [g3, g4, eqSequence, decide_True, if_true, m2]
  simp [stitch]

theorem tagCount_replicate (t : List Nat) (n : Nat) (r : SequenceRecord) :
    tagCount t (List.replicate n r) = if r.tag = t then n * r.overall else 0 := by
  induction n with
  | zero => simp [tagCount]
  | succ j ih =>
    rw [List.replicate_succ, tagCount_cons, ih]
    split
    · ring
    · rfl

/-- Public `Buffer::sort` leaves a buffer of equal records as it is. -/
theorem sort_replicate (nThreads n : Nat) (r : SequenceRecord) :
    Buffer.sort ltSequence nThreads (List.replicate n r) = List.replicate n r :=
  List.perm_replicate.1 (sort_sorted_perm ltSequence_swo nThreads (List.replicate n r)).1

/-- The fast path of `collapseSS_` with three threads on `3 (k + 2) >= 3072` equal reads
that fit the buffer: the multi-threaded collapse leaves two records alive, and both are
written. -/
theorem collapseSS_three_threads (s : List Nat) (b k M : Nat) (st : StatsCollapse)
    (hk1 : 1024 ≤ k + 2) (hk : 3 * (k + 2) < 2 ^ 32) :
    (collapseSS_ ⟨0, 0, 3⟩ (List.replicate (3 * (k + 2)) ⟨s, [], 1, b⟩)
      SequenceWriter.configureTemporary (SequenceWriter.configure M) (3 * (k + 2)) st).map
      (fun p => p.2.1.records.map (fun r => (r.tag, r.overall))) =
      some [(s, 2 * (k + 2)), (s, k + 2)] := by
  have hthreads : computeMaxThreads_ (3 * (k + 2)) 3 (2 ^ 10) = 3 := by
    unfold computeMaxThreads_
    have : 3 ≤ 3 * (k + 2) / 2 ^ 10 := (Nat.le_div_iff_mul_le (by norm_num)).2 (by omega)
    omega
  have hcollapse : Buffer.collapse eqSequence 3 (List.replicate (3 * (k + 2)) ⟨s, [], 1, b⟩) =
      some ((⟨s, [], 2 * (k + 2), b⟩ :: List.replicate (k + 1) ⟨s, [], 0, b⟩) ++
        (⟨s, [], k + 2, b⟩ :: List.replicate (k + 1) ⟨s, [], 0, b⟩) ++
        (⟨s, [], 0, b⟩ :: List.replicate (k + 1) ⟨s, [], 0, b⟩), 1) := by
    unfold Buffer.collapse
    simp only [List.length_replicate, hthreads]
    rw [if_pos (by decide)]
    exact collapseRangeMT_replicate s b k hk
  have hdead : (List.replicate (k + 1) (⟨s, [], 0, b⟩ : SequenceRecord)).filter isAlive = [] :=
    List.filter_eq_nil_iff.2 (fun x hx => by rw [List.eq_of_mem_replicate hx]; simp [isAlive])
  have halive : ((⟨s, [], 2 * (k + 2), b⟩ :: List.replicate (k + 1) ⟨s, [], 0, b⟩) ++
        (⟨s, [], k + 2, b⟩ :: List.replicate (k + 1) ⟨s, [], 0, b⟩) ++
        (⟨s, [], 0, b⟩ :: List.replicate (k + 1) ⟨s, [], 0, b⟩) : List SequenceRecord).filter
        isAlive = [⟨s, [], 2 * (k + 2), b⟩, ⟨s, [], k + 2, b⟩] := by
    have a1 : isAlive ⟨s, [], 2 * (k + 2), b⟩ = true := by simp [isAlive]
    have a2 : isAlive ⟨s, [], k + 2, b⟩ = true := by simp [isAlive]
    have a3 : isAlive ⟨s, [], 0, b⟩ = false := by simp [isAlive]
    simp only [List.filter_append, List.filter_cons, a1, a2, a3, hdead, if_true]
    simp
  obtain ⟨w1, n1, h1, h2, h3⟩ := writeIf_records isAlive (SequenceWriter.configure M)
    ((⟨s, [], 2 * (k + 2), b⟩ :: List.replicate (k + 1) ⟨s, [], 0, b⟩) ++
        (⟨s, [], k + 2, b⟩ :: List.replicate (k + 1) ⟨s, [], 0, b⟩) ++
        (⟨s, [], 0, b⟩ :: List.replicate (k + 1) ⟨s, [], 0, b⟩)) (by simp)
  have hp := h3 (Or.inl rfl)
  have hflush : ∃ w2, w1.flush = some w2 ∧ w2.records = w1.records := by
    unfold SequenceWriter.flush
    cases hw : w1.outputPaths with
    | nil => exact absurd hw hp
    | cons f fs => exact ⟨_, rfl, by simp [SequenceWriter.records, hw]⟩
  obtain ⟨w2, f1, f2⟩ := hflush
  unfold collapseSS_ makeTemporaryBatches_ loadSortCollapse
  simp only [Buffer.load, List.take_replicate, List.drop_replicate, Nat.min_self, Nat.sub_self,
    gt_iff_lt, lt_self_iff_false, or_self, if_false, sort_replicate, hcollapse,
    List.replicate_zero, List.isEmpty_nil, if_true, h1, f1]
  have hlen0 : ¬ (SequenceWriter.configureTemporary.outputPaths.length > 1) := by
    simp [SequenceWriter.configureTemporary, SequenceWriter.configure]
  rw [if_neg hlen0]
  simp only [Option.map_some', f2, h2, halive]
  simp [SequenceWriter.records, SequenceWriter.configure]

/-- C38, failing input. 3072 reads with the same sequence, no qualities, a collapser
with three threads and no trimming. With `max_loadable = 3072` the input is collapsed in
memory by three threads, and two records with the same sequence reach the output
writer, with counts 2048 and 1024. With `max_loadable = 16` the batches are collapsed by
one thread and merged, and one record with count 3072 reaches the output writer.
Seventeen reads on one thread, the first with an empty sequence: with
`max_loadable = 17` the run returns, with `max_loadable = 16` the temporary batch that
holds the empty sequence cannot be read back and the run has no defined result. -/
theorem budget_dependent_three_threads :
    (collapseSS_ ⟨0, 0, 3⟩ (List.replicate 3072 ⟨[0], [], 1, 0⟩)
      SequenceWriter.configureTemporary (SequenceWriter.configure (2 ^ 64 - 1)) 3072 ⟨0, 0⟩).map
      (fun p => p.2.1.records.map (fun r => (r.tag, r.overall))) =
      some [([0], 2048), ([0], 1024)] ∧
    (collapseSS_ ⟨0, 0, 3⟩ (List.replicate 3072 ⟨[0], [], 1, 0⟩)
      SequenceWriter.configureTemporary (SequenceWriter.configure (2 ^ 64 - 1)) 16 ⟨0, 0⟩).map
      (fun p => p.2.1.records.map (fun r => (r.tag, r.overall))) =
      some [([0], 3072)] ∧
    (collapseSS_ ⟨0, 0, 1⟩ (⟨[], [], 1, 0⟩ :: List.replicate 16 ⟨[0], [], 1, 0⟩)
      SequenceWriter.configureTemporary (SequenceWriter.configure (2 ^ 64 - 1)) 17 ⟨0, 0⟩).map
      (fun p => p.2.1.records.map (fun r => (r.tag, r.overall))) =
      some [([], 1), ([0], 16)] ∧
    (collapseSS_ ⟨0, 0, 1⟩ (⟨[], [], 1, 0⟩ :: List.replicate 16 ⟨[0], [], 1, 0⟩)
      SequenceWriter.configureTemporary (SequenceWriter.configure (2 ^ 64 - 1)) 16
      ⟨0, 0⟩).isNone = true := by
  refine ⟨?_, ?_, by decide, by decide⟩
  · exact collapseSS_three_threads [0] 0 1022 (2 ^ 64 - 1) ⟨0, 0⟩ (by norm_num) (by norm_num)
  · have hcount : ∀ t, tagCount t (List.replicate 3072 (⟨[0], [], 1, 0⟩ : SequenceRecord)) =
        tagCount t [(⟨[0], [], 3072, 0⟩ : SequenceRecord)] := by
      intro t
      rw [tagCount_replicate, tagCount_cons]
      by_cases ht : ([0] : List Nat) = t
      · simp [ht, tagCount]
      · simp [ht, tagCount]
    obtain ⟨tw, ow, st, h1, h2, h3, h4⟩ := collapseSS_spec (fun _ => 0) ⟨0, 0, 3⟩
      (List.replicate 3072 ⟨[0], [], 1, 0⟩) SequenceWriter.configureTemporary
      (SequenceWriter.configure (2 ^ 64 - 1)) 16 ⟨0, 0⟩ rfl rfl
      (Or.inr ⟨le_refl _, fun r hr => by rw [List.eq_of_mem_replicate hr]; simp⟩)
      (List.ne_nil_of_length_pos (by rw [List.length_replicate]; norm_num))
      (fun r hr => by rw [List.eq_of_mem_replicate hr]; exact ⟨le_refl _, rfl⟩)
      (fun t => by
        rw [tagCount_replicate]
        split <;> norm_num)
      rfl rfl
      (by
        rw [List.length_replicate]
        show 3072 ≤ 2 ^ 64 - 1
        norm_num)
      rfl rfl
    rw [h1]
    have := batch_unique ow.records [⟨[0], [], 3072, 0⟩] (h4 (Or.inr (Or.inl (by norm_num))))
      (by simp)
      (fun r hr => (h2.2.2 r hr).1) (by simp) (fun t => by rw [h3 t, hcount t])
    simpa using this

/-- The final `itBase` of the loop of `collapseBufferRange_` on a sorted buffer, whenever
the loop returns: it is the first record of the last run of equal sequences. -/
theorem collapseLoop_leader (W : List SequenceRecord) (hs : SortedBySequence W) :
    ∀ (rest D done fol : List SequenceRecord) (base : SequenceRecord) (ip : Bool) (c : Nat)
      (out : List SequenceRecord) (b n : Nat),
      W = D ++ base :: fol ++ rest → done.length = D.length →
      (∀ x ∈ fol, x.tag = base.tag) → (∀ d ∈ D, d.tag < base.tag) →
      collapseLoop eqSequence done base fol ip c rest = some (out, b, n) →
      ∃ D' x R', W = D' ++ x :: R' ∧ b = D'.length ∧ (∀ d ∈ D', d.tag < x.tag) ∧
        ∀ y ∈ R', y.tag = x.tag
  | [], D, done, fol, base, ip, c, out, b, n, hW, hlen, hfol, hD, h => by
    refine ⟨D, base, fol, by simpa using hW, ?_, hD, hfol⟩
    cases ip
    · simp only [collapseLoop, Bool.false_eq_true, if_false, Option.some.injEq,
        Prod.mk.injEq] at h
      rw [← hlen]
      exact h.2.1.symm
    · simp only [collapseLoop, if_true, Option.map_eq_some', Prod.mk.injEq] at h
      obtain ⟨run, -, -, h2, -⟩ := h
      rw [← hlen]
      exact h2.symm
  | x :: rest, D, done, fol, base, ip, c, out, b, n, hW, hlen, hfol, hD, h => by
    by_cases hx : x.tag = base.tag
    · have heq : eqSequence base x = true := by simp [eqSequence, hx]
      simp only [collapseLoop, heq, if_true] at h
      exact collapseLoop_leader W hs rest D done (fol ++ [x]) base true c out b n
        (by simp [hW]) hlen
        (by
          intro y hy
          rcases List.mem_append.1 hy with hy | hy
          · exact hfol y hy
          · simp only [List.mem_singleton] at hy
            rw [hy, hx]) hD h
    · have heq : eqSequence base x = false := by
        simp only [eqSequence, decide_eq_false_iff_not]
        exact fun h => hx h.symm
      obtain ⟨hbx, -⟩ := sorted_mid D base fol x rest (hW ▸ hs)
      have hlt : base.tag < x.tag := lt_of_le_of_ne hbx (fun h => hx h.symm)
      have hD' : ∀ d ∈ D ++ base :: fol, d.tag < x.tag := by
        intro d hd
        rcases List.mem_append.1 hd with hd | hd
        · exact lt_trans (hD d hd) hlt
        · rcases List.mem_cons.1 hd with rfl | hd
          · exact hlt
          · rw [hfol d hd]
            exact hlt
      cases ip
      · simp only [collapseLoop, heq, Bool.false_eq_true, if_false] at h
        exact collapseLoop_leader W hs rest (D ++ base :: fol) (done ++ base :: fol) [] x false
          (c + 1) out b n (by simp [hW]) (by simp [hlen]) (by simp) hD' h
      · simp only [collapseLoop, heq, Bool.false_eq_true, if_false, if_true] at h
        cases hm : SequenceRecord.mergeRange (base :: fol) with
        | none => simp [hm] at h
        | some run =>
          simp only [hm] at h
          obtain ⟨q, -, hrun⟩ := mergeRange_shape base fol run hm
          have hrl : run.length = fol.length + 1 := by simp [hrun]
          exact collapseLoop_leader W hs rest (D ++ base :: fol) (done ++ run) [] x false
            (c + 1) out b n (by simp [hW]) (by simp [hlen, hrl]) (by simp) hD' h

theorem collapseBufferRange_regionOK (c : List SequenceRecord) (hne : c ≠ [])
    (hs : SortedBySequence c) (hc : Collapsible c) :
    ∃ o, collapseBufferRange_ eqSequence c = some o ∧ RegionOK c o := by
  obtain ⟨out, b, n, h1, h2, h3, h4, h5⟩ := collapseBufferRange_spec c hne hs hc
  refine ⟨(out, b, n), h1, h2, h4, ?_, ?_⟩
  · cases c with
    | nil => exact absurd rfl hne
    | cons r rest =>
      obtain ⟨D, x, R, hW, hb, hD, hR⟩ := collapseLoop_leader (r :: rest) hs rest [] [] [] r
        false 1 out b n rfl rfl (by simp) (by simp) h1
      have ho : out[b]? = some out[b] := List.getElem?_eq_getElem h5
      obtain ⟨w, hw, e1, -, -, e2, -, -⟩ := collapsedFrom_get (r :: rest) out 0 b _ h3 ho
      rw [Nat.zero_add] at hw e2
      have hwx : w = x := by
        rw [hW, hb, getElem?_mid] at hw
        exact (Option.some.inj hw).symm
      subst hwx
      have hlead : isLeader (r :: rest) b := by
        rw [hW, hb]
        by_cases hD0 : D = []
        · left
          simp [hD0]
        · right
          have e : D.length - 1 + 1 = D.length := by
            have := List.length_pos.2 hD0
            omega
          rw [getElem?_mid]
          have hl : (D ++ w :: R)[D.length - 1]? = some (D.getLast hD0) := by
            rw [List.getElem?_append_left (by have := List.length_pos.2 hD0; omega),
              List.getLast_eq_getElem]
            exact List.getElem?_eq_getElem _
          rw [hl]
          simp only [Option.map_some', ne_eq, Option.some.injEq]
          exact ne_of_lt (hD _ (List.getLast_mem hD0))
      have hov := e2 hlead
      have hwm : w ∈ r :: rest := by rw [hW]; simp
      refine ⟨out[b], ho, ?_, ?_, ?_⟩
      · have := le_tagCount_of_mem (r :: rest) w hwm
        have := hc.pos w hwm
        omega
      · rw [hov, e1]
      · intro y hy
        rw [e1]
        rw [hW, List.getLast?_append, List.getLast?_eq_getLast (w :: R) (by simp)] at hy
        have hy' : (w :: R).getLast (List.cons_ne_nil w R) = y := by
          simpa [Option.or] using hy
        have hm := List.getLast_mem (List.cons_ne_nil w R)
        rw [hy'] at hm
        rcases List.mem_cons.1 hm with rfl | hm
        · rfl
        · exact hR y hm
  · cases c with
    | nil => exact absurd rfl hne
    | cons r rest =>
      cases out with
      | nil => simp at h2
      | cons f out' =>
        obtain ⟨w, hw, e1, -, -, e2, -, -⟩ := collapsedFrom_get (r :: rest) (f :: out') 0 0 f h3
          (by simp)
        simp only [Nat.add_zero, List.getElem?_cons_zero, Option.some.injEq] at hw
        subst hw
        have hov := e2 (Or.inl rfl)
        refine ⟨f, r, rfl, rfl, e1, ?_, by rw [hov, e1]⟩
        have := le_tagCount_of_mem (r :: rest) r (by simp)
        have := hc.pos r (by simp)
        omega

theorem countP_set_alive : ∀ (l : List SequenceRecord) (i : Nat) (a w : SequenceRecord),
    l[i]? = some w → isAlive a = isAlive w → (l.set i a).countP isAlive = l.countP isAlive
  | [], _, _, _, h, _ => by simp at h
  | x :: l, 0, a, w, h, ha => by
    simp only [List.getElem?_cons_zero, Option.some.injEq] at h
    subst h
    simp only [List.set_cons_zero, List.countP_cons, ha]
  | x :: l, i + 1, a, w, h, ha => by
    simp only [List.getElem?_cons_succ] at h
    simp only [List.set_cons_succ, List.countP_cons, countP_set_alive l i a w h ha]

theorem countP_modify_zero : ∀ (l : List SequenceRecord) (j : Nat) (w : SequenceRecord),
    l[j]? = some w → 1 ≤ w.overall →
      (l.modify (fun r => { r with overall := 0 }) j).countP isAlive + 1 = l.countP isAlive
  | [], _, _, h, _ => by simp at h
  | x :: l, 0, w, h, hw => by
    simp only [List.getElem?_cons_zero, Option.some.injEq] at h
    subst h
    have h1 : isAlive x = true := by simp [isAlive]; omega
    simp [List.modify, List.modifyHead, List.modifyTailIdx, List.countP_cons, h1, isAlive]
    rw [if_pos (by omega)]
  | x :: l, j + 1, w, h, hw => by
    simp only [List.getElem?_cons_succ] at h
    have := countP_modify_zero l j w h hw
    simp only [List.modify_succ_cons, List.countP_cons]
    omega

theorem stitchInv_congr (B B1 : Buffer) :
    ∀ (ms : List (Nat × Nat)) (bs : List Nat) (lo : Nat),
      (∀ i, lo ≤ i → B1[i]? = B[i]?) → StitchInv B lo ms bs → StitchInv B1 lo ms bs
  | [], _, _, _, _ => by simp [StitchInv]
  | _ :: _, [], _, _, _ => by simp [StitchInv]
  | m :: ms, h :: bs, lo, hag, hinv => by
    obtain ⟨h1, h2, h3, h4⟩ := hinv
    refine ⟨h1, h2, ?_, stitchInv_congr B B1 ms bs h (fun i hi => hag i (by omega)) h4⟩
    intro l f hl hf htag
    rw [hag _ h1] at hl
    rw [hag _ (by omega)] at hf
    obtain ⟨a1, a2, a3, a4⟩ := h3 l f hl hf htag
    refine ⟨a1, a2, a3, ?_⟩
    intro h5 f5 hh hlt hf5
    rw [hag _ (by omega)] at hf5
    exact a4 h5 f5 hh hlt hf5

theorem stitchInv_merge (B : Buffer) (p h : Nat) (a f : SequenceRecord) (hp : p < h)
    (hf : B[h]? = some f) :
    ∀ (ms : List (Nat × Nat)) (bs : List Nat),
      (∀ h2 f2, bs.head? = some h2 → h < h2 → B[h2]? = some f2 → f2.tag ≠ f.tag) →
      StitchInv B h ms bs →
      StitchInv ((B.set p a).modify (fun r => { r with overall := 0 }) h) h ms bs
  | [], _, _, _ => by simp [StitchInv]
  | _ :: _, [], _, _ => by simp [StitchInv]
  | m :: ms, h1 :: bs, hch, hinv => by
    obtain ⟨i1, i2, i3, i4⟩ := hinv
    have hag : ∀ i, h < i →
        ((B.set p a).modify (fun r => { r with overall := 0 }) h)[i]? = B[i]? := by
      intro i hi
      have hne : ¬ h = i := by omega
      rw [List.getElem?_modify, getElem?_set_other _ _ _ _ (by omega)]
      simp [hne]
    refine ⟨i1, i2, ?_, stitchInv_congr B _ ms bs h1 (fun i hi => hag i (by omega)) i4⟩
    intro l1 f1 hl1 hf1 htag
    rw [hag _ (by omega)] at hf1
    by_cases hm : m.1 = h
    · exfalso
      rw [hm, List.getElem?_modify, getElem?_set_other _ _ _ _ (by omega), hf] at hl1
      simp at hl1
      have : l1.tag = f.tag := by rw [← hl1]
      exact hch h1 f1 rfl (by omega) hf1 (by rw [← htag, this])
    · rw [hag _ (by omega)] at hl1
      obtain ⟨a1, a2, a3, a4⟩ := i3 l1 f1 hl1 hf1 htag
      refine ⟨a1, a2, a3, ?_⟩
      intro h5 f5 hh hlt hf5
      rw [hag _ (by omega)] at hf5
      exact a4 h5 f5 hh hlt hf5

/-- The counter of the stitching loop of `collapseRangeMT_` stays the number of
records with a positive count, whenever the loop returns from a state that meets
`StitchInv`. -/
theorem stitch_alive :
    ∀ (ms : List (Nat × Nat)) (bs : List Nat) (B : Buffer) (lo c : Nat) (out : Buffer) (n : Nat),
      StitchInv B lo ms bs → c = B.countP isAlive →
      stitch eqSequence B c ms bs = some (out, n) → n = out.countP isAlive
  | [], _, B, lo, c, out, n, _, hc, h => by
    simp only [stitch, Option.some.injEq, Prod.mk.injEq] at h
    rw [← h.1, ← h.2, hc]
  | _ :: _, [], B, lo, c, out, n, _, hc, h => by
    simp only [stitch, Option.some.injEq, Prod.mk.injEq] at h
    rw [← h.1, ← h.2, hc]
  | m :: ms, b :: bs, B, lo, c, out, n, hinv, hc, h => by
    obtain ⟨i1, i2, i3, i4⟩ := hinv
    simp only [stitch] at h
    cases hl : B[m.1]? with
    | none => simp [hl] at h
    | some l =>
      cases hf : B[b]? with
      | none => simp [hl, hf] at h
      | some f =>
        simp only [hl, hf] at h
        by_cases he : eqSequence l f = true
        · simp only [he, if_true] at h
          have htag : l.tag = f.tag := by simpa [eqSequence] using he
          obtain ⟨a1, a2, a3, a4⟩ := i3 l f hl hf htag
          cases hm : mergeAt B m.1 b with
          | none => simp [hm] at h
          | some B1 =>
            simp only [hm] at h
            obtain ⟨l0, f0, a, hl0, hf0, hsim, ha, rfl⟩ := mergeAt_shape B B1 m.1 b hm
            rw [hl] at hl0
            rw [hf] at hf0
            cases hl0
            cases hf0
            have hao : a.overall = l.overall + f.overall := by
              rw [ha]
              exact Nat.mod_eq_of_lt a3
            have hal : isAlive a = isAlive l := by
              simp only [isAlive, hao]
              have e1 : decide (l.overall + f.overall > 0) = true := decide_eq_true (by omega)
              have e2 : decide (l.overall > 0) = true := decide_eq_true (by omega)
              rw [e1, e2]
            have c1 := countP_set_alive B m.1 a l hl hal
            have c2 := countP_modify_zero (B.set m.1 a) b f
              (by rw [getElem?_set_other _ _ _ _ (by omega)]; exact hf) a2
            exact stitch_alive ms bs _ b (c - 1) out n
              (stitchInv_merge B m.1 b a f i2 hf ms bs a4 i4) (by omega) h
        · simp only [he, Bool.false_eq_true, if_false] at h
          exact stitch_alive ms bs B b c out n i4 hc h

theorem getElem?_prefix (P X : List SequenceRecord) (i : Nat) :
    (P ++ X)[P.length + i]? = X[i]? := by
  rw [List.getElem?_append_right (by omega)]
  congr 1
  omega

theorem getElem?_prefix_left (X Y : List SequenceRecord) (i : Nat) (h : i < X.length) :
    (X ++ Y)[i]? = X[i]? :=
  List.getElem?_append_left h

theorem stitchInv_chunks :
    ∀ (chunks : List (List SequenceRecord)) (outs : List (List SequenceRecord × Nat × Nat))
      (P : List SequenceRecord),
      List.Forall₂ RegionOK chunks outs → (∀ s, tagCount s chunks.flatten < 2 ^ 32) →
      NoTriple chunks →
      StitchInv (P ++ (outs.map (fun o => o.1)).flatten) P.length (metaOf P.length outs)
        (boundsOf P.length chunks).tail
  | _, _, P, List.Forall₂.nil, _, _ => by simp [metaOf, StitchInv]
  | c :: cs, o :: os, P, List.Forall₂.cons hr hrs, hb, hnt => by
    obtain ⟨hlen, -, ⟨l0, hl0, hl0pos, hl0c, hl0last⟩, -⟩ := hr
    have hblt : o.2.1 < o.1.length := by
      by_contra hcon
      rw [List.getElem?_eq_none (by omega)] at hl0
      cases hl0
    have hbt : ∀ s, tagCount s cs.flatten < 2 ^ 32 := by
      intro s
      have := hb s
      simp only [List.flatten_cons, tagCount_append] at this
      omega
    have hnt' : NoTriple cs := by
      cases cs with
      | nil => trivial
      | cons c1 cs1 =>
        cases cs1 with
        | nil => trivial
        | cons c2 cs2 => exact hnt.2
    have ih := stitchInv_chunks cs os (P ++ o.1) hrs hbt hnt'
    have e1 : (P ++ o.1).length = P.length + c.length := by simp [hlen]
    rw [e1] at ih
    have e2 : P ++ o.1 ++ (os.map (fun o => o.1)).flatten =
        P ++ ((o :: os).map (fun o => o.1)).flatten := by simp
    rw [e2] at ih
    simp only [metaOf, boundsOf, List.tail_cons]
    rw [boundsOf_eq_cons, hlen]
    refine ⟨by omega, by omega, ?_, ih⟩
    intro l f hl hf htag
    have hB : P ++ ((o :: os).map (fun o => o.1)).flatten =
        P ++ (o.1 ++ (os.map (fun o => o.1)).flatten) := by simp
    rw [hB, getElem?_prefix, getElem?_prefix_left _ _ _ hblt, hl0] at hl
    cases hl
    rw [hB, ← hlen, getElem?_prefix] at hf
    rw [List.getElem?_append_right (le_refl _), Nat.sub_self] at hf
    cases hrs with
    | nil => simp at hf
    | cons hr1 hrs1 =>
      rename_i c1 o1 cs1 os1
      obtain ⟨hlen1, -, -, ⟨f1, x1, hf1, hx1, hfx1, hf1pos, hf1c⟩⟩ := hr1
      have ho1 : o1.1 = f1 :: o1.1.tail := by
        cases h : o1.1 with
        | nil => rw [h] at hf1; cases hf1
        | cons y ys =>
          rw [h] at hf1
          simp only [List.head?_cons, Option.some.injEq] at hf1
          rw [hf1]
          rfl
      have hf' : f = f1 := by
        simp only [List.map_cons, List.flatten_cons] at hf
        rw [ho1] at hf
        simp only [List.cons_append, List.getElem?_cons_zero, Option.some.injEq] at hf
        exact hf.symm
      subst hf'
      refine ⟨hl0pos, hf1pos, ?_, ?_⟩
      · have := hb l0.tag
        simp only [List.flatten_cons, tagCount_append] at this
        rw [hl0c, hf1c, ← htag]
        omega
      · intro h2 f2 hh2 hlt2 hf2
        simp only [boundsOf, List.tail_cons] at hh2
        rw [boundsOf_eq_cons] at hh2
        simp only [List.head?_cons, Option.some.injEq] at hh2
        subst hh2
        have hB2 : P ++ (o.1 ++ ((o1 :: os1).map (fun o => o.1)).flatten) =
            (P ++ o.1 ++ o1.1) ++ (os1.map (fun o => o.1)).flatten := by simp
        have e3 : P.length + o.1.length + c1.length = (P ++ o.1 ++ o1.1).length := by
          simp only [List.length_append, hlen1]
        rw [hB, hB2, ← hlen, e3, List.getElem?_append_right (le_refl _), Nat.sub_self] at hf2
        cases hrs1 with
        | nil => simp at hf2
        | cons hr2 hrs2 =>
          rename_i c2 o2 cs2 os2
          obtain ⟨-, -, -, ⟨g, x2, hg, hx2, hgx2, -, -⟩⟩ := hr2
          have hf2' : f2 = g := by
            cases h : o2.1 with
            | nil => rw [h] at hg; cases hg
            | cons y ys =>
              rw [h] at hg
              simp only [List.head?_cons, Option.some.injEq] at hg
              simp only [List.map_cons, List.flatten_cons, h, List.cons_append,
                List.getElem?_cons_zero, Option.some.injEq] at hf2
              rw [← hf2, hg]
          subst hf2'
          have hcne : c ≠ [] := by
            intro h0
            rw [h0] at hlen
            simp only [List.length_nil] at hlen
            omega
          have hlast := hl0last (c.getLast hcne) (List.getLast?_eq_getLast c hcne)
          have := hnt.1 (c.getLast hcne) x2 (List.getLast?_eq_getLast c hcne) hx2
          rw [hgx2, ← htag, ← hlast]
          exact fun h => this h.symm

theorem head?_take_some (bs : List Nat) (k x : Nat) (h : (bs.take k).head? = some x) :
    bs.head? = some x := by
  cases k with
  | zero => simp at h
  | succ k =>
    cases bs with
    | nil => simp at h
    | cons b bs => simpa using h

theorem stitchInv_take (B : Buffer) :
    ∀ (ms : List (Nat × Nat)) (bs : List Nat) (lo k : Nat),
      StitchInv B lo ms bs → StitchInv B lo (ms.take k) (bs.take k)
  | [], _, _, _, _ => by simp [StitchInv]
  | _ :: _, [], _, _, _ => by simp [StitchInv]
  | m :: ms, h :: bs, lo, 0, _ => by simp [StitchInv]
  | m :: ms, h :: bs, lo, k + 1, hinv => by
    obtain ⟨i1, i2, i3, i4⟩ := hinv
    simp only [List.take_succ_cons]
    refine ⟨i1, i2, ?_, stitchInv_take B ms bs h k i4⟩
    intro l f hl hf htag
    obtain ⟨a1, a2, a3, a4⟩ := i3 l f hl hf htag
    exact ⟨a1, a2, a3, fun h2 f2 hh => a4 h2 f2 (head?_take_some bs k h2 hh)⟩

theorem collapseChunks_regionOK :
    ∀ (chunks : List (List SequenceRecord)),
      (∀ c ∈ chunks, c ≠ [] ∧ SortedBySequence c ∧ Collapsible c) →
      ∃ outs, collapseChunks eqSequence chunks = some outs ∧
        List.Forall₂ RegionOK chunks outs
  | [], _ => ⟨[], rfl, List.Forall₂.nil⟩
  | c :: cs, h => by
    obtain ⟨hne, hs, hc⟩ := h c (by simp)
    obtain ⟨o, ho, hr⟩ := collapseBufferRange_regionOK c hne hs hc
    obtain ⟨os, hos, hrs⟩ := collapseChunks_regionOK cs
      (fun d hd => h d (List.mem_cons_of_mem _ hd))
    exact ⟨o :: os, by simp [collapseChunks, ho, hos], List.Forall₂.cons hr hrs⟩

theorem meta_sum_alive :
    ∀ (chunks : List (List SequenceRecord)) (outs : List (List SequenceRecord × Nat × Nat))
      (lo : Nat), List.Forall₂ RegionOK chunks outs →
      ((metaOf lo outs).map (fun m => m.2)).sum = (outs.map (fun o => o.1)).flatten.countP isAlive
  | _, _, _, List.Forall₂.nil => by simp [metaOf]
  | c :: cs, o :: os, lo, List.Forall₂.cons hr hrs => by
    have ih := meta_sum_alive cs os (lo + o.1.length) hrs
    simp only [metaOf, List.map_cons, List.sum_cons, List.flatten_cons, List.countP_append, ih,
      hr.2.1]

theorem chunksOf_head (k : Nat) (hk : 1 ≤ k) (n : Nat) (l : List SequenceRecord) :
    ∃ c rest, chunksOf k n l = c :: rest ∧ c.head? = l.head? := by
  cases n with
  | zero => exact ⟨l, [], rfl, rfl⟩
  | succ n =>
    refine ⟨l.take k, chunksOf k n (l.drop k), rfl, ?_⟩
    obtain ⟨k', rfl⟩ : ∃ k', k = k' + 1 := ⟨k - 1, by omega⟩
    cases l <;> simp

theorem noTriple_chunksOf (k : Nat) (hk : 1 ≤ k) :
    ∀ (n : Nat) (l : List SequenceRecord), (n + 1) * k ≤ l.length →
      (∀ j a b, 1 ≤ j → j + 1 ≤ n → l[j * k - 1]? = some a → l[(j + 1) * k]? = some b →
        a.tag ≠ b.tag) →
      NoTriple (chunksOf k n l)
  | 0, l, _, _ => by simp [chunksOf, NoTriple]
  | 1, l, _, _ => by simp [chunksOf, NoTriple]
  | n + 2, l, hlen, h => by
    have hk2 : (n + 2 + 1) * k = (n + 1 + 1) * k + k := by ring
    have hkl : k ≤ l.length := by
      have : k ≤ (n + 1 + 1) * k := Nat.le_mul_of_pos_left k (by omega)
      omega
    have ih := noTriple_chunksOf k hk (n + 1) (l.drop k)
      (by rw [List.length_drop]; omega)
      (by
        intro j a b hj hjn ha hb
        have hq : 1 ≤ j * k := Nat.mul_le_mul hj hk
        have e1 : (j + 1) * k = j * k + k := by ring
        have e2 : (j + 1 + 1) * k = j * k + k + k := by ring
        rw [List.getElem?_drop] at ha hb
        refine h (j + 1) a b (by omega) (by omega) ?_ ?_
        · rw [e1]
          rw [← ha]
          congr 1
          omega
        · rw [e2]
          rw [← hb, e1]
          congr 1
          omega)
    obtain ⟨c2, rest, hc2, hhead⟩ := chunksOf_head k hk n ((l.drop k).drop k)
    have hshape : chunksOf k (n + 2) l = l.take k :: (l.drop k).take k :: c2 :: rest := by
      rw [chunksOf, chunksOf, hc2]
    have hshape1 : chunksOf k (n + 1) (l.drop k) = (l.drop k).take k :: c2 :: rest := by
      rw [chunksOf, hc2]
    rw [hshape]
    rw [hshape1] at ih
    refine ⟨?_, ih⟩
    intro x y hx hy
    rw [hhead, List.head?_eq_getElem?, List.getElem?_drop, List.getElem?_drop] at hy
    rw [List.getLast?_eq_getElem?, List.length_take, Nat.min_eq_left hkl,
      List.getElem?_take_of_lt (by omega)] at hx
    refine h 1 x y (le_refl _) (by omega) (by rw [Nat.one_mul]; exact hx) ?_
    rw [← hy]
    congr 1
    ring

theorem setBufferBounds_get (size n j : Nat) (hj : j ≤ n) :
    (setBufferBounds_ size (n + 1))[j]? = some (j * (size / (n + 1))) := by
  unfold setBufferBounds_
  rw [List.getElem?_append_left (by simp; omega)]
  have hj' : j < n + 1 := by omega
  simp [List.getElem?_map, List.getElem?_range hj']

/-- `collapseRangeMT_` on a sorted buffer that meets `Collapsible`, whose regions are
not empty and in which no run of equal sequences reaches from the last record of a
region through the whole next region to the first record of the region after it:
the call returns the number of records left with a positive count. -/
theorem collapseRangeMT_alive (buf : Buffer) (t : Nat) (ht : 1 ≤ t) (hk : t ≤ buf.length)
    (hs : SortedBySequence buf) (hc : Collapsible buf)
    (hreg : ∀ j lo hi a b, 1 ≤ j → (setBufferBounds_ buf.length t)[j]? = some lo →
      (setBufferBounds_ buf.length t)[j + 1]? = some hi → buf[lo - 1]? = some a →
      buf[hi]? = some b → a.tag ≠ b.tag) :
    ∃ out n, collapseRangeMT_ eqSequence t buf = some (out, n) ∧ n = out.countP isAlive := by
  obtain ⟨out, n, hret, -, -⟩ := collapseRangeMT_spec buf t ht hk hs hc
  refine ⟨out, n, hret, ?_⟩
  obtain ⟨t', rfl⟩ : ∃ t', t = t' + 1 := ⟨t - 1, by omega⟩
  have hk1 : 1 ≤ buf.length / (t' + 1) := (Nat.le_div_iff_mul_le (by omega)).2 (by omega)
  have hne := chunksOf_ne_nil _ hk1 t' buf (Nat.mul_div_le _ _)
  have hsub := chunksOf_sublist (buf.length / (t' + 1)) t' buf
  have hall : ∀ c ∈ chunksOf (buf.length / (t' + 1)) t' buf,
      c ≠ [] ∧ SortedBySequence c ∧ Collapsible c :=
    fun c hcm => ⟨hne c hcm, sortedBySequence_sublist (hsub c hcm) hs,
      collapsible_sublist (hsub c hcm) hc⟩
  obtain ⟨outs, ho1, ho2⟩ := collapseChunks_regionOK _ hall
  have hregions := collapseRegions_chunks eqSequence (chunksOf (buf.length / (t' + 1)) t' buf) []
  simp only [List.nil_append, List.length_nil, flatten_chunksOf] at hregions
  have hnt : NoTriple (chunksOf (buf.length / (t' + 1)) t' buf) := by
    refine noTriple_chunksOf _ hk1 t' buf (Nat.mul_div_le _ _) ?_
    intro j a b hj hjn ha hb
    exact hreg j _ _ a b hj (setBufferBounds_get _ t' j (by omega))
      (setBufferBounds_get _ t' (j + 1) (by omega)) ha hb
  have hinv := stitchInv_chunks _ outs [] ho2
    (by rw [flatten_chunksOf]; exact hc.bound) hnt
  simp only [List.nil_append, List.length_nil] at hinv
  unfold collapseRangeMT_ at hret
  simp only at hret
  rw [setBufferBounds_eq, hregions, ho1] at hret
  simp only [Option.map_some', Nat.add_sub_cancel] at hret
  rw [List.drop_one] at hret
  exact stitch_alive _ _ _ 0 _ out n (stitchInv_take _ _ _ 0 t' hinv)
    (meta_sum_alive _ outs 0 ho2) hret

theorem collapse_three_threads_replicate (s : List Nat) (b k : Nat) (hk1 : 1024 ≤ k + 2)
    (hk : 3 * (k + 2) < 2 ^ 32) :
    ∃ out, Buffer.collapse eqSequence 3 (List.replicate (3 * (k + 2)) ⟨s, [], 1, b⟩) =
      some (out, 1) ∧ out.countP isAlive = 2 := by
  have hthreads : computeMaxThreads_ (3 * (k + 2)) 3 (2 ^ 10) = 3 := by
    unfold computeMaxThreads_
    have : 3 ≤ 3 * (k + 2) / 2 ^ 10 := (Nat.le_div_iff_mul_le (by norm_num)).2 (by omega)
    omega
  refine ⟨(⟨s, [], 2 * (k + 2), b⟩ :: List.replicate (k + 1) ⟨s, [], 0, b⟩) ++
    (⟨s, [], k + 2, b⟩ :: List.replicate (k + 1) ⟨s, [], 0, b⟩) ++
    (⟨s, [], 0, b⟩ :: List.replicate (k + 1) ⟨s, [], 0, b⟩), ?_, ?_⟩
  · unfold Buffer.collapse
    simp only [List.length_replicate, hthreads]
    rw [if_pos (by decide)]
    exact collapseRangeMT_replicate s b k hk
  · have a1 : isAlive ⟨s, [], 2 * (k + 2), b⟩ = true := by simp [isAlive]
    have a2 : isAlive ⟨s, [], k + 2, b⟩ = true := by simp [isAlive]
    have a3 : isAlive ⟨s, [], 0, b⟩ = false := by simp [isAlive]
    simp [List.countP_append, List.countP_cons, List.countP_replicate, a1, a2, a3]

theorem sorted_two_runs (m n : Nat) (a b : SequenceRecord) (h : a.tag ≤ b.tag) :
    SortedBySequence (List.replicate m a ++ List.replicate n b) := by
  unfold SortedBySequence
  refine List.pairwise_append.2 ⟨List.pairwise_replicate.2 (Or.inr (le_refl _)),
    List.pairwise_replicate.2 (Or.inr (le_refl _)), ?_⟩
  intro x hx y hy
  rw [List.eq_of_mem_replicate hx, List.eq_of_mem_replicate hy]
  exact h

/-- C4 (amended). `Buffer::collapse` with any number of threads on a non-empty buffer
sorted by sequence, with all counts at least 1, the counts of every sequence summing to
less than `2 ^ 32` and equal sequences carrying qualities of equal length, when no run
of equal sequences reaches from the last record of one region of `setBufferBounds_`
through the whole next region to the first record of the region after it (which cannot
happen with one or two regions): the returned value is the number of records with a
positive count after the call. -/
theorem collapse_returns_alive (buf : Buffer) (nThreads : Nat) (hne : buf ≠ [])
    (hs : SortedBySequence buf) (hpos : ∀ r ∈ buf, 1 ≤ r.overall)
    (hbound : ∀ s, tagCount s buf < 2 ^ 32) (hal : QualAligned buf)
    (hreg : ∀ j lo hi a b, 1 ≤ j →
      (setBufferBounds_ buf.length (computeMaxThreads_ buf.length nThreads (2 ^ 10)))[j]? =
        some lo →
      (setBufferBounds_ buf.length (computeMaxThreads_ buf.length nThreads (2 ^ 10)))[j + 1]? =
        some hi →
      buf[lo - 1]? = some a → buf[hi]? = some b → a.tag ≠ b.tag) :
    ∃ out n, Buffer.collapse eqSequence nThreads buf = some (out, n) ∧
      n = out.countP isAlive := by
  unfold Buffer.collapse
  simp only
  by_cases ht : computeMaxThreads_ buf.length nThreads (2 ^ 10) > 1
  · rw [if_pos ht]
    obtain ⟨h1, h2⟩ := computeMaxThreads_bounds _ _ ht
    exact collapseRangeMT_alive buf _ h1 h2 hs ⟨hpos, hbound, hal⟩ hreg
  · rw [if_neg ht]
    obtain ⟨out, b, n, h1, -, -, h4, -⟩ := collapseBufferRange_spec buf hne hs ⟨hpos, hbound, hal⟩
    exact ⟨out, n, by rw [h1]; rfl, h4⟩

theorem collapse_returns_alive_witness :
    ∃ out n, Buffer.collapse eqSequence 3
        (List.replicate 1024 ⟨[0], [], 1, 0⟩ ++ List.replicate 2048 ⟨[1], [], 1, 0⟩) =
        some (out, n) ∧ n = out.countP isAlive := by
  have hlen : (List.replicate 1024 (⟨[0], [], 1, 0⟩ : SequenceRecord) ++
      List.replicate 2048 (⟨[1], [], 1, 0⟩ : SequenceRecord)).length = 3072 := by
    rw [List.length_append, List.length_replicate, List.length_replicate]
  have hbounds : setBufferBounds_ 3072 (computeMaxThreads_ 3072 3 (2 ^ 10)) =
      [0, 1024, 2048, 3072] := by decide
  refine collapse_returns_alive _ 3 ?_ ?_ ?_ ?_ ?_ ?_
  · intro h
    rw [h] at hlen
    cases hlen
  · exact sorted_two_runs 1024 2048 ⟨[0], [], 1, 0⟩ ⟨[1], [], 1, 0⟩ (by decide)
  · intro r hr
    rcases List.mem_append.1 hr with h | h <;> rw [List.eq_of_mem_replicate h]
  · refine tagCount_lt_of_total _ ?_
    rw [totalCount_append, totalCount_replicate, totalCount_replicate]
    decide
  · intro a ha b hb _
    have qa : a.qual = [] := by
      rcases List.mem_append.1 ha with h | h <;> rw [List.eq_of_mem_replicate h]
    have qb : b.qual = [] := by
      rcases List.mem_append.1 hb with h | h <;> rw [List.eq_of_mem_replicate h]
    rw [qa, qb]
  · intro j lo hi a b hj hlo hhi ha hb
    rw [hlen, hbounds] at hlo hhi
    match j, hj, hlo, hhi with
    | 1, _, hlo, hhi =>
      simp only [List.getElem?_cons_succ, List.getElem?_cons_zero, Option.some.injEq] at hlo hhi
      subst hlo
      subst hhi
      rw [List.getElem?_append_left (by rw [List.length_replicate]; decide),
        List.getElem?_replicate, if_pos (by decide)] at ha
      rw [List.getElem?_append_right (by rw [List.length_replicate]; decide),
        List.getElem?_replicate, List.length_replicate, if_pos (by decide)] at hb
      cases ha
      cases hb
      decide
    | 2, _, hlo, hhi =>
      simp only [List.getElem?_cons_succ, List.getElem?_cons_zero, Option.some.injEq] at hhi
      subst hhi
      rw [List.getElem?_eq_none (by rw [hlen])] at hb
      cases hb
    | j + 3, _, hlo, hhi => simp at hhi

/-- C4 (counterexample). On a sorted buffer of two records with the same sequence and
count `2 ^ 31` each the call returns 1 although both records end with count 0. On two
records with the same sequence whose qualities have lengths 1 and 2 the accumulation
of the qualities writes past its vector and the call has no defined result. On the
empty buffer the call returns 1 although no record is left. With three threads on
3072 records that carry one sequence, count 1 each, it returns 1 although two records
are left with a positive count. -/
theorem collapse_count_not_alive :
    (Buffer.collapse eqSequence 1 [⟨[0], [], 2 ^ 31, 0⟩, ⟨[0], [], 2 ^ 31, 0⟩] =
        some ([⟨[0], [], 0, 0⟩, ⟨[0], [], 0, 0⟩], 1) ∧
      ([⟨[0], [], 0, 0⟩, ⟨[0], [], 0, 0⟩] : Buffer).countP isAlive = 0) ∧
    (Buffer.collapse eqSequence 1 [⟨[0], [33], 1, 0⟩, ⟨[0], [33, 33], 1, 0⟩]).isNone = true ∧
    (Buffer.collapse eqSequence 1 [] = some ([], 1) ∧ ([] : Buffer).countP isAlive = 0) ∧
    (∃ out, Buffer.collapse eqSequence 3 (List.replicate 3072 ⟨[0], [], 1, 0⟩) = some (out, 1) ∧
      out.countP isAlive = 2) :=
  ⟨by decide, by decide, by decide,
    collapse_three_threads_replicate [0] 0 1022 (by decide) (by decide)⟩

/-- C5 (counterexample). Six records with one sequence and count 1, collapsed by three
threads in regions of two records: the stitching leaves the counts 4, 0, 2, 0, 0, 0,
so the sequence is alive at two positions, while the single-threaded collapse leaves
6, 0, 0, 0, 0, 0; both return 1. -/
theorem collapseRangeMT_three_regions :
    (collapseRangeMT_ eqSequence 3 (List.replicate 6 ⟨[0], [], 1, 0⟩)).map
        (fun p => (p.1.map (fun r => r.overall), p.2)) = some ([4, 0, 2, 0, 0, 0], 1) ∧
    (collapseBufferRange_ eqSequence (List.replicate 6 ⟨[0], [], 1, 0⟩)).map
        (fun p => (p.1.map (fun r => r.overall), p.2.2)) = some ([6, 0, 0, 0, 0, 0], 1) := by
  decide

/-- C10 (counterexample). Two reads and `max_loadable = 1`: two temporary batches are
written, the final merge is called with `1 / 2 = 0` records per input, loads nothing
and `findMinRecord_` runs past the end of its vectors; `collapseSS_` has no defined
result. -/
theorem collapseSS_small_budget :
    (collapseSS_ ⟨0, 0, 1⟩ [⟨[1], [], 1, 0⟩, ⟨[0], [], 1, 0⟩] SequenceWriter.configureTemporary
      (SequenceWriter.configure (2 ^ 64 - 1)) 1 ⟨0, 0⟩).isNone = true := by
  decide

end BioSeqZip
